import Mathlib

/-!
# otftotfm `GsubEncoding`: a shallow embedding

The encoding engine of `otftotfm/gsubencoding.cc`: a code -> glyph table
together with ligature, kern and single-positioning tables that refer to
codes of that table.

Conventions of the embedding

* `Vector<T>` is a `List`; `v[i]` is `vec_at v i`, which is `none` outside
  `0 <= i < v.size()` (the source asserts the bounds), and a store `v[i] = x`
  is `vec_set`, with the same bounds.
* `int`, `Glyph` and codes are `Int`.  Sums of kerning amounts are taken in
  `Int`; they agree with the source as long as they stay inside `int`.
* An operation that can hit a failed bounds assertion returns an `Option`;
  `none` is the aborted run.
-/

namespace Otftotfm

/-! ## Data model -/

/-- The source's `GsubEncoding::Ligature`; the field `in` is `in_` here. -/
structure Ligature where
  in_ : List Int
  out : Int
  skip : Int
  context : Int
deriving DecidableEq, Repr

/-- The source's `GsubEncoding::Kern`. -/
structure Kern where
  left : Int
  right : Int
  amount : Int
deriving DecidableEq, Repr

/-- The source's `GsubEncoding::Vfpos`; the field `in` is `in_` here. -/
structure Vfpos where
  in_ : Int
  pdx : Int
  pdy : Int
  adx : Int
deriving DecidableEq, Repr

/-- The data members of `GsubEncoding`. -/
structure GsubEncoding where
  _encoding : List Int
  _boundary_glyph : Int
  _ligatures : List Ligature
  _fake_ligatures : List Ligature
  _kerns : List Kern
  _vfpos : List Vfpos
  _emap : List Int
deriving DecidableEq, Repr

/-! ## `Vector<T>` primitives (`lcdf/vector.cc`) -/

/-- Checked read `v[i]`. -/
def vec_at {α : Type} (v : List α) (i : Int) : Option α :=
  if 0 ≤ i then v[i.toNat]? else none

/-- Checked store `v[i] = x`. -/
def vec_set {α : Type} (v : List α) (i : Int) (x : α) : Option (List α) :=
  if 0 ≤ i ∧ i.toNat < v.length then some (v.set i.toNat x) else none

/-- `Vector<T>::resize(nn, e)` for `nn >= 0`: drop the elements from `nn` on,
then fill up to `nn` with copies of `e`. -/
def resize {α : Type} (v : List α) (nn : Nat) (e : α) : List α :=
  v.take nn ++ List.replicate (nn - v.length) e

/-! ## Code reassignment and `cut_encoding` -/

/-- The loop of `reassign_ligature` over `l.in`. -/
def reassign_in (reassignment : List Int) : List Int → Option (List Int)
  | [] => some []
  | c :: cs =>
    match vec_at reassignment (c + 1) with
    | none => none
    | some c2 =>
      match reassign_in reassignment cs with
      | none => none
      | some cs2 => some (c2 :: cs2)

/-- `GsubEncoding::reassign_ligature`. -/
def reassign_ligature (l : Ligature) (reassignment : List Int) : Option Ligature :=
  match reassign_in reassignment l.in_ with
  | none => none
  | some ins =>
    match vec_at reassignment (l.out + 1) with
    | none => none
    | some o => some { l with in_ := ins, out := o }

/-- The loops of `reassign_codes` over `_ligatures` and `_fake_ligatures`. -/
def reassign_ligatures (reassignment : List Int) : List Ligature → Option (List Ligature)
  | [] => some []
  | l :: ls =>
    match reassign_ligature l reassignment with
    | none => none
    | some l2 =>
      match reassign_ligatures reassignment ls with
      | none => none
      | some ls2 => some (l2 :: ls2)

/-- The loop of `reassign_codes` over `_kerns`. -/
def reassign_kerns (reassignment : List Int) : List Kern → Option (List Kern)
  | [] => some []
  | k :: ks =>
    match vec_at reassignment (k.left + 1) with
    | none => none
    | some l2 =>
      match vec_at reassignment (k.right + 1) with
      | none => none
      | some r2 =>
        match reassign_kerns reassignment ks with
        | none => none
        | some ks2 => some ({ k with left := l2, right := r2 } :: ks2)

/-- The loop of `reassign_codes` over `_vfpos`. -/
def reassign_vfpos (reassignment : List Int) : List Vfpos → Option (List Vfpos)
  | [] => some []
  | p :: ps =>
    match vec_at reassignment (p.in_ + 1) with
    | none => none
    | some i2 =>
      match reassign_vfpos reassignment ps with
      | none => none
      | some ps2 => some ({ p with in_ := i2 } :: ps2)

/-- `GsubEncoding::reassign_codes`. -/
def reassign_codes (reassignment : List Int) (st : GsubEncoding) : Option GsubEncoding :=
  match reassign_ligatures reassignment st._ligatures with
  | none => none
  | some ligs =>
    match reassign_ligatures reassignment st._fake_ligatures with
    | none => none
    | some fakes =>
      match reassign_kerns reassignment st._kerns with
      | none => none
      | some ks =>
        match reassign_vfpos reassignment st._vfpos with
        | none => none
        | some ps =>
          some { st with _ligatures := ligs, _fake_ligatures := fakes,
                         _kerns := ks, _vfpos := ps, _emap := [] }

/-- The loop `for (int i = lo; i < hi; i++) reassignment[i+1] = f i`, with
`n = hi - lo` iterations left. -/
def assign_loop (f : Int → Int) : Nat → Int → List Int → Option (List Int)
  | 0, _, r => some r
  | n + 1, i, r =>
    match vec_set r (i + 1) (f i) with
    | none => none
    | some r2 => assign_loop f n (i + 1) r2

/-- The reassignment map built by `cut_encoding`: all `-1`, then the codes
`-1 .. size-1` mapped to themselves, then the codes from `size` on to `-1`. -/
def cut_reassignment (len size : Nat) : Option (List Int) :=
  match assign_loop (fun i => i) (size + 1) (-1) (List.replicate (len + 1) (-1)) with
  | none => none
  | some r => assign_loop (fun _ => -1) (len - size) size r

/-- `GsubEncoding::cut_encoding`. -/
def cut_encoding (size : Nat) (st : GsubEncoding) : Option GsubEncoding :=
  if st._encoding.length ≤ size then
    some { st with _encoding := resize st._encoding size 0 }
  else
    match cut_reassignment st._encoding.length size with
    | none => none
    | some reassignment =>
      match reassign_codes reassignment st with
      | none => none
      | some st2 => some { st2 with _encoding := resize st2._encoding size 0 }

/-! ## Code references -/

/-- Every code a ligature refers to: its inputs and its output. -/
def Ligature.codes (l : Ligature) : List Int := l.out :: l.in_

/-- Every code referenced by the ligature, fake-ligature, kern and vfpos
tables of a state. -/
def referenced_codes (st : GsubEncoding) : List Int :=
  (st._ligatures.map Ligature.codes).flatten ++ (st._fake_ligatures.map Ligature.codes).flatten
    ++ (st._kerns.map (fun k => [k.left, k.right])).flatten ++ st._vfpos.map (fun p => p.in_)

/-! ## `shrink_encoding` -/

/-- The file-local `Slot` of the source. -/
structure Slot where
  position : Int
  new_position : Int
  value : Int
deriving DecidableEq, Repr

/-- The two queries `shrink_encoding` makes of the reference encoding
(`DvipsEncoding`, declared outside these sources): the code of a glyph name,
negative when it has none, and whether a code is taken by the reference
encoding. -/
structure DvipsEncoding where
  encoding_of : String → Int
  encoded : Int → Bool

/-- The collecting loop of `shrink_encoding`, `for (i = size; i < _encoding.size(); i++)`:
called on the table from slot `i` on. -/
def collect_slots : List Int → Int → List Slot
  | [], _ => []
  | g :: gs, i =>
    if g ≠ 0 then { position := i, new_position := -1, value := g } :: collect_slots gs (i + 1)
    else collect_slots gs (i + 1)

/-- The first placement loop of `shrink_encoding` ("prefer their old slots"),
over the slots still to visit.  A `PermString` is a `String`, false when empty. -/
def prefer_old_slots (dvipsenc : DvipsEncoding) (glyph_names : List String) :
    List Slot → List Int → Option (List Slot × List Int)
  | [], enc => some ([], enc)
  | s :: ss, enc =>
    match vec_at glyph_names s.value with
    | none => none
    | some g =>
      if g ≠ "" then
        let e := dvipsenc.encoding_of g
        if 0 ≤ e then
          match vec_at enc e with
          | none => none
          | some x =>
            if x = 0 then
              match vec_set enc e s.value with
              | none => none
              | some enc2 =>
                match prefer_old_slots dvipsenc glyph_names ss enc2 with
                | none => none
                | some (ss2, enc3) => some ({ s with new_position := e } :: ss2, enc3)
            else
              match prefer_old_slots dvipsenc glyph_names ss enc with
              | none => none
              | some (ss2, enc3) => some (s :: ss2, enc3)
        else
          match prefer_old_slots dvipsenc glyph_names ss enc with
          | none => none
          | some (ss2, enc3) => some (s :: ss2, enc3)
      else
        match prefer_old_slots dvipsenc glyph_names ss enc with
        | none => none
        | some (ss2, enc3) => some (s :: ss2, enc3)

/-- The second placement loop of `shrink_encoding` ("loop over all empty
slots"): the `while` loop on `slotnum`, `e` and `avoid`, one iteration per unit
of fuel.  The result is the final `slotnum`, the slots and the table; `none` is
a failed bounds check or exhausted fuel. -/
def place_loop (dvipsenc : DvipsEncoding) (size : Nat) :
    Nat → Nat → Nat → Bool → List Slot → List Int → Option (Nat × List Slot × List Int)
  | 0, _, _, _, _, _ => none
  | fuel + 1, slotnum, e, avoid, slots, enc =>
    if slotnum < slots.length ∧ e < size then
      match slots[slotnum]? with
      | none => none
      | some s =>
        if 0 ≤ s.new_position then
          place_loop dvipsenc size fuel (slotnum + 1) e avoid slots enc
        else
          match vec_at enc e with
          | none => none
          | some x =>
            if x = 0 ∧ (avoid = false ∨ dvipsenc.encoded e = false) then
              match vec_set enc e s.value with
              | none => none
              | some enc2 =>
                place_loop dvipsenc size fuel (slotnum + 1) (e + 1) avoid
                  (slots.set slotnum { s with new_position := e }) enc2
            else if size ≤ e + 1 ∧ avoid = true then
              place_loop dvipsenc size fuel slotnum 0 false slots enc
            else
              place_loop dvipsenc size fuel slotnum (e + 1) avoid slots enc
    else some (slotnum, slots, enc)

/-- The loop collecting the names for the warning,
`unencoded.push_back(glyph_names[_encoding[slots[s].position]])`. -/
def unencoded_names (glyph_names : List String) (enc : List Int) : List Slot → Option (List String)
  | [] => some []
  | s :: ss =>
    match vec_at enc s.position with
    | none => none
    | some g =>
      match vec_at glyph_names g with
      | none => none
      | some nm =>
        match unencoded_names glyph_names enc ss with
        | none => none
        | some nms => some (nm :: nms)

/-- The loop `reassignment[slots[slotnum].position+1] = slots[slotnum].new_position`. -/
def assign_slots : List Slot → List Int → Option (List Int)
  | [], r => some r
  | s :: ss, r =>
    match vec_set r (s.position + 1) s.new_position with
    | none => none
    | some r2 => assign_slots ss r2

/-- The reassignment map built by `shrink_encoding`. -/
def shrink_reassignment (len size : Nat) (slots : List Slot) : Option (List Int) :=
  match assign_loop (fun i => i) (size + 1) (-1) (List.replicate (len + 1) (-1)) with
  | none => none
  | some r => assign_slots slots r

/-- `GsubEncoding::shrink_encoding`, with the `std::sort` of the slots passed
in as `sort`.  The result is the new state and the sorted name list handed to
the warning (`none` when no warning is issued). -/
def shrink_encoding_with (sort : List Slot → List Slot) (size : Nat) (dvipsenc : DvipsEncoding)
    (glyph_names : List String) (st : GsubEncoding) :
    Option (GsubEncoding × Option (List String)) :=
  if st._encoding.length ≤ size then
    some ({ st with _encoding := resize st._encoding size 0 }, none)
  else
    let slots := sort (collect_slots (st._encoding.drop size) size)
    match prefer_old_slots dvipsenc glyph_names slots st._encoding with
    | none => none
    | some (slots1, enc1) =>
      match place_loop dvipsenc size (slots1.length + 2 * size + 1) 0 0 true slots1 enc1 with
      | none => none
      | some (slotnum, slots2, enc2) =>
        match (if slotnum < slots2.length then
                (unencoded_names glyph_names enc2 (slots2.drop slotnum)).map
                  (fun nms => some (nms.insertionSort (fun a b => ¬ b.data < a.data)))
               else some none) with
        | none => none
        | some warning =>
          match shrink_reassignment enc2.length size slots2 with
          | none => none
          | some reassignment =>
            match reassign_codes reassignment { st with _encoding := enc2 } with
            | none => none
            | some st2 => some ({ st2 with _encoding := resize st2._encoding size 0 }, warning)

/-- `GsubEncoding::shrink_encoding` with a stable sort by `value` for `std::sort`. -/
def shrink_encoding (size : Nat) (dvipsenc : DvipsEncoding) (glyph_names : List String)
    (st : GsubEncoding) : Option (GsubEncoding × Option (List String)) :=
  shrink_encoding_with (fun l => l.insertionSort (fun a b => a.value ≤ b.value))
    size dvipsenc glyph_names st

/-- A state used in examples: a four-slot table holding glyphs 5, 6, 7, 8,
with one ligature, one kern and one single positioning that refer to codes up
to 3. -/
def sample_state : GsubEncoding :=
  { _encoding := [5, 6, 7, 8], _boundary_glyph := 10,
    _ligatures := [{ in_ := [1, 3], out := 2, skip := 1, context := 0 }],
    _fake_ligatures := [],
    _kerns := [{ left := 0, right := 3, amount := 10 }],
    _vfpos := [{ in_ := 3, pdx := 1, pdy := 2, adx := 3 }],
    _emap := [] }

/-- Bookkeeping invariant of the slots of `shrink_encoding` against the table
`enc`: each slot sits at an overflow position that still holds its glyph, its
new position is `-1` or a code below `size`, and its glyph has an entry in the
glyph-name table. -/
def SlotsOk (size : Nat) (glyph_names : List String) (enc : List Int) (slots : List Slot) : Prop :=
  ∀ s ∈ slots, (size : Int) ≤ s.position ∧ s.position < enc.length ∧
    -1 ≤ s.new_position ∧ s.new_position < size ∧
    vec_at enc s.position = some s.value ∧ 0 ≤ s.value ∧ s.value < glyph_names.length

/-- A glyph-name table for examples: glyph 1 is `a`, glyph 2 is `b`. -/
def sample_names : List String := ["", "a", "b"]

/-- A reference encoding that puts `b` at code 2 and nothing else anywhere. -/
def ref_b_at_2 : DvipsEncoding :=
  { encoding_of := fun s => if s = "b" then 2 else -1, encoded := fun c => decide (c = 2) }

/-- A reference encoding that puts `b` at code 0 and nothing else anywhere. -/
def ref_b_at_0 : DvipsEncoding :=
  { encoding_of := fun s => if s = "b" then 0 else -1, encoded := fun c => decide (c = 0) }

/-- A three-slot table `[7, b, empty]` whose only ligature refers to codes 1 and 0. -/
def state_7_b_empty : GsubEncoding :=
  { _encoding := [7, 2, 0], _boundary_glyph := 10,
    _ligatures := [{ in_ := [1, 0], out := 1, skip := 1, context := 0 }],
    _fake_ligatures := [], _kerns := [], _vfpos := [], _emap := [] }

/-- A three-slot table `[empty, a, b]` whose only ligature refers to codes 1 and 2. -/
def state_empty_a_b : GsubEncoding :=
  { _encoding := [0, 1, 2], _boundary_glyph := 10,
    _ligatures := [{ in_ := [1, 2], out := 2, skip := 1, context := 0 }],
    _fake_ligatures := [], _kerns := [], _vfpos := [], _emap := [] }

/-- The code map a reassignment vector stands for: `c` goes to
`reassignment[c + 1]`. -/
def code_map (reassignment : List Int) (c : Int) : Int :=
  (vec_at reassignment (c + 1)).getD (-1)

/-- A ligature with every code sent through `f`. -/
def Ligature.relabel (f : Int → Int) (l : Ligature) : Ligature :=
  { l with in_ := l.in_.map f, out := f l.out }

/-- A kern with both codes sent through `f`. -/
def Kern.relabel (f : Int → Int) (k : Kern) : Kern :=
  { k with left := f k.left, right := f k.right }

/-- A single positioning with its code sent through `f`. -/
def Vfpos.relabel (f : Int → Int) (p : Vfpos) : Vfpos :=
  { p with in_ := f p.in_ }

/-- A reference encoding that puts `a` at code 0 and nothing else anywhere. -/
def ref_a_at_0 : DvipsEncoding :=
  { encoding_of := fun s => if s = "a" then 0 else -1, encoded := fun c => decide (c = 0) }

/-- A three-slot table `[empty, a, a]`, glyph `a` encoded twice, whose only
ligature refers to codes 1 and 2. -/
def state_empty_a_a : GsubEncoding :=
  { _encoding := [0, 1, 1], _boundary_glyph := 10,
    _ligatures := [{ in_ := [1, 2], out := 2, skip := 1, context := 0 }],
    _fake_ligatures := [], _kerns := [], _vfpos := [], _emap := [] }

/-! ## `simplify_positionings` -/

/-- The two nested loops of `simplify_positionings` over the sorted `_kerns`:
`k1` is the first entry of the current run with the amounts added so far, the
list holds the entries after it.  The result is the final `k1` and the entries
after it. -/
def merge_kern_run (k1 : Kern) : List Kern → Kern × List Kern
  | [] => (k1, [])
  | k2 :: ks =>
    if k1.left ≠ k2.left ∨ k1.right ≠ k2.right then
      (k1, (merge_kern_run k2 ks).1 :: (merge_kern_run k2 ks).2)
    else
      ((merge_kern_run { k1 with amount := k1.amount + k2.amount } ks).1,
       { k2 with left := -1 } ::
         (merge_kern_run { k1 with amount := k1.amount + k2.amount } ks).2)

/-- The kern part of `simplify_positionings` after the sort. -/
def merge_kerns : List Kern → List Kern
  | [] => []
  | k :: ks => (merge_kern_run k ks).1 :: (merge_kern_run k ks).2

/-- The two nested loops of `simplify_positionings` over the sorted `_vfpos`. -/
def merge_vfpos_run (p1 : Vfpos) : List Vfpos → Vfpos × List Vfpos
  | [] => (p1, [])
  | p2 :: ps =>
    if p1.in_ ≠ p2.in_ then
      (p1, (merge_vfpos_run p2 ps).1 :: (merge_vfpos_run p2 ps).2)
    else
      ((merge_vfpos_run { p1 with pdx := p1.pdx + p2.pdx, pdy := p1.pdy + p2.pdy,
                                  adx := p1.adx + p2.adx } ps).1,
       { p2 with in_ := -1 } ::
         (merge_vfpos_run { p1 with pdx := p1.pdx + p2.pdx, pdy := p1.pdy + p2.pdy,
                                    adx := p1.adx + p2.adx } ps).2)

/-- The vfpos part of `simplify_positionings` after the sort. -/
def merge_vfpos : List Vfpos → List Vfpos
  | [] => []
  | p :: ps => (merge_vfpos_run p ps).1 :: (merge_vfpos_run p ps).2

/-- Modelled from the spec: `operator<` of `Kern`, declared in the header that
is not among these sources ("Sorts kerns by (left, right, ...)").  This is the
order a sorted kern vector is in: `a` may stand before `b`. -/
def kern_key_le (a b : Kern) : Prop :=
  a.left < b.left ∨ (a.left = b.left ∧ a.right ≤ b.right)

instance : DecidableRel kern_key_le := fun a b => by
  unfold kern_key_le
  exact inferInstance

/-- Modelled from the spec: `operator<` of `Vfpos`, declared in the header that
is not among these sources ("Vfpos entries by `in`"). -/
def vfpos_key_le (a b : Vfpos) : Prop := a.in_ ≤ b.in_

instance : DecidableRel vfpos_key_le := fun a b => by
  unfold vfpos_key_le
  exact inferInstance

/-- What `std::sort` guarantees of its result under an order `le`: a
rearrangement of the argument in which no entry stands before a smaller one. -/
def IsSort {α : Type} (le : α → α → Prop) (sort : List α → List α) : Prop :=
  ∀ l, (sort l).Perm l ∧ (sort l).Pairwise le

/-- `GsubEncoding::simplify_positionings`, with the two `std::sort` calls
passed in. -/
def simplify_positionings_with (sortK : List Kern → List Kern)
    (sortV : List Vfpos → List Vfpos) (st : GsubEncoding) : GsubEncoding :=
  { st with
    _kerns := if st._kerns.length ≠ 0 then merge_kerns (sortK st._kerns) else st._kerns,
    _vfpos := if st._vfpos.length ≠ 0 then merge_vfpos (sortV st._vfpos) else st._vfpos }

/-- `GsubEncoding::simplify_positionings` with a stable sort for `std::sort`. -/
def simplify_positionings (st : GsubEncoding) : GsubEncoding :=
  simplify_positionings_with (fun l => l.insertionSort kern_key_le)
    (fun l => l.insertionSort vfpos_key_le) st

/-- The scan of `GsubEncoding::kern` over `_kerns`. -/
def kern_scan (code1 code2 : Int) : List Kern → Int
  | [] => 0
  | k :: ks => if k.left = code1 ∧ k.right = code2 then k.amount else kern_scan code1 code2 ks

/-- `GsubEncoding::kern`. -/
def kern (st : GsubEncoding) (code1 code2 : Int) : Int :=
  kern_scan code1 code2 st._kerns

/-- The run-merging loop of `simplify_positionings` in general form: entries
with equal `key` that follow each other are added into the first by `add` and
marked by `kill`.  `merge_kerns` and `merge_vfpos` are instances. -/
def coalesce_run {α κ : Type} [DecidableEq κ] (key : α → κ) (add : α → α → α) (kill : α → α)
    (k1 : α) : List α → α × List α
  | [] => (k1, [])
  | k2 :: ks =>
    if key k1 ≠ key k2 then
      (k1, (coalesce_run key add kill k2 ks).1 :: (coalesce_run key add kill k2 ks).2)
    else
      ((coalesce_run key add kill (add k1 k2) ks).1,
       kill k2 :: (coalesce_run key add kill (add k1 k2) ks).2)

/-- The general form of `merge_kerns` and `merge_vfpos`. -/
def coalesce {α κ : Type} [DecidableEq κ] (key : α → κ) (add : α → α → α) (kill : α → α) :
    List α → List α
  | [] => []
  | k :: ks => (coalesce_run key add kill k ks).1 :: (coalesce_run key add kill k ks).2

/-- The key of a kern: its code pair. -/
def Kern.key (k : Kern) : Int × Int := (k.left, k.right)

/-- `k1.amount += k2.amount`. -/
def Kern.add (k1 k2 : Kern) : Kern := { k1 with amount := k1.amount + k2.amount }

/-- `k2.left = -1`. -/
def Kern.kill (k2 : Kern) : Kern := { k2 with left := -1 }

/-- `p1.pdx += p2.pdx; p1.pdy += p2.pdy; p1.adx += p2.adx`. -/
def Vfpos.add (p1 p2 : Vfpos) : Vfpos :=
  { p1 with pdx := p1.pdx + p2.pdx, pdy := p1.pdy + p2.pdy, adx := p1.adx + p2.adx }

/-- `p2.in = -1`. -/
def Vfpos.kill (p2 : Vfpos) : Vfpos := { p2 with in_ := -1 }

/-- What the proofs about the run-merging loop use of an entry type: adding
keeps the key of the first entry, a killed entry is not live, liveness is a
matter of the key alone, and the sort order `le` compares keys, is transitive,
and puts two entries each before the other only when their keys are equal. -/
structure MergeLaws {α κ : Type} (key : α → κ) (add : α → α → α) (kill : α → α)
    (live : α → Bool) (le : α → α → Prop) : Prop where
  key_add : ∀ a b, key (add a b) = key a
  live_kill : ∀ b, live (kill b) = false
  live_key : ∀ a b, key a = key b → live a = live b
  le_key : ∀ a a2 b b2, key a = key a2 → key b = key b2 → le a b → le a2 b2
  le_trans : ∀ a b c, le a b → le b c → le a c
  le_anti : ∀ a b, le a b → le b a → key a = key b

/-- A kern is live unless it is marked removed by `left = -1`. -/
def Kern.live (k : Kern) : Bool := decide (k.left ≠ -1)

/-- A single positioning is live unless it is marked removed by `in = -1`. -/
def Vfpos.live (p : Vfpos) : Bool := decide (p.in_ ≠ -1)

/-- A state whose kern list holds the pair `(0x41, 0x66)` twice, with amounts
10 and 5, and whose vfpos list holds code 3 twice. -/
def state_two_kerns : GsubEncoding :=
  { _encoding := List.replicate 256 0, _boundary_glyph := 300,
    _ligatures := [], _fake_ligatures := [],
    _kerns := [{ left := 0x41, right := 0x66, amount := 10 },
               { left := 0x41, right := 0x66, amount := 5 }],
    _vfpos := [{ in_ := 3, pdx := 1, pdy := 2, adx := 3 },
               { in_ := 3, pdx := 10, pdy := 20, adx := 30 }],
    _emap := [] }

/-- A state whose kern list holds the pair `(1, 2)` three times and whose
vfpos list holds code 3 twice. -/
def state_three_kerns : GsubEncoding :=
  { _encoding := [0, 5, 6, 7], _boundary_glyph := 10,
    _ligatures := [], _fake_ligatures := [],
    _kerns := [{ left := 1, right := 2, amount := 10 },
               { left := 1, right := 2, amount := 5 },
               { left := 1, right := 2, amount := 3 }],
    _vfpos := [{ in_ := 3, pdx := 1, pdy := 2, adx := 3 },
               { in_ := 3, pdx := 10, pdy := 20, adx := 30 }],
    _emap := [] }

/-! ## The table and its reverse map -/

/-- The scan of `hard_encoding`, `for (i = _encoding.size() - 1; i >= 0; i--)`,
over the table from slot `i` on: the final `answer` and `n`. -/
def hard_scan (g : Int) : List Int → Int → Int × Nat
  | [], _ => (-1, 0)
  | x :: xs, i =>
    if x = g then (i, (hard_scan g xs (i + 1)).2 + 1) else hard_scan g xs (i + 1)

/-- `GsubEncoding::hard_encoding`; the reverse map is `mutable`, so the state
is returned with the answer. -/
def hard_encoding (g : Int) (st : GsubEncoding) : Int × GsubEncoding :=
  if g < 0 then (-1, st)
  else
    let r := hard_scan g st._encoding 0
    if r.2 < 2 then
      (r.1, { st with _emap :=
        (if (st._emap.length : Int) ≤ g then resize st._emap (g + 1).toNat (-2)
         else st._emap).set g.toNat r.1 })
    else (r.1, st)

/-- Modelled from the spec: `GsubEncoding::encoding`, inline in the header that
is not among these sources.  The reverse lookup consults the reverse map and
"falls back to a linear scan", `hard_encoding`, when the map holds no answer
for the glyph: an entry of `-1` or more is an answer, `-2` (the fill value of
`hard_encoding`, and what `apply` stores to invalidate) is none. -/
def encoding (g : Int) (st : GsubEncoding) : Int × GsubEncoding :=
  match vec_at st._emap g with
  | some e => if -1 ≤ e then (e, st) else hard_encoding g st
  | none => hard_encoding g st

/-- Modelled from the spec: `GsubEncoding::assign_emap`, inline in the header
that is not among these sources ("invalidates/repopulates the reverse cache
for that glyph").  The entry of glyph `g` becomes `code`, the map growing as
in `hard_encoding`; a negative glyph is out of bounds. -/
def assign_emap (g code : Int) (st : GsubEncoding) : Option GsubEncoding :=
  if g < 0 then none
  else
    some { st with _emap :=
      (if (st._emap.length : Int) ≤ g then resize st._emap (g + 1).toNat (-2)
       else st._emap).set g.toNat code }

/-- `GsubEncoding::force_encoding`. -/
def force_encoding (g : Int) (st : GsubEncoding) : Option (Int × GsubEncoding) :=
  let r := encoding g st
  if 0 ≤ r.1 then some (r.1, r.2)
  else
    match assign_emap g (((r.2._encoding ++ [g]).length : Int) - 1)
        { r.2 with _encoding := r.2._encoding ++ [g] } with
    | none => none
    | some st2 => some ((st2._encoding.length : Int) - 1, st2)

/-- `GsubEncoding::encode`; `none` is the failed `assert(code >= 0 && g >= 0)`. -/
def encode (code g : Int) (st : GsubEncoding) : Option GsubEncoding :=
  if 0 ≤ code ∧ 0 ≤ g then
    match vec_set (if (st._encoding.length : Int) ≤ code then
                     resize st._encoding (code + 1).toNat 0 else st._encoding) code g with
    | none => none
    | some enc => assign_emap g code { st with _encoding := enc }
  else none

/-- The constructor `GsubEncoding::GsubEncoding(int nglyphs)`. -/
def GsubEncoding.init (nglyphs : Int) : GsubEncoding :=
  { _encoding := List.replicate 256 0, _boundary_glyph := nglyphs,
    _ligatures := [], _fake_ligatures := [], _kerns := [], _vfpos := [], _emap := [] }

/-! ## `apply` for substitutions -/

/-- What `apply` uses of a `Substitution` (a class outside these sources): its
kind and the glyphs the accessors of that kind return.  `other` is a
substitution of none of the five kinds `apply` tests for. -/
inductive Substitution where
  | single (in_glyph out_glyph_0 : Int)
  | alternate (in_glyph out_glyph_0 : Int)
  | ligature (in_glyphs : List Int) (out_glyph : Int)
  | single_rcontext (in_glyph right_glyph out_glyph : Int)
  | single_lcontext (left_glyph in_glyph out_glyph : Int)
  | other
deriving DecidableEq, Repr

/-- `CH_NO`. -/
def CH_NO : Int := 0

/-- `CH_SOME`. -/
def CH_SOME : Int := 1

/-- `CH_ALL`. -/
def CH_ALL : Int := 2

/-- A bit vector of the source, `new int[((n - 1) >> 5) + 1]` zeroed: here one
`Bool` per bit index below `n`. -/
def bitvec_new (n : Nat) : List Bool := List.replicate n false

/-- The test `(v[e >> 5] & (1 << (e & 0x1F))) != 0`. -/
def bit_test (v : List Bool) (e : Int) : Bool := (vec_at v e).getD false

/-- The store `v[e >> 5] |= (1 << (e & 0x1F))`. -/
def bit_set (v : List Bool) (e : Int) : List Bool := v.set e.toNat true

/-- The local state of one `apply` pass over substitutions, with the encoding
itself: `changed`, `changed_context` (`none` is the null pointer) and
`success`. -/
structure SubstPass where
  st : GsubEncoding
  changed : List Int
  changed_context : List (Option (List Bool))
  success : Int
deriving DecidableEq, Repr

/-- The file-local `assign_changed_context`; `none` is a failed bounds check
or the failed `assert(changed[e1] != CH_ALL)`. -/
def assign_changed_context (changed : List Int) (changed_context : List (Option (List Bool)))
    (e1 e2 : Int) : Option (List Int × List (Option (List Bool))) :=
  let n := changed_context.length
  if 0 ≤ e1 ∧ 0 ≤ e2 ∧ e1 < n ∧ e2 < n then
    match vec_at changed_context e1 with
    | none => none
    | some v0 =>
      let v := bit_set (v0.getD (bitvec_new n)) e2
      match vec_at changed e1 with
      | none => none
      | some c =>
        if c = CH_ALL then none
        else some (changed.set e1.toNat CH_SOME, changed_context.set e1.toNat (some v))
  else some (changed, changed_context)

/-- The file-local `in_changed_context`. -/
def in_changed_context (changed : List Int) (changed_context : List (Option (List Bool)))
    (e1 e2 : Int) : Option Bool :=
  let n := changed_context.length
  if 0 ≤ e1 ∧ 0 ≤ e2 ∧ e1 < n ∧ e2 < n then
    match vec_at changed e1 with
    | none => none
    | some c =>
      if c = CH_ALL then some true
      else
        match vec_at changed_context e1 with
        | none => none
        | some none => some false
        | some (some v) => some (bit_test v e2)
  else some false

/-- `GsubEncoding::add_single_context_substitution`. -/
def add_single_context_substitution (left right out : Int) (is_right : Bool)
    (st : GsubEncoding) : GsubEncoding :=
  if out ≠ (if is_right then right else left) then
    { st with _ligatures := st._ligatures ++
        [{ in_ := [left, right], out := out, skip := 1,
           context := if is_right then 1 else -1 }] }
  else st

/-- The body of the loop of the `CH_SOME` branch of `apply` for code `j`, whose
slot holds `g`: `if (_encoding[j] > 0 && !(v[j >> 5] & (1 << (j & 0x1F))))
add_single_context_substitution(e, j, out, true)`.  `none` is the use of a null
`v`. -/
def add_remaining_context (e out : Int) (v : Option (List Bool)) (j g : Int)
    (st : GsubEncoding) : Option GsubEncoding :=
  if 0 < g then
    match v with
    | none => none
    | some bits =>
      if bit_test bits j = false then some (add_single_context_substitution e j out true st)
      else some st
  else some st

/-- The loop of the `CH_SOME` branch of `apply`,
`for (int j = 0; j < changed.size(); j++)`, with `n` iterations left from `j`. -/
def add_remaining_contexts (e out : Int) (v : Option (List Bool)) :
    Nat → Int → GsubEncoding → Option GsubEncoding
  | 0, _, st => some st
  | n + 1, j, st =>
    match vec_at st._encoding j with
    | none => none
    | some g =>
      match add_remaining_context e out v j g st with
      | none => none
      | some st2 => add_remaining_contexts e out v n (j + 1) st2

/-- The loop of the ligature branch of `apply` over the input glyphs: the codes
collected in `l.in` and the state, or `none` inside for `goto ligature_fail`. -/
def ligature_codes (changed : List Int) :
    List Int → GsubEncoding → Option (Option (List Int) × GsubEncoding)
  | [], st => some (some [], st)
  | g :: gs, st =>
    let r := encoding g st
    if r.1 < 0 ∨ (changed.length : Int) ≤ r.1 then some (none, r.2)
    else
      match vec_at changed r.1 with
      | none => none
      | some c =>
        if c = CH_ALL then some (none, r.2)
        else
          match ligature_codes changed gs r.2 with
          | none => none
          | some (none, st2) => some (none, st2)
          | some (some es, st2) => some (some (r.1 :: es), st2)

/-- The body of the first branch of `apply`'s loop (single and alternate
substitutions, `allow_single` set), without the final `success++`. -/
def apply_single (in_glyph out_glyph_0 : Int) (p : SubstPass) : Option SubstPass :=
  let r := encoding in_glyph p.st
  if r.1 < 0 ∨ (p.changed.length : Int) ≤ r.1 then
    some { p with st := r.2 }
  else
    match vec_at p.changed r.1 with
    | none => none
    | some c =>
      if c = CH_NO then
        match assign_emap in_glyph (-2) r.2 with
        | none => none
        | some st2 =>
          match assign_emap out_glyph_0 r.1 st2 with
          | none => none
          | some st3 =>
            match vec_set st3._encoding r.1 out_glyph_0 with
            | none => none
            | some enc =>
              match vec_set p.changed r.1 CH_ALL with
              | none => none
              | some changed2 =>
                some { p with st := { st3 with _encoding := enc }, changed := changed2 }
      else if c = CH_SOME then
        match force_encoding out_glyph_0 r.2 with
        | none => none
        | some (out, st2) =>
          match vec_at p.changed_context r.1 with
          | none => none
          | some v =>
            match add_remaining_contexts r.1 out v p.changed.length 0 st2 with
            | none => none
            | some st3 =>
              match vec_set p.changed r.1 CH_ALL with
              | none => none
              | some changed2 => some { p with st := st3, changed := changed2 }
      else some { p with st := r.2 }

/-- The body of the ligature branch of `apply`'s loop, without `success++`. -/
def apply_ligature (in_glyphs : List Int) (out_glyph : Int) (p : SubstPass) :
    Option SubstPass :=
  match ligature_codes p.changed in_glyphs p.st with
  | none => none
  | some (none, st2) => some { p with st := st2 }
  | some (some es, st2) =>
    match force_encoding out_glyph st2 with
    | none => none
    | some (out, st3) =>
      some { p with st := { st3 with _ligatures := st3._ligatures ++
        [{ in_ := es, out := out, skip := 1, context := 0 }] } }

/-- The body of the two context branches of `apply`'s loop, without `success++`:
`first_glyph` and `second_glyph` are looked up in this order and form the pair
`(e1, e2)` handed to `in_changed_context`, `add_single_context_substitution`
and `assign_changed_context`. -/
def apply_context (first_glyph second_glyph out_glyph : Int) (is_right : Bool)
    (p : SubstPass) : Option SubstPass :=
  let r1 := encoding first_glyph p.st
  let r2 := encoding second_glyph r1.2
  if 0 ≤ r1.1 ∧ r1.1 < (p.changed.length : Int) ∧ 0 ≤ r2.1 ∧ r2.1 < (p.changed.length : Int) then
    match in_changed_context p.changed p.changed_context r1.1 r2.1 with
    | none => none
    | some true => some { p with st := r2.2 }
    | some false =>
      match force_encoding out_glyph r2.2 with
      | none => none
      | some (out, st3) =>
        match assign_changed_context p.changed p.changed_context r1.1 r2.1 with
        | none => none
        | some (changed2, context2) =>
          some { p with st := add_single_context_substitution r1.1 r2.1 out is_right st3,
                        changed := changed2, changed_context := context2 }
  else some { p with st := r2.2 }

/-- One iteration of the loop of `apply(const Vector<Substitution> &, bool)`. -/
def apply_substitution (allow_single : Bool) (s : Substitution) (p : SubstPass) :
    Option SubstPass :=
  match s with
  | .single i o =>
    if allow_single then
      (apply_single i o p).map (fun q => { q with success := q.success + 1 })
    else some p
  | .alternate i o =>
    if allow_single then
      (apply_single i o p).map (fun q => { q with success := q.success + 1 })
    else some p
  | .ligature ins o =>
    (apply_ligature ins o p).map (fun q => { q with success := q.success + 1 })
  | .single_rcontext i r o =>
    (apply_context i r o true p).map (fun q => { q with success := q.success + 1 })
  | .single_lcontext l i o =>
    (apply_context l i o false p).map (fun q => { q with success := q.success + 1 })
  | .other => some p

/-- The loop of `apply` over the substitutions. -/
def apply_loop (allow_single : Bool) : List Substitution → SubstPass → Option SubstPass
  | [], p => some p
  | s :: sv, p =>
    match apply_substitution allow_single s p with
    | none => none
    | some p2 => apply_loop allow_single sv p2

/-- The tracker at the start of a pass: every code `CH_NO`, no bit vector. -/
def SubstPass.start (st : GsubEncoding) : SubstPass :=
  { st := st, changed := List.replicate st._encoding.length CH_NO,
    changed_context := List.replicate st._encoding.length none, success := 0 }

/-- `GsubEncoding::apply(const Vector<Substitution> &, bool)`: the returned
count and the new state. -/
def apply (sv : List Substitution) (allow_single : Bool) (st : GsubEncoding) :
    Option (Int × GsubEncoding) :=
  (apply_loop allow_single sv (SubstPass.start st)).map (fun p => (p.success, p.st))

/-- The loop of `GsubEncoding::twoligatures`: the entries pushed to `code2`,
`outcode` and `context`, as triples. -/
def twoligatures (st : GsubEncoding) (code1 : Int) : List (Int × Int × Int) :=
  st._ligatures.filterMap (fun l =>
    match l.in_ with
    | [a, b] => if a = code1 ∧ 0 ≤ b ∧ 0 ≤ l.out then some (b, l.out, l.context) else none
    | _ => none)

/-! ## `apply` for positionings -/

/-- What `apply` uses of a `Positioning` (a class outside these sources): its
kind, the glyphs and the amounts of `left()`.  `other` is a positioning that is
neither a pair kern nor a single positioning. -/
inductive Positioning where
  | pairkern (left_glyph right_glyph adx : Int)
  | single (left_glyph pdx pdy adx : Int)
  | other
deriving DecidableEq, Repr

/-- The file-local `assign_bitvec`: the old value of the bit and the bit
vector afterwards (`none` is the null pointer). -/
def assign_bitvec (bitvec : Option (List Bool)) (e : Int) (n : Nat) :
    Bool × Option (List Bool) :=
  if 0 ≤ e ∧ e < n then
    (bit_test (bitvec.getD (bitvec_new n)) e, some (bit_set (bitvec.getD (bitvec_new n)) e))
  else (false, bitvec)

/-- `GsubEncoding::add_kern`. -/
def add_kern (left right amount : Int) (st : GsubEncoding) : GsubEncoding :=
  { st with _kerns := st._kerns ++ [{ left := left, right := right, amount := amount }] }

/-- `GsubEncoding::add_single_positioning`. -/
def add_single_positioning (code pdx pdy adx : Int) (st : GsubEncoding) : GsubEncoding :=
  { st with _vfpos := st._vfpos ++ [{ in_ := code, pdx := pdx, pdy := pdy, adx := adx }] }

/-- The local state of one `apply` pass over positionings, with the encoding
itself: `single_changed`, `pair_changed` and `success`. -/
structure PosPass where
  st : GsubEncoding
  single_changed : Option (List Bool)
  pair_changed : List (Option (List Bool))
  success : Int
deriving DecidableEq, Repr

/-- One iteration of the loop of `apply(const Vector<Positioning> &)`. -/
def apply_positioning (p : Positioning) (q : PosPass) : Option PosPass :=
  match p with
  | .pairkern lg rg adx =>
    let r1 := encoding lg q.st
    let r2 := encoding rg r1.2
    if 0 ≤ r1.1 ∧ 0 ≤ r2.1 then
      match vec_at q.pair_changed r1.1 with
      | none => none
      | some bv =>
        let a := assign_bitvec bv r2.1 r2.2._encoding.length
        some { st := if a.1 = false then add_kern r1.1 r2.1 adx r2.2 else r2.2,
               single_changed := q.single_changed,
               pair_changed := q.pair_changed.set r1.1.toNat a.2,
               success := q.success + 1 }
    else some { q with st := r2.2, success := q.success + 1 }
  | .single g pdx pdy adx =>
    let r := encoding g q.st
    if 0 ≤ r.1 then
      let a := assign_bitvec q.single_changed r.1 r.2._encoding.length
      some { st := if a.1 = false then add_single_positioning r.1 pdx pdy adx r.2 else r.2,
             single_changed := a.2,
             pair_changed := q.pair_changed,
             success := q.success + 1 }
    else some { q with st := r.2, success := q.success + 1 }
  | .other => some q

/-- The loop of `apply` over the positionings. -/
def apply_positionings_loop : List Positioning → PosPass → Option PosPass
  | [], q => some q
  | p :: pv, q =>
    match apply_positioning p q with
    | none => none
    | some q2 => apply_positionings_loop pv q2

/-- The tracker at the start of a positioning pass. -/
def PosPass.start (st : GsubEncoding) : PosPass :=
  { st := st, single_changed := none,
    pair_changed := List.replicate st._encoding.length none, success := 0 }

/-- `GsubEncoding::apply(const Vector<Positioning> &)`: the returned count and
the new state. -/
def apply_positionings (pv : List Positioning) (st : GsubEncoding) :
    Option (Int × GsubEncoding) :=
  (apply_positionings_loop pv (PosPass.start st)).map (fun q => (q.success, q.st))

/-- The code `encoding(g)` returns in state `st`. -/
def code_of (st : GsubEncoding) (g : Int) : Int := (encoding g st).1

/-- The pair-kern rules of `pv` whose two glyphs resolve to codes, as the kern
each of them asks for, in rule order. -/
def resolved_kerns (st : GsubEncoding) : List Positioning → List Kern
  | [] => []
  | .pairkern lg rg adx :: pv =>
    if 0 ≤ code_of st lg ∧ 0 ≤ code_of st rg then
      { left := code_of st lg, right := code_of st rg, amount := adx } :: resolved_kerns st pv
    else resolved_kerns st pv
  | _ :: pv => resolved_kerns st pv

/-- The single-positioning rules of `pv` whose glyph resolves to a code, as the
entry each of them asks for, in rule order. -/
def resolved_vfpos (st : GsubEncoding) : List Positioning → List Vfpos
  | [] => []
  | .single g pdx pdy adx :: pv =>
    if 0 ≤ code_of st g then
      { in_ := code_of st g, pdx := pdx, pdy := pdy, adx := adx } :: resolved_vfpos st pv
    else resolved_vfpos st pv
  | _ :: pv => resolved_vfpos st pv

/-- What the reverse map answers for glyph `h` without a scan, if anything. -/
def emap_answer (emap : List Int) (h : Int) : Option Int :=
  match vec_at emap h with
  | some e => if -1 ≤ e then some e else none
  | none => none

/-- The answer of the scan of `hard_encoding` for glyph `h`. -/
def hard_val (enc : List Int) (h : Int) : Int :=
  if h < 0 then -1 else (hard_scan h enc 0).1

/-- The reverse map answers only with codes inside the table. -/
def EmapInRange (st : GsubEncoding) : Prop :=
  ∀ h e, emap_answer st._emap h = some e → e < st._encoding.length

/-- `st2` is `st` with a reverse map that answers as that of `st` does and, for
glyphs where that one has no answer, with what the scan would find. -/
def EmapExt (st st2 : GsubEncoding) : Prop :=
  st2 = { st with _emap := st2._emap } ∧
  ∀ h, emap_answer st2._emap h = emap_answer st._emap h ∨
    (emap_answer st._emap h = none ∧ emap_answer st2._emap h = some (hard_val st._encoding h))

/-- The bit of code `c` in the `single_changed` vector of a positioning pass. -/
def single_bit (sc : Option (List Bool)) (c : Int) : Bool :=
  match sc with
  | some v => bit_test v c
  | none => false

/-- The bit of code `c2` in the vector `pair_changed[c1]` of a positioning pass. -/
def pair_bit (pc : List (Option (List Bool))) (c1 c2 : Int) : Bool :=
  match vec_at pc c1 with
  | some (some v) => bit_test v c2
  | _ => false

/-- "First writer wins" over a list of requested entries: an entry is kept
unless its key has been seen, either at the start or in an earlier entry. -/
def first_writer {α κ : Type} [DecidableEq κ] (key : α → κ) (seen : κ → Bool) : List α → List α
  | [] => []
  | k :: ks =>
    if seen (key k) = true then first_writer key seen ks
    else k :: first_writer key (fun x => seen x || decide (x = key k)) ks

/-- The trackers of a positioning pass are sized to the table: `pair_changed`
has one entry per slot, and every bit vector that has been allocated has one
bit per slot. -/
def PosPass.WF (q : PosPass) : Prop :=
  q.pair_changed.length = q.st._encoding.length ∧
  (∀ v, q.single_changed = some v → v.length = q.st._encoding.length) ∧
  (∀ v, some v ∈ q.pair_changed → v.length = q.st._encoding.length)

/-- The example encoding of the spec: a fresh 256-slot table with glyph `A`
(id 34) encoded at 0x41, `f` (id 71) at 0x66 and `i` (id 74) at 0x69. -/
def state_A_f_i : GsubEncoding :=
  (((encode 0x41 34 (GsubEncoding.init 300)).bind (encode 0x66 71)).bind
    (encode 0x69 74)).getD (GsubEncoding.init 300)

/-- Two pair kerns for `(A, f)` and two single positionings for `f`. -/
def sample_positionings : List Positioning :=
  [.pairkern 34 71 10, .pairkern 34 71 5, .single 71 1 2 3, .single 71 4 5 6]

/-- The tracker of a substitution pass is sized to the table at the start of
the pass, which the table has not shrunk below, and every code in state
`CH_SOME` has its bit vector allocated. -/
def SubstPass.WF (p : SubstPass) : Prop :=
  p.changed.length = p.changed_context.length ∧
  p.changed.length ≤ p.st._encoding.length ∧
  ∀ e, vec_at p.changed e = some CH_SOME → ∃ v, vec_at p.changed_context e = some (some v)

/-- The output glyph of a substitution is a glyph id, not negative. -/
def Substitution.out_nonneg : Substitution → Prop
  | .single _ o => 0 ≤ o
  | .alternate _ o => 0 ≤ o
  | .ligature _ o => 0 ≤ o
  | .single_rcontext _ _ o => 0 ≤ o
  | .single_lcontext _ _ o => 0 ≤ o
  | .other => True

/-- `st2` differs from `st` at most in the table and the reverse map. -/
def SameTables (st st2 : GsubEncoding) : Prop :=
  st2 = { st with _encoding := st2._encoding, _emap := st2._emap }

/-- What rules of a substitution pass may do between two states of the pass:
the tracker keeps its size, ligatures are only appended, the table does not
shrink, a code that is `CH_ALL` stays so, a code that is `CH_NO` afterwards was
`CH_NO` before, and a slot keeps its glyph unless its code goes from `CH_NO` to
`CH_ALL`. -/
def PassStep (p p2 : SubstPass) : Prop :=
  p2.changed.length = p.changed.length ∧
  (∃ new, p2.st._ligatures = p.st._ligatures ++ new) ∧
  p.st._encoding.length ≤ p2.st._encoding.length ∧
  (∀ e, vec_at p.changed e = some CH_ALL → vec_at p2.changed e = some CH_ALL) ∧
  (∀ e, vec_at p2.changed e = some CH_NO → vec_at p.changed e = some CH_NO) ∧
  (∀ e x, vec_at p.st._encoding e = some x → vec_at p2.st._encoding e = some x ∨
    (vec_at p.changed e = some CH_NO ∧ vec_at p2.changed e = some CH_ALL))

instance (s : Substitution) : Decidable s.out_nonneg := by
  cases s <;> unfold Substitution.out_nonneg <;> exact inferInstance

/-! ## `simplify_ligatures` -/

/-- `GsubEncoding::find_skippable_twoligature`; the value of the constant
`FAKE_LIGATURE`, declared in the header that is not among these sources, is the
argument `fake`. -/
def find_skippable_twoligature (a b : Int) (add_fake : Bool) (fake : Int)
    (st : GsubEncoding) : Int × GsubEncoding :=
  match st._ligatures.find? (fun l => l.in_ = [a, b] ∧ l.skip = 0 ∧ l.context = 0) with
  | some l => (l.out, st)
  | none =>
    if add_fake then
      (((st._encoding ++ [fake]).length : Int) - 1,
        { st with _encoding := st._encoding ++ [fake],
                  _fake_ligatures := st._fake_ligatures ++
                    [{ in_ := [a, b], out := ((st._encoding ++ [fake]).length : Int) - 1,
                       skip := 0, context := 0 }] })
    else (-1, st)

/-- The inner loop of the first pass of `simplify_ligatures`,
`if (_ligatures[j].in[0] == c) goto must_skip`: whether it jumps. -/
def first_input_is (c : Int) : List Ligature → Option Bool
  | [] => some false
  | l :: ls =>
    match vec_at l.in_ 0 with
    | none => none
    | some a => if a = c then some true else first_input_is c ls

/-- The first pass of `simplify_ligatures` ("mark ligatures as skippable") over
the entries still to visit; `all` is the whole table, of which the inner loop
reads only the inputs, which this pass does not change. -/
def mark_skippable (all : List Ligature) : List Ligature → Option (List Ligature)
  | [] => some []
  | l :: ls =>
    match first_input_is l.out all with
    | none => none
    | some found =>
      match mark_skippable all ls with
      | none => none
      | some ls2 => some ((if found = true then l else { l with skip := 0 }) :: ls2)

/-- `n` iterations of the loop `while (l.in.size() > 2)` of `simplify_ligatures`
for the entry `l = _ligatures[i]`. -/
def reduce_steps (add_fake : Bool) (fake : Int) (i : Nat) :
    Nat → GsubEncoding → Option GsubEncoding
  | 0, st => some st
  | n + 1, st =>
    match st._ligatures[i]? with
    | none => none
    | some l =>
      match l.in_ with
      | a :: b :: rest =>
        reduce_steps add_fake fake i n
          { (find_skippable_twoligature a b add_fake fake st).2 with
            _ligatures := (find_skippable_twoligature a b add_fake fake st).2._ligatures.set i
              { l with in_ := (find_skippable_twoligature a b add_fake fake st).1 :: rest } }
      | _ => none

/-- The loop `while (l.in.size() > 2)` for the entry `_ligatures[i]`: each
iteration shortens `l.in` by one, so it runs `l.in.size() - 2` times. -/
def reduce_ligature (add_fake : Bool) (fake : Int) (i : Nat) (st : GsubEncoding) :
    Option GsubEncoding :=
  match st._ligatures[i]? with
  | none => none
  | some l => reduce_steps add_fake fake i (l.in_.length - 2) st

/-- The second pass of `simplify_ligatures` ("actually simplify"), with `n`
entries left from index `i`. -/
def reduce_all (add_fake : Bool) (fake : Int) : Nat → Nat → GsubEncoding → Option GsubEncoding
  | 0, _, st => some st
  | n + 1, i, st =>
    match reduce_ligature add_fake fake i st with
    | none => none
    | some st2 => reduce_all add_fake fake n (i + 1) st2

/-- The inner loop of the third pass for the entry `l`, applied to a later
entry `ll`: `if (ll.in.size() >= l.in.size() && memcmp(...) == 0) ll.in[0] = -1`. -/
def invalidate_if_redundant (l ll : Ligature) : Ligature :=
  if l.in_.length ≤ ll.in_.length ∧ ll.in_.take l.in_.length = l.in_ then
    { ll with in_ := ll.in_.set 0 (-1) }
  else ll

/-- The third pass of `simplify_ligatures` ("remove redundant ligatures") over
the entries still to visit, one per unit of fuel. -/
def remove_redundant : Nat → List Ligature → Option (List Ligature)
  | 0, ls => some ls
  | _ + 1, [] => some []
  | n + 1, l :: ls =>
    match vec_at l.in_ 0 with
    | none => none
    | some a =>
      match remove_redundant n (if a < 0 then ls else ls.map (invalidate_if_redundant l)) with
      | none => none
      | some ls2 => some (l :: ls2)

/-- The fourth pass of `simplify_ligatures` ("remove null ligatures"). -/
def remove_null : List Ligature → Option (List Ligature)
  | [] => some []
  | l :: ls =>
    match vec_at l.in_ 0 with
    | none => none
    | some a =>
      match remove_null ls with
      | none => none
      | some ls2 =>
        some ((if 0 ≤ a ∧ 0 ≤ l.context ∧ (l.in_.length : Int) = l.context + 1 ∧ a = l.out then
                { l with in_ := l.in_.set 0 (-1) } else l) :: ls2)

/-- `GsubEncoding::simplify_ligatures`. -/
def simplify_ligatures (add_fake : Bool) (fake : Int) (st : GsubEncoding) :
    Option GsubEncoding :=
  match mark_skippable st._ligatures st._ligatures with
  | none => none
  | some ls1 =>
    match reduce_all add_fake fake ls1.length 0 { st with _ligatures := ls1 } with
    | none => none
    | some st2 =>
      match remove_redundant st2._ligatures.length st2._ligatures with
      | none => none
      | some ls3 =>
        match remove_null ls3 with
        | none => none
        | some ls4 => some { st2 with _ligatures := ls4 }

/-- Among the entries `ls` there is a two-input step from `x` and `c` to `y`:
an entry with output `y` and inputs `[x, c]`, or `[-1, c]` when its first input
has been overwritten. -/
def LigStep (ls : List Ligature) (x c y : Int) : Prop :=
  ∃ l ∈ ls, l.out = y ∧ (l.in_ = [x, c] ∨ l.in_ = [-1, c])

/-- A chain of two-input steps among the entries `ls` that starts from `x`,
takes the codes `cs` one by one and ends in `y`. -/
def LigChain (ls : List Ligature) : Int → List Int → Int → Prop
  | _, [], _ => False
  | x, [c], y => LigStep ls x c y
  | x, c :: c2 :: cs, y => ∃ m, LigStep ls x c m ∧ LigChain ls m (c2 :: cs) y

/-- Every two-input step among `ls` is still a step among `ls2`. -/
def LigKeeps (ls ls2 : List Ligature) : Prop :=
  ∀ x c y, LigStep ls x c y → LigStep ls2 x c y

/-- The entry `l2` is `l` with the same output and the same inputs, but for a
first input that may have been overwritten with `-1`. -/
def Invalidated (l l2 : Ligature) : Prop :=
  l2.out = l.out ∧ (l2.in_ = l.in_ ∨ l2.in_ = l.in_.set 0 (-1))

/-- A five-slot table holding `f` (id 71) at code 1, `i` (id 74) at code 2 and
`l` (id 75) at code 3, with empty tables. -/
def state_f_i_l : GsubEncoding :=
  { _encoding := [0, 71, 74, 75, 0], _boundary_glyph := 300,
    _ligatures := [], _fake_ligatures := [], _kerns := [], _vfpos := [], _emap := [] }

/-- The state `apply` produces from `state_f_i_l` and the two ligature rules
`f i -> 110` and `f i -> 111` with the same inputs. -/
def state_two_fi : GsubEncoding :=
  ((apply [.ligature [71, 74] 110, .ligature [71, 74] 111] true state_f_i_l).map
    (fun r => r.2)).getD state_f_i_l

/-- The state `apply` produces from `state_f_i_l` and the ligature rules
`f f i -> 112` and `f i -> 110`. -/
def state_ffi : GsubEncoding :=
  ((apply [.ligature [71, 71, 74] 112, .ligature [71, 74] 110] true state_f_i_l).map
    (fun r => r.2)).getD state_f_i_l

/-- The test `s.is_single() || s.is_alternate()` of `apply`. -/
def Substitution.is_single_or_alternate : Substitution → Bool
  | .single _ _ => true
  | .alternate _ _ => true
  | _ => false

/-- The substitution is of one of the five kinds `apply` tests for. -/
def Substitution.is_known : Substitution → Bool
  | .other => false
  | _ => true

/-- Whether the loop of `apply` reaches a `success++` for the rule: a single or
alternate rule only under `allow_single`, a ligature or context rule always. -/
def Substitution.counted (allow_single : Bool) (s : Substitution) : Bool :=
  s.is_known && (allow_single || !s.is_single_or_alternate)

/-! ## `setting` -/

/-- Modelled from the spec: the operation codes of `Setting`, declared in the
header that is not among these sources ("ordered list of {move/show}
operations"); `setting` uses `SHOW`, `HMOVETO` and `VMOVETO`. -/
inductive SettingOp where
  | SHOW
  | HMOVETO
  | VMOVETO
deriving DecidableEq, Repr

/-- Modelled from the spec: `Setting`, an operation code with its argument, as
built by the calls `Setting(op, x)` of `setting`. -/
structure Setting where
  op : SettingOp
  x : Int
deriving DecidableEq, Repr

/-- The loop of `setting` that looks for the `_vfpos` entry of `code`: the
values of `pdx`, `pdy` and `adx` after it. -/
def setting_vfpos (code : Int) : List Vfpos → Int × Int × Int
  | [] => (0, 0, 0)
  | p :: ps => if p.in_ = code then (p.pdx, p.pdy, p.adx) else setting_vfpos code ps

/-- `GsubEncoding::setting`: the returned flag and the vector `v`. -/
def setting (st : GsubEncoding) (code : Int) : Option (Bool × List Setting) :=
  if code < 0 ∨ (st._encoding.length : Int) ≤ code then some (false, [])
  else
    let pdx := (setting_vfpos code st._vfpos).1
    let pdy := (setting_vfpos code st._vfpos).2.1
    let adx := (setting_vfpos code st._vfpos).2.2
    match vec_at st._encoding code with
    | none => none
    | some g =>
      if g ≤ 0 then some (false, [])
      else
        some (true,
          (if pdx ≠ 0 then [{ op := .HMOVETO, x := pdx }] else []) ++
          (if pdy ≠ 0 then [{ op := .VMOVETO, x := pdy }] else []) ++
          [{ op := .SHOW, x := g }] ++
          (if pdy ≠ 0 then [{ op := .VMOVETO, x := -pdy }] else []) ++
          (if adx - pdx ≠ 0 then [{ op := .HMOVETO, x := adx - pdx }] else []))

/-- The sum of the amounts of the operations `op` in a list of settings. -/
def moved (op : SettingOp) (v : List Setting) : Int :=
  ((v.filter (fun s => s.op = op)).map Setting.x).sum

/-- The offsets of the first `_vfpos` entry for `code`, zero when there is
none. -/
def vfpos_offsets (st : GsubEncoding) (code : Int) : Int × Int × Int :=
  match st._vfpos.find? (fun p => p.in_ = code) with
  | some p => (p.pdx, p.pdy, p.adx)
  | none => (0, 0, 0)

/-- A reference encoding that has some glyph `c` at code 0: no name of
`sample_names` is mapped to a code, and code 0 is taken. -/
def ref_c_at_0 : DvipsEncoding :=
  { encoding_of := fun s => if s = "c" then 0 else -1, encoded := fun c => decide (c = 0) }

/-- A four-slot table `[empty, empty, a, b]` whose only ligature refers to
codes 2 and 3. -/
def state_two_free : GsubEncoding :=
  { _encoding := [0, 0, 1, 2], _boundary_glyph := 10,
    _ligatures := [{ in_ := [2, 3], out := 3, skip := 1, context := 0 }],
    _fake_ligatures := [], _kerns := [], _vfpos := [], _emap := [] }

/-- Bookkeeping of the placements of `shrink_encoding`, between the table
`enc0` at the call and the current table `enc`: every slot holds a glyph and
has a new position of `-1` or more; a slot that has been placed sits at a code
below `size` that was empty at the call and now holds its glyph; no two slots
have been placed at the same code; and a code that is empty now was empty at
the call. -/
def Placed (size : Nat) (enc0 enc : List Int) (slots : List Slot) : Prop :=
  (∀ s ∈ slots, s.value ≠ 0 ∧ -1 ≤ s.new_position) ∧
  (∀ s ∈ slots, 0 ≤ s.new_position → s.new_position < size ∧
    vec_at enc0 s.new_position = some 0 ∧ vec_at enc s.new_position = some s.value) ∧
  (∀ (k j : Nat) (s t : Slot), slots[k]? = some s → slots[j]? = some t → k ≠ j →
    0 ≤ s.new_position → s.new_position ≠ t.new_position) ∧
  (∀ i, vec_at enc i = some 0 → vec_at enc0 i = some 0)

/-- The ligature table after the first two passes of `simplify_ligatures`, the
marking and the reduction to two inputs. -/
def reduced_ligatures (add_fake : Bool) (fake : Int) (st : GsubEncoding) :
    Option (List Ligature) :=
  match mark_skippable st._ligatures st._ligatures with
  | none => none
  | some ls1 =>
    (reduce_all add_fake fake ls1.length 0 { st with _ligatures := ls1 }).map
      (fun st2 => st2._ligatures)

/-- The entry `l2` is `l`, but for a first input that may have been overwritten
with `-1`. -/
def Overwritten (l l2 : Ligature) : Prop :=
  l2 = l ∨ l2 = { l with in_ := l.in_.set 0 (-1) }

/-- The entry `l2` is `l` after the reduction loop: the same output, `skip`
and `context`, at most two inputs, and the same inputs when `l` had at most
two. -/
def Reduced (l l2 : Ligature) : Prop :=
  l2.out = l.out ∧ l2.skip = l.skip ∧ l2.context = l.context ∧
    l2.in_.length = min l.in_.length 2 ∧ (l.in_.length ≤ 2 → l2 = l)

/-- A six-slot table with the two ligatures `1 2 -> 3` and `3 4 -> 5`, as
`apply` leaves them (`skip = 1`): the output of the first is the first input of
the second. -/
def state_chained : GsubEncoding :=
  { _encoding := [0, 11, 12, 13, 14, 15], _boundary_glyph := 300,
    _ligatures := [{ in_ := [1, 2], out := 3, skip := 1, context := 0 },
                   { in_ := [3, 4], out := 5, skip := 1, context := 0 }],
    _fake_ligatures := [], _kerns := [], _vfpos := [], _emap := [] }

/-- The entry `l2` is `l` after the marking pass over the table `all`: nothing
but `skip` has changed; `skip` is kept when the output of `l` is the first
input of some entry of `all`, and is 0 otherwise. -/
def Marked (all : List Ligature) (l l2 : Ligature) : Prop :=
  l2.in_ = l.in_ ∧ l2.out = l.out ∧ l2.context = l.context ∧
    ((∃ m ∈ all, vec_at m.in_ 0 = some l.out) → l2.skip = l.skip) ∧
    ((∀ m ∈ all, vec_at m.in_ 0 ≠ some l.out) → l2.skip = 0)

/-- A ten-slot table with the two ligatures `1 2 3 -> 8` and `5 6 3 7 -> 9`, as
`apply` leaves them, and no two-input ligature. -/
def state_long_ligs : GsubEncoding :=
  { _encoding := [0, 11, 12, 13, 0, 15, 16, 17, 18, 19], _boundary_glyph := 300,
    _ligatures := [{ in_ := [1, 2, 3], out := 8, skip := 1, context := 0 },
                   { in_ := [5, 6, 3, 7], out := 9, skip := 1, context := 0 }],
    _fake_ligatures := [], _kerns := [], _vfpos := [], _emap := [] }

/-- The state `apply` produces from `state_f_i_l` and the left-context rule
"`i` after `f` becomes `i`", a substitution that changes nothing. -/
def state_left_null : GsubEncoding :=
  ((apply [.single_lcontext 71 74 74] true state_f_i_l).map (fun r => r.2)).getD state_f_i_l

/-- The state `apply` produces from `state_f_i_l` and the right-context rule
"`f` before `i` becomes `f`", a substitution that changes nothing, followed by
the ligature rule `f i -> 110`. -/
def state_right_null : GsubEncoding :=
  ((apply [.single_rcontext 71 74 71, .ligature [71, 74] 110] true state_f_i_l).map
    (fun r => r.2)).getD state_f_i_l

/-- A table with three two-input ligatures for the same pair `1 2`. -/
def state_three_fi : GsubEncoding :=
  { state_f_i_l with
    _ligatures := [{ in_ := [1, 2], out := 3, skip := 1, context := 0 },
                   { in_ := [1, 2], out := 4, skip := 1, context := 0 },
                   { in_ := [1, 2], out := 0, skip := 1, context := 0 }] }

/-- The state `apply` produces from `state_f_i_l` and the right-context rule
"`f` before `i` becomes glyph 99" followed by the single rule `f -> l`, whose
output glyph `l` is already encoded at code 3. -/
def state_context_then_single : GsubEncoding :=
  ((apply [.single_rcontext 71 74 99, .single 71 75] true state_f_i_l).map
    (fun r => r.2)).getD state_f_i_l

/-- The pass state after the right-context rule "`f` before `i` becomes glyph
99" on `state_f_i_l`: code 1 is `CH_SOME` with code 2 recorded. -/
def pass_after_context : SubstPass :=
  (apply_loop true [.single_rcontext 71 74 99] (SubstPass.start state_f_i_l)).getD
    (SubstPass.start state_f_i_l)

/-- Every tracker entry of a substitution pass is one of the three states, and
every bit-set that has been allocated has one bit per tracker entry. -/
def SubstPass.Sized (p : SubstPass) : Prop :=
  (∀ c ∈ p.changed, c = CH_NO ∨ c = CH_SOME ∨ c = CH_ALL) ∧
  (∀ v, some v ∈ p.changed_context → v.length = p.changed_context.length)

/-- What one rule may do to the tracker: nothing; or mark a code `CH_ALL`; or,
for a pair of codes inside the tracker whose first code is not `CH_ALL`, mark
the first code `CH_SOME` and set the bit of the second code in the bit-set of
the first, allocated if it was not. -/
def TrackerStep (p p2 : SubstPass) : Prop :=
  (p2.changed = p.changed ∧ p2.changed_context = p.changed_context) ∨
  (∃ e : Int, 0 ≤ e ∧ p2.changed = p.changed.set e.toNat CH_ALL ∧
    p2.changed_context = p.changed_context) ∨
  (∃ (e1 e2 : Int) (v0 : Option (List Bool)), 0 ≤ e1 ∧ 0 ≤ e2 ∧
    e1 < p.changed_context.length ∧ e2 < p.changed_context.length ∧
    vec_at p.changed_context e1 = some v0 ∧
    (∃ c, vec_at p.changed e1 = some c ∧ c ≠ CH_ALL) ∧
    p2.changed = p.changed.set e1.toNat CH_SOME ∧
    p2.changed_context = p.changed_context.set e1.toNat
      (some (bit_set (v0.getD (bitvec_new p.changed_context.length)) e2)))

/-- Between two states of a pass the tracker keeps its length and no entry
decreases (`CH_NO < CH_SOME < CH_ALL`). -/
def TrackerMono (p p2 : SubstPass) : Prop :=
  p2.changed.length = p.changed.length ∧
  ∀ e c1 c2, vec_at p.changed e = some c1 → vec_at p2.changed e = some c2 → c1 ≤ c2

/-- The pass state at the start of `apply` on `state_f_i_l`. -/
def start_f_i_l : SubstPass := SubstPass.start state_f_i_l

/-- What the reduction with synthesis does to the table and the fake-ligature
table between two states: fake ligatures are appended, one slot holding `fake`
is appended to the table for each, and the `k`-th appended fake ligature has two
inputs, `skip = 0`, `context = 0` and the `k`-th appended slot as output. -/
def FakesAdded (fake : Int) (st st2 : GsubEncoding) : Prop :=
  ∃ new : List Ligature, st2._fake_ligatures = st._fake_ligatures ++ new ∧
    st2._encoding = st._encoding ++ List.replicate new.length fake ∧
    ∀ (k : Nat) (l : Ligature), new[k]? = some l →
      l.in_.length = 2 ∧ l.out = (st._encoding.length : Int) + k ∧ l.skip = 0 ∧ l.context = 0

/-- The state `apply` produces from `state_f_i_l` and the ligature rules
`f f i -> 112` and `f f l -> 113`, which share their first two inputs. -/
def state_ffi_ffl : GsubEncoding :=
  ((apply [.ligature [71, 71, 74] 112, .ligature [71, 71, 75] 113] true state_f_i_l).map
    (fun r => r.2)).getD state_f_i_l

/-! ## Theorems -/

theorem vec_at_succ_mem (r : List Int) (c : Int) (h1 : -1 ≤ c) (h2 : c + 1 < r.length) :
    ∃ x, vec_at r (c + 1) = some x ∧ x ∈ r := by
  have h0 : (0 : Int) ≤ c + 1 := by omega
  have h3 : (c + 1).toNat < r.length := by omega
  refine ⟨r[(c + 1).toNat], ?_, List.getElem_mem _⟩
  simp [vec_at, h0, List.getElem?_eq_getElem h3]

theorem assign_loop_spec (f : Int → Int) :
    ∀ (n : Nat) (i : Int) (r : List Int), -1 ≤ i → (i + 1).toNat + n ≤ r.length →
      ∃ r2, assign_loop f n i r = some r2 ∧ r2.length = r.length ∧
        ∀ x ∈ r2, x ∈ r ∨ ∃ k, i ≤ k ∧ k < i + n ∧ x = f k := by
  intro n
  induction n with
  | zero =>
    intro i r _ _
    exact ⟨r, rfl, rfl, fun x hx => Or.inl hx⟩
  | succ n ih =>
    intro i r hi hlen
    have h0 : (0 : Int) ≤ i + 1 := by omega
    have h1 : (i + 1).toNat < r.length := by omega
    obtain ⟨r2, hr2, hl2, hm2⟩ := ih (i + 1) (r.set (i + 1).toNat (f i)) (by omega)
      (by simp only [List.length_set]; omega)
    refine ⟨r2, ?_, ?_, ?_⟩
    · simp [assign_loop, vec_set, h0, h1, hr2]
    · simpa using hl2
    · intro x hx
      rcases hm2 x hx with h | ⟨k, hk1, hk2, hk3⟩
      · rcases List.mem_or_eq_of_mem_set h with h | h
        · exact Or.inl h
        · exact Or.inr ⟨i, le_refl _, by omega, h⟩
      · exact Or.inr ⟨k, by omega, by push_cast; omega, hk3⟩

theorem reassign_in_spec (P : Int → Prop) (r : List Int) (len : Nat) (hr : r.length = len + 1)
    (hP : ∀ x ∈ r, P x) :
    ∀ cs : List Int, (∀ c ∈ cs, -1 ≤ c ∧ c < len) →
      ∃ cs2, reassign_in r cs = some cs2 ∧ ∀ c ∈ cs2, P c := by
  intro cs
  induction cs with
  | nil => intro _; exact ⟨[], rfl, by simp⟩
  | cons c cs ih =>
    intro h
    obtain ⟨hc1, hc2⟩ := h c (List.mem_cons_self _ _)
    obtain ⟨x, hx, hxm⟩ := vec_at_succ_mem r c hc1 (by omega)
    obtain ⟨cs2, hcs2, hall⟩ := ih (fun d hd => h d (List.mem_cons_of_mem _ hd))
    refine ⟨x :: cs2, by simp [reassign_in, hx, hcs2], ?_⟩
    intro d hd
    rcases List.mem_cons.mp hd with rfl | hd
    · exact hP _ hxm
    · exact hall d hd

theorem reassign_ligatures_spec (P : Int → Prop) (r : List Int) (len : Nat)
    (hr : r.length = len + 1) (hP : ∀ x ∈ r, P x) :
    ∀ ls : List Ligature, (∀ c ∈ (ls.map Ligature.codes).flatten, -1 ≤ c ∧ c < len) →
      ∃ ls2, reassign_ligatures r ls = some ls2 ∧
        ∀ c ∈ (ls2.map Ligature.codes).flatten, P c := by
  intro ls
  induction ls with
  | nil => intro _; exact ⟨[], rfl, by simp⟩
  | cons l ls ih =>
    intro h
    have hl : ∀ c ∈ l.in_, -1 ≤ c ∧ c < len := fun c hc =>
      h c (by simp [Ligature.codes, hc])
    obtain ⟨ho1, ho2⟩ := h l.out (by simp [Ligature.codes])
    obtain ⟨ins, hins, hinsP⟩ := reassign_in_spec P r len hr hP l.in_ hl
    obtain ⟨o, ho, hom⟩ := vec_at_succ_mem r l.out ho1 (by omega)
    obtain ⟨ls2, hls2, hall⟩ := ih (fun c hc => h c (by
      simp only [List.map_cons, List.flatten_cons, List.mem_append]; exact Or.inr hc))
    refine ⟨{ l with in_ := ins, out := o } :: ls2,
      by simp [reassign_ligatures, reassign_ligature, hins, ho, hls2], ?_⟩
    intro c hc
    simp only [List.map_cons, List.flatten_cons, List.mem_append, Ligature.codes,
      List.mem_cons] at hc
    rcases hc with (rfl | hc) | hc
    · exact hP _ hom
    · exact hinsP c hc
    · exact hall c hc

theorem reassign_kerns_spec (P : Int → Prop) (r : List Int) (len : Nat)
    (hr : r.length = len + 1) (hP : ∀ x ∈ r, P x) :
    ∀ ks : List Kern, (∀ c ∈ (ks.map (fun k : Kern => [k.left, k.right])).flatten, -1 ≤ c ∧ c < len) →
      ∃ ks2, reassign_kerns r ks = some ks2 ∧
        ∀ c ∈ (ks2.map (fun k : Kern => [k.left, k.right])).flatten, P c := by
  intro ks
  induction ks with
  | nil => intro _; exact ⟨[], rfl, by simp⟩
  | cons k ks ih =>
    intro h
    obtain ⟨hl1, hl2⟩ := h k.left (by simp)
    obtain ⟨hr1, hr2⟩ := h k.right (by simp)
    obtain ⟨l2, hl, hlm⟩ := vec_at_succ_mem r k.left hl1 (by omega)
    obtain ⟨r2, hrr, hrm⟩ := vec_at_succ_mem r k.right hr1 (by omega)
    obtain ⟨ks2, hks2, hall⟩ := ih (fun c hc => h c (by
      simp only [List.map_cons, List.flatten_cons, List.mem_append]; exact Or.inr hc))
    refine ⟨{ k with left := l2, right := r2 } :: ks2,
      by simp [reassign_kerns, hl, hrr, hks2], ?_⟩
    intro c hc
    simp only [List.map_cons, List.flatten_cons, List.mem_append, List.mem_cons,
      List.mem_singleton, List.not_mem_nil, or_false] at hc
    rcases hc with (rfl | rfl) | hc
    · exact hP _ hlm
    · exact hP _ hrm
    · exact hall c hc

theorem reassign_vfpos_spec (P : Int → Prop) (r : List Int) (len : Nat)
    (hr : r.length = len + 1) (hP : ∀ x ∈ r, P x) :
    ∀ ps : List Vfpos, (∀ c ∈ ps.map (fun p : Vfpos => p.in_), -1 ≤ c ∧ c < len) →
      ∃ ps2, reassign_vfpos r ps = some ps2 ∧ ∀ c ∈ ps2.map (fun p : Vfpos => p.in_), P c := by
  intro ps
  induction ps with
  | nil => intro _; exact ⟨[], rfl, by simp⟩
  | cons p ps ih =>
    intro h
    obtain ⟨h1, h2⟩ := h p.in_ (by simp)
    obtain ⟨i2, hi, him⟩ := vec_at_succ_mem r p.in_ h1 (by omega)
    obtain ⟨ps2, hps2, hall⟩ := ih (fun c hc => h c (by
      simp only [List.map_cons, List.mem_cons]; exact Or.inr hc))
    refine ⟨{ p with in_ := i2 } :: ps2, by simp [reassign_vfpos, hi, hps2], ?_⟩
    intro c hc
    simp only [List.map_cons, List.mem_cons] at hc
    rcases hc with rfl | hc
    · exact hP _ him
    · exact hall c hc

/-- Reassignment under a map of the right length whose entries all satisfy `P`
succeeds and leaves only codes satisfying `P`; the table itself is untouched. -/
theorem reassign_codes_spec (P : Int → Prop) (r : List Int) (st : GsubEncoding)
    (hr : r.length = st._encoding.length + 1) (hP : ∀ x ∈ r, P x)
    (h : ∀ c ∈ referenced_codes st, -1 ≤ c ∧ c < st._encoding.length) :
    ∃ st2, reassign_codes r st = some st2 ∧ st2._encoding = st._encoding ∧
      ∀ c ∈ referenced_codes st2, P c := by
  simp only [referenced_codes, List.mem_append] at h
  obtain ⟨ligs, h1, h1P⟩ := reassign_ligatures_spec P r _ hr hP st._ligatures
    (fun c hc => h c (Or.inl (Or.inl (Or.inl hc))))
  obtain ⟨fakes, h2, h2P⟩ := reassign_ligatures_spec P r _ hr hP st._fake_ligatures
    (fun c hc => h c (Or.inl (Or.inl (Or.inr hc))))
  obtain ⟨ks, h3, h3P⟩ := reassign_kerns_spec P r _ hr hP st._kerns
    (fun c hc => h c (Or.inl (Or.inr hc)))
  obtain ⟨ps, h4, h4P⟩ := reassign_vfpos_spec P r _ hr hP st._vfpos
    (fun c hc => h c (Or.inr hc))
  refine ⟨{ st with _ligatures := ligs, _fake_ligatures := fakes, _kerns := ks, _vfpos := ps,
                    _emap := [] }, by simp only [reassign_codes, h1, h2, h3, h4], rfl, ?_⟩
  intro c hc
  simp only [referenced_codes, List.mem_append] at hc
  rcases hc with ((hc | hc) | hc) | hc
  · exact h1P c hc
  · exact h2P c hc
  · exact h3P c hc
  · exact h4P c hc

theorem length_resize {α : Type} (v : List α) (nn : Nat) (e : α) :
    (resize v nn e).length = nn := by
  simp only [resize, List.length_append, List.length_take, List.length_replicate]
  omega

theorem cut_reassignment_spec (len size : Nat) (h : size < len) :
    ∃ r, cut_reassignment len size = some r ∧ r.length = len + 1 ∧
      ∀ x ∈ r, x = -1 ∨ (0 ≤ x ∧ x < size) := by
  obtain ⟨r1, h1, hl1, hm1⟩ := assign_loop_spec (fun i => i) (size + 1) (-1)
    (List.replicate (len + 1) (-1)) (le_refl _) (by simp; omega)
  obtain ⟨r2, h2, hl2, hm2⟩ := assign_loop_spec (fun _ => -1) (len - size) size r1
    (by omega) (by rw [hl1]; simp; omega)
  refine ⟨r2, by simp [cut_reassignment, h1, h2], by simp [hl2, hl1], ?_⟩
  intro x hx
  rcases hm2 x hx with hx | ⟨_, _, _, hk⟩
  · rcases hm1 x hx with hx | ⟨k, hk1, hk2, hk3⟩
    · exact Or.inl (List.eq_of_mem_replicate hx)
    · subst hk3
      push_cast at hk2
      omega
  · exact Or.inl hk

/-- C1. No dangling codes after `cut_encoding`: from a state whose referenced
codes all lie in `[-1, table length)`, `cut_encoding size` completes, leaves a
table of exactly `size` slots, and every code referenced by a ligature, fake
ligature, kern or vfpos entry is `-1` or lies in `[0, size)`. -/
theorem cut_encoding_no_dangling (st : GsubEncoding) (size : Nat)
    (h : ∀ c ∈ referenced_codes st, -1 ≤ c ∧ c < st._encoding.length) :
    ∃ st2, cut_encoding size st = some st2 ∧ st2._encoding.length = size ∧
      ∀ c ∈ referenced_codes st2, c = -1 ∨ (0 ≤ c ∧ c < size) := by
  by_cases hle : st._encoding.length ≤ size
  · refine ⟨{ st with _encoding := resize st._encoding size 0 },
      by simp only [cut_encoding, hle, if_true], length_resize _ _ _, ?_⟩
    intro c hc
    have hc2 := h c hc
    omega
  · obtain ⟨r, hr, hrl, hrP⟩ := cut_reassignment_spec st._encoding.length size (by omega)
    obtain ⟨st2, hst2, _, hP⟩ := reassign_codes_spec
      (fun x => x = -1 ∨ (0 ≤ x ∧ x < size)) r st hrl hrP h
    exact ⟨{ st2 with _encoding := resize st2._encoding size 0 },
      by simp only [cut_encoding, hle, if_false, hr, hst2], length_resize _ _ _, hP⟩

theorem cut_encoding_no_dangling_witness :
    (∀ c ∈ referenced_codes sample_state, -1 ≤ c ∧ c < sample_state._encoding.length) ∧
    ∃ st2, cut_encoding 2 sample_state = some st2 ∧ st2._encoding.length = 2 ∧
      ∀ c ∈ referenced_codes st2, c = -1 ∨ (0 ≤ c ∧ c < 2) :=
  ⟨by decide, cut_encoding_no_dangling sample_state 2 (by decide)⟩

theorem vec_at_eq_some_of_lt {α : Type} (v : List α) (i : Int) (h0 : 0 ≤ i) (h1 : i < v.length) :
    ∃ x, vec_at v i = some x := by
  have h3 : i.toNat < v.length := by omega
  exact ⟨v[i.toNat], by simp [vec_at, h0, List.getElem?_eq_getElem h3]⟩

theorem vec_set_eq_some {α : Type} (v : List α) (i : Int) (x : α) (h0 : 0 ≤ i)
    (h1 : i < v.length) : vec_set v i x = some (v.set i.toNat x) := by
  have h3 : i.toNat < v.length := by omega
  simp [vec_set, h0, h3]

theorem vec_at_set_ne {α : Type} (v : List α) (i j : Int) (x : α) (h0 : 0 ≤ i)
    (hne : i ≠ j) : vec_at (v.set i.toNat x) j = vec_at v j := by
  by_cases hj : 0 ≤ j
  · have : i.toNat ≠ j.toNat := by omega
    simp [vec_at, hj, List.getElem?_set_ne this]
  · simp [vec_at, hj]

theorem vec_at_set_eq {α : Type} (v : List α) (i : Int) (x : α) (h0 : 0 ≤ i)
    (h1 : i < v.length) : vec_at (v.set i.toNat x) i = some x := by
  have h3 : i.toNat < v.length := by omega
  simp [vec_at, h0, h3]

theorem collect_slots_spec : ∀ (gs : List Int) (i : Int) (s : Slot), s ∈ collect_slots gs i →
    i ≤ s.position ∧ s.position < i + gs.length ∧ s.new_position = -1 ∧ s.value ≠ 0 ∧
      gs[(s.position - i).toNat]? = some s.value := by
  intro gs
  induction gs with
  | nil => intro i s hs; simp [collect_slots] at hs
  | cons g gs ih =>
    intro i s hs
    have key : s ∈ collect_slots gs (i + 1) →
        i ≤ s.position ∧ s.position < i + (g :: gs).length ∧ s.new_position = -1 ∧
          s.value ≠ 0 ∧ (g :: gs)[(s.position - i).toNat]? = some s.value := by
      intro h
      obtain ⟨h1, h2, h3, h4, h5⟩ := ih (i + 1) s h
      refine ⟨by omega, by simp only [List.length_cons]; push_cast; omega, h3, h4, ?_⟩
      have e : (s.position - i).toNat = (s.position - (i + 1)).toNat + 1 := by omega
      rw [e, List.getElem?_cons_succ]
      exact h5
    unfold collect_slots at hs
    split at hs
    · rcases List.mem_cons.mp hs with rfl | hs
      · refine ⟨le_refl _, by simp, rfl, by assumption, by simp⟩
      · exact key hs
    · exact key hs

theorem SlotsOk.of_agree {size : Nat} {glyph_names : List String} {enc enc2 : List Int}
    {slots : List Slot} (h : SlotsOk size glyph_names enc slots)
    (hlen : enc2.length = enc.length)
    (hag : ∀ i : Int, (size : Int) ≤ i → vec_at enc2 i = vec_at enc i) :
    SlotsOk size glyph_names enc2 slots := by
  intro s hs
  obtain ⟨h1, h2, h3, h4, h5, h6, h7⟩ := h s hs
  exact ⟨h1, by rw [hlen]; exact h2, h3, h4, by rw [hag _ h1]; exact h5, h6, h7⟩

theorem prefer_old_slots_spec (dvipsenc : DvipsEncoding) (glyph_names : List String) (size : Nat)
    (href : ∀ nm ∈ glyph_names, dvipsenc.encoding_of nm < size) :
    ∀ (slots : List Slot) (enc : List Int), size < enc.length →
      SlotsOk size glyph_names enc slots →
      ∃ slots1 enc1, prefer_old_slots dvipsenc glyph_names slots enc = some (slots1, enc1) ∧
        enc1.length = enc.length ∧ slots1.length = slots.length ∧
        (∀ i : Int, (size : Int) ≤ i → vec_at enc1 i = vec_at enc i) ∧
        SlotsOk size glyph_names enc1 slots1 := by
  intro slots
  induction slots with
  | nil =>
    intro enc _ _
    exact ⟨[], enc, rfl, rfl, rfl, fun _ _ => rfl, by intro s hs; simp at hs⟩
  | cons s ss ih =>
    intro enc hsize hok
    obtain ⟨h1, h2, h3, h4, h5, h6, h7⟩ := hok s (List.mem_cons_self _ _)
    have hss : SlotsOk size glyph_names enc ss := fun t ht => hok t (List.mem_cons_of_mem _ ht)
    -- the continuation that leaves the table alone
    have keep : ∀ r, (match prefer_old_slots dvipsenc glyph_names ss enc with
          | none => none
          | some (ss2, enc3) => some (s :: ss2, enc3)) = r →
        ∃ slots1 enc1, r = some (slots1, enc1) ∧
          enc1.length = enc.length ∧ slots1.length = (s :: ss).length ∧
          (∀ i : Int, (size : Int) ≤ i → vec_at enc1 i = vec_at enc i) ∧
          SlotsOk size glyph_names enc1 slots1 := by
      intro r hr
      obtain ⟨ss2, enc3, e1, e2, e3, e4, e5⟩ := ih enc hsize hss
      rw [e1] at hr
      refine ⟨s :: ss2, enc3, hr.symm, e2, by simp [e3], e4, ?_⟩
      intro t ht
      rcases List.mem_cons.mp ht with rfl | ht
      · exact ⟨h1, by rw [e2]; exact h2, h3, h4, by rw [e4 _ h1]; exact h5, h6, h7⟩
      · exact e5 t ht
    obtain ⟨g, hg⟩ := vec_at_eq_some_of_lt glyph_names s.value h6 h7
    have hgm : g ∈ glyph_names := by
      unfold vec_at at hg
      rw [if_pos h6] at hg
      exact List.getElem?_mem hg
    unfold prefer_old_slots
    rw [hg]
    simp only
    by_cases hne : g ≠ ""
    · rw [if_pos hne]
      by_cases he : 0 ≤ dvipsenc.encoding_of g
      · rw [if_pos he]
        have helt : dvipsenc.encoding_of g < size := href g hgm
        obtain ⟨x, hx⟩ := vec_at_eq_some_of_lt enc (dvipsenc.encoding_of g) he (by omega)
        rw [hx]
        simp only
        by_cases hx0 : x = 0
        · rw [if_pos hx0, vec_set_eq_some enc _ _ he (by omega)]
          simp only
          have hag : ∀ i : Int, (size : Int) ≤ i →
              vec_at (enc.set (dvipsenc.encoding_of g).toNat s.value) i = vec_at enc i :=
            fun i hi => vec_at_set_ne enc _ i _ he (by omega)
          obtain ⟨ss2, enc3, e1, e2, e3, e4, e5⟩ :=
            ih (enc.set (dvipsenc.encoding_of g).toNat s.value) (by simpa using hsize)
              (hss.of_agree (by simp) hag)
          rw [e1]
          refine ⟨_, enc3, rfl, by simpa using e2, by simp [e3],
            fun i hi => by rw [e4 i hi, hag i hi], ?_⟩
          intro t ht
          rcases List.mem_cons.mp ht with rfl | ht
          · refine ⟨h1, by rw [e2]; simpa using h2, by simp only; omega, helt, ?_, h6, h7⟩
            simp only
            rw [e4 _ h1, hag _ h1]
            exact h5
          · exact e5 t ht
        · rw [if_neg hx0]
          exact keep _ rfl
      · rw [if_neg he]
        exact keep _ rfl
    · rw [if_neg hne]
      exact keep _ rfl

theorem place_loop_spec (dvipsenc : DvipsEncoding) (glyph_names : List String) (size : Nat) :
    ∀ (fuel slotnum e : Nat) (avoid : Bool) (slots : List Slot) (enc : List Int),
      size < enc.length → SlotsOk size glyph_names enc slots →
      (slots.length - slotnum) + (size - e) + (if avoid = true then size else 0) < fuel →
      ∃ n slots2 enc2,
        place_loop dvipsenc size fuel slotnum e avoid slots enc = some (n, slots2, enc2) ∧
        enc2.length = enc.length ∧ slots2.length = slots.length ∧
        (∀ i : Int, (size : Int) ≤ i → vec_at enc2 i = vec_at enc i) ∧
        SlotsOk size glyph_names enc2 slots2 := by
  intro fuel
  induction fuel with
  | zero => intro _ _ _ _ _ _ _ h; omega
  | succ fuel ih =>
    intro slotnum e avoid slots enc hsize hok hfuel
    unfold place_loop
    by_cases hc : slotnum < slots.length ∧ e < size
    · rw [if_pos hc]
      obtain ⟨hc1, hc2⟩ := hc
      rw [List.getElem?_eq_getElem hc1]
      simp only
      have hsm : slots[slotnum] ∈ slots := List.getElem_mem _
      obtain ⟨h1, h2, h3, h4, h5, h6, h7⟩ := hok _ hsm
      by_cases hnp : 0 ≤ slots[slotnum].new_position
      · rw [if_pos hnp]
        exact ih (slotnum + 1) e avoid slots enc hsize hok (by omega)
      · rw [if_neg hnp]
        obtain ⟨x, hx⟩ := vec_at_eq_some_of_lt enc (e : Int) (by omega) (by omega)
        rw [hx]
        simp only
        by_cases hfree : x = 0 ∧ (avoid = false ∨ dvipsenc.encoded e = false)
        · rw [if_pos hfree, vec_set_eq_some enc _ _ (by omega) (by omega)]
          simp only
          have hag : ∀ i : Int, (size : Int) ≤ i →
              vec_at (enc.set (e : Int).toNat slots[slotnum].value) i = vec_at enc i :=
            fun i hi => vec_at_set_ne enc _ i _ (by omega) (by omega)
          have hok2 : SlotsOk size glyph_names (enc.set (e : Int).toNat slots[slotnum].value)
              (slots.set slotnum { slots[slotnum] with new_position := e }) := by
            intro t ht
            rcases List.mem_or_eq_of_mem_set ht with ht | rfl
            · exact (hok.of_agree (by simp) hag) t ht
            · refine ⟨h1, by simpa using h2, by simp only; omega, by simp only; omega, ?_, h6, h7⟩
              simp only
              rw [hag _ h1]
              exact h5
          obtain ⟨n, slots2, enc2, e1, e2, e3, e4, e5⟩ :=
            ih (slotnum + 1) (e + 1) avoid _ _ (by simpa using hsize) hok2
              (by simp only [List.length_set]; omega)
          exact ⟨n, slots2, enc2, e1, by simpa using e2, by simpa using e3,
            fun i hi => by rw [e4 i hi, hag i hi], e5⟩
        · rw [if_neg hfree]
          by_cases hflip : size ≤ e + 1 ∧ avoid = true
          · rw [if_pos hflip]
            refine ih slotnum 0 false slots enc hsize hok ?_
            obtain ⟨hf1, hf2⟩ := hflip
            simp only [hf2, if_true] at hfuel
            simp only [Bool.false_eq_true, if_false]
            omega
          · rw [if_neg hflip]
            refine ih slotnum (e + 1) avoid slots enc hsize hok ?_
            omega
    · rw [if_neg hc]
      exact ⟨slotnum, slots, enc, rfl, rfl, rfl, fun _ _ => rfl, hok⟩

theorem unencoded_names_spec (glyph_names : List String) (size : Nat) (enc : List Int) :
    ∀ slots : List Slot, SlotsOk size glyph_names enc slots →
      ∃ nms, unencoded_names glyph_names enc slots = some nms := by
  intro slots
  induction slots with
  | nil => intro _; exact ⟨[], rfl⟩
  | cons s ss ih =>
    intro hok
    obtain ⟨_, _, _, _, h5, h6, h7⟩ := hok s (List.mem_cons_self _ _)
    obtain ⟨nm, hnm⟩ := vec_at_eq_some_of_lt glyph_names s.value h6 h7
    obtain ⟨nms, hnms⟩ := ih (fun t ht => hok t (List.mem_cons_of_mem _ ht))
    exact ⟨nm :: nms, by simp [unencoded_names, h5, hnm, hnms]⟩

theorem assign_slots_spec (P : Int → Prop) (len : Nat) :
    ∀ (slots : List Slot) (r : List Int), r.length = len + 1 → (∀ x ∈ r, P x) →
      (∀ s ∈ slots, 0 ≤ s.position ∧ s.position < len ∧ P s.new_position) →
      ∃ r2, assign_slots slots r = some r2 ∧ r2.length = len + 1 ∧ ∀ x ∈ r2, P x := by
  intro slots
  induction slots with
  | nil => intro r hr hP _; exact ⟨r, rfl, hr, hP⟩
  | cons s ss ih =>
    intro r hr hP hs
    obtain ⟨h1, h2, h3⟩ := hs s (List.mem_cons_self _ _)
    have hset := vec_set_eq_some r (s.position + 1) s.new_position (by omega) (by omega)
    obtain ⟨r2, e1, e2, e3⟩ := ih (r.set (s.position + 1).toNat s.new_position)
      (by simpa using hr)
      (fun x hx => by
        rcases List.mem_or_eq_of_mem_set hx with hx | rfl
        · exact hP x hx
        · exact h3)
      (fun t ht => hs t (List.mem_cons_of_mem _ ht))
    exact ⟨r2, by simp [assign_slots, hset, e1], e2, e3⟩

theorem collect_slots_ok (size : Nat) (glyph_names : List String) (enc : List Int)
    (hsize : size < enc.length)
    (hnames : ∀ (i g : Int), (size : Int) ≤ i → vec_at enc i = some g → g ≠ 0 →
      0 ≤ g ∧ g < glyph_names.length) :
    SlotsOk size glyph_names enc (collect_slots (enc.drop size) size) := by
  intro s hs
  obtain ⟨h1, h2, h3, h4, h5⟩ := collect_slots_spec _ _ s hs
  simp only [List.length_drop] at h2
  have hat : vec_at enc s.position = some s.value := by
    unfold vec_at
    rw [if_pos (by omega)]
    rw [List.getElem?_drop] at h5
    have e : size + (s.position - (size : Int)).toNat = s.position.toNat := by omega
    rw [e] at h5
    exact h5
  obtain ⟨h6, h7⟩ := hnames s.position s.value h1 hat h4
  exact ⟨h1, by omega, by omega, by omega, hat, h6, h7⟩

/-- Totality and the no-dangling property of `shrink_encoding`, for every
`sort` that returns a rearrangement of its argument. -/
theorem shrink_encoding_with_spec (sort : List Slot → List Slot)
    (hperm : ∀ l, (sort l).Perm l) (size : Nat) (dvipsenc : DvipsEncoding)
    (glyph_names : List String) (st : GsubEncoding)
    (h : ∀ c ∈ referenced_codes st, -1 ≤ c ∧ c < st._encoding.length)
    (hnames : ∀ (i g : Int), (size : Int) ≤ i → vec_at st._encoding i = some g → g ≠ 0 →
      0 ≤ g ∧ g < glyph_names.length)
    (href : ∀ nm ∈ glyph_names, dvipsenc.encoding_of nm < size) :
    ∃ st2 w, shrink_encoding_with sort size dvipsenc glyph_names st = some (st2, w) ∧
      st2._encoding.length = size ∧
      ∀ c ∈ referenced_codes st2, c = -1 ∨ (0 ≤ c ∧ c < size) := by
  by_cases hle : st._encoding.length ≤ size
  · refine ⟨{ st with _encoding := resize st._encoding size 0 }, none,
      by simp only [shrink_encoding_with, hle, if_true], length_resize _ _ _, ?_⟩
    intro c hc
    have hc2 := h c hc
    omega
  · have hsize : size < st._encoding.length := by omega
    have hok0 : SlotsOk size glyph_names st._encoding
        (sort (collect_slots (st._encoding.drop size) size)) :=
      fun s hs => collect_slots_ok size glyph_names st._encoding hsize hnames s
        ((hperm _).subset hs)
    obtain ⟨slots1, enc1, p1, l1, _, _, ok1⟩ :=
      prefer_old_slots_spec dvipsenc glyph_names size href _ _ hsize hok0
    obtain ⟨n, slots2, enc2, p2, l2, _, _, ok2⟩ :=
      place_loop_spec dvipsenc glyph_names size (slots1.length + 2 * size + 1) 0 0 true
        slots1 enc1 (by omega) ok1 (by simp only [if_true]; omega)
    have hw : ∃ w, (if n < slots2.length then
                (unencoded_names glyph_names enc2 (slots2.drop n)).map
                  (fun nms => some (nms.insertionSort (fun a b => ¬ b.data < a.data)))
               else some none) = some w := by
      by_cases hn : n < slots2.length
      · obtain ⟨nms, hnms⟩ := unencoded_names_spec glyph_names size enc2 (slots2.drop n)
          (fun s hs => ok2 s (List.mem_of_mem_drop hs))
        exact ⟨_, by rw [if_pos hn, hnms]; rfl⟩
      · exact ⟨none, by rw [if_neg hn]⟩
    obtain ⟨w, hw⟩ := hw
    have hlen2 : enc2.length = st._encoding.length := by rw [l2, l1]
    obtain ⟨r1, hr1, hl1, hm1⟩ := assign_loop_spec (fun i => i) (size + 1) (-1)
      (List.replicate (enc2.length + 1) (-1)) (le_refl _) (by simp; omega)
    have hP1 : ∀ x ∈ r1, x = -1 ∨ (0 ≤ x ∧ x < (size : Int)) := by
      intro x hx
      rcases hm1 x hx with hx | ⟨k, hk1, hk2, hk3⟩
      · exact Or.inl (List.eq_of_mem_replicate hx)
      · subst hk3
        push_cast at hk2
        omega
    obtain ⟨r2, hr2, hl2, hP2⟩ := assign_slots_spec
      (fun x => x = -1 ∨ (0 ≤ x ∧ x < (size : Int))) enc2.length slots2 r1
      (by simpa using hl1) hP1
      (fun s hs => by
        obtain ⟨a1, a2, a3, a4, _⟩ := ok2 s hs
        exact ⟨by omega, a2, by omega⟩)
    obtain ⟨st2, hst2, _, hP⟩ := reassign_codes_spec
      (fun x => x = -1 ∨ (0 ≤ x ∧ x < (size : Int))) r2 { st with _encoding := enc2 }
      hl2 hP2 (fun c hc => by rw [hlen2]; exact h c hc)
    refine ⟨{ st2 with _encoding := resize st2._encoding size 0 }, w, ?_,
      length_resize _ _ _, hP⟩
    simp only [shrink_encoding_with, hle, if_false, p1, p2, hw, shrink_reassignment, hr1, hr2,
      hst2]

/-- C2, as stated, fails: with a reference encoding that puts the overflow glyph
`b` at code 2, which is not below `size = 1`, `shrink_encoding` moves the
references to `b` from code 1 to code 2 and then truncates the table to one
slot. -/
theorem shrink_encoding_dangling_counterexample :
    (∀ c ∈ referenced_codes state_7_b_empty, -1 ≤ c ∧ c < state_7_b_empty._encoding.length) ∧
    ∃ st2 w, shrink_encoding 1 ref_b_at_2 sample_names state_7_b_empty = some (st2, w) ∧
      st2._encoding.length = 1 ∧
      ¬ (∀ c ∈ referenced_codes st2, c = -1 ∨ (0 ≤ c ∧ c < 1)) :=
  ⟨by decide,
   { state_7_b_empty with
       _encoding := [7],
       _ligatures := [{ in_ := [2, 0], out := 2, skip := 1, context := 0 }] },
   none, by decide, by decide, by decide⟩

/-- C2 (amended). No dangling codes after `shrink_encoding`, for every outcome
of the sort: from a state whose referenced codes all lie in `[-1, table length)`,
with a glyph-name table that has an entry for every overflow glyph and a
reference encoding that assigns only codes below `size`, the call completes,
the table has exactly `size` slots and every code referenced by a ligature,
fake ligature, kern or vfpos entry is `-1` or lies in `[0, size)`. -/
theorem shrink_encoding_no_dangling (sort : List Slot → List Slot)
    (hperm : ∀ l, (sort l).Perm l) (size : Nat) (dvipsenc : DvipsEncoding)
    (glyph_names : List String) (st : GsubEncoding)
    (h : ∀ c ∈ referenced_codes st, -1 ≤ c ∧ c < st._encoding.length)
    (hnames : ∀ (i g : Int), (size : Int) ≤ i → vec_at st._encoding i = some g → g ≠ 0 →
      0 ≤ g ∧ g < glyph_names.length)
    (href : ∀ nm ∈ glyph_names, dvipsenc.encoding_of nm < size) :
    ∃ st2 w, shrink_encoding_with sort size dvipsenc glyph_names st = some (st2, w) ∧
      st2._encoding.length = size ∧
      ∀ c ∈ referenced_codes st2, c = -1 ∨ (0 ≤ c ∧ c < size) :=
  shrink_encoding_with_spec sort hperm size dvipsenc glyph_names st h hnames href

theorem sample_overflow_named (st : GsubEncoding)
    (hval : ∀ g ∈ st._encoding, 0 ≤ g ∧ g < 3) :
    ∀ (i g : Int), ((1 : Nat) : Int) ≤ i → vec_at st._encoding i = some g → g ≠ 0 →
      0 ≤ g ∧ g < sample_names.length := by
  intro i g _ hg _
  unfold vec_at at hg
  split at hg
  · exact hval g (List.getElem?_mem hg)
  · exact absurd hg (by simp)

theorem shrink_encoding_no_dangling_witness :
    (∀ c ∈ referenced_codes state_empty_a_b, -1 ≤ c ∧ c < state_empty_a_b._encoding.length) ∧
    (∀ nm ∈ sample_names, ref_b_at_0.encoding_of nm < ((1 : Nat) : Int)) ∧
    ∃ st2 w, shrink_encoding_with (fun l => l.insertionSort (fun a b => a.value ≤ b.value))
        1 ref_b_at_0 sample_names state_empty_a_b = some (st2, w) ∧
      st2._encoding.length = 1 ∧
      ∀ c ∈ referenced_codes st2, c = -1 ∨ (0 ≤ c ∧ c < ((1 : Nat) : Int)) :=
  ⟨by decide, by decide,
   shrink_encoding_no_dangling _ (fun l => List.perm_insertionSort _ l) 1 ref_b_at_0
     sample_names state_empty_a_b (by decide)
     (sample_overflow_named state_empty_a_b (by decide)) (by decide)⟩

/-- C9 at the failing input: glyph `b` is given code 0 by the first placement
loop (the final table is `[b]` and the references to its old code 2 become 0),
yet the list handed to the warning names both `a` and `b`. -/
theorem shrink_encoding_warning_names_placed_glyph :
    shrink_encoding 1 ref_b_at_0 sample_names state_empty_a_b =
      some ({ state_empty_a_b with
                _encoding := [2],
                _ligatures := [{ in_ := [-1, 0], out := 0, skip := 1, context := 0 }] },
            some ["a", "b"]) := by
  decide

/-- One iteration of the first placement loop, read backwards: either the slot
is left alone and the table with it, or its name has a reference code whose
slot is empty, and the glyph is stored there. -/
theorem prefer_old_slots_cons (dvipsenc : DvipsEncoding) (glyph_names : List String)
    (s : Slot) (ss slots1 : List Slot) (enc enc1 : List Int)
    (hrun : prefer_old_slots dvipsenc glyph_names (s :: ss) enc = some (slots1, enc1)) :
    ∃ g, vec_at glyph_names s.value = some g ∧
      ((g ≠ "" ∧ 0 ≤ dvipsenc.encoding_of g ∧ vec_at enc (dvipsenc.encoding_of g) = some 0 ∧
          (dvipsenc.encoding_of g) < enc.length ∧
          ∃ ss2, prefer_old_slots dvipsenc glyph_names ss
              (enc.set (dvipsenc.encoding_of g).toNat s.value) = some (ss2, enc1) ∧
            slots1 = { s with new_position := dvipsenc.encoding_of g } :: ss2) ∨
       (¬ (g ≠ "" ∧ 0 ≤ dvipsenc.encoding_of g ∧
            vec_at enc (dvipsenc.encoding_of g) = some 0) ∧
          ∃ ss2, prefer_old_slots dvipsenc glyph_names ss enc = some (ss2, enc1) ∧
            slots1 = s :: ss2)) := by
  have keep : ∀ r, (match prefer_old_slots dvipsenc glyph_names ss enc with
          | none => none
          | some (ss2, enc3) => some (s :: ss2, enc3)) = r → r = some (slots1, enc1) →
        ∃ ss2, prefer_old_slots dvipsenc glyph_names ss enc = some (ss2, enc1) ∧
          slots1 = s :: ss2 := by
    intro r hr hr2
    subst hr
    split at hr2
    · exact absurd hr2 (by simp)
    · rename_i ss2 enc3 heq
      simp only [Option.some.injEq, Prod.mk.injEq] at hr2
      obtain ⟨rfl, rfl⟩ := hr2
      exact ⟨ss2, heq, rfl⟩
  unfold prefer_old_slots at hrun
  split at hrun
  · exact absurd hrun (by simp)
  · rename_i g hg
    refine ⟨g, hg, ?_⟩
    simp only at hrun
    by_cases hne : g ≠ ""
    · rw [if_pos hne] at hrun
      by_cases he : 0 ≤ dvipsenc.encoding_of g
      · rw [if_pos he] at hrun
        split at hrun
        · exact absurd hrun (by simp)
        · rename_i x hx
          by_cases hx0 : x = 0
          · rw [if_pos hx0] at hrun
            subst hx0
            left
            have hlt : dvipsenc.encoding_of g < enc.length := by
              unfold vec_at at hx
              rw [if_pos he] at hx
              have := (List.getElem?_eq_some.mp hx).1
              omega
            rw [vec_set_eq_some enc _ _ he hlt] at hrun
            simp only at hrun
            refine ⟨hne, he, hx, hlt, ?_⟩
            split at hrun
            · exact absurd hrun (by simp)
            · rename_i ss2 enc3 heq
              simp only [Option.some.injEq, Prod.mk.injEq] at hrun
              obtain ⟨rfl, rfl⟩ := hrun
              exact ⟨ss2, heq, rfl⟩
          · rw [if_neg hx0] at hrun
            right
            refine ⟨fun ⟨_, _, h3⟩ => hx0 ?_, keep _ rfl hrun⟩
            rw [hx] at h3
            exact Option.some.inj h3
      · rw [if_neg he] at hrun
        exact Or.inr ⟨fun ⟨_, h2, _⟩ => he h2, keep _ rfl hrun⟩
    · rw [if_neg hne] at hrun
      exact Or.inr ⟨fun ⟨h1, _, _⟩ => hne h1, keep _ rfl hrun⟩

theorem prefer_old_slots_keep (dvipsenc : DvipsEncoding) (glyph_names : List String) :
    ∀ (slots slots1 : List Slot) (enc enc1 : List Int),
      prefer_old_slots dvipsenc glyph_names slots enc = some (slots1, enc1) →
      slots1.map Slot.position = slots.map Slot.position ∧
      slots1.map Slot.value = slots.map Slot.value ∧
      ∀ (i x : Int), vec_at enc i = some x → x ≠ 0 → vec_at enc1 i = some x := by
  intro slots
  induction slots with
  | nil =>
    intro slots1 enc enc1 hrun
    simp only [prefer_old_slots, Option.some.injEq, Prod.mk.injEq] at hrun
    obtain ⟨rfl, rfl⟩ := hrun
    exact ⟨rfl, rfl, fun _ _ h _ => h⟩
  | cons s ss ih =>
    intro slots1 enc enc1 hrun
    obtain ⟨g, _, h | h⟩ := prefer_old_slots_cons dvipsenc glyph_names s ss slots1 enc enc1 hrun
    · obtain ⟨_, he, hfree, _, ss2, hrec, rfl⟩ := h
      obtain ⟨a1, a2, a3⟩ := ih ss2 _ enc1 hrec
      refine ⟨by simp [a1], by simp [a2], ?_⟩
      intro i x hi hx
      apply a3 i x _ hx
      have hne : dvipsenc.encoding_of g ≠ i := by
        rintro rfl
        rw [hfree] at hi
        exact hx (Option.some.inj hi).symm
      rw [vec_at_set_ne enc _ i _ he hne]
      exact hi
    · obtain ⟨_, ss2, hrec, rfl⟩ := h
      obtain ⟨a1, a2, a3⟩ := ih ss2 enc enc1 hrec
      exact ⟨by simp [a1], by simp [a2], a3⟩

/-- The first slot, in visiting order, whose name the reference encoding maps
to the empty slot `R` is stored at `R`. -/
theorem prefer_old_slots_claim (dvipsenc : DvipsEncoding) (glyph_names : List String)
    (s : Slot) (post : List Slot) (g : String) (R : Int)
    (hg : vec_at glyph_names s.value = some g) (hne : g ≠ "")
    (hR : dvipsenc.encoding_of g = R) (hR0 : 0 ≤ R) (hv : s.value ≠ 0) :
    ∀ (pre slots1 : List Slot) (enc enc1 : List Int),
      prefer_old_slots dvipsenc glyph_names (pre ++ s :: post) enc = some (slots1, enc1) →
      (∀ t ∈ pre, ∀ g2, vec_at glyph_names t.value = some g2 → g2 ≠ "" →
        dvipsenc.encoding_of g2 ≠ R) →
      vec_at enc R = some 0 →
      slots1[pre.length]? = some { s with new_position := R } ∧ vec_at enc1 R = some s.value := by
  intro pre
  induction pre with
  | nil =>
    intro slots1 enc enc1 hrun _ hfree
    obtain ⟨g2, hg2, h | h⟩ := prefer_old_slots_cons dvipsenc glyph_names s post slots1 enc enc1 hrun
    · rw [hg] at hg2
      obtain rfl := Option.some.inj hg2
      obtain ⟨_, he, _, hlt, ss2, hrec, rfl⟩ := h
      subst hR
      refine ⟨by simp, ?_⟩
      exact (prefer_old_slots_keep dvipsenc glyph_names post ss2 _ enc1 hrec).2.2 _ _
        (vec_at_set_eq enc _ _ he hlt) hv
    · rw [hg] at hg2
      obtain rfl := Option.some.inj hg2
      exact absurd ⟨hne, by rw [hR]; exact hR0, by rw [hR]; exact hfree⟩ h.1
  | cons t pre ih =>
    intro slots1 enc enc1 hrun hpre hfree
    have hrun2 : prefer_old_slots dvipsenc glyph_names (t :: (pre ++ s :: post)) enc
        = some (slots1, enc1) := hrun
    have hpre2 : ∀ u ∈ pre, ∀ g2, vec_at glyph_names u.value = some g2 → g2 ≠ "" →
        dvipsenc.encoding_of g2 ≠ R := fun u hu => hpre u (List.mem_cons_of_mem _ hu)
    obtain ⟨g2, hg2, h | h⟩ := prefer_old_slots_cons dvipsenc glyph_names t _ slots1 enc enc1 hrun2
    · obtain ⟨hne2, he, _, _, ss2, hrec, rfl⟩ := h
      have hdiff : dvipsenc.encoding_of g2 ≠ R := hpre t (List.mem_cons_self _ _) g2 hg2 hne2
      obtain ⟨a1, a2⟩ := ih ss2 _ enc1 hrec hpre2
        (by rw [vec_at_set_ne enc _ R _ he hdiff]; exact hfree)
      exact ⟨by simpa using a1, a2⟩
    · obtain ⟨_, ss2, hrec, rfl⟩ := h
      obtain ⟨a1, a2⟩ := ih ss2 enc enc1 hrec hpre2 hfree
      exact ⟨by simpa using a1, a2⟩

theorem list_set_of_getElem? {α : Type} {l : List α} {i : Nat} {a : α} (h : l[i]? = some a) :
    l.set i a = l := by
  apply List.ext_getElem?
  intro j
  rw [List.getElem?_set]
  by_cases hij : i = j
  · subst hij
    have hlt := (List.getElem?_eq_some.mp h).1
    simp [hlt, h]
  · simp [hij]

theorem place_loop_keep (dvipsenc : DvipsEncoding) (size : Nat) :
    ∀ (fuel slotnum e : Nat) (avoid : Bool) (slots : List Slot) (enc : List Int)
      (n : Nat) (slots2 : List Slot) (enc2 : List Int),
      place_loop dvipsenc size fuel slotnum e avoid slots enc = some (n, slots2, enc2) →
      slots2.map Slot.position = slots.map Slot.position ∧
      slots2.map Slot.value = slots.map Slot.value ∧
      (∀ (i x : Int), vec_at enc i = some x → x ≠ 0 → vec_at enc2 i = some x) ∧
      (∀ (k : Nat) (s : Slot), slots[k]? = some s → 0 ≤ s.new_position →
        slots2[k]? = some s) := by
  intro fuel
  induction fuel with
  | zero => intro _ _ _ _ _ _ _ _ h; simp [place_loop] at h
  | succ fuel ih =>
    intro slotnum e avoid slots enc n slots2 enc2 hrun
    unfold place_loop at hrun
    by_cases hc : slotnum < slots.length ∧ e < size
    · rw [if_pos hc] at hrun
      obtain ⟨hc1, hc2⟩ := hc
      have hget : slots[slotnum]? = some slots[slotnum] := List.getElem?_eq_getElem hc1
      rw [hget] at hrun
      simp only at hrun
      by_cases hnp : 0 ≤ slots[slotnum].new_position
      · rw [if_pos hnp] at hrun
        exact ih _ _ _ _ _ _ _ _ hrun
      · rw [if_neg hnp] at hrun
        split at hrun
        · exact absurd hrun (by simp)
        · rename_i x hx
          by_cases hfree : x = 0 ∧ (avoid = false ∨ dvipsenc.encoded e = false)
          · rw [if_pos hfree] at hrun
            split at hrun
            · exact absurd hrun (by simp)
            · rename_i enc3 hset
              have henc3 : enc3 = enc.set (e : Int).toNat slots[slotnum].value := by
                unfold vec_set at hset
                split at hset
                · exact (Option.some.inj hset).symm
                · exact absurd hset (by simp)
              subst henc3
              obtain ⟨a1, a2, a3, a4⟩ := ih _ _ _ _ _ _ _ _ hrun
              refine ⟨?_, ?_, ?_, ?_⟩
              · rw [a1, List.map_set]
                exact list_set_of_getElem? (by simp [hget])
              · rw [a2, List.map_set]
                exact list_set_of_getElem? (by simp [hget])
              · intro i y hi hy
                apply a3 i y _ hy
                have hne : (e : Int) ≠ i := by
                  rintro rfl
                  rw [hx] at hi
                  exact hy (by rw [← Option.some.inj hi]; exact hfree.1)
                rw [vec_at_set_ne enc _ i _ (by omega) hne]
                exact hi
              · intro k s hk hs
                apply a4 k s _ hs
                have hne : slotnum ≠ k := by
                  rintro rfl
                  rw [hget] at hk
                  exact hnp (by rw [Option.some.inj hk]; exact hs)
                rw [List.getElem?_set_ne hne]
                exact hk
          · rw [if_neg hfree] at hrun
            by_cases hflip : size ≤ e + 1 ∧ avoid = true
            · rw [if_pos hflip] at hrun
              exact ih _ _ _ _ _ _ _ _ hrun
            · rw [if_neg hflip] at hrun
              exact ih _ _ _ _ _ _ _ _ hrun
    · rw [if_neg hc] at hrun
      simp only [Option.some.injEq, Prod.mk.injEq] at hrun
      obtain ⟨_, rfl, rfl⟩ := hrun
      exact ⟨rfl, rfl, fun _ _ h _ => h, fun _ _ h _ => h⟩

theorem assign_slots_other (p : Int) :
    ∀ (slots : List Slot) (r r2 : List Int), assign_slots slots r = some r2 →
      (∀ t ∈ slots, t.position ≠ p) → vec_at r2 (p + 1) = vec_at r (p + 1) := by
  intro slots
  induction slots with
  | nil =>
    intro r r2 h _
    simp only [assign_slots, Option.some.injEq] at h
    rw [h]
  | cons s ss ih =>
    intro r r2 h hne
    unfold assign_slots at h
    split at h
    · exact absurd h (by simp)
    · rename_i r3 hset
      unfold vec_set at hset
      split at hset
      · rename_i hb
        obtain rfl := Option.some.inj hset
        rw [ih _ _ h (fun t ht => hne t (List.mem_cons_of_mem _ ht))]
        exact vec_at_set_ne r _ _ _ hb.1
          (by have := hne s (List.mem_cons_self _ _); omega)
      · exact absurd hset (by simp)

theorem assign_slots_lookup :
    ∀ (slots : List Slot) (r r2 : List Int), assign_slots slots r = some r2 →
      (slots.map Slot.position).Nodup →
      ∀ s ∈ slots, vec_at r2 (s.position + 1) = some s.new_position := by
  intro slots
  induction slots with
  | nil => intro _ _ _ _ s hs; simp at hs
  | cons t ss ih =>
    intro r r2 h hnd s hs
    simp only [List.map_cons, List.nodup_cons, List.mem_map, not_exists, not_and] at hnd
    unfold assign_slots at h
    split at h
    · exact absurd h (by simp)
    · rename_i r3 hset
      rcases List.mem_cons.mp hs with rfl | hs
      · rw [assign_slots_other s.position ss r3 r2 h (fun u hu => hnd.1 u hu)]
        unfold vec_set at hset
        split at hset
        · rename_i hb
          obtain rfl := Option.some.inj hset
          exact vec_at_set_eq r _ _ hb.1 (by omega)
        · exact absurd hset (by simp)
      · exact ih r3 r2 h hnd.2 s hs

theorem code_map_of_vec_at {r : List Int} {c x : Int} (h : vec_at r (c + 1) = some x) :
    code_map r c = x := by
  simp [code_map, h]

theorem reassign_in_relabel (r : List Int) :
    ∀ cs cs2 : List Int, reassign_in r cs = some cs2 → cs2 = cs.map (code_map r) := by
  intro cs
  induction cs with
  | nil => intro cs2 h; simp only [reassign_in, Option.some.injEq] at h; simp [← h]
  | cons c cs ih =>
    intro cs2 h
    unfold reassign_in at h
    split at h
    · exact absurd h (by simp)
    · rename_i c2 hc
      split at h
      · exact absurd h (by simp)
      · rename_i cs3 hcs
        obtain rfl := Option.some.inj h
        simp [code_map_of_vec_at hc, ih cs3 hcs]

theorem reassign_ligatures_relabel (r : List Int) :
    ∀ ls ls2 : List Ligature, reassign_ligatures r ls = some ls2 →
      ls2 = ls.map (Ligature.relabel (code_map r)) := by
  intro ls
  induction ls with
  | nil => intro ls2 h; simp only [reassign_ligatures, Option.some.injEq] at h; simp [← h]
  | cons l ls ih =>
    intro ls2 h
    unfold reassign_ligatures at h
    split at h
    · exact absurd h (by simp)
    · rename_i l2 hl
      split at h
      · exact absurd h (by simp)
      · rename_i ls3 hls
        obtain rfl := Option.some.inj h
        unfold reassign_ligature at hl
        split at hl
        · exact absurd hl (by simp)
        · rename_i ins hins
          split at hl
          · exact absurd hl (by simp)
          · rename_i o ho
            obtain rfl := Option.some.inj hl
            simp [Ligature.relabel, code_map_of_vec_at ho, reassign_in_relabel r _ _ hins,
              ih ls3 hls]

theorem reassign_kerns_relabel (r : List Int) :
    ∀ ks ks2 : List Kern, reassign_kerns r ks = some ks2 →
      ks2 = ks.map (Kern.relabel (code_map r)) := by
  intro ks
  induction ks with
  | nil => intro ks2 h; simp only [reassign_kerns, Option.some.injEq] at h; simp [← h]
  | cons k ks ih =>
    intro ks2 h
    unfold reassign_kerns at h
    split at h
    · exact absurd h (by simp)
    · rename_i l2 hl
      split at h
      · exact absurd h (by simp)
      · rename_i r2 hr
        split at h
        · exact absurd h (by simp)
        · rename_i ks3 hks
          obtain rfl := Option.some.inj h
          simp [Kern.relabel, code_map_of_vec_at hl, code_map_of_vec_at hr, ih ks3 hks]

theorem reassign_vfpos_relabel (r : List Int) :
    ∀ ps ps2 : List Vfpos, reassign_vfpos r ps = some ps2 →
      ps2 = ps.map (Vfpos.relabel (code_map r)) := by
  intro ps
  induction ps with
  | nil => intro ps2 h; simp only [reassign_vfpos, Option.some.injEq] at h; simp [← h]
  | cons p ps ih =>
    intro ps2 h
    unfold reassign_vfpos at h
    split at h
    · exact absurd h (by simp)
    · rename_i i2 hi
      split at h
      · exact absurd h (by simp)
      · rename_i ps3 hps
        obtain rfl := Option.some.inj h
        simp [Vfpos.relabel, code_map_of_vec_at hi, ih ps3 hps]

/-- A completed `reassign_codes` sends every code of every table through the
map, leaves the table alone and clears the reverse map. -/
theorem reassign_codes_relabel (r : List Int) (st st2 : GsubEncoding)
    (h : reassign_codes r st = some st2) :
    st2 = { st with
      _ligatures := st._ligatures.map (Ligature.relabel (code_map r)),
      _fake_ligatures := st._fake_ligatures.map (Ligature.relabel (code_map r)),
      _kerns := st._kerns.map (Kern.relabel (code_map r)),
      _vfpos := st._vfpos.map (Vfpos.relabel (code_map r)),
      _emap := [] } := by
  unfold reassign_codes at h
  split at h
  · exact absurd h (by simp)
  · rename_i ligs h1
    split at h
    · exact absurd h (by simp)
    · rename_i fakes h2
      split at h
      · exact absurd h (by simp)
      · rename_i ks h3
        split at h
        · exact absurd h (by simp)
        · rename_i ps h4
          obtain rfl := Option.some.inj h
          rw [reassign_ligatures_relabel r _ _ h1, reassign_ligatures_relabel r _ _ h2,
            reassign_kerns_relabel r _ _ h3, reassign_vfpos_relabel r _ _ h4]

theorem collect_slots_positions : ∀ (gs : List Int) (i : Int),
    ((collect_slots gs i).map Slot.position).Pairwise (fun a b => a < b) := by
  intro gs
  induction gs with
  | nil => intro i; simp [collect_slots]
  | cons g gs ih =>
    intro i
    unfold collect_slots
    split
    · simp only [List.map_cons, List.pairwise_cons, List.mem_map]
      refine ⟨?_, ih (i + 1)⟩
      rintro b ⟨s, hs, rfl⟩
      have := (collect_slots_spec gs (i + 1) s hs).1
      omega
    · exact ih (i + 1)

theorem collect_slots_mem : ∀ (gs : List Int) (i : Int) (k : Nat) (G : Int),
    gs[k]? = some G → G ≠ 0 →
      ({ position := i + k, new_position := -1, value := G } : Slot) ∈ collect_slots gs i := by
  intro gs
  induction gs with
  | nil => intro i k G h; simp at h
  | cons g gs ih =>
    intro i k G h hG
    cases k with
    | zero =>
      simp only [List.getElem?_cons_zero, Option.some.injEq] at h
      subst h
      unfold collect_slots
      rw [if_pos hG]
      simp
    | succ k =>
      simp only [List.getElem?_cons_succ] at h
      have hm := ih (i + 1) k G h hG
      have e : i + 1 + (k : Int) = i + ((k + 1 : Nat) : Int) := by push_cast; omega
      rw [e] at hm
      unfold collect_slots
      split
      · exact List.mem_cons_of_mem _ hm
      · exact hm

theorem vec_at_resize_lt {α : Type} (v : List α) (nn : Nat) (e : α) (i : Int)
    (h1 : i < nn) : vec_at (resize v nn e) i = vec_at v i ∨ vec_at v i = none := by
  by_cases h0 : 0 ≤ i
  · by_cases h2 : i.toNat < v.length
    · left
      have h3 : i.toNat < nn := by omega
      simp only [vec_at, h0, if_true, resize]
      rw [List.getElem?_append_left (by simp; omega), List.getElem?_take_of_lt h3]
    · right
      simp only [vec_at, h0, if_true]
      exact List.getElem?_eq_none (by omega)
  · right
    simp [vec_at, h0]

/-- The stages of a completed `shrink_encoding` on an oversized table. -/
theorem shrink_encoding_with_stages (sort : List Slot → List Slot) (size : Nat)
    (dvipsenc : DvipsEncoding) (glyph_names : List String) (st st2 : GsubEncoding)
    (w : Option (List String))
    (h : shrink_encoding_with sort size dvipsenc glyph_names st = some (st2, w))
    (hgt : ¬ st._encoding.length ≤ size) :
    ∃ slots1 enc1 n slots2 enc2 r1 r st3,
      prefer_old_slots dvipsenc glyph_names (sort (collect_slots (st._encoding.drop size) size))
        st._encoding = some (slots1, enc1) ∧
      place_loop dvipsenc size (slots1.length + 2 * size + 1) 0 0 true slots1 enc1
        = some (n, slots2, enc2) ∧
      assign_loop (fun i => i) (size + 1) (-1) (List.replicate (enc2.length + 1) (-1)) = some r1 ∧
      assign_slots slots2 r1 = some r ∧
      reassign_codes r { st with _encoding := enc2 } = some st3 ∧
      st2 = { st3 with _encoding := resize st3._encoding size 0 } ∧
      (if n < slots2.length then
          (unencoded_names glyph_names enc2 (slots2.drop n)).map
            (fun nms => some (nms.insertionSort (fun a b => ¬ b.data < a.data)))
        else some none) = some w := by
  unfold shrink_encoding_with at h
  rw [if_neg hgt] at h
  simp only at h
  split at h
  · exact absurd h (by simp)
  · rename_i slots1 enc1 h1
    split at h
    · exact absurd h (by simp)
    · rename_i n slots2 enc2 h2
      split at h
      · exact absurd h (by simp)
      · rename_i w2 hw
        split at h
        · exact absurd h (by simp)
        · rename_i r hr
          split at h
          · exact absurd h (by simp)
          · rename_i st3 h3
            simp only [Option.some.injEq, Prod.mk.injEq] at h
            obtain ⟨rfl, rfl⟩ := h
            unfold shrink_reassignment at hr
            split at hr
            · exact absurd hr (by simp)
            · rename_i r1 hr1
              exact ⟨slots1, enc1, n, slots2, enc2, r1, r, st3, h1, h2, hr1, hr, h3, rfl, hw⟩

/-- C8 (amended). Reference placement in `shrink_encoding`, for every outcome of
the sort by glyph: let the overflow glyph `G` sit at code `p >= size`, let the
reference encoding map its name to `R`, a code below `size` whose slot is empty
at the call, and let every other overflow slot whose name is mapped to `R` hold
a glyph larger than `G`.  Then the call completes, slot `R` of the final table
holds `G`, and the final ligature, fake-ligature, kern and vfpos tables are the
old ones with every code sent through one map `f` with `f p = R`. -/
theorem shrink_encoding_reference_placement (sort : List Slot → List Slot)
    (hperm : ∀ l, (sort l).Perm l)
    (hsorted : ∀ l, (sort l).Pairwise (fun a b => a.value ≤ b.value))
    (size : Nat) (dvipsenc : DvipsEncoding) (glyph_names : List String) (st : GsubEncoding)
    (h : ∀ c ∈ referenced_codes st, -1 ≤ c ∧ c < st._encoding.length)
    (hnames : ∀ (i g : Int), (size : Int) ≤ i → vec_at st._encoding i = some g → g ≠ 0 →
      0 ≤ g ∧ g < glyph_names.length)
    (href : ∀ nm ∈ glyph_names, dvipsenc.encoding_of nm < size)
    (p G R : Int) (g : String)
    (hp : (size : Int) ≤ p) (hG : vec_at st._encoding p = some G) (hG0 : G ≠ 0)
    (hg : vec_at glyph_names G = some g) (hne : g ≠ "")
    (hR : dvipsenc.encoding_of g = R) (hR0 : 0 ≤ R)
    (hfree : vec_at st._encoding R = some 0)
    (hothers : ∀ (q G2 : Int) (g2 : String), (size : Int) ≤ q → q ≠ p →
      vec_at st._encoding q = some G2 → G2 ≠ 0 → vec_at glyph_names G2 = some g2 → g2 ≠ "" →
      dvipsenc.encoding_of g2 = R → G < G2) :
    ∃ st2 w, shrink_encoding_with sort size dvipsenc glyph_names st = some (st2, w) ∧
      vec_at st2._encoding R = some G ∧
      ∃ f : Int → Int, f p = R ∧
        st2._ligatures = st._ligatures.map (Ligature.relabel f) ∧
        st2._fake_ligatures = st._fake_ligatures.map (Ligature.relabel f) ∧
        st2._kerns = st._kerns.map (Kern.relabel f) ∧
        st2._vfpos = st._vfpos.map (Vfpos.relabel f) := by
  have hp0 : 0 ≤ p := by omega
  have hplt : p.toNat < st._encoding.length := by
    unfold vec_at at hG
    rw [if_pos hp0] at hG
    exact (List.getElem?_eq_some.mp hG).1
  have hgt : ¬ st._encoding.length ≤ size := by omega
  have hsize : size < st._encoding.length := by omega
  have hRlt : R < size := by
    rw [← hR]
    refine href g ?_
    unfold vec_at at hg
    split at hg
    · exact List.getElem?_mem hg
    · exact absurd hg (by simp)
  obtain ⟨st2, w, hrun, _, _⟩ :=
    shrink_encoding_with_spec sort hperm size dvipsenc glyph_names st h hnames href
  obtain ⟨slots1, enc1, n, slots2, enc2, r1, r, st3, h1, h2, _, hr, h3, rfl, _⟩ :=
    shrink_encoding_with_stages sort size dvipsenc glyph_names st st2 w hrun hgt
  -- the slot of `G` among the collected slots
  have hmem0 : ({ position := p, new_position := -1, value := G } : Slot) ∈
      collect_slots (st._encoding.drop size) size := by
    have hk : (st._encoding.drop size)[(p - size).toNat]? = some G := by
      rw [List.getElem?_drop]
      have e : size + (p - (size : Int)).toNat = p.toNat := by omega
      rw [e]
      unfold vec_at at hG
      rw [if_pos hp0] at hG
      exact hG
    have hm := collect_slots_mem (st._encoding.drop size) size (p - size).toNat G hk hG0
    have e : (size : Int) + ((p - (size : Int)).toNat : Int) = p := by omega
    rw [e] at hm
    exact hm
  have hok0 : SlotsOk size glyph_names st._encoding (collect_slots (st._encoding.drop size) size) :=
    collect_slots_ok size glyph_names st._encoding hsize hnames
  have hnd0 : ((sort (collect_slots (st._encoding.drop size) size)).map Slot.position).Nodup := by
    have hpw := collect_slots_positions (st._encoding.drop size) size
    exact (((hperm _).map Slot.position).nodup_iff).mpr (hpw.imp (fun hab => ne_of_lt hab))
  obtain ⟨pre, post, hsplit⟩ := List.append_of_mem ((hperm _).mem_iff.mpr hmem0)
  rw [hsplit] at h1 hnd0
  have hsrt := hsorted (collect_slots (st._encoding.drop size) size)
  rw [hsplit] at hsrt
  have hpre : ∀ t ∈ pre, ∀ g2, vec_at glyph_names t.value = some g2 → g2 ≠ "" →
      dvipsenc.encoding_of g2 ≠ R := by
    intro t ht g2 hg2 hne2 hR2
    have htmem : t ∈ collect_slots (st._encoding.drop size) size := by
      apply (hperm _).subset
      rw [hsplit]
      exact List.mem_append_left _ ht
    obtain ⟨a1, _, _, _, a5, _, _⟩ := hok0 t htmem
    have hv := (collect_slots_spec _ _ t htmem).2.2.2.1
    have hle : t.value ≤ G :=
      (List.pairwise_append.mp hsrt).2.2 t ht _ (List.mem_cons_self _ _)
    have hpos : t.position ≠ p := by
      intro heq
      simp only [List.map_append, List.map_cons] at hnd0
      have hdis := (List.nodup_append.mp hnd0).2.2
      exact hdis (List.mem_map_of_mem Slot.position ht) (by rw [heq]; exact List.mem_cons_self _ _)
    have := hothers t.position t.value g2 a1 hpos a5 hv hg2 hne2 hR2
    omega
  obtain ⟨c1, c2⟩ := prefer_old_slots_claim dvipsenc glyph_names
    { position := p, new_position := -1, value := G } post g R hg hne hR hR0 hG0
    pre slots1 st._encoding enc1 h1 hpre hfree
  obtain ⟨k1, _, _⟩ := prefer_old_slots_keep dvipsenc glyph_names _ slots1 _ enc1 h1
  obtain ⟨b1, _, b3, b4⟩ := place_loop_keep dvipsenc size _ _ _ _ _ _ _ _ _ h2
  have hs2 := b4 pre.length _ c1 hR0
  have henc2 : vec_at enc2 R = some G := b3 R G c2 hG0
  have hnd2 : (slots2.map Slot.position).Nodup := by rw [b1, k1]; exact hnd0
  have hlook := assign_slots_lookup slots2 r1 r hr hnd2 _ (List.getElem?_mem hs2)
  simp only at hlook
  have hst3 := reassign_codes_relabel r _ st3 h3
  refine ⟨_, w, hrun, ?_, code_map r, code_map_of_vec_at hlook, ?_, ?_, ?_, ?_⟩
  · rw [hst3]
    simp only
    rcases vec_at_resize_lt enc2 size 0 R hRlt with hres | hres
    · rw [hres]; exact henc2
    · rw [hres] at henc2; exact absurd henc2 (by simp)
  · rw [hst3]
  · rw [hst3]
  · rw [hst3]
  · rw [hst3]

/-- C8, as stated, fails: glyph `a` sits at the overflow codes 1 and 2, its name
is mapped to the empty slot 0 below `size = 1`, and after `shrink_encoding`
the references to its old code 2 are `-1`, not 0: the slot was given to the
copy at code 1. -/
theorem shrink_encoding_reference_counterexample :
    vec_at state_empty_a_a._encoding 2 = some 1 ∧ vec_at sample_names 1 = some "a" ∧
    ref_a_at_0.encoding_of "a" = 0 ∧ vec_at state_empty_a_a._encoding 0 = some 0 ∧
    ∃ st2 w, shrink_encoding 1 ref_a_at_0 sample_names state_empty_a_a = some (st2, w) ∧
      st2._ligatures = [{ in_ := [0, -1], out := -1, skip := 1, context := 0 }] :=
  ⟨by decide, by decide, by decide, by decide,
   { state_empty_a_a with
       _encoding := [1],
       _ligatures := [{ in_ := [0, -1], out := -1, skip := 1, context := 0 }] },
   some ["a"], by decide, rfl⟩

theorem vec_at_bounds {α : Type} {v : List α} {i : Int} {x : α} (h : vec_at v i = some x) :
    0 ≤ i ∧ i < v.length := by
  unfold vec_at at h
  split at h
  · have := (List.getElem?_eq_some.mp h).1
    omega
  · exact absurd h (by simp)

theorem sorted_insertionSort_value (l : List Slot) :
    (l.insertionSort (fun a b => a.value ≤ b.value)).Pairwise (fun a b => a.value ≤ b.value) :=
  @List.sorted_insertionSort Slot (fun a b => a.value ≤ b.value) _
    ⟨fun a b => le_total a.value b.value⟩ ⟨fun _ _ _ h1 h2 => le_trans h1 h2⟩ l

theorem shrink_encoding_reference_placement_witness :
    vec_at state_empty_a_b._encoding 2 = some 2 ∧ vec_at sample_names 2 = some "b" ∧
    ref_b_at_0.encoding_of "b" = 0 ∧ vec_at state_empty_a_b._encoding 0 = some 0 ∧
    ∃ st2 w, shrink_encoding_with (fun l => l.insertionSort (fun a b => a.value ≤ b.value))
        1 ref_b_at_0 sample_names state_empty_a_b = some (st2, w) ∧
      vec_at st2._encoding 0 = some 2 ∧
      ∃ f : Int → Int, f 2 = 0 ∧
        st2._ligatures = state_empty_a_b._ligatures.map (Ligature.relabel f) ∧
        st2._fake_ligatures = state_empty_a_b._fake_ligatures.map (Ligature.relabel f) ∧
        st2._kerns = state_empty_a_b._kerns.map (Kern.relabel f) ∧
        st2._vfpos = state_empty_a_b._vfpos.map (Vfpos.relabel f) :=
  ⟨by decide, by decide, by decide, by decide,
   shrink_encoding_reference_placement _ (fun l => List.perm_insertionSort _ l)
     sorted_insertionSort_value
     1 ref_b_at_0 sample_names state_empty_a_b (by decide)
     (sample_overflow_named state_empty_a_b (by decide)) (by decide)
     2 2 0 "b" (by decide) (by decide) (by decide) (by decide) (by decide) (by decide)
     (by decide) (by decide)
     (by
       intro q G2 g2 h1 h2 h3 _ h5 h6 h7
       have hb := vec_at_bounds h3
       have hq : q = 1 := by
         have : (state_empty_a_b._encoding.length : Int) = 3 := by decide
         have h1b : (1 : Int) ≤ q := h1
         omega
       subst hq
       have hG2 : G2 = 1 := by
         have : vec_at state_empty_a_b._encoding 1 = some 1 := by decide
         rw [this] at h3
         exact (Option.some.inj h3).symm
       subst hG2
       have hg2 : g2 = "a" := by
         have : vec_at sample_names 1 = some "a" := by decide
         rw [this] at h5
         exact (Option.some.inj h5).symm
       subst hg2
       exact absurd h7 (by decide))⟩

theorem merge_kern_run_eq : ∀ (ks : List Kern) (k1 : Kern),
    merge_kern_run k1 ks = coalesce_run Kern.key Kern.add Kern.kill k1 ks := by
  intro ks
  induction ks with
  | nil => intro k1; rfl
  | cons k2 ks ih =>
    intro k1
    unfold merge_kern_run coalesce_run
    have hk : Kern.key k1 ≠ Kern.key k2 ↔ (k1.left ≠ k2.left ∨ k1.right ≠ k2.right) := by
      simp only [Kern.key, ne_eq, Prod.mk.injEq, not_and_or]
    by_cases h : k1.left ≠ k2.left ∨ k1.right ≠ k2.right
    · rw [if_pos h, if_pos (hk.mpr h), ih]
    · rw [if_neg h, if_neg (fun h2 => h (hk.mp h2)), ih]
      rfl

theorem merge_kerns_eq (ks : List Kern) :
    merge_kerns ks = coalesce Kern.key Kern.add Kern.kill ks := by
  cases ks with
  | nil => rfl
  | cons k ks => simp only [merge_kerns, coalesce, merge_kern_run_eq]

theorem merge_vfpos_run_eq : ∀ (ps : List Vfpos) (p1 : Vfpos),
    merge_vfpos_run p1 ps = coalesce_run Vfpos.in_ Vfpos.add Vfpos.kill p1 ps := by
  intro ps
  induction ps with
  | nil => intro p1; rfl
  | cons p2 ps ih =>
    intro p1
    unfold merge_vfpos_run coalesce_run
    by_cases h : p1.in_ ≠ p2.in_
    · rw [if_pos h, if_pos h, ih]
    · rw [if_neg h, if_neg h, ih]
      rfl

theorem merge_vfpos_eq (ps : List Vfpos) :
    merge_vfpos ps = coalesce Vfpos.in_ Vfpos.add Vfpos.kill ps := by
  cases ps with
  | nil => rfl
  | cons p ps => simp only [merge_vfpos, coalesce, merge_vfpos_run_eq]

section Coalesce

variable {α κ : Type} [DecidableEq κ] (key : α → κ) (add : α → α → α) (kill : α → α)

theorem coalesce_run_cons_ne (k1 k2 : α) (ks : List α) (h : key k1 ≠ key k2) :
    coalesce_run key add kill k1 (k2 :: ks) =
      (k1, (coalesce_run key add kill k2 ks).1 :: (coalesce_run key add kill k2 ks).2) := by
  rw [coalesce_run, if_pos h]

theorem coalesce_run_cons_eq (k1 k2 : α) (ks : List α) (h : key k1 = key k2) :
    coalesce_run key add kill k1 (k2 :: ks) =
      ((coalesce_run key add kill (add k1 k2) ks).1,
        kill k2 :: (coalesce_run key add kill (add k1 k2) ks).2) := by
  rw [coalesce_run, if_neg (fun hne => hne h)]

theorem coalesce_cons (k : α) (ks : List α) :
    coalesce key add kill (k :: ks) =
      (coalesce_run key add kill k ks).1 :: (coalesce_run key add kill k ks).2 := rfl

theorem coalesce_run_block (hadd : ∀ a b, key (add a b) = key a) :
    ∀ (blk : List α) (k1 : α) (post : List α), (∀ k ∈ blk, key k = key k1) →
      (∀ b ∈ post.head?, key b ≠ key k1) →
      coalesce_run key add kill k1 (blk ++ post) =
        (blk.foldl add k1, blk.map kill ++ coalesce key add kill post) := by
  intro blk
  induction blk with
  | nil =>
    intro k1 post _ hpost
    cases post with
    | nil => rfl
    | cons b post =>
      have hb : key k1 ≠ key b := fun h => hpost b (by simp) h.symm
      rw [List.nil_append, coalesce_run_cons_ne key add kill k1 b post hb, coalesce_cons]
      rfl
  | cons b blk ih =>
    intro k1 post hblk hpost
    have hb : key b = key k1 := hblk b (List.mem_cons_self _ _)
    have hrec := ih (add k1 b) post
      (fun k hk => by rw [hadd]; exact hblk k (List.mem_cons_of_mem _ hk))
      (fun c hc => by rw [hadd]; exact hpost c hc)
    rw [List.cons_append, coalesce_run_cons_eq key add kill k1 b _ hb.symm, hrec]
    rfl

theorem coalesce_run_keys (hadd : ∀ a b, key (add a b) = key a) (P : κ → Prop)
    (hkill : ∀ b, P (key (kill b))) :
    ∀ (ks : List α) (k1 : α), P (key k1) → (∀ k ∈ ks, P (key k)) →
      P (key (coalesce_run key add kill k1 ks).1) ∧
      ∀ k ∈ (coalesce_run key add kill k1 ks).2, P (key k) := by
  intro ks
  induction ks with
  | nil => intro k1 h1 _; exact ⟨h1, by simp [coalesce_run]⟩
  | cons k2 ks ih =>
    intro k1 h1 hks
    have h2 := hks k2 (List.mem_cons_self _ _)
    have hks2 : ∀ k ∈ ks, P (key k) := fun k hk => hks k (List.mem_cons_of_mem _ hk)
    unfold coalesce_run
    by_cases hne : key k1 ≠ key k2
    · rw [if_pos hne]
      obtain ⟨a1, a2⟩ := ih k2 h2 hks2
      refine ⟨h1, ?_⟩
      intro k hk
      rcases List.mem_cons.mp hk with rfl | hk
      · exact a1
      · exact a2 k hk
    · rw [if_neg hne]
      obtain ⟨a1, a2⟩ := ih (add k1 k2) (by rw [hadd]; exact h1) hks2
      refine ⟨a1, ?_⟩
      intro k hk
      rcases List.mem_cons.mp hk with rfl | hk
      · exact hkill _
      · exact a2 k hk

theorem coalesce_keys (hadd : ∀ a b, key (add a b) = key a) (P : κ → Prop)
    (hkill : ∀ b, P (key (kill b))) (ks : List α) (hks : ∀ k ∈ ks, P (key k)) :
    ∀ k ∈ coalesce key add kill ks, P (key k) := by
  cases ks with
  | nil => intro k hk; simp [coalesce] at hk
  | cons k1 ks =>
    obtain ⟨a1, a2⟩ := coalesce_run_keys key add kill hadd P hkill ks k1
      (hks k1 (List.mem_cons_self _ _)) (fun k hk => hks k (List.mem_cons_of_mem _ hk))
    intro k hk
    rcases List.mem_cons.mp hk with rfl | hk
    · exact a1
    · exact a2 k hk

theorem coalesce_run_skip (hadd : ∀ a b, key (add a b) = key a) (c : κ)
    (hkill : ∀ b, key (kill b) ≠ c) (first : α) (more : List α) (hfirst : key first = c) :
    ∀ (pre : List α) (k1 : α), key k1 ≠ c → (∀ k ∈ pre, key k ≠ c) →
      ∃ x pre2, coalesce_run key add kill k1 (pre ++ first :: more) =
          (x, pre2 ++ coalesce key add kill (first :: more)) ∧
        pre2.length = pre.length ∧ key x ≠ c ∧ ∀ k ∈ pre2, key k ≠ c := by
  intro pre
  induction pre with
  | nil =>
    intro k1 h1 _
    refine ⟨k1, [], ?_, rfl, h1, by simp⟩
    have hne : key k1 ≠ key first := by rw [hfirst]; exact h1
    rw [List.nil_append, coalesce_run_cons_ne key add kill k1 first more hne, coalesce_cons]
    rfl
  | cons k2 pre ih =>
    intro k1 h1 hpre
    have h2 := hpre k2 (List.mem_cons_self _ _)
    have hpre2 : ∀ k ∈ pre, key k ≠ c := fun k hk => hpre k (List.mem_cons_of_mem _ hk)
    by_cases hne : key k1 ≠ key k2
    · obtain ⟨x, pre2, e1, e2, e3, e4⟩ := ih k2 h2 hpre2
      refine ⟨k1, x :: pre2, ?_, by simp [e2], h1, ?_⟩
      · rw [List.cons_append, coalesce_run_cons_ne key add kill k1 k2 _ hne, e1]
        rfl
      · intro k hk
        rcases List.mem_cons.mp hk with rfl | hk
        · exact e3
        · exact e4 k hk
    · obtain ⟨x, pre2, e1, e2, e3, e4⟩ := ih (add k1 k2) (by rw [hadd]; exact h1) hpre2
      refine ⟨x, kill k2 :: pre2, ?_, by simp [e2], e3, ?_⟩
      · rw [List.cons_append, coalesce_run_cons_eq key add kill k1 k2 _ (not_not.mp hne), e1]
        rfl
      · intro k hk
        rcases List.mem_cons.mp hk with rfl | hk
        · exact hkill _
        · exact e4 k hk

/-- The effect of the run-merging loop on the block of entries with key `c`,
when these entries stand together: the first receives the sum, the others are
killed, and no entry with key `c` appears elsewhere. -/
theorem coalesce_block (hadd : ∀ a b, key (add a b) = key a) (c : κ)
    (hkill : ∀ b, key (kill b) ≠ c) (pre : List α) (first : α) (blk post : List α)
    (hpre : ∀ k ∈ pre, key k ≠ c) (hfirst : key first = c) (hblk : ∀ k ∈ blk, key k = c)
    (hpost : ∀ k ∈ post, key k ≠ c) :
    ∃ pre2 post2, coalesce key add kill (pre ++ first :: (blk ++ post)) =
        pre2 ++ blk.foldl add first :: (blk.map kill ++ post2) ∧
      pre2.length = pre.length ∧ (∀ k ∈ pre2, key k ≠ c) ∧ (∀ k ∈ post2, key k ≠ c) := by
  have hmid : coalesce key add kill (first :: (blk ++ post)) =
      blk.foldl add first :: (blk.map kill ++ coalesce key add kill post) := by
    have := coalesce_run_block key add kill hadd blk first post
      (fun k hk => by rw [hblk k hk, hfirst])
      (fun b hb => by rw [hfirst]; exact hpost b (List.mem_of_mem_head? hb))
    rw [coalesce_cons, this]
  have hpost2 := coalesce_keys key add kill hadd (fun x => x ≠ c) hkill post hpost
  cases pre with
  | nil =>
    exact ⟨[], coalesce key add kill post, by simpa using hmid, rfl, by simp, hpost2⟩
  | cons k1 pre =>
    obtain ⟨x, pre2, e1, e2, e3, e4⟩ := coalesce_run_skip key add kill hadd c hkill first
      (blk ++ post) hfirst pre k1 (hpre k1 (List.mem_cons_self _ _))
      (fun k hk => hpre k (List.mem_cons_of_mem _ hk))
    refine ⟨x :: pre2, coalesce key add kill post, ?_, by simp [e2], ?_, hpost2⟩
    · rw [List.cons_append, coalesce_cons, e1, hmid]
      rfl
    · intro k hk
      rcases List.mem_cons.mp hk with rfl | hk
      · exact e3
      · exact e4 k hk

end Coalesce

/-- In a list sorted by an order that compares keys, the entries with a given
key stand together. -/
theorem sorted_block {α κ : Type} (key : α → κ) (le : α → α → Prop)
    (hkey : ∀ a a2 b b2, key a = key a2 → key b = key b2 → le a b → le a2 b2)
    (hanti : ∀ a b, le a b → le b a → key a = key b) (c : κ) :
    ∀ s : List α, s.Pairwise le →
      ∃ pre blk post, s = pre ++ (blk ++ post) ∧ (∀ k ∈ pre, key k ≠ c) ∧
        (∀ k ∈ blk, key k = c) ∧ (∀ k ∈ post, key k ≠ c) := by
  intro s
  induction s with
  | nil => intro _; exact ⟨[], [], [], rfl, by simp, by simp, by simp⟩
  | cons k s ih =>
    intro hs
    obtain ⟨hk, hs2⟩ := List.pairwise_cons.mp hs
    obtain ⟨pre, blk, post, rfl, h1, h2, h3⟩ := ih hs2
    by_cases hkc : key k = c
    · cases blk with
      | nil =>
        refine ⟨[], [k], pre ++ post, by simp, by simp, by simpa using hkc, ?_⟩
        intro x hx
        rcases List.mem_append.mp hx with hx | hx
        · exact h1 x hx
        · exact h3 x hx
      | cons b blk =>
        cases pre with
        | nil =>
          refine ⟨[], k :: b :: blk, post, by simp, by simp, ?_, h3⟩
          intro x hx
          rcases List.mem_cons.mp hx with rfl | hx
          · exact hkc
          · exact h2 x hx
        | cons a pre =>
          exfalso
          have hka : le k a := hk a (by simp)
          have hab : le a b :=
            (List.pairwise_append.mp hs2).2.2 a (List.mem_cons_self _ _) b (by simp)
          have hkb : key k = key b := by rw [hkc, h2 b (List.mem_cons_self _ _)]
          have hba : le b a := hkey k b a a hkb rfl hka
          have := hanti a b hab hba
          exact h1 a (List.mem_cons_self _ _) (by rw [this, h2 b (List.mem_cons_self _ _)])
    · refine ⟨k :: pre, blk, post, by simp, ?_, h2, h3⟩
      intro x hx
      rcases List.mem_cons.mp hx with rfl | hx
      · exact hkc
      · exact h1 x hx

theorem kern_laws : MergeLaws Kern.key Kern.add Kern.kill Kern.live kern_key_le where
  key_add := fun _ _ => rfl
  live_kill := fun _ => by simp [Kern.live, Kern.kill]
  live_key := fun a b h => by
    simp only [Kern.key, Prod.mk.injEq] at h
    simp [Kern.live, h.1]
  le_key := fun a a2 b b2 h1 h2 h => by
    simp only [Kern.key, Prod.mk.injEq] at h1 h2
    unfold kern_key_le at h ⊢
    omega
  le_trans := fun a b c h1 h2 => by
    unfold kern_key_le at h1 h2 ⊢
    omega
  le_anti := fun a b h1 h2 => by
    unfold kern_key_le at h1 h2
    simp only [Kern.key, Prod.mk.injEq]
    omega

theorem vfpos_laws : MergeLaws Vfpos.in_ Vfpos.add Vfpos.kill Vfpos.live vfpos_key_le where
  key_add := fun _ _ => rfl
  live_kill := fun _ => by simp [Vfpos.live, Vfpos.kill]
  live_key := fun a b h => by simp [Vfpos.live, h]
  le_key := fun a a2 b b2 h1 h2 h => by
    unfold vfpos_key_le at h ⊢
    omega
  le_trans := fun a b c h1 h2 => by
    unfold vfpos_key_le at h1 h2 ⊢
    omega
  le_anti := fun a b h1 h2 => by
    unfold vfpos_key_le at h1 h2
    omega

theorem foldl_kern_add : ∀ (run : List Kern) (first : Kern),
    run.foldl Kern.add first =
      { first with amount := first.amount + (run.map Kern.amount).sum } := by
  intro run
  induction run with
  | nil => intro first; simp
  | cons k run ih =>
    intro first
    rw [List.foldl_cons, ih]
    simp [Kern.add, add_assoc]

theorem kern_scan_skip (l r : Int) : ∀ (pre rest : List Kern),
    (∀ k ∈ pre, ¬ (k.left = l ∧ k.right = r)) →
      kern_scan l r (pre ++ rest) = kern_scan l r rest := by
  intro pre
  induction pre with
  | nil => intro rest _; rfl
  | cons k pre ih =>
    intro rest h
    rw [List.cons_append, kern_scan, if_neg (h k (List.mem_cons_self _ _))]
    exact ih rest (fun x hx => h x (List.mem_cons_of_mem _ hx))

/-- The kern table after the merge, around the entries of one code pair. -/
theorem merge_kerns_pair (s : List Kern) (hs : s.Pairwise kern_key_le) (l r : Int)
    (hl : l ≠ -1) (hocc : ∃ k ∈ s, k.left = l ∧ k.right = r) :
    ∃ pre2 run post2 : List Kern,
      merge_kerns s = pre2 ++ ({ left := l, right := r, amount :=
          ((s.filter (fun k => k.left = l ∧ k.right = r)).map Kern.amount).sum } : Kern) ::
        (run.map Kern.kill ++ post2) ∧
      run.length + 1 = (s.filter (fun k => k.left = l ∧ k.right = r)).length ∧
      (∀ k ∈ run, k.left = l ∧ k.right = r) ∧
      (∀ k ∈ pre2, ¬ (k.left = l ∧ k.right = r)) ∧
      (∀ k ∈ post2, ¬ (k.left = l ∧ k.right = r)) := by
  obtain ⟨pre, blk, post, rfl, h1, h2, h3⟩ :=
    sorted_block Kern.key kern_key_le kern_laws.le_key kern_laws.le_anti (l, r) s hs
  have hkey : ∀ k : Kern, (k.left = l ∧ k.right = r) ↔ Kern.key k = (l, r) := by
    intro k; simp [Kern.key]
  have hfpre : pre.filter (fun k => k.left = l ∧ k.right = r) = [] := by
    rw [List.filter_eq_nil_iff]
    intro k hk
    simpa [hkey] using h1 k hk
  have hfpost : post.filter (fun k => k.left = l ∧ k.right = r) = [] := by
    rw [List.filter_eq_nil_iff]
    intro k hk
    simpa [hkey] using h3 k hk
  have hfblk : blk.filter (fun k => k.left = l ∧ k.right = r) = blk := by
    rw [List.filter_eq_self]
    intro k hk
    simpa [hkey] using h2 k hk
  have hfilter : (pre ++ (blk ++ post)).filter (fun k => k.left = l ∧ k.right = r) = blk := by
    rw [List.filter_append, List.filter_append, hfpre, hfpost, hfblk]
    simp
  cases blk with
  | nil =>
    exfalso
    obtain ⟨k, hk, hkl, hkr⟩ := hocc
    have hkk : Kern.key k = (l, r) := (hkey k).mp ⟨hkl, hkr⟩
    simp only [List.nil_append, List.mem_append] at hk
    rcases hk with hk | hk
    · exact h1 k hk hkk
    · exact h3 k hk hkk
  | cons first run =>
    have hfirst := h2 first (List.mem_cons_self _ _)
    have hrun : ∀ k ∈ run, Kern.key k = (l, r) := fun k hk => h2 k (List.mem_cons_of_mem _ hk)
    have hkill : ∀ b : Kern, Kern.key (Kern.kill b) ≠ (l, r) := by
      intro b hb
      simp only [Kern.key, Kern.kill, Prod.mk.injEq] at hb
      exact hl hb.1.symm
    obtain ⟨pre2, post2, e1, _, e3, e4⟩ := coalesce_block Kern.key Kern.add Kern.kill
      kern_laws.key_add (l, r) hkill pre first run post h1 hfirst hrun h3
    refine ⟨pre2, run, post2, ?_, by rw [hfilter]; simp, fun k hk => (hkey k).mpr (hrun k hk),
      fun k hk => fun h => e3 k hk ((hkey k).mp h), fun k hk => fun h => e4 k hk ((hkey k).mp h)⟩
    rw [List.cons_append] at hfilter
    rw [merge_kerns_eq, List.cons_append, e1, hfilter, foldl_kern_add]
    simp only [Kern.key, Prod.mk.injEq] at hfirst
    simp [hfirst.1, hfirst.2]

/-- C4. Merging sums duplicates, for every outcome of the sort by code pair:
if the pair `(l, r)` with `l >= 0` and `r >= 0` occurs in the kern list, then
after `simplify_positionings` exactly one entry with `left = l` and `right = r`
remains, its amount is the sum of the amounts of all original entries with that
pair, it is followed by the other entries of its run with `left = -1`, and
`kern(l, r)` returns that sum. -/
theorem simplify_positionings_sums_duplicates (sortK : List Kern → List Kern)
    (sortV : List Vfpos → List Vfpos) (hK : IsSort kern_key_le sortK) (st : GsubEncoding)
    (l r : Int) (hl : 0 ≤ l) (hr : 0 ≤ r) (hocc : ∃ k ∈ st._kerns, k.left = l ∧ k.right = r) :
    (simplify_positionings_with sortK sortV st)._kerns.filter
        (fun k => k.left = l ∧ k.right = r) =
      [{ left := l, right := r, amount :=
          ((st._kerns.filter (fun k => k.left = l ∧ k.right = r)).map Kern.amount).sum }] ∧
    kern (simplify_positionings_with sortK sortV st) l r =
      ((st._kerns.filter (fun k => k.left = l ∧ k.right = r)).map Kern.amount).sum ∧
    ∃ pre2 run post2 : List Kern,
      (simplify_positionings_with sortK sortV st)._kerns =
        pre2 ++ ({ left := l, right := r, amount :=
          ((st._kerns.filter (fun k => k.left = l ∧ k.right = r)).map Kern.amount).sum } : Kern) ::
        (run.map (fun k => { k with left := -1 }) ++ post2) ∧
      run.length + 1 = (st._kerns.filter (fun k => k.left = l ∧ k.right = r)).length ∧
      (∀ k ∈ run, k.left = l ∧ k.right = r) ∧
      (∀ k ∈ pre2 ++ post2, ¬ (k.left = l ∧ k.right = r)) := by
  have _ := hr
  obtain ⟨hperm, hsorted⟩ := hK st._kerns
  have hne : st._kerns.length ≠ 0 := by
    obtain ⟨k, hk, _⟩ := hocc
    exact fun h => by rw [List.length_eq_zero] at h; rw [h] at hk; simp at hk
  have hocc2 : ∃ k ∈ sortK st._kerns, k.left = l ∧ k.right = r := by
    obtain ⟨k, hk, h⟩ := hocc
    exact ⟨k, hperm.mem_iff.mpr hk, h⟩
  obtain ⟨pre2, run, post2, e1, e2, e3, e4, e5⟩ :=
    merge_kerns_pair (sortK st._kerns) hsorted l r (by omega) hocc2
  have hfp : ((sortK st._kerns).filter (fun k => k.left = l ∧ k.right = r)).Perm
      (st._kerns.filter (fun k => k.left = l ∧ k.right = r)) := hperm.filter _
  have hsum : (((sortK st._kerns).filter (fun k => k.left = l ∧ k.right = r)).map
      Kern.amount).sum =
      ((st._kerns.filter (fun k => k.left = l ∧ k.right = r)).map Kern.amount).sum :=
    (hfp.map Kern.amount).sum_eq
  rw [hsum] at e1
  rw [hfp.length_eq] at e2
  have hkerns : (simplify_positionings_with sortK sortV st)._kerns =
      merge_kerns (sortK st._kerns) := by
    simp only [simplify_positionings_with, hne, ne_eq, not_false_eq_true, if_true]
  have hdead : ∀ k ∈ run.map Kern.kill, ¬ (k.left = l ∧ k.right = r) := by
    intro k hk
    obtain ⟨b, _, rfl⟩ := List.mem_map.mp hk
    simp only [Kern.kill]
    omega
  refine ⟨?_, ?_, pre2, run, post2, ?_, e2, e3, ?_⟩
  · rw [hkerns, e1, List.filter_append, List.filter_cons, List.filter_append]
    have f1 : pre2.filter (fun k => decide (k.left = l ∧ k.right = r)) = [] := by
      rw [List.filter_eq_nil_iff]; intro k hk; simpa using e4 k hk
    have f2 : post2.filter (fun k => decide (k.left = l ∧ k.right = r)) = [] := by
      rw [List.filter_eq_nil_iff]; intro k hk; simpa using e5 k hk
    have f3 : (run.map Kern.kill).filter (fun k => decide (k.left = l ∧ k.right = r)) = [] := by
      rw [List.filter_eq_nil_iff]; intro k hk; simpa using hdead k hk
    rw [f1, f2, f3]
    simp
  · unfold kern
    rw [hkerns, e1, kern_scan_skip l r pre2 _ e4, kern_scan]
    simp
  · rw [hkerns, e1]
    rfl
  · intro k hk
    rcases List.mem_append.mp hk with hk | hk
    · exact e4 k hk
    · exact e5 k hk

theorem isSort_insertionSort_kern : IsSort kern_key_le (fun l => l.insertionSort kern_key_le) :=
  fun l => ⟨List.perm_insertionSort _ l,
    @List.sorted_insertionSort Kern kern_key_le _
      ⟨fun a b => by unfold kern_key_le; omega⟩
      ⟨fun a b c h1 h2 => kern_laws.le_trans a b c h1 h2⟩ l⟩

theorem isSort_insertionSort_vfpos :
    IsSort vfpos_key_le (fun l => l.insertionSort vfpos_key_le) :=
  fun l => ⟨List.perm_insertionSort _ l,
    @List.sorted_insertionSort Vfpos vfpos_key_le _
      ⟨fun a b => by unfold vfpos_key_le; omega⟩
      ⟨fun a b c h1 h2 => vfpos_laws.le_trans a b c h1 h2⟩ l⟩

theorem simplify_positionings_sums_duplicates_witness :
    (∃ k ∈ state_two_kerns._kerns, k.left = 0x41 ∧ k.right = 0x66) ∧
    ((state_two_kerns._kerns.filter (fun k => k.left = 0x41 ∧ k.right = 0x66)).map
      Kern.amount).sum = 15 ∧
    (simplify_positionings state_two_kerns)._kerns =
      [{ left := 0x41, right := 0x66, amount := 15 },
       { left := -1, right := 0x66, amount := 5 }] ∧
    ((simplify_positionings_with (fun l => l.insertionSort kern_key_le)
          (fun l => l.insertionSort vfpos_key_le) state_two_kerns)._kerns.filter
        (fun k => k.left = 0x41 ∧ k.right = 0x66) =
      [{ left := 0x41, right := 0x66, amount :=
          ((state_two_kerns._kerns.filter (fun k => k.left = 0x41 ∧ k.right = 0x66)).map
            Kern.amount).sum }] ∧
    kern (simplify_positionings_with (fun l => l.insertionSort kern_key_le)
          (fun l => l.insertionSort vfpos_key_le) state_two_kerns) 0x41 0x66 =
      ((state_two_kerns._kerns.filter (fun k => k.left = 0x41 ∧ k.right = 0x66)).map
        Kern.amount).sum ∧
    ∃ pre2 run post2 : List Kern,
      (simplify_positionings_with (fun l => l.insertionSort kern_key_le)
          (fun l => l.insertionSort vfpos_key_le) state_two_kerns)._kerns =
        pre2 ++ ({ left := 0x41, right := 0x66, amount :=
          ((state_two_kerns._kerns.filter (fun k => k.left = 0x41 ∧ k.right = 0x66)).map
            Kern.amount).sum } : Kern) ::
        (run.map (fun k => { k with left := -1 }) ++ post2) ∧
      run.length + 1 =
        (state_two_kerns._kerns.filter (fun k => k.left = 0x41 ∧ k.right = 0x66)).length ∧
      (∀ k ∈ run, k.left = 0x41 ∧ k.right = 0x66) ∧
      (∀ k ∈ pre2 ++ post2, ¬ (k.left = 0x41 ∧ k.right = 0x66))) :=
  ⟨by decide, by decide, by decide,
   simplify_positionings_sums_duplicates _ _ isSort_insertionSort_kern state_two_kerns
     0x41 0x66 (by decide) (by decide) (by decide)⟩

section CoalesceLive

variable {α κ : Type} [DecidableEq κ] {key : α → κ} {add : α → α → α} {kill : α → α}
  {live : α → Bool} {le : α → α → Prop}

theorem coalesce_run_filter_live (L : MergeLaws key add kill live le) :
    ∀ (ks : List α) (k1 : α),
      (k1 :: ks).Pairwise (fun a b => live a = true → key a ≠ key b) →
      ((coalesce_run key add kill k1 ks).1 :: (coalesce_run key add kill k1 ks).2).filter live
        = (k1 :: ks).filter live := by
  intro ks
  induction ks with
  | nil => intro k1 _; rfl
  | cons k2 ks ih =>
    intro k1 hp
    obtain ⟨h1, hp2⟩ := List.pairwise_cons.mp hp
    by_cases hne : key k1 ≠ key k2
    · rw [coalesce_run_cons_ne key add kill k1 k2 ks hne]
      have := ih k2 hp2
      simp only [List.filter_cons] at this ⊢
      rw [this]
    · have heq : key k1 = key k2 := not_not.mp hne
      rw [coalesce_run_cons_eq key add kill k1 k2 ks heq]
      have hd1 : live k1 = false := by
        cases hl : live k1 with
        | false => rfl
        | true => exact absurd heq (h1 k2 (List.mem_cons_self _ _) hl)
      have hd2 : live k2 = false := by rw [← L.live_key k1 k2 heq]; exact hd1
      have hd3 : live (add k1 k2) = false := by
        rw [L.live_key (add k1 k2) k1 (L.key_add k1 k2)]; exact hd1
      have hp3 : (add k1 k2 :: ks).Pairwise (fun a b => live a = true → key a ≠ key b) := by
        refine List.pairwise_cons.mpr ⟨?_, (List.pairwise_cons.mp hp2).2⟩
        intro b _ hl
        rw [hd3] at hl
        exact absurd hl (by simp)
      have := ih (add k1 k2) hp3
      simp only [List.filter_cons, hd3, hd1, hd2, L.live_kill] at this ⊢
      simpa using this

/-- Merging leaves the live entries alone when no live entry is followed by an
entry with its key. -/
theorem coalesce_filter_live (L : MergeLaws key add kill live le) (s : List α)
    (hp : s.Pairwise (fun a b => live a = true → key a ≠ key b)) :
    (coalesce key add kill s).filter live = s.filter live := by
  cases s with
  | nil => rfl
  | cons k ks => exact coalesce_run_filter_live L ks k hp

theorem coalesce_run_live_sorted (L : MergeLaws key add kill live le) :
    ∀ (ks : List α) (k1 : α), (k1 :: ks).Pairwise le →
      key (coalesce_run key add kill k1 ks).1 = key k1 ∧
      (∀ b ∈ (coalesce_run key add kill k1 ks).2, live b = true → le k1 b ∧ key k1 ≠ key b) ∧
      ((coalesce_run key add kill k1 ks).2.filter live).Pairwise
        (fun a b => le a b ∧ key a ≠ key b) := by
  intro ks
  induction ks with
  | nil => intro k1 _; exact ⟨rfl, by simp [coalesce_run], by simp [coalesce_run]⟩
  | cons k2 ks ih =>
    intro k1 hp
    obtain ⟨h1, hp2⟩ := List.pairwise_cons.mp hp
    have h12 : le k1 k2 := h1 k2 (List.mem_cons_self _ _)
    by_cases hne : key k1 ≠ key k2
    · rw [coalesce_run_cons_ne key add kill k1 k2 ks hne]
      obtain ⟨a1, a2, a3⟩ := ih k2 hp2
      have hfirst : le k1 (coalesce_run key add kill k2 ks).1 ∧
          key k1 ≠ key (coalesce_run key add kill k2 ks).1 :=
        ⟨L.le_key k1 k1 k2 _ rfl a1.symm h12, by rw [a1]; exact hne⟩
      have hrest : ∀ b ∈ (coalesce_run key add kill k2 ks).2, live b = true →
          le k1 b ∧ key k1 ≠ key b := by
        intro b hb hl
        obtain ⟨b1, b2⟩ := a2 b hb hl
        refine ⟨L.le_trans k1 k2 b h12 b1, ?_⟩
        intro hk
        -- `k1 <= k2 <= b` with the key of `b` that of `k1` forces the key of `k2`
        have hbk2 : le b k2 := L.le_key k1 b k2 k2 hk rfl h12
        exact b2 (L.le_anti k2 b b1 hbk2)
      refine ⟨rfl, ?_, ?_⟩
      · intro b hb hl
        rcases List.mem_cons.mp hb with rfl | hb
        · exact hfirst
        · exact hrest b hb hl
      · simp only [List.filter_cons]
        split
        · rename_i hl
          refine List.pairwise_cons.mpr ⟨?_, a3⟩
          intro b hb
          obtain ⟨hb1, hb2⟩ := List.mem_filter.mp hb
          obtain ⟨c1, c2⟩ := a2 b hb1 hb2
          exact ⟨L.le_key k2 _ b b a1.symm rfl c1, by rw [a1]; exact c2⟩
        · exact a3
    · have heq : key k1 = key k2 := not_not.mp hne
      rw [coalesce_run_cons_eq key add kill k1 k2 ks heq]
      have hk : key (add k1 k2) = key k1 := L.key_add k1 k2
      have hp3 : (add k1 k2 :: ks).Pairwise le := by
        refine List.pairwise_cons.mpr ⟨?_, (List.pairwise_cons.mp hp2).2⟩
        intro b hb
        exact L.le_key k1 _ b b hk.symm rfl (h1 b (List.mem_cons_of_mem _ hb))
      obtain ⟨a1, a2, a3⟩ := ih (add k1 k2) hp3
      refine ⟨by rw [a1, hk], ?_, ?_⟩
      · intro b hb hl
        rcases List.mem_cons.mp hb with rfl | hb
        · rw [L.live_kill] at hl
          exact absurd hl (by simp)
        · obtain ⟨c1, c2⟩ := a2 b hb hl
          exact ⟨L.le_key _ k1 b b hk rfl c1, by rw [← hk]; exact c2⟩
      · simp only [List.filter_cons, L.live_kill]
        simpa using a3

/-- After merging a sorted list the live entries are in strictly increasing key
order. -/
theorem coalesce_live_sorted (L : MergeLaws key add kill live le) (s : List α)
    (hs : s.Pairwise le) :
    ((coalesce key add kill s).filter live).Pairwise (fun a b => le a b ∧ key a ≠ key b) := by
  cases s with
  | nil => simp [coalesce]
  | cons k ks =>
    obtain ⟨a1, a2, a3⟩ := coalesce_run_live_sorted L ks k hs
    rw [coalesce_cons]
    simp only [List.filter_cons]
    split
    · refine List.pairwise_cons.mpr ⟨?_, a3⟩
      intro b hb
      obtain ⟨hb1, hb2⟩ := List.mem_filter.mp hb
      obtain ⟨c1, c2⟩ := a2 b hb1 hb2
      exact ⟨L.le_key k _ b b a1.symm rfl c1, by rw [a1]; exact c2⟩
    · exact a3

/-- Sorting and merging a merged list again leaves its live entries as they are. -/
theorem coalesce_twice_live (L : MergeLaws key add kill live le) (s1 s2 : List α)
    (h1 : s1.Pairwise le) (hperm : s2.Perm (coalesce key add kill s1)) (h2 : s2.Pairwise le) :
    (coalesce key add kill s2).filter live = (coalesce key add kill s1).filter live := by
  have hm1 := coalesce_live_sorted L s1 h1
  have hpf : (s2.filter live).Perm ((coalesce key add kill s1).filter live) := hperm.filter _
  have hne1 : ((coalesce key add kill s1).filter live).Pairwise (fun a b => key a ≠ key b) :=
    hm1.imp (fun h => h.2)
  have hne2 : (s2.filter live).Pairwise (fun a b => key a ≠ key b) :=
    (hpf.pairwise_iff (fun {a b} (h : key a ≠ key b) => (Ne.symm h : key b ≠ key a))).mpr hne1
  have hle2 : (s2.filter live).Pairwise le := h2.sublist (List.filter_sublist _)
  have hs2 : (s2.filter live).Pairwise (fun a b => le a b ∧ key a ≠ key b) :=
    hle2.imp₂ (fun _ _ ha hb => ⟨ha, hb⟩) hne2
  have hanti : IsAntisymm α (fun a b => le a b ∧ key a ≠ key b) :=
    ⟨fun a b hab hba => absurd (L.le_anti a b hab.1 hba.1) hab.2⟩
  have heq : s2.filter live = (coalesce key add kill s1).filter live :=
    @List.eq_of_perm_of_sorted α (fun a b => le a b ∧ key a ≠ key b) hanti _ _ hpf hs2 hm1
  rw [← heq]
  apply coalesce_filter_live L
  have hfe : s2.filter (fun b => decide (live b = true)) = s2.filter live := by
    congr 1
    funext b
    simp
  have hp2 : s2.Pairwise (fun a b => live a = true → live b = true → key a ≠ key b) :=
    List.pairwise_filter.mp (by rw [hfe]; exact hne2)
  refine hp2.imp ?_
  intro a b hab hl hk
  exact hab hl (by rw [← L.live_key a b hk]; exact hl) hk

end CoalesceLive

/-- C5, as stated, fails: a second `simplify_positionings` sorts the entries
marked removed to the front and merges them again, so both tables differ from
those after the first run. -/
theorem simplify_positionings_twice_counterexample :
    (simplify_positionings state_three_kerns)._kerns =
      [{ left := 1, right := 2, amount := 18 }, { left := -1, right := 2, amount := 5 },
       { left := -1, right := 2, amount := 3 }] ∧
    (simplify_positionings (simplify_positionings state_three_kerns))._kerns =
      [{ left := -1, right := 2, amount := 8 }, { left := -1, right := 2, amount := 3 },
       { left := 1, right := 2, amount := 18 }] ∧
    (simplify_positionings state_three_kerns)._vfpos =
      [{ in_ := 3, pdx := 11, pdy := 22, adx := 33 },
       { in_ := -1, pdx := 10, pdy := 20, adx := 30 }] ∧
    (simplify_positionings (simplify_positionings state_three_kerns))._vfpos =
      [{ in_ := -1, pdx := 10, pdy := 20, adx := 30 },
       { in_ := 3, pdx := 11, pdy := 22, adx := 33 }] := by
  decide

/-- C5 (amended). Idempotence of merging on the live entries, for every outcome
of the two sorts: running `simplify_positionings` twice in a row leaves the same
kerns with `left != -1` and the same single positionings with `in != -1`, in
the same order, as running it once. -/
theorem simplify_positionings_twice_live (sortK : List Kern → List Kern)
    (sortV : List Vfpos → List Vfpos) (hK : IsSort kern_key_le sortK)
    (hV : IsSort vfpos_key_le sortV) (st : GsubEncoding) :
    (simplify_positionings_with sortK sortV
        (simplify_positionings_with sortK sortV st))._kerns.filter Kern.live =
      (simplify_positionings_with sortK sortV st)._kerns.filter Kern.live ∧
    (simplify_positionings_with sortK sortV
        (simplify_positionings_with sortK sortV st))._vfpos.filter Vfpos.live =
      (simplify_positionings_with sortK sortV st)._vfpos.filter Vfpos.live := by
  constructor
  · by_cases h0 : (simplify_positionings_with sortK sortV st)._kerns.length ≠ 0
    · have hK1 : (simplify_positionings_with sortK sortV st)._kerns =
          merge_kerns (sortK st._kerns) := by
        by_cases h1 : st._kerns.length ≠ 0
        · simp only [simplify_positionings_with, h1, ne_eq, not_false_eq_true, if_true]
        · exfalso
          apply h0
          simp only [simplify_positionings_with, h1, if_false]
          exact not_not.mp h1
      have hK2 : (simplify_positionings_with sortK sortV
          (simplify_positionings_with sortK sortV st))._kerns =
          merge_kerns (sortK (simplify_positionings_with sortK sortV st)._kerns) := by
        show (if (simplify_positionings_with sortK sortV st)._kerns.length ≠ 0 then _ else _) = _
        rw [if_pos h0]
      rw [hK2, hK1, merge_kerns_eq, merge_kerns_eq]
      have hp := (hK (merge_kerns (sortK st._kerns))).1
      rw [merge_kerns_eq] at hp
      have hs := (hK (merge_kerns (sortK st._kerns))).2
      rw [merge_kerns_eq] at hs
      exact coalesce_twice_live kern_laws _ _ (hK st._kerns).2 hp hs
    · have hK2 : (simplify_positionings_with sortK sortV
          (simplify_positionings_with sortK sortV st))._kerns =
          (simplify_positionings_with sortK sortV st)._kerns := by
        show (if (simplify_positionings_with sortK sortV st)._kerns.length ≠ 0 then _ else _) = _
        rw [if_neg h0]
      rw [hK2]
  · by_cases h0 : (simplify_positionings_with sortK sortV st)._vfpos.length ≠ 0
    · have hV1 : (simplify_positionings_with sortK sortV st)._vfpos =
          merge_vfpos (sortV st._vfpos) := by
        by_cases h1 : st._vfpos.length ≠ 0
        · simp only [simplify_positionings_with, h1, ne_eq, not_false_eq_true, if_true]
        · exfalso
          apply h0
          simp only [simplify_positionings_with, h1, if_false]
          exact not_not.mp h1
      have hV2 : (simplify_positionings_with sortK sortV
          (simplify_positionings_with sortK sortV st))._vfpos =
          merge_vfpos (sortV (simplify_positionings_with sortK sortV st)._vfpos) := by
        show (if (simplify_positionings_with sortK sortV st)._vfpos.length ≠ 0 then _ else _) = _
        rw [if_pos h0]
      rw [hV2, hV1, merge_vfpos_eq, merge_vfpos_eq]
      have hp := (hV (merge_vfpos (sortV st._vfpos))).1
      rw [merge_vfpos_eq] at hp
      have hs := (hV (merge_vfpos (sortV st._vfpos))).2
      rw [merge_vfpos_eq] at hs
      exact coalesce_twice_live vfpos_laws _ _ (hV st._vfpos).2 hp hs
    · have hV2 : (simplify_positionings_with sortK sortV
          (simplify_positionings_with sortK sortV st))._vfpos =
          (simplify_positionings_with sortK sortV st)._vfpos := by
        show (if (simplify_positionings_with sortK sortV st)._vfpos.length ≠ 0 then _ else _) = _
        rw [if_neg h0]
      rw [hV2]

theorem simplify_positionings_twice_live_witness :
    (simplify_positionings_with (fun l => l.insertionSort kern_key_le)
        (fun l => l.insertionSort vfpos_key_le)
        (simplify_positionings_with (fun l => l.insertionSort kern_key_le)
          (fun l => l.insertionSort vfpos_key_le) state_three_kerns))._kerns.filter Kern.live =
      (simplify_positionings_with (fun l => l.insertionSort kern_key_le)
        (fun l => l.insertionSort vfpos_key_le) state_three_kerns)._kerns.filter Kern.live ∧
    (simplify_positionings_with (fun l => l.insertionSort kern_key_le)
        (fun l => l.insertionSort vfpos_key_le)
        (simplify_positionings_with (fun l => l.insertionSort kern_key_le)
          (fun l => l.insertionSort vfpos_key_le) state_three_kerns))._vfpos.filter Vfpos.live =
      (simplify_positionings_with (fun l => l.insertionSort kern_key_le)
        (fun l => l.insertionSort vfpos_key_le) state_three_kerns)._vfpos.filter Vfpos.live :=
  simplify_positionings_twice_live _ _ isSort_insertionSort_kern isSort_insertionSort_vfpos
    state_three_kerns

theorem hard_scan_bound (g : Int) : ∀ (xs : List Int) (i : Int),
    (hard_scan g xs i).1 = -1 ∨ (i ≤ (hard_scan g xs i).1 ∧ (hard_scan g xs i).1 < i + xs.length) := by
  intro xs
  induction xs with
  | nil => intro i; left; rfl
  | cons x xs ih =>
    intro i
    unfold hard_scan
    split
    · right
      simp only [List.length_cons]
      push_cast
      omega
    · rcases ih (i + 1) with h | h
      · left; exact h
      · right
        simp only [List.length_cons]
        push_cast
        omega

theorem hard_val_bound (enc : List Int) (h : Int) :
    -1 ≤ hard_val enc h ∧ hard_val enc h < enc.length := by
  unfold hard_val
  split
  · omega
  · rcases hard_scan_bound h enc 0 with h1 | h1 <;> omega

theorem hard_encoding_fst (h : Int) (st : GsubEncoding) :
    (hard_encoding h st).1 = hard_val st._encoding h := by
  unfold hard_encoding hard_val
  split
  · rfl
  · simp only
    split <;> rfl

theorem code_of_eq (st : GsubEncoding) (h : Int) :
    code_of st h = (emap_answer st._emap h).getD (hard_val st._encoding h) := by
  unfold code_of encoding emap_answer
  split
  · split
    · rfl
    · simp [hard_encoding_fst]
  · simp [hard_encoding_fst]

theorem vec_at_grown (emap : List Int) (h : Int) (h0 : 0 ≤ h) (j : Int) :
    vec_at (if (emap.length : Int) ≤ h then resize emap (h + 1).toNat (-2) else emap) j
        = vec_at emap j ∨
      (vec_at emap j = none ∧
        vec_at (if (emap.length : Int) ≤ h then resize emap (h + 1).toNat (-2) else emap) j
          = some (-2)) := by
  by_cases hlen : (emap.length : Int) ≤ h
  · rw [if_pos hlen]
    by_cases hj0 : 0 ≤ j
    · by_cases hj : j.toNat < emap.length
      · left
        simp only [vec_at, hj0, if_true, resize]
        rw [List.getElem?_append_left (by simp; omega), List.getElem?_take_of_lt (by omega)]
      · by_cases hj2 : j.toNat < (h + 1).toNat
        · right
          simp only [vec_at, hj0, if_true, resize]
          refine ⟨List.getElem?_eq_none (by omega), ?_⟩
          rw [List.getElem?_append_right (by simp; omega)]
          rw [List.getElem?_replicate]
          simp only [List.length_take]
          rw [if_pos (by omega)]
        · left
          simp only [vec_at, hj0, if_true]
          rw [List.getElem?_eq_none (by simp [resize]; omega),
            List.getElem?_eq_none (by omega)]
    · left
      simp [vec_at, hj0]
  · rw [if_neg hlen]
    left
    rfl

theorem length_grown (emap : List Int) (h : Int) (h0 : 0 ≤ h) :
    h < ((if (emap.length : Int) ≤ h then resize emap (h + 1).toNat (-2) else emap).length : Int) := by
  split
  · rw [length_resize]
    omega
  · omega

/-- Storing at the entry of glyph `h` leaves what the reverse map answers for
every other glyph as it was. -/
theorem emap_answer_store_ne (emap : List Int) (h : Int) (h0 : 0 ≤ h) (x : Int) (j : Int)
    (hne : h ≠ j) :
    emap_answer ((if (emap.length : Int) ≤ h then resize emap (h + 1).toNat (-2)
      else emap).set h.toNat x) j = emap_answer emap j := by
  unfold emap_answer
  rw [vec_at_set_ne _ h j x h0 hne]
  rcases vec_at_grown emap h h0 j with hg | ⟨hg1, hg2⟩
  · rw [hg]
  · rw [hg1, hg2]
    simp

theorem emap_answer_store_eq (emap : List Int) (h : Int) (h0 : 0 ≤ h) (x : Int) :
    emap_answer ((if (emap.length : Int) ≤ h then resize emap (h + 1).toNat (-2)
      else emap).set h.toNat x) h = if -1 ≤ x then some x else none := by
  unfold emap_answer
  rw [vec_at_set_eq _ h x h0 (length_grown emap h h0)]

theorem EmapExt.refl_emap (st : GsubEncoding) : EmapExt st st :=
  ⟨rfl, fun _ => Or.inl rfl⟩

theorem EmapExt.encoding_eq {st st2 : GsubEncoding} (h : EmapExt st st2) :
    st2._encoding = st._encoding := by
  rw [h.1]

theorem EmapExt.trans_emap {st st2 st3 : GsubEncoding} (h12 : EmapExt st st2) (h23 : EmapExt st2 st3) :
    EmapExt st st3 := by
  refine ⟨?_, ?_⟩
  · have e1 := h12.1
    have e2 := h23.1
    rw [e2, e1]
  · intro h
    rcases h23.2 h with a | ⟨a1, a2⟩
    · rw [a]; exact h12.2 h
    · rcases h12.2 h with b | ⟨b1, b2⟩
      · right
        rw [← b]
        exact ⟨a1, by rw [a2, h12.encoding_eq]⟩
      · rw [b2] at a1
        exact absurd a1 (by simp)

theorem EmapExt.code_of {st st2 : GsubEncoding} (h : EmapExt st st2) (g : Int) :
    code_of st2 g = code_of st g := by
  rw [code_of_eq, code_of_eq, h.encoding_eq]
  rcases h.2 g with a | ⟨a1, a2⟩
  · rw [a]
  · rw [a1, a2]
    rfl

theorem EmapExt.inRange {st st2 : GsubEncoding} (h : EmapExt st st2) (hr : EmapInRange st) :
    EmapInRange st2 := by
  intro g e he
  rw [h.encoding_eq]
  rcases h.2 g with a | ⟨_, a2⟩
  · rw [a] at he
    exact hr g e he
  · rw [a2] at he
    obtain rfl := Option.some.inj he
    exact (hard_val_bound _ _).2

/-- A lookup changes at most the reverse map, and only by memoizing the answer
of a scan where the map had none. -/
theorem encoding_ext (g : Int) (st : GsubEncoding) : EmapExt st (encoding g st).2 := by
  have hhard : emap_answer st._emap g = none → EmapExt st (hard_encoding g st).2 := by
    intro hnone
    unfold hard_encoding
    split
    · exact EmapExt.refl_emap st
    · rename_i hg
      have h0 : 0 ≤ g := by omega
      simp only
      split
      · refine ⟨rfl, ?_⟩
        intro h
        simp only
        by_cases hgh : g = h
        · subst hgh
          right
          refine ⟨hnone, ?_⟩
          rw [emap_answer_store_eq _ g h0]
          have hb := hard_scan_bound g st._encoding 0
          rw [if_pos (by omega)]
          simp [hard_val, hg]
        · left
          exact emap_answer_store_ne _ g h0 _ h hgh
      · exact EmapExt.refl_emap st
  unfold encoding
  split
  · rename_i e he
    split
    · exact EmapExt.refl_emap st
    · apply hhard
      simp [emap_answer, he, *]
  · rename_i he
    apply hhard
    simp [emap_answer, he]

theorem encoding_fst (g : Int) (st : GsubEncoding) : (encoding g st).1 = code_of st g := rfl

theorem code_of_lt (st : GsubEncoding) (hr : EmapInRange st) (g : Int) :
    code_of st g < st._encoding.length := by
  rw [code_of_eq]
  cases ha : emap_answer st._emap g with
  | none => exact (hard_val_bound _ _).2
  | some e => exact hr g e ha

theorem code_of_nonneg_glyph (st : GsubEncoding) (g : Int) (h : 0 ≤ code_of st g) : 0 ≤ g := by
  by_contra hg
  rw [code_of_eq] at h
  have h1 : emap_answer st._emap g = none := by
    simp [emap_answer, vec_at, hg]
  rw [h1] at h
  simp only [Option.getD_none, hard_val] at h
  rw [if_pos (by omega)] at h
  omega

theorem bit_test_new (n : Nat) (j : Int) : bit_test (bitvec_new n) j = false := by
  unfold bit_test bitvec_new vec_at
  split
  · rw [List.getElem?_replicate]
    split <;> rfl
  · rfl

theorem bit_test_set (v : List Bool) (e j : Int) (h0 : 0 ≤ e) (h1 : e < v.length) :
    bit_test (bit_set v e) j = (bit_test v j || decide (j = e)) := by
  unfold bit_test bit_set
  by_cases hje : j = e
  · subst hje
    rw [vec_at_set_eq v j true h0 h1]
    simp
  · rw [vec_at_set_ne v e j true h0 (fun h => hje h.symm)]
    simp [hje]

theorem assign_bitvec_spec (bv : Option (List Bool)) (e : Int) (n : Nat)
    (hlen : ∀ v, bv = some v → v.length = n) (h0 : 0 ≤ e) (h1 : e < n) :
    (assign_bitvec bv e n).1 = single_bit bv e ∧
    ∃ v2, (assign_bitvec bv e n).2 = some v2 ∧ v2.length = n ∧
      ∀ j, bit_test v2 j = (single_bit bv j || decide (j = e)) := by
  unfold assign_bitvec
  rw [if_pos ⟨h0, h1⟩]
  cases bv with
  | none =>
    refine ⟨by simp [single_bit, bit_test_new], _, rfl, by simp [bit_set, bitvec_new], ?_⟩
    intro j
    simp only [Option.getD_none]
    rw [bit_test_set _ e j h0 (by simp [bitvec_new]; exact h1), bit_test_new]
    rfl
  | some v =>
    have hv := hlen v rfl
    refine ⟨rfl, _, rfl, by simp [bit_set, hv], ?_⟩
    intro j
    simp only [Option.getD_some]
    rw [bit_test_set v e j h0 (by rw [hv]; exact h1)]
    rfl

theorem first_writer_congr {α κ : Type} [DecidableEq κ] (key : α → κ) :
    ∀ (l : List α) (seen1 seen2 : κ → Bool), (∀ x, seen1 x = seen2 x) →
      first_writer key seen1 l = first_writer key seen2 l := by
  intro l
  induction l with
  | nil => intro _ _ _; rfl
  | cons k ks ih =>
    intro seen1 seen2 h
    unfold first_writer
    rw [h (key k)]
    split
    · exact ih seen1 seen2 h
    · rw [ih _ _ (fun x => by rw [h x])]

/-- Among the entries kept by `first_writer`, those with key `c` are: none if
`c` had been seen, else the first requested entry with key `c` alone. -/
theorem first_writer_filter {α κ : Type} [DecidableEq κ] (key : α → κ) (c : κ) :
    ∀ (l : List α) (seen : κ → Bool),
      (first_writer key seen l).filter (fun x => decide (key x = c)) =
        if seen c = true then [] else (l.find? (fun x => decide (key x = c))).toList := by
  intro l
  induction l with
  | nil => intro seen; simp [first_writer]
  | cons k ks ih =>
    intro seen
    unfold first_writer
    by_cases hk : seen (key k) = true
    · rw [if_pos hk, ih seen]
      by_cases hc : seen c = true
      · rw [if_pos hc, if_pos hc]
      · rw [if_neg hc, if_neg hc]
        have hne : key k ≠ c := fun h => hc (by rw [← h]; exact hk)
        rw [List.find?_cons_of_neg _ (by simpa using hne)]
    · rw [if_neg hk]
      by_cases hkc : key k = c
      · rw [List.filter_cons_of_pos (by simpa using hkc), ih]
        have hc : ¬ seen c = true := by rw [← hkc]; exact hk
        rw [if_neg hc, List.find?_cons_of_pos _ (by simpa using hkc)]
        simp [hkc]
      · rw [List.filter_cons_of_neg (by simpa using hkc), ih]
        have hkc2 : c ≠ key k := fun h => hkc h.symm
        simp only [hkc2, decide_False, Bool.or_false]
        rw [List.find?_cons_of_neg _ (by simpa using hkc)]

theorem code_of_congr {st st2 : GsubEncoding} (h1 : st2._emap = st._emap)
    (h2 : st2._encoding = st._encoding) (g : Int) : code_of st2 g = code_of st g := by
  rw [code_of_eq, code_of_eq, h1, h2]

theorem EmapInRange.congr {st st2 : GsubEncoding} (hr : EmapInRange st)
    (h1 : st2._emap = st._emap) (h2 : st2._encoding = st._encoding) : EmapInRange st2 := by
  intro g e he
  rw [h1] at he
  rw [h2]
  exact hr g e he

theorem pair_bit_set (pc : List (Option (List Bool))) (c1 : Int) (v2 : List Bool)
    (h0 : 0 ≤ c1) (h1 : c1 < pc.length) (a b : Int) :
    pair_bit (pc.set c1.toNat (some v2)) a b =
      if a = c1 then bit_test v2 b else pair_bit pc a b := by
  unfold pair_bit
  by_cases ha : a = c1
  · subst ha
    rw [vec_at_set_eq pc a _ h0 h1, if_pos rfl]
  · rw [vec_at_set_ne pc c1 a _ h0 (fun h => ha h.symm), if_neg ha]

theorem apply_positioning_pairkern (lg rg adx : Int) (q : PosPass) (st0 : GsubEncoding)
    (hwf : q.WF) (hr : EmapInRange q.st) (hcode : ∀ g, code_of q.st g = code_of st0 g) :
    ∃ q2, apply_positioning (.pairkern lg rg adx) q = some q2 ∧ q2.WF ∧ EmapInRange q2.st ∧
      (∀ g, code_of q2.st g = code_of st0 g) ∧
      q2.st._kerns = q.st._kerns ++ first_writer Kern.key
        (fun c => pair_bit q.pair_changed c.1 c.2) (resolved_kerns st0 [.pairkern lg rg adx]) ∧
      (∀ c : Int × Int, pair_bit q2.pair_changed c.1 c.2 =
        (pair_bit q.pair_changed c.1 c.2 ||
          (resolved_kerns st0 [.pairkern lg rg adx]).any (fun k => decide (c = Kern.key k)))) ∧
      q2.st._vfpos = q.st._vfpos ∧ q2.single_changed = q.single_changed := by
  have E1 := encoding_ext lg q.st
  have E2 := encoding_ext rg (encoding lg q.st).2
  have E := E1.trans_emap E2
  have hc1 : (encoding lg q.st).1 = code_of st0 lg := by rw [encoding_fst, hcode]
  have hc2 : (encoding rg (encoding lg q.st).2).1 = code_of st0 rg := by
    rw [encoding_fst, E1.code_of, hcode]
  have henc : (encoding rg (encoding lg q.st).2).2._encoding = q.st._encoding := E.encoding_eq
  have hr2 : EmapInRange (encoding rg (encoding lg q.st).2).2 := E.inRange hr
  have hcode2 : ∀ g, code_of (encoding rg (encoding lg q.st).2).2 g = code_of st0 g :=
    fun g => by rw [E.code_of, hcode]
  obtain ⟨w1, w2, w3⟩ := hwf
  unfold apply_positioning
  simp only
  rw [hc1, hc2, henc]
  by_cases hres : 0 ≤ code_of st0 lg ∧ 0 ≤ code_of st0 rg
  · rw [if_pos hres]
    have hlt1 : code_of st0 lg < q.st._encoding.length := by
      rw [← hcode]; exact code_of_lt q.st hr lg
    have hlt2 : code_of st0 rg < q.st._encoding.length := by
      rw [← hcode]; exact code_of_lt q.st hr rg
    obtain ⟨bv, hbv⟩ := vec_at_eq_some_of_lt q.pair_changed (code_of st0 lg) hres.1
      (by rw [w1]; exact hlt1)
    rw [hbv]
    simp only
    have hbvlen : ∀ v, bv = some v → v.length = q.st._encoding.length := by
      intro v hv
      apply w3 v
      rw [← hv]
      unfold vec_at at hbv
      rw [if_pos hres.1] at hbv
      exact List.getElem?_mem hbv
    obtain ⟨a1, v2, a2, a3, a4⟩ := assign_bitvec_spec bv (code_of st0 rg)
      q.st._encoding.length hbvlen hres.2 hlt2
    have hpb : single_bit bv (code_of st0 rg) =
        pair_bit q.pair_changed (code_of st0 lg) (code_of st0 rg) := by
      unfold pair_bit single_bit
      rw [hbv]
      cases bv <;> rfl
    have hresolved : resolved_kerns st0 [.pairkern lg rg adx] =
        [{ left := code_of st0 lg, right := code_of st0 rg, amount := adx }] := by
      simp only [resolved_kerns, hres, and_self, if_true]
    have hX : ∀ b : Bool, ∃ X : GsubEncoding,
        (if b = false then add_kern (code_of st0 lg) (code_of st0 rg) adx
            (encoding rg (encoding lg q.st).2).2
          else (encoding rg (encoding lg q.st).2).2) = X ∧
        X._encoding = q.st._encoding ∧
        X._emap = (encoding rg (encoding lg q.st).2).2._emap ∧
        X._vfpos = q.st._vfpos ∧
        X._kerns = q.st._kerns ++ (if b = false then
          [{ left := code_of st0 lg, right := code_of st0 rg, amount := adx }] else []) := by
      have hk : (encoding rg (encoding lg q.st).2).2._kerns = q.st._kerns := by rw [E.1]
      have hv : (encoding rg (encoding lg q.st).2).2._vfpos = q.st._vfpos := by rw [E.1]
      intro b
      cases b with
      | false => exact ⟨_, rfl, henc, rfl, hv, by simp [add_kern, hk]⟩
      | true => exact ⟨_, rfl, henc, rfl, hv, by simp [hk]⟩
    obtain ⟨X, x0, x1, x2, x3, x4⟩ :=
      hX (assign_bitvec bv (code_of st0 rg) q.st._encoding.length).1
    rw [x0]
    refine ⟨_, rfl, ⟨?_, ?_, ?_⟩, ?_, ?_, ?_, ?_, x3, rfl⟩
    · simp only [List.length_set]
      rw [w1, x1]
    · intro v hv
      show v.length = X._encoding.length
      rw [x1]
      exact w2 v hv
    · intro v hv
      show v.length = X._encoding.length
      rw [x1]
      rcases List.mem_or_eq_of_mem_set hv with hv | hv
      · exact w3 v hv
      · rw [a2] at hv
        rw [← a3, Option.some.inj hv]
    · exact hr2.congr x2 (by rw [x1, henc])
    · intro g
      show code_of X g = code_of st0 g
      rw [@code_of_congr (encoding rg (encoding lg q.st).2).2 X x2 (by rw [x1, henc])]
      exact hcode2 g
    · show X._kerns = _
      rw [x4, hresolved, a1, hpb]
      unfold first_writer
      simp only [Kern.key]
      by_cases hb : pair_bit q.pair_changed (code_of st0 lg) (code_of st0 rg) = true
      · rw [if_neg (by simp [hb]), if_pos hb]
        simp [first_writer]
      · rw [if_pos (by simpa using hb), if_neg hb]
        simp [first_writer]
    · intro c
      show pair_bit (q.pair_changed.set _ _) c.1 c.2 = _
      rw [a2, pair_bit_set _ _ v2 hres.1 (by rw [w1]; exact hlt1), hresolved]
      simp only [List.any_cons, List.any_nil, Bool.or_false, Kern.key]
      by_cases hca : c.1 = code_of st0 lg
      · rw [if_pos hca, a4, hca]
        unfold pair_bit single_bit
        rw [hbv]
        have hdec : decide (c = (code_of st0 lg, code_of st0 rg)) =
            decide (c.2 = code_of st0 rg) := by
          rw [decide_eq_decide]
          constructor
          · intro h; rw [h]
          · intro h; exact Prod.ext hca h
        rw [hdec]
        cases bv <;> rfl
      · rw [if_neg hca]
        have hdec : decide (c = (code_of st0 lg, code_of st0 rg)) = false := by
          rw [decide_eq_false_iff_not]
          intro h
          exact hca (by rw [h])
        rw [hdec, Bool.or_false]
  · rw [if_neg hres]
    have hresolved : resolved_kerns st0 [.pairkern lg rg adx] = [] := by
      simp only [resolved_kerns, hres, if_false]
    refine ⟨_, rfl, ⟨by rw [henc]; exact w1, fun v hv => by rw [henc]; exact w2 v hv,
      fun v hv => by rw [henc]; exact w3 v hv⟩, hr2, hcode2, ?_, ?_, ?_, rfl⟩
    · rw [hresolved]
      simp only [first_writer, List.append_nil]
      rw [E.1]
    · intro c
      rw [hresolved]
      simp
    · rw [E.1]

theorem apply_positioning_single (g pdx pdy adx : Int) (q : PosPass) (st0 : GsubEncoding)
    (hwf : q.WF) (hr : EmapInRange q.st) (hcode : ∀ g, code_of q.st g = code_of st0 g) :
    ∃ q2, apply_positioning (.single g pdx pdy adx) q = some q2 ∧ q2.WF ∧ EmapInRange q2.st ∧
      (∀ g, code_of q2.st g = code_of st0 g) ∧
      q2.st._vfpos = q.st._vfpos ++ first_writer Vfpos.in_
        (single_bit q.single_changed) (resolved_vfpos st0 [.single g pdx pdy adx]) ∧
      (∀ c : Int, single_bit q2.single_changed c =
        (single_bit q.single_changed c ||
          (resolved_vfpos st0 [.single g pdx pdy adx]).any (fun k => decide (c = k.in_)))) ∧
      q2.st._kerns = q.st._kerns ∧ q2.pair_changed = q.pair_changed := by
  have E := encoding_ext g q.st
  have hc : (encoding g q.st).1 = code_of st0 g := by rw [encoding_fst, hcode]
  have henc : (encoding g q.st).2._encoding = q.st._encoding := E.encoding_eq
  have hr2 : EmapInRange (encoding g q.st).2 := E.inRange hr
  have hcode2 : ∀ h, code_of (encoding g q.st).2 h = code_of st0 h :=
    fun h => by rw [E.code_of, hcode]
  have hk : (encoding g q.st).2._kerns = q.st._kerns := by rw [E.1]
  have hv : (encoding g q.st).2._vfpos = q.st._vfpos := by rw [E.1]
  obtain ⟨w1, w2, w3⟩ := hwf
  unfold apply_positioning
  simp only
  rw [hc, henc]
  by_cases hres : 0 ≤ code_of st0 g
  · rw [if_pos hres]
    have hlt : code_of st0 g < q.st._encoding.length := by
      rw [← hcode]; exact code_of_lt q.st hr g
    obtain ⟨a1, v2, a2, a3, a4⟩ := assign_bitvec_spec q.single_changed (code_of st0 g)
      q.st._encoding.length w2 hres hlt
    have hresolved : resolved_vfpos st0 [.single g pdx pdy adx] =
        [{ in_ := code_of st0 g, pdx := pdx, pdy := pdy, adx := adx }] := by
      simp only [resolved_vfpos, hres, if_true]
    have hX : ∀ b : Bool, ∃ X : GsubEncoding,
        (if b = false then add_single_positioning (code_of st0 g) pdx pdy adx
            (encoding g q.st).2
          else (encoding g q.st).2) = X ∧
        X._encoding = q.st._encoding ∧
        X._emap = (encoding g q.st).2._emap ∧
        X._kerns = q.st._kerns ∧
        X._vfpos = q.st._vfpos ++ (if b = false then
          [{ in_ := code_of st0 g, pdx := pdx, pdy := pdy, adx := adx }] else []) := by
      intro b
      cases b with
      | false => exact ⟨_, rfl, henc, rfl, hk, by simp [add_single_positioning, hv]⟩
      | true => exact ⟨_, rfl, henc, rfl, hk, by simp [hv]⟩
    obtain ⟨X, x0, x1, x2, x3, x4⟩ :=
      hX (assign_bitvec q.single_changed (code_of st0 g) q.st._encoding.length).1
    rw [x0]
    refine ⟨_, rfl, ⟨?_, ?_, ?_⟩, ?_, ?_, ?_, ?_, x3, rfl⟩
    · show q.pair_changed.length = X._encoding.length
      rw [w1, x1]
    · intro v hv2
      show v.length = X._encoding.length
      rw [x1]
      have hv3 : (assign_bitvec q.single_changed (code_of st0 g) q.st._encoding.length).2
          = some v := hv2
      rw [a2] at hv3
      rw [← a3, Option.some.inj hv3]
    · intro v hv2
      show v.length = X._encoding.length
      rw [x1]
      exact w3 v hv2
    · exact hr2.congr x2 (by rw [x1, henc])
    · intro h
      show code_of X h = code_of st0 h
      rw [@code_of_congr (encoding g q.st).2 X x2 (by rw [x1, henc])]
      exact hcode2 h
    · show X._vfpos = _
      rw [x4, hresolved, a1]
      unfold first_writer
      by_cases hb : single_bit q.single_changed (code_of st0 g) = true
      · rw [if_neg (by simp [hb]), if_pos hb]
        simp [first_writer]
      · rw [if_pos (by simpa using hb), if_neg hb]
        simp [first_writer]
    · intro c
      show single_bit (assign_bitvec q.single_changed (code_of st0 g)
        q.st._encoding.length).2 c = _
      rw [a2, hresolved]
      simp only [List.any_cons, List.any_nil, Bool.or_false]
      exact a4 c
  · rw [if_neg hres]
    have hresolved : resolved_vfpos st0 [.single g pdx pdy adx] = [] := by
      simp only [resolved_vfpos, hres, if_false]
    refine ⟨_, rfl, ⟨by rw [henc]; exact w1, fun v hv2 => by rw [henc]; exact w2 v hv2,
      fun v hv2 => by rw [henc]; exact w3 v hv2⟩, hr2, hcode2, ?_, ?_, hk, rfl⟩
    · rw [hresolved]
      simp only [first_writer, List.append_nil]
      exact hv
    · intro c
      rw [hresolved]
      simp

/-- One iteration of the positioning loop: it completes, and what it appends
and records is what "first writer wins" asks for the one rule. -/
theorem apply_positioning_spec (p : Positioning) (q : PosPass) (st0 : GsubEncoding)
    (hwf : q.WF) (hr : EmapInRange q.st) (hcode : ∀ g, code_of q.st g = code_of st0 g) :
    ∃ q2, apply_positioning p q = some q2 ∧ q2.WF ∧ EmapInRange q2.st ∧
      (∀ g, code_of q2.st g = code_of st0 g) ∧
      q2.st._kerns = q.st._kerns ++ first_writer Kern.key
        (fun c => pair_bit q.pair_changed c.1 c.2) (resolved_kerns st0 [p]) ∧
      (∀ c : Int × Int, pair_bit q2.pair_changed c.1 c.2 =
        (pair_bit q.pair_changed c.1 c.2 ||
          (resolved_kerns st0 [p]).any (fun k => decide (c = Kern.key k)))) ∧
      q2.st._vfpos = q.st._vfpos ++ first_writer Vfpos.in_
        (single_bit q.single_changed) (resolved_vfpos st0 [p]) ∧
      (∀ c : Int, single_bit q2.single_changed c =
        (single_bit q.single_changed c ||
          (resolved_vfpos st0 [p]).any (fun k => decide (c = k.in_)))) := by
  cases p with
  | pairkern lg rg adx =>
    obtain ⟨q2, e1, e2, e3, e4, e5, e6, e7, e8⟩ :=
      apply_positioning_pairkern lg rg adx q st0 hwf hr hcode
    refine ⟨q2, e1, e2, e3, e4, e5, e6, ?_, ?_⟩
    · rw [e7]; simp [resolved_vfpos, first_writer]
    · intro c; rw [e8]; simp [resolved_vfpos]
  | single g pdx pdy adx =>
    obtain ⟨q2, e1, e2, e3, e4, e5, e6, e7, e8⟩ :=
      apply_positioning_single g pdx pdy adx q st0 hwf hr hcode
    refine ⟨q2, e1, e2, e3, e4, ?_, ?_, e5, e6⟩
    · rw [e7]; simp [resolved_kerns, first_writer]
    · intro c; rw [e8]; simp [resolved_kerns]
  | other =>
    refine ⟨q, rfl, hwf, hr, hcode, ?_, ?_, ?_, ?_⟩
    · simp [resolved_kerns, first_writer]
    · intro c; simp [resolved_kerns]
    · simp [resolved_vfpos, first_writer]
    · intro c; simp [resolved_vfpos]

theorem first_writer_cons_pos {α κ : Type} [DecidableEq κ] (key : α → κ) (seen : κ → Bool)
    (k : α) (ks : List α) (h : seen (key k) = true) :
    first_writer key seen (k :: ks) = first_writer key seen ks := by
  rw [first_writer, if_pos h]

theorem first_writer_cons_neg {α κ : Type} [DecidableEq κ] (key : α → κ) (seen : κ → Bool)
    (k : α) (ks : List α) (h : ¬ seen (key k) = true) :
    first_writer key seen (k :: ks) =
      k :: first_writer key (fun x => seen x || decide (x = key k)) ks := by
  rw [first_writer, if_neg h]

theorem first_writer_append {α κ : Type} [DecidableEq κ] (key : α → κ) (l2 : List α) :
    ∀ (l1 : List α) (seen : κ → Bool),
      first_writer key seen (l1 ++ l2) =
        first_writer key seen l1 ++
          first_writer key (fun x => seen x || l1.any (fun k => decide (x = key k))) l2 := by
  intro l1
  induction l1 with
  | nil =>
    intro seen
    simp only [List.nil_append, first_writer, List.any_nil, Bool.or_false]
  | cons k ks ih =>
    intro seen
    rw [List.cons_append]
    by_cases hk : seen (key k) = true
    · rw [first_writer_cons_pos key seen k _ hk, first_writer_cons_pos key seen k _ hk, ih seen]
      congr 1
      apply first_writer_congr
      intro x
      simp only [List.any_cons]
      by_cases hx : x = key k
      · subst hx
        simp [hk]
      · simp [hx]
    · rw [first_writer_cons_neg key seen k _ hk, first_writer_cons_neg key seen k _ hk, ih,
        List.cons_append]
      congr 2
      apply first_writer_congr
      intro x
      simp only [List.any_cons, Bool.or_assoc]

theorem resolved_kerns_cons (st : GsubEncoding) (p : Positioning) (pv : List Positioning) :
    resolved_kerns st (p :: pv) = resolved_kerns st [p] ++ resolved_kerns st pv := by
  cases p with
  | pairkern lg rg adx =>
    simp only [resolved_kerns]
    split <;> simp
  | single g pdx pdy adx => simp [resolved_kerns]
  | other => simp [resolved_kerns]

theorem resolved_vfpos_cons (st : GsubEncoding) (p : Positioning) (pv : List Positioning) :
    resolved_vfpos st (p :: pv) = resolved_vfpos st [p] ++ resolved_vfpos st pv := by
  cases p with
  | pairkern lg rg adx => simp [resolved_vfpos]
  | single g pdx pdy adx =>
    simp only [resolved_vfpos]
    split <;> simp
  | other => simp [resolved_vfpos]

/-- The positioning loop completes, and what it appends is what "first writer
wins" asks for the resolved rules, given what the trackers have seen. -/
theorem apply_positionings_loop_spec (st0 : GsubEncoding) :
    ∀ (pv : List Positioning) (q : PosPass), q.WF → EmapInRange q.st →
      (∀ g, code_of q.st g = code_of st0 g) →
      ∃ q2, apply_positionings_loop pv q = some q2 ∧ EmapInRange q2.st ∧
        q2.st._kerns = q.st._kerns ++ first_writer Kern.key
          (fun c => pair_bit q.pair_changed c.1 c.2) (resolved_kerns st0 pv) ∧
        q2.st._vfpos = q.st._vfpos ++ first_writer Vfpos.in_
          (single_bit q.single_changed) (resolved_vfpos st0 pv) := by
  intro pv
  induction pv with
  | nil =>
    intro q _ hr _
    exact ⟨q, rfl, hr, by simp [resolved_kerns, first_writer],
      by simp [resolved_vfpos, first_writer]⟩
  | cons p pv ih =>
    intro q hwf hr hcode
    obtain ⟨q1, e1, e2, e3, e4, e5, e6, e7, e8⟩ := apply_positioning_spec p q st0 hwf hr hcode
    obtain ⟨q2, f1, f2, f3, f4⟩ := ih q1 e2 e3 e4
    refine ⟨q2, by simp only [apply_positionings_loop, e1, f1], f2, ?_, ?_⟩
    · rw [f3, e5, resolved_kerns_cons st0 p pv, first_writer_append, List.append_assoc]
      congr 2
      apply first_writer_congr
      intro c
      exact e6 c
    · rw [f4, e7, resolved_vfpos_cons st0 p pv, first_writer_append, List.append_assoc]
      congr 2
      apply first_writer_congr
      intro c
      exact e8 c

theorem PosPass.start_wf_pos (st : GsubEncoding) : (PosPass.start st).WF := by
  refine ⟨by simp [PosPass.start], ?_, ?_⟩
  · intro v hv
    simp [PosPass.start] at hv
  · intro v hv
    simp only [PosPass.start] at hv
    exact absurd (List.eq_of_mem_replicate hv) (by simp)

theorem pair_bit_start (st : GsubEncoding) (a b : Int) :
    pair_bit (PosPass.start st).pair_changed a b = false := by
  unfold pair_bit PosPass.start
  simp only
  cases h : vec_at (List.replicate st._encoding.length (none : Option (List Bool))) a with
  | none => rfl
  | some x =>
    unfold vec_at at h
    split at h
    · have := List.eq_of_mem_replicate (List.getElem?_mem h)
      subst this
      rfl
    · exact absurd h (by simp)

theorem EmapInRange.of_all (st : GsubEncoding) (h : ∀ e ∈ st._emap, e < st._encoding.length) :
    EmapInRange st := by
  intro g e he
  unfold emap_answer at he
  split at he
  · rename_i x hx
    split at he
    · obtain rfl := Option.some.inj he
      unfold vec_at at hx
      split at hx
      · exact h x (List.getElem?_mem hx)
      · exact absurd hx (by simp)
    · exact absurd he (by simp)
  · exact absurd he (by simp)

/-- C6. First-writer-wins for positioning: from a state whose reverse map
answers only with codes inside the table, `apply(pv)` completes and only
appends to the kern and vfpos tables; among the appended kerns those with
`(left, right) = (c1, c2)` are exactly one entry, with the amount of the first
pair-kern rule of `pv` that resolves to `(c1, c2)`, or none if no rule resolves
to it; likewise the appended single positionings with `in = c` are the one
asked for by the first single-positioning rule resolving to `c`, or none. -/
theorem apply_positionings_first_writer_wins (pv : List Positioning) (st : GsubEncoding)
    (hr : EmapInRange st) :
    ∃ n st2 newK newV, apply_positionings pv st = some (n, st2) ∧
      st2._kerns = st._kerns ++ newK ∧ st2._vfpos = st._vfpos ++ newV ∧
      (∀ c1 c2 : Int, newK.filter (fun k => k.left = c1 ∧ k.right = c2) =
        ((resolved_kerns st pv).find? (fun k => k.left = c1 ∧ k.right = c2)).toList) ∧
      (∀ c : Int, newV.filter (fun p => p.in_ = c) =
        ((resolved_vfpos st pv).find? (fun p => p.in_ = c)).toList) := by
  obtain ⟨q2, e1, _, e3, e4⟩ := apply_positionings_loop_spec st pv (PosPass.start st)
    (PosPass.start_wf_pos st) hr (fun _ => rfl)
  refine ⟨q2.success, q2.st, _, _, by simp only [apply_positionings, e1, Option.map_some'],
    e3, e4, ?_, ?_⟩
  · intro c1 c2
    have hf := first_writer_filter Kern.key (c1, c2) (resolved_kerns st pv) (fun _ => false)
    simp only [Bool.false_eq_true, if_false] at hf
    rw [first_writer_congr Kern.key (resolved_kerns st pv)
      (fun c => pair_bit (PosPass.start st).pair_changed c.1 c.2) (fun _ => false)
      (fun c => pair_bit_start st c.1 c.2)]
    have hp : (fun k : Kern => decide (Kern.key k = (c1, c2))) =
        (fun k : Kern => decide (k.left = c1 ∧ k.right = c2)) := by
      funext k
      simp [Kern.key]
    rw [hp] at hf
    exact hf
  · intro c
    have hf := first_writer_filter Vfpos.in_ c (resolved_vfpos st pv) (fun _ => false)
    simp only [Bool.false_eq_true, if_false] at hf
    rw [first_writer_congr Vfpos.in_ (resolved_vfpos st pv)
      (single_bit (PosPass.start st).single_changed) (fun _ => false) (fun _ => rfl)]
    exact hf

set_option maxRecDepth 100000 in
theorem apply_positionings_first_writer_wins_witness :
    (∀ e ∈ state_A_f_i._emap, e < state_A_f_i._encoding.length) ∧
    (apply_positionings sample_positionings state_A_f_i).map (fun r => (r.2._kerns, r.2._vfpos))
      = some ([{ left := 0x41, right := 0x66, amount := 10 }],
              [{ in_ := 0x66, pdx := 1, pdy := 2, adx := 3 }]) ∧
    ∃ n st2 newK newV, apply_positionings sample_positionings state_A_f_i = some (n, st2) ∧
      st2._kerns = state_A_f_i._kerns ++ newK ∧ st2._vfpos = state_A_f_i._vfpos ++ newV ∧
      (∀ c1 c2 : Int, newK.filter (fun k => k.left = c1 ∧ k.right = c2) =
        ((resolved_kerns state_A_f_i sample_positionings).find?
          (fun k => k.left = c1 ∧ k.right = c2)).toList) ∧
      (∀ c : Int, newV.filter (fun p => p.in_ = c) =
        ((resolved_vfpos state_A_f_i sample_positionings).find? (fun p => p.in_ = c)).toList) :=
  ⟨by decide, by decide,
   apply_positionings_first_writer_wins sample_positionings state_A_f_i
     (EmapInRange.of_all state_A_f_i (by decide))⟩

theorem SameTables.refl_tables (st : GsubEncoding) : SameTables st st := rfl

theorem SameTables.trans_tables {a b c : GsubEncoding} (h1 : SameTables a b) (h2 : SameTables b c) :
    SameTables a c := by
  unfold SameTables at *
  rw [h2, h1]

theorem SameTables.ligatures {a b : GsubEncoding} (h : SameTables a b) :
    b._ligatures = a._ligatures := by
  unfold SameTables at h
  rw [h]

theorem EmapExt.sameTables {st st2 : GsubEncoding} (h : EmapExt st st2) : SameTables st st2 := by
  unfold SameTables
  have := h.1
  rw [this]

theorem encoding_sameTables (g : Int) (st : GsubEncoding) :
    SameTables st (encoding g st).2 ∧ (encoding g st).2._encoding = st._encoding :=
  ⟨(encoding_ext g st).sameTables, (encoding_ext g st).encoding_eq⟩

theorem assign_emap_spec (g code : Int) (st : GsubEncoding) (hg : 0 ≤ g) :
    ∃ st2, assign_emap g code st = some st2 ∧ SameTables st st2 ∧
      st2._encoding = st._encoding := by
  unfold assign_emap
  rw [if_neg (by omega)]
  exact ⟨_, rfl, rfl, rfl⟩

/-- `force_encoding` of a glyph id completes; it returns the code the lookup
finds, leaving the table alone, or appends a slot holding the glyph and returns
its code. -/
theorem force_encoding_spec (g : Int) (st : GsubEncoding) (hg : 0 ≤ g) :
    ∃ out st2, force_encoding g st = some (out, st2) ∧ SameTables st st2 ∧
      ((0 ≤ code_of st g ∧ out = code_of st g ∧ st2._encoding = st._encoding) ∨
       (code_of st g < 0 ∧ out = st._encoding.length ∧ st2._encoding = st._encoding ++ [g])) := by
  obtain ⟨s1, s2⟩ := encoding_sameTables g st
  unfold force_encoding
  simp only
  by_cases h : 0 ≤ (encoding g st).1
  · rw [if_pos h]
    exact ⟨_, _, rfl, s1, Or.inl ⟨h, rfl, s2⟩⟩
  · rw [if_neg h]
    obtain ⟨st2, e1, e2, e3⟩ := assign_emap_spec g
      (((encoding g st).2._encoding ++ [g]).length - 1)
      { (encoding g st).2 with _encoding := (encoding g st).2._encoding ++ [g] } hg
    rw [e1]
    refine ⟨_, st2, rfl, ?_, Or.inr ⟨by rw [← encoding_fst]; omega, ?_, ?_⟩⟩
    · have hmid : SameTables (encoding g st).2
          { (encoding g st).2 with _encoding := (encoding g st).2._encoding ++ [g] } := rfl
      exact (s1.trans_tables hmid).trans_tables e2
    · rw [e3]
      simp [s2]
    · rw [e3]
      simp [s2]

theorem PassStep.refl_step (p : SubstPass) : PassStep p p :=
  ⟨rfl, ⟨[], by simp⟩, le_refl _, fun _ h => h, fun _ h => h, fun _ _ h => Or.inl h⟩

theorem PassStep.trans_step {p p2 p3 : SubstPass} (h1 : PassStep p p2) (h2 : PassStep p2 p3) :
    PassStep p p3 := by
  obtain ⟨a1, ⟨n1, a2⟩, a3, a4, a5, a6⟩ := h1
  obtain ⟨b1, ⟨n2, b2⟩, b3, b4, b5, b6⟩ := h2
  refine ⟨by rw [b1, a1], ⟨n1 ++ n2, by rw [b2, a2, List.append_assoc]⟩, le_trans a3 b3,
    fun e h => b4 e (a4 e h), fun e h => a5 e (b5 e h), ?_⟩
  intro e x hx
  rcases a6 e x hx with h | ⟨h, h'⟩
  · rcases b6 e x h with g | ⟨g, g'⟩
    · exact Or.inl g
    · exact Or.inr ⟨a5 e g, g'⟩
  · exact Or.inr ⟨h, b4 e h'⟩

theorem vec_at_append_of_some {α : Type} {l : List α} {e : Int} {x : α} (m : List α)
    (h : vec_at l e = some x) : vec_at (l ++ m) e = some x := by
  unfold vec_at at *
  split at h
  · rename_i h0
    rw [if_pos h0]
    have hlt := (List.getElem?_eq_some.mp h).1
    rw [List.getElem?_append_left hlt]
    exact h
  · exact absurd h (by simp)

/-- A step that leaves the tracker alone, appends ligatures and keeps every
existing slot. -/
theorem PassStep.of_tracker_eq {p p2 : SubstPass} (hch : p2.changed = p.changed)
    (hlig : ∃ new, p2.st._ligatures = p.st._ligatures ++ new)
    (hlen : p.st._encoding.length ≤ p2.st._encoding.length)
    (henc : ∀ e x, vec_at p.st._encoding e = some x → vec_at p2.st._encoding e = some x) :
    PassStep p p2 :=
  ⟨by rw [hch], hlig, hlen, fun e h => by rw [hch]; exact h, fun e h => by rw [← hch]; exact h,
    fun e x h => Or.inl (henc e x h)⟩

theorem SubstPass.WF.of_eq {p p2 : SubstPass} (hwf : p.WF) (hch : p2.changed = p.changed)
    (hcx : p2.changed_context = p.changed_context)
    (hlen : p.st._encoding.length ≤ p2.st._encoding.length) : p2.WF := by
  obtain ⟨w1, w2, w3⟩ := hwf
  exact ⟨by rw [hch, hcx]; exact w1, by rw [hch]; omega, by rw [hch, hcx]; exact w3⟩

theorem CH_distinct : CH_NO ≠ CH_SOME ∧ CH_NO ≠ CH_ALL ∧ CH_SOME ≠ CH_ALL := by
  decide

theorem add_single_context_substitution_spec (left right out : Int) (is_right : Bool)
    (st : GsubEncoding) :
    ∃ new, add_single_context_substitution left right out is_right st =
      { st with _ligatures := st._ligatures ++ new } := by
  unfold add_single_context_substitution
  by_cases h : out ≠ (if is_right = true then right else left)
  · rw [if_pos h]
    exact ⟨_, rfl⟩
  · rw [if_neg h]
    exact ⟨[], by simp⟩

theorem add_remaining_contexts_spec (e out : Int) (bits : List Bool) :
    ∀ (n : Nat) (j : Int) (st : GsubEncoding), 0 ≤ j → j + n ≤ st._encoding.length →
      ∃ st2 new, add_remaining_contexts e out (some bits) n j st = some st2 ∧
        st2 = { st with _ligatures := st._ligatures ++ new } := by
  intro n
  induction n with
  | zero => intro j st _ _; exact ⟨st, [], rfl, by simp⟩
  | succ n ih =>
    intro j st hj hlen
    obtain ⟨g, hg⟩ := vec_at_eq_some_of_lt st._encoding j hj (by push_cast at hlen; omega)
    have hstep : ∃ new1, add_remaining_context e out (some bits) j g st =
        some { st with _ligatures := st._ligatures ++ new1 } := by
      unfold add_remaining_context
      by_cases hpos : 0 < g
      · rw [if_pos hpos]
        simp only
        by_cases hb : bit_test bits j = false
        · rw [if_pos hb]
          obtain ⟨new1, h1⟩ := add_single_context_substitution_spec e j out true st
          exact ⟨new1, by rw [h1]⟩
        · rw [if_neg hb]
          exact ⟨[], by simp⟩
      · rw [if_neg hpos]
        exact ⟨[], by simp⟩
    obtain ⟨new1, h1⟩ := hstep
    obtain ⟨st2, new, e1, e2⟩ := ih (j + 1) { st with _ligatures := st._ligatures ++ new1 }
      (by omega) (by push_cast at hlen ⊢; omega)
    refine ⟨st2, new1 ++ new, ?_, by rw [e2]; simp⟩
    rw [add_remaining_contexts, hg]
    simp only
    rw [h1]
    exact e1

/-- Marking a code `CH_ALL`, possibly storing a glyph in its slot when it was
`CH_NO`, appending ligatures and slots: a pass step that keeps the tracker
well-formed. -/
theorem mark_all_step (p : SubstPass) (hwf : p.WF) (e : Int) (c : Int) (st2 : GsubEncoding)
    (h0 : 0 ≤ e) (hlt : e < p.changed.length) (hc : vec_at p.changed e = some c)
    (hlig : ∃ new, st2._ligatures = p.st._ligatures ++ new)
    (hlen : p.st._encoding.length ≤ st2._encoding.length)
    (henc : ∀ j x, vec_at p.st._encoding j = some x →
      vec_at st2._encoding j = some x ∨ (j = e ∧ c = CH_NO)) :
    SubstPass.WF { p with st := st2, changed := p.changed.set e.toNat CH_ALL } ∧
    PassStep p { p with st := st2, changed := p.changed.set e.toNat CH_ALL } := by
  obtain ⟨w1, w2, w3⟩ := hwf
  have hset_eq : vec_at (p.changed.set e.toNat CH_ALL) e = some CH_ALL :=
    vec_at_set_eq p.changed e CH_ALL h0 hlt
  have hset_ne : ∀ j, j ≠ e → vec_at (p.changed.set e.toNat CH_ALL) j = vec_at p.changed j :=
    fun j hj => vec_at_set_ne p.changed e j CH_ALL h0 (fun h => hj h.symm)
  refine ⟨⟨by simp [w1], by simp only [List.length_set]; omega, ?_⟩,
    by simp, hlig, hlen, ?_, ?_, ?_⟩
  · intro j hj
    simp only at hj ⊢
    by_cases hje : j = e
    · subst hje
      rw [hset_eq] at hj
      exact absurd (Option.some.inj hj) (fun h => CH_distinct.2.2 h.symm)
    · rw [hset_ne j hje] at hj
      exact w3 j hj
  · intro j hj
    simp only
    by_cases hje : j = e
    · subst hje; exact hset_eq
    · rw [hset_ne j hje]; exact hj
  · intro j hj
    simp only at hj
    by_cases hje : j = e
    · subst hje
      rw [hset_eq] at hj
      exact absurd (Option.some.inj hj) (fun h => CH_distinct.2.1 h.symm)
    · rw [hset_ne j hje] at hj
      exact hj
  · intro j x hx
    rcases henc j x hx with h | ⟨rfl, rfl⟩
    · exact Or.inl h
    · exact Or.inr ⟨hc, hset_eq⟩

theorem apply_single_spec (i o : Int) (p : SubstPass) (hwf : p.WF) (ho : 0 ≤ o) :
    ∃ p2, apply_single i o p = some p2 ∧ p2.WF ∧ PassStep p p2 ∧ p2.success = p.success := by
  obtain ⟨s1, s2⟩ := encoding_sameTables i p.st
  have hskip : ∃ p2, some { p with st := (encoding i p.st).2 } = some p2 ∧ p2.WF ∧
      PassStep p p2 ∧ p2.success = p.success :=
    ⟨_, rfl, hwf.of_eq rfl rfl (by simp only [s2]; exact le_refl _),
      PassStep.of_tracker_eq rfl ⟨[], by simp [s1.ligatures]⟩
        (by simp only [s2]; exact le_refl _) (fun e x h => by simp only [s2]; exact h), rfl⟩
  unfold apply_single
  simp only
  by_cases hout : (encoding i p.st).1 < 0 ∨ (p.changed.length : Int) ≤ (encoding i p.st).1
  · rw [if_pos hout]
    exact hskip
  · rw [if_neg hout]
    have h0 : 0 ≤ (encoding i p.st).1 := by omega
    have hlt : (encoding i p.st).1 < p.changed.length := by omega
    have hltenc : (encoding i p.st).1 < p.st._encoding.length := by
      have := hwf.2.1
      omega
    obtain ⟨c, hc⟩ := vec_at_eq_some_of_lt p.changed _ h0 hlt
    rw [hc]
    simp only
    by_cases hno : c = CH_NO
    · rw [if_pos hno]
      have hi : 0 ≤ i := code_of_nonneg_glyph p.st i h0
      obtain ⟨st2, a1, a2, a3⟩ := assign_emap_spec i (-2) (encoding i p.st).2 hi
      obtain ⟨st3, b1, b2, b3⟩ := assign_emap_spec o (encoding i p.st).1 st2 ho
      have henc3 : st3._encoding = p.st._encoding := by rw [b3, a3, s2]
      rw [a1]
      simp only
      rw [b1]
      simp only
      rw [vec_set_eq_some st3._encoding _ o h0 (by rw [henc3]; exact hltenc)]
      simp only
      rw [vec_set_eq_some p.changed _ CH_ALL h0 hlt]
      simp only
      obtain ⟨m1, m2⟩ := mark_all_step p hwf (encoding i p.st).1 c
        { st3 with _encoding := st3._encoding.set (encoding i p.st).1.toNat o } h0 hlt hc
        ⟨[], by simp [((s1.trans_tables a2).trans_tables b2).ligatures]⟩
        (by simp [henc3])
        (fun j x hx => by
          by_cases hj : j = (encoding i p.st).1
          · exact Or.inr ⟨hj, hno⟩
          · left
            simp only
            rw [vec_at_set_ne _ _ j o h0 (fun h => hj h.symm), henc3]
            exact hx)
      exact ⟨_, rfl, m1, m2, rfl⟩
    · rw [if_neg hno]
      by_cases hsome : c = CH_SOME
      · rw [if_pos hsome]
        obtain ⟨out, st2, f1, f2, f3⟩ := force_encoding_spec o (encoding i p.st).2 ho
        rw [f1]
        simp only
        obtain ⟨v, hv⟩ := hwf.2.2 _ (by rw [hc, hsome])
        rw [hv]
        simp only
        have hlen2 : p.st._encoding.length ≤ st2._encoding.length := by
          rcases f3 with ⟨_, _, h⟩ | ⟨_, _, h⟩
          · rw [h, s2]
          · rw [h, s2]; simp
        have hkeep : ∀ j x, vec_at p.st._encoding j = some x → vec_at st2._encoding j = some x := by
          intro j x hx
          rcases f3 with ⟨_, _, h⟩ | ⟨_, _, h⟩
          · rw [h, s2]; exact hx
          · rw [h, s2]; exact vec_at_append_of_some _ hx
        obtain ⟨st3, new, g1, g2⟩ := add_remaining_contexts_spec (encoding i p.st).1 out v
          p.changed.length 0 st2 (le_refl _) (by have := hwf.2.1; omega)
        rw [g1]
        simp only
        rw [vec_set_eq_some p.changed _ CH_ALL h0 hlt]
        simp only
        obtain ⟨m1, m2⟩ := mark_all_step p hwf (encoding i p.st).1 c st3 h0 hlt hc
          ⟨new, by rw [g2]; simp [(s1.trans_tables f2).ligatures]⟩
          (by rw [g2]; exact hlen2)
          (fun j x hx => Or.inl (by rw [g2]; exact hkeep j x hx))
        exact ⟨_, rfl, m1, m2, rfl⟩
      · rw [if_neg hsome]
        exact hskip

/-- The lookup loop of the ligature branch completes and only memoizes; when
every input glyph has a code that is inside the tracker and not `CH_ALL`, it
yields these codes. -/
theorem ligature_codes_spec (changed : List Int) :
    ∀ (gs : List Int) (st : GsubEncoding),
      ∃ r st2, ligature_codes changed gs st = some (r, st2) ∧ EmapExt st st2 ∧
        ((∀ g ∈ gs, 0 ≤ code_of st g ∧ code_of st g < changed.length ∧
            vec_at changed (code_of st g) ≠ some CH_ALL) →
          r = some (gs.map (code_of st))) := by
  intro gs
  induction gs with
  | nil => intro st; exact ⟨some [], st, rfl, EmapExt.refl_emap st, fun _ => rfl⟩
  | cons g gs ih =>
    intro st
    have E := encoding_ext g st
    unfold ligature_codes
    simp only
    by_cases hout : (encoding g st).1 < 0 ∨ (changed.length : Int) ≤ (encoding g st).1
    · rw [if_pos hout]
      refine ⟨none, _, rfl, E, ?_⟩
      intro h
      have := h g (List.mem_cons_self _ _)
      rw [encoding_fst] at hout
      omega
    · rw [if_neg hout]
      obtain ⟨c, hc⟩ := vec_at_eq_some_of_lt changed (encoding g st).1 (by omega) (by omega)
      rw [hc]
      simp only
      by_cases hall : c = CH_ALL
      · rw [if_pos hall]
        refine ⟨none, _, rfl, E, ?_⟩
        intro h
        have := (h g (List.mem_cons_self _ _)).2.2
        rw [← encoding_fst, hc, hall] at this
        exact absurd rfl this
      · rw [if_neg hall]
        obtain ⟨r, st2, e1, e2, e3⟩ := ih (encoding g st).2
        rw [e1]
        cases r with
        | none =>
          refine ⟨none, st2, rfl, E.trans_emap e2, ?_⟩
          intro h
          have := e3 (fun g2 hg2 => by
            rw [E.code_of]
            exact h g2 (List.mem_cons_of_mem _ hg2))
          exact absurd this (by simp)
        | some es =>
          refine ⟨some ((encoding g st).1 :: es), st2, rfl, E.trans_emap e2, ?_⟩
          intro h
          have := e3 (fun g2 hg2 => by
            rw [E.code_of]
            exact h g2 (List.mem_cons_of_mem _ hg2))
          obtain rfl := Option.some.inj this
          simp only [List.map_cons, encoding_fst, Option.some.injEq, List.cons.injEq, true_and]
          apply List.map_congr_left
          intro g2 _
          exact E.code_of g2

theorem apply_ligature_spec (ins : List Int) (o : Int) (p : SubstPass) (hwf : p.WF)
    (ho : 0 ≤ o) :
    ∃ p2, apply_ligature ins o p = some p2 ∧ p2.WF ∧ PassStep p p2 ∧ p2.success = p.success ∧
      ((∀ g ∈ ins, 0 ≤ code_of p.st g ∧ code_of p.st g < p.changed.length ∧
          vec_at p.changed (code_of p.st g) ≠ some CH_ALL) →
        p2 = { p with st := { p2.st with
          _encoding := if 0 ≤ code_of p.st o then p.st._encoding else p.st._encoding ++ [o],
          _emap := p2.st._emap,
          _ligatures := p.st._ligatures ++
            [{ in_ := ins.map (code_of p.st),
               out := if 0 ≤ code_of p.st o then code_of p.st o else p.st._encoding.length,
               skip := 1, context := 0 }] } } ∧
        SameTables p.st { p2.st with _ligatures := p.st._ligatures }) := by
  obtain ⟨r, st2, e1, e2, e3⟩ := ligature_codes_spec p.changed ins p.st
  unfold apply_ligature
  rw [e1]
  cases r with
  | none =>
    refine ⟨_, rfl, hwf.of_eq rfl rfl (by simp only [e2.encoding_eq]; exact le_refl _),
      PassStep.of_tracker_eq rfl ⟨[], by simp [e2.sameTables.ligatures]⟩
        (by simp only [e2.encoding_eq]; exact le_refl _)
        (fun e x h => by simp only [e2.encoding_eq]; exact h), rfl, ?_⟩
    intro h
    exact absurd (e3 h) (by simp)
  | some es =>
    simp only
    obtain ⟨out, st3, f1, f2, f3⟩ := force_encoding_spec o st2 ho
    rw [f1]
    simp only
    have hlig3 : st3._ligatures = p.st._ligatures := (e2.sameTables.trans_tables f2).ligatures
    have hlen3 : p.st._encoding.length ≤ st3._encoding.length := by
      rcases f3 with ⟨_, _, h⟩ | ⟨_, _, h⟩
      · rw [h, e2.encoding_eq]
      · rw [h, e2.encoding_eq]; simp
    have hkeep : ∀ j x, vec_at p.st._encoding j = some x → vec_at st3._encoding j = some x := by
      intro j x hx
      rcases f3 with ⟨_, _, h⟩ | ⟨_, _, h⟩
      · rw [h, e2.encoding_eq]; exact hx
      · rw [h, e2.encoding_eq]; exact vec_at_append_of_some _ hx
    refine ⟨_, rfl, hwf.of_eq rfl rfl hlen3,
      PassStep.of_tracker_eq rfl
        ⟨[{ in_ := es, out := out, skip := 1, context := 0 }], by simp only [hlig3]⟩
        hlen3 hkeep, rfl, ?_⟩
    intro h
    obtain rfl := Option.some.inj (e3 h)
    have hst3 := e2.sameTables.trans_tables f2
    unfold SameTables at hst3
    rw [e2.code_of, e2.encoding_eq] at f3
    constructor
    · rcases f3 with ⟨h1, h2, h3⟩ | ⟨h1, h2, h3⟩
      · rw [if_pos h1, if_pos h1, h2, hlig3, ← h3]
      · rw [if_neg (by omega), if_neg (by omega), h2, hlig3, ← h3]
    · unfold SameTables
      simp only
      rw [hst3]

theorem in_changed_context_spec (p : SubstPass) (hwf : p.WF) (e1 e2 : Int)
    (h1 : 0 ≤ e1 ∧ e1 < p.changed.length) (h2 : 0 ≤ e2 ∧ e2 < p.changed.length) :
    ∃ b, in_changed_context p.changed p.changed_context e1 e2 = some b ∧
      (b = false → ∃ c, vec_at p.changed e1 = some c ∧ c ≠ CH_ALL) := by
  obtain ⟨w1, _, _⟩ := hwf
  obtain ⟨c, hc⟩ := vec_at_eq_some_of_lt p.changed e1 h1.1 h1.2
  obtain ⟨v, hv⟩ := vec_at_eq_some_of_lt p.changed_context e1 h1.1 (by rw [← w1]; exact h1.2)
  unfold in_changed_context
  simp only
  rw [if_pos ⟨h1.1, h2.1, by rw [← w1]; exact h1.2, by rw [← w1]; exact h2.2⟩, hc]
  simp only
  by_cases hall : c = CH_ALL
  · rw [if_pos hall]
    exact ⟨true, rfl, fun h => absurd h (by simp)⟩
  · rw [if_neg hall, hv]
    cases v with
    | none => exact ⟨false, rfl, fun _ => ⟨c, rfl, hall⟩⟩
    | some bits => exact ⟨_, rfl, fun _ => ⟨c, rfl, hall⟩⟩

theorem apply_context_spec (g1 g2 o : Int) (is_right : Bool) (p : SubstPass) (hwf : p.WF)
    (ho : 0 ≤ o) :
    ∃ p2, apply_context g1 g2 o is_right p = some p2 ∧ p2.WF ∧ PassStep p p2 ∧
      p2.success = p.success := by
  have E1 := encoding_ext g1 p.st
  have E2 := encoding_ext g2 (encoding g1 p.st).2
  have E := E1.trans_emap E2
  have henc : (encoding g2 (encoding g1 p.st).2).2._encoding = p.st._encoding := E.encoding_eq
  have hskip : ∃ p2, some { p with st := (encoding g2 (encoding g1 p.st).2).2 } = some p2 ∧
      p2.WF ∧ PassStep p p2 ∧ p2.success = p.success :=
    ⟨_, rfl, hwf.of_eq rfl rfl (by simp only [henc]; exact le_refl _),
      PassStep.of_tracker_eq rfl ⟨[], by simp [E.sameTables.ligatures]⟩
        (by simp only [henc]; exact le_refl _) (fun e x h => by simp only [henc]; exact h), rfl⟩
  unfold apply_context
  simp only
  by_cases hin : 0 ≤ (encoding g1 p.st).1 ∧ (encoding g1 p.st).1 < (p.changed.length : Int) ∧
      0 ≤ (encoding g2 (encoding g1 p.st).2).1 ∧
      (encoding g2 (encoding g1 p.st).2).1 < (p.changed.length : Int)
  · rw [if_pos hin]
    obtain ⟨i1, i2, i3, i4⟩ := hin
    obtain ⟨b, hb, hb2⟩ := in_changed_context_spec p hwf _ _ ⟨i1, i2⟩ ⟨i3, i4⟩
    rw [hb]
    cases b with
    | true => exact hskip
    | false =>
      simp only
      obtain ⟨c, hc, hcall⟩ := hb2 rfl
      obtain ⟨out, st3, f1, f2, f3⟩ := force_encoding_spec o _ ho
      rw [f1]
      simp only
      obtain ⟨w1, w2, w3⟩ := hwf
      obtain ⟨v0, hv0⟩ := vec_at_eq_some_of_lt p.changed_context (encoding g1 p.st).1 i1
        (by rw [← w1]; exact i2)
      have hassign : assign_changed_context p.changed p.changed_context (encoding g1 p.st).1
          (encoding g2 (encoding g1 p.st).2).1 =
          some (p.changed.set (encoding g1 p.st).1.toNat CH_SOME,
            p.changed_context.set (encoding g1 p.st).1.toNat
              (some (bit_set (v0.getD (bitvec_new p.changed_context.length))
                (encoding g2 (encoding g1 p.st).2).1))) := by
        unfold assign_changed_context
        simp only
        rw [if_pos ⟨i1, i3, by rw [← w1]; exact i2, by rw [← w1]; exact i4⟩, hv0]
        simp only
        rw [hc]
        simp only
        rw [if_neg hcall]
      rw [hassign]
      simp only
      obtain ⟨new, hnew⟩ := add_single_context_substitution_spec (encoding g1 p.st).1
        (encoding g2 (encoding g1 p.st).2).1 out is_right st3
      rw [hnew]
      have hlig3 : st3._ligatures = p.st._ligatures := (E.sameTables.trans_tables f2).ligatures
      have hlen3 : p.st._encoding.length ≤ st3._encoding.length := by
        rcases f3 with ⟨_, _, h⟩ | ⟨_, _, h⟩
        · rw [h, henc]
        · rw [h, henc]; simp
      have hkeep : ∀ j x, vec_at p.st._encoding j = some x → vec_at st3._encoding j = some x := by
        intro j x hx
        rcases f3 with ⟨_, _, h⟩ | ⟨_, _, h⟩
        · rw [h, henc]; exact hx
        · rw [h, henc]; exact vec_at_append_of_some _ hx
      have hset_eq : vec_at (p.changed.set (encoding g1 p.st).1.toNat CH_SOME)
          (encoding g1 p.st).1 = some CH_SOME := vec_at_set_eq p.changed _ CH_SOME i1 i2
      have hset_ne : ∀ j, j ≠ (encoding g1 p.st).1 →
          vec_at (p.changed.set (encoding g1 p.st).1.toNat CH_SOME) j = vec_at p.changed j :=
        fun j hj => vec_at_set_ne p.changed _ j CH_SOME i1 (fun h => hj h.symm)
      refine ⟨_, rfl, ⟨by simp [w1], by simp only [List.length_set]; omega, ?_⟩,
        ⟨by simp, ⟨new, by simp only [hlig3]⟩, hlen3, ?_, ?_, ?_⟩, rfl⟩
      · intro j hj
        simp only at hj ⊢
        by_cases hje : j = (encoding g1 p.st).1
        · subst hje
          exact ⟨_, vec_at_set_eq p.changed_context _ _ i1 (by rw [← w1]; exact i2)⟩
        · rw [hset_ne j hje] at hj
          rw [vec_at_set_ne p.changed_context _ j _ i1 (fun h => hje h.symm)]
          exact w3 j hj
      · intro j hj
        simp only
        by_cases hje : j = (encoding g1 p.st).1
        · subst hje
          rw [hc] at hj
          exact absurd (Option.some.inj hj) hcall
        · rw [hset_ne j hje]; exact hj
      · intro j hj
        simp only at hj
        by_cases hje : j = (encoding g1 p.st).1
        · subst hje
          rw [hset_eq] at hj
          exact absurd (Option.some.inj hj) (fun h => CH_distinct.1 h.symm)
        · rw [hset_ne j hje] at hj
          exact hj
      · intro j x hx
        exact Or.inl (hkeep j x hx)
  · rw [if_neg hin]
    exact hskip

/-- One rule of a substitution pass: from a well-formed tracker it completes,
keeps the tracker well-formed and is a pass step; every rule of one of the five
kinds is counted, also when it does not apply. -/
theorem apply_substitution_spec (allow_single : Bool) (s : Substitution) (p : SubstPass)
    (hwf : p.WF) (hs : s.out_nonneg) :
    ∃ p2, apply_substitution allow_single s p = some p2 ∧ p2.WF ∧ PassStep p p2 := by
  have lift : ∀ r : Option SubstPass,
      (∃ q, r = some q ∧ q.WF ∧ PassStep p q ∧ q.success = p.success) →
      ∃ p2, r.map (fun q => { q with success := q.success + 1 }) = some p2 ∧ p2.WF ∧
        PassStep p p2 := by
    rintro r ⟨q, rfl, h1, h2, _⟩
    exact ⟨_, rfl, h1, h2⟩
  cases s with
  | single i o =>
    unfold apply_substitution
    cases allow_single with
    | true => exact lift _ (apply_single_spec i o p hwf hs)
    | false => exact ⟨p, rfl, hwf, PassStep.refl_step p⟩
  | alternate i o =>
    unfold apply_substitution
    cases allow_single with
    | true => exact lift _ (apply_single_spec i o p hwf hs)
    | false => exact ⟨p, rfl, hwf, PassStep.refl_step p⟩
  | ligature ins o =>
    obtain ⟨q, h1, h2, h3, h4, _⟩ := apply_ligature_spec ins o p hwf hs
    exact lift _ ⟨q, h1, h2, h3, h4⟩
  | single_rcontext i r o => exact lift _ (apply_context_spec i r o true p hwf hs)
  | single_lcontext l i o => exact lift _ (apply_context_spec l i o false p hwf hs)
  | other => exact ⟨p, rfl, hwf, PassStep.refl_step p⟩

theorem apply_loop_spec (allow_single : Bool) :
    ∀ (sv : List Substitution) (p : SubstPass), p.WF → (∀ s ∈ sv, s.out_nonneg) →
      ∃ p2, apply_loop allow_single sv p = some p2 ∧ p2.WF ∧ PassStep p p2 := by
  intro sv
  induction sv with
  | nil => intro p hwf _; exact ⟨p, rfl, hwf, PassStep.refl_step p⟩
  | cons s sv ih =>
    intro p hwf hsv
    obtain ⟨p1, e1, e2, e3⟩ := apply_substitution_spec allow_single s p hwf
      (hsv s (List.mem_cons_self _ _))
    obtain ⟨p2, f1, f2, f3⟩ := ih p1 e2 (fun t ht => hsv t (List.mem_cons_of_mem _ ht))
    exact ⟨p2, by simp only [apply_loop, e1, f1], f2, e3.trans_step f3⟩

theorem apply_loop_append (allow_single : Bool) (sv2 : List Substitution) :
    ∀ (sv1 : List Substitution) (p : SubstPass),
      apply_loop allow_single (sv1 ++ sv2) p =
        (apply_loop allow_single sv1 p).bind (apply_loop allow_single sv2) := by
  intro sv1
  induction sv1 with
  | nil => intro p; rfl
  | cons s sv1 ih =>
    intro p
    rw [List.cons_append, apply_loop, apply_loop]
    cases apply_substitution allow_single s p with
    | none => rfl
    | some p1 => exact ih p1

theorem SubstPass.start_wf_subst (st : GsubEncoding) : (SubstPass.start st).WF := by
  refine ⟨by simp [SubstPass.start], by simp [SubstPass.start], ?_⟩
  intro e he
  exfalso
  unfold SubstPass.start vec_at at he
  simp only at he
  split at he
  · have := List.eq_of_mem_replicate (List.getElem?_mem he)
    exact CH_distinct.1 this.symm
  · exact absurd he (by simp)

/-- C7. Unconditional-substitution precedence within one `apply` call, split
into the rules applied so far (`sv1`) and the later rules (`sv2`), every rule
with a non-negative output glyph: the call completes; a code whose tracker
entry is `CH_ALL` after `sv1` keeps the glyph of its slot and its `CH_ALL`
through `sv2`; a slot that existed at the start and was rewritten by `sv1` is
not rewritten by `sv2`; and `sv2` only appends to the ligature table. -/
theorem apply_unconditional_precedence (allow_single : Bool) (sv1 sv2 : List Substitution)
    (st : GsubEncoding) (hsv : ∀ s ∈ sv1 ++ sv2, s.out_nonneg) :
    ∃ p1 p2, apply_loop allow_single sv1 (SubstPass.start st) = some p1 ∧
      apply_loop allow_single sv2 p1 = some p2 ∧
      apply (sv1 ++ sv2) allow_single st = some (p2.success, p2.st) ∧
      (∀ e, vec_at p1.changed e = some CH_ALL →
        vec_at p2.st._encoding e = vec_at p1.st._encoding e ∧
        vec_at p2.changed e = some CH_ALL) ∧
      (∀ e : Int, 0 ≤ e → e < st._encoding.length →
        vec_at p1.st._encoding e ≠ vec_at st._encoding e →
        vec_at p2.st._encoding e = vec_at p1.st._encoding e) ∧
      (∃ new, p2.st._ligatures = p1.st._ligatures ++ new) := by
  obtain ⟨p1, e1, e2, e3⟩ := apply_loop_spec allow_single sv1 (SubstPass.start st)
    (SubstPass.start_wf_subst st) (fun s hs => hsv s (List.mem_append_left _ hs))
  obtain ⟨p2, f1, _, f3⟩ := apply_loop_spec allow_single sv2 p1 e2
    (fun s hs => hsv s (List.mem_append_right _ hs))
  have hall : ∀ e, vec_at p1.changed e = some CH_ALL →
      vec_at p2.st._encoding e = vec_at p1.st._encoding e ∧
      vec_at p2.changed e = some CH_ALL := by
    intro e he
    refine ⟨?_, f3.2.2.2.1 e he⟩
    obtain ⟨b0, b1⟩ := vec_at_bounds he
    obtain ⟨x, hx⟩ := vec_at_eq_some_of_lt p1.st._encoding e b0 (by have := e2.2.1; omega)
    rcases f3.2.2.2.2.2 e x hx with h | ⟨h, _⟩
    · rw [h, hx]
    · rw [he] at h
      exact absurd (Option.some.inj h) (fun h2 => CH_distinct.2.1 h2.symm)
  refine ⟨p1, p2, e1, f1, ?_, hall, ?_, f3.2.1⟩
  · unfold apply
    rw [apply_loop_append, e1]
    show (apply_loop allow_single sv2 p1).map _ = _
    rw [f1]
    rfl
  · intro e h0 hlt hne
    obtain ⟨x, hx⟩ := vec_at_eq_some_of_lt st._encoding e h0 hlt
    rcases e3.2.2.2.2.2 e x hx with h | ⟨_, h⟩
    · rw [hx] at hne
      exact absurd h hne
    · exact (hall e h).1

set_option maxRecDepth 100000 in
theorem apply_unconditional_precedence_witness :
    (∀ s ∈ [Substitution.single 34 35] ++ [Substitution.single 35 36], s.out_nonneg) ∧
    (apply ([Substitution.single 34 35] ++ [Substitution.single 35 36]) true state_A_f_i).map
      (fun r => vec_at r.2._encoding 0x41) = some (some 35) ∧
    ∃ p1 p2, apply_loop true [Substitution.single 34 35] (SubstPass.start state_A_f_i) = some p1 ∧
      apply_loop true [Substitution.single 35 36] p1 = some p2 ∧
      apply ([Substitution.single 34 35] ++ [Substitution.single 35 36]) true state_A_f_i
        = some (p2.success, p2.st) ∧
      (∀ e, vec_at p1.changed e = some CH_ALL →
        vec_at p2.st._encoding e = vec_at p1.st._encoding e ∧
        vec_at p2.changed e = some CH_ALL) ∧
      (∀ e : Int, 0 ≤ e → e < state_A_f_i._encoding.length →
        vec_at p1.st._encoding e ≠ vec_at state_A_f_i._encoding e →
        vec_at p2.st._encoding e = vec_at p1.st._encoding e) ∧
      (∃ new, p2.st._ligatures = p1.st._ligatures ++ new) :=
  ⟨by decide, by decide,
   apply_unconditional_precedence true [Substitution.single 34 35] [Substitution.single 35 36]
     state_A_f_i (by decide)⟩

/-- C10. Applying a ligature rule `g1..gN -> o` (`N >= 2`, `o` a glyph id) in a
pass state with a well-formed tracker, when every input glyph is encoded at a
code inside the tracker (a code that existed at the start of the pass) that is
not `CH_ALL`: the rule is counted and appends exactly one ligature, with
`in = [code(g1), ..., code(gN)]`, `out` the code of `o` (its existing code, else
the newly appended slot, which then holds `o`), `skip = 1` and `context = 0`;
no existing slot, no tracker entry and no other table changes; and for `N = 2`
`twoligatures(code(g1))` contains `(code(g2), out, 0)`. -/
theorem apply_ligature_rule (allow_single : Bool) (ins : List Int) (o : Int) (p : SubstPass)
    (hwf : p.WF) (hN : 2 ≤ ins.length) (ho : 0 ≤ o)
    (hins : ∀ g ∈ ins, 0 ≤ code_of p.st g ∧ code_of p.st g < p.changed.length ∧
      vec_at p.changed (code_of p.st g) ≠ some CH_ALL) :
    ∃ p2, apply_substitution allow_single (.ligature ins o) p = some p2 ∧
      p2.st._ligatures = p.st._ligatures ++
        [{ in_ := ins.map (code_of p.st),
           out := if 0 ≤ code_of p.st o then code_of p.st o else p.st._encoding.length,
           skip := 1, context := 0 }] ∧
      p2.st._encoding = (if 0 ≤ code_of p.st o then p.st._encoding else p.st._encoding ++ [o]) ∧
      p2.changed = p.changed ∧ p2.changed_context = p.changed_context ∧
      p2.success = p.success + 1 ∧
      p2.st._fake_ligatures = p.st._fake_ligatures ∧ p2.st._kerns = p.st._kerns ∧
      p2.st._vfpos = p.st._vfpos ∧
      (∀ g1 g2, ins = [g1, g2] →
        (code_of p.st g2,
          (if 0 ≤ code_of p.st o then code_of p.st o else (p.st._encoding.length : Int)),
          (0 : Int)) ∈ twoligatures p2.st (code_of p.st g1)) := by
  have _ := hN
  obtain ⟨q, h1, _, _, h4, h5⟩ := apply_ligature_spec ins o p hwf ho
  obtain ⟨h6, h7⟩ := h5 hins
  have hlig : q.st._ligatures = p.st._ligatures ++
      [{ in_ := ins.map (code_of p.st),
         out := if 0 ≤ code_of p.st o then code_of p.st o else p.st._encoding.length,
         skip := 1, context := 0 }] := by
    rw [h6]
  have henc : q.st._encoding =
      (if 0 ≤ code_of p.st o then p.st._encoding else p.st._encoding ++ [o]) := by
    rw [h6]
  have hch : q.changed = p.changed := by rw [h6]
  have hcx : q.changed_context = p.changed_context := by rw [h6]
  unfold SameTables at h7
  have hfake : q.st._fake_ligatures = p.st._fake_ligatures := by
    have := congrArg GsubEncoding._fake_ligatures h7
    exact this
  have hkern : q.st._kerns = p.st._kerns := by
    have := congrArg GsubEncoding._kerns h7
    exact this
  have hvf : q.st._vfpos = p.st._vfpos := by
    have := congrArg GsubEncoding._vfpos h7
    exact this
  refine ⟨{ q with success := q.success + 1 }, ?_, hlig, henc, hch, hcx, by simp [h4],
    hfake, hkern, hvf, ?_⟩
  · show (apply_ligature ins o p).map _ = _
    rw [h1]
    rfl
  · intro g1 g2 hins2
    subst hins2
    have hc2 : 0 ≤ code_of p.st g2 := (hins g2 (by simp)).1
    have hout : 0 ≤ (if 0 ≤ code_of p.st o then code_of p.st o
        else (p.st._encoding.length : Int)) := by
      split
      · assumption
      · exact Int.natCast_nonneg _
    unfold twoligatures
    rw [List.mem_filterMap]
    refine ⟨{ in_ := [code_of p.st g1, code_of p.st g2],
              out := if 0 ≤ code_of p.st o then code_of p.st o else p.st._encoding.length,
              skip := 1, context := 0 }, ?_, ?_⟩
    · show _ ∈ q.st._ligatures
      rw [hlig]
      simp
    · simp [hc2, hout]

set_option maxRecDepth 100000 in
theorem apply_ligature_rule_witness :
    (vec_at state_A_f_i._encoding 0x41 = some 34 ∧ vec_at state_A_f_i._encoding 0x66 = some 71 ∧
      vec_at state_A_f_i._encoding 0x69 = some 74) ∧
    (code_of state_A_f_i 71 = 0x66 ∧ code_of state_A_f_i 74 = 0x69 ∧
      code_of state_A_f_i 110 = -1) ∧
    (apply [Substitution.ligature [71, 74] 110] true state_A_f_i).map
        (fun r => (r.1, r.2._ligatures)) =
      some (1, [{ in_ := [0x66, 0x69], out := 256, skip := 1, context := 0 }]) ∧
    (apply [Substitution.ligature [71, 74] 110] true state_A_f_i).map
        (fun r => (twoligatures r.2 0x66, vec_at r.2._encoding 256)) =
      some ([(0x69, 256, 0)], some 110) ∧
    ∃ p2, apply_substitution true (.ligature [71, 74] 110) (SubstPass.start state_A_f_i)
        = some p2 ∧
      p2.st._ligatures = (SubstPass.start state_A_f_i).st._ligatures ++
        [{ in_ := [71, 74].map (code_of (SubstPass.start state_A_f_i).st),
           out := if 0 ≤ code_of (SubstPass.start state_A_f_i).st 110
             then code_of (SubstPass.start state_A_f_i).st 110
             else (SubstPass.start state_A_f_i).st._encoding.length,
           skip := 1, context := 0 }] ∧
      p2.st._encoding = (if 0 ≤ code_of (SubstPass.start state_A_f_i).st 110
        then (SubstPass.start state_A_f_i).st._encoding
        else (SubstPass.start state_A_f_i).st._encoding ++ [110]) ∧
      p2.changed = (SubstPass.start state_A_f_i).changed ∧
      p2.changed_context = (SubstPass.start state_A_f_i).changed_context ∧
      p2.success = (SubstPass.start state_A_f_i).success + 1 ∧
      p2.st._fake_ligatures = (SubstPass.start state_A_f_i).st._fake_ligatures ∧
      p2.st._kerns = (SubstPass.start state_A_f_i).st._kerns ∧
      p2.st._vfpos = (SubstPass.start state_A_f_i).st._vfpos ∧
      (∀ g1 g2, [71, 74] = [g1, g2] →
        (code_of (SubstPass.start state_A_f_i).st g2,
          (if 0 ≤ code_of (SubstPass.start state_A_f_i).st 110
            then code_of (SubstPass.start state_A_f_i).st 110
            else ((SubstPass.start state_A_f_i).st._encoding.length : Int)),
          (0 : Int)) ∈ twoligatures p2.st (code_of (SubstPass.start state_A_f_i).st g1)) :=
  ⟨by decide, by decide, by decide, by decide,
   apply_ligature_rule true [71, 74] 110 (SubstPass.start state_A_f_i)
     (SubstPass.start_wf_subst state_A_f_i) (by decide) (by decide) (by decide)⟩

theorem LigKeeps.refl_keeps (ls : List Ligature) : LigKeeps ls ls := fun _ _ _ h => h

theorem LigKeeps.trans_keeps {a b c : List Ligature} (h1 : LigKeeps a b) (h2 : LigKeeps b c) :
    LigKeeps a c := fun x d y h => h2 x d y (h1 x d y h)

theorem LigKeeps.of_two {ls ls2 : List Ligature}
    (h : ∀ l ∈ ls, l.in_.length = 2 → l ∈ ls2) : LigKeeps ls ls2 := by
  rintro x c y ⟨l, hl, ho, hi⟩
  refine ⟨l, h l hl ?_, ho, hi⟩
  rcases hi with hi | hi <;> rw [hi] <;> rfl

theorem LigChain.mono {ls ls2 : List Ligature} (hk : LigKeeps ls ls2) :
    ∀ (cs : List Int) (x y : Int), LigChain ls x cs y → LigChain ls2 x cs y := by
  intro cs
  induction cs with
  | nil => intro x y h; exact h
  | cons c cs ih =>
    intro x y h
    cases cs with
    | nil => exact hk x c y h
    | cons c2 cs =>
      obtain ⟨m, h1, h2⟩ := h
      exact ⟨m, hk x c m h1, ih m y h2⟩

theorem mem_set_of_ne {α : Type} {ls : List α} {i : Nat} {l li x : α} (hl : l ∈ ls)
    (hi : ls[i]? = some li) (hne : l ≠ li) : l ∈ ls.set i x := by
  obtain ⟨k, hk⟩ := List.mem_iff_getElem?.mp hl
  have hki : i ≠ k := by
    rintro rfl
    rw [hi] at hk
    exact hne (Option.some.inj hk).symm
  apply List.mem_iff_getElem?.mpr
  exact ⟨k, by rw [List.getElem?_set_ne hki]; exact hk⟩

/-- With synthesis allowed, `find_skippable_twoligature` returns a code that a
two-input entry for the pair produces: an entry of the ligature table or the
fake ligature it appends.  The ligature table itself is left alone. -/
theorem find_skippable_twoligature_spec (a b fake : Int) (st : GsubEncoding) :
    (find_skippable_twoligature a b true fake st).2._ligatures = st._ligatures ∧
    (∃ new, (find_skippable_twoligature a b true fake st).2._fake_ligatures =
      st._fake_ligatures ++ new) ∧
    LigStep ((find_skippable_twoligature a b true fake st).2._ligatures ++
      (find_skippable_twoligature a b true fake st).2._fake_ligatures) a b
      (find_skippable_twoligature a b true fake st).1 := by
  unfold find_skippable_twoligature
  cases hf : st._ligatures.find? (fun l => l.in_ = [a, b] ∧ l.skip = 0 ∧ l.context = 0) with
  | some l =>
    simp only
    refine ⟨trivial, ⟨[], by simp⟩, l, List.mem_append_left _ (List.mem_of_find?_eq_some hf),
      rfl, ?_⟩
    have := List.find?_some hf
    simp only [decide_eq_true_eq] at this
    exact Or.inl this.1
  | none =>
    simp only [if_true]
    refine ⟨trivial, ⟨_, rfl⟩, _, List.mem_append_right _ (List.mem_append_right _
      (List.mem_singleton_self _)), rfl, Or.inl rfl⟩

/-- The reduction loop for entry `i`, run for as many iterations as the entry
has inputs beyond two: it completes, touches no other entry of the table, keeps
every two-input step, and leaves a chain of steps from the first input through
the others to the entry's output. -/
theorem reduce_steps_spec (fake : Int) (i : Nat) :
    ∀ (n : Nat) (st : GsubEncoding) (l : Ligature) (x c : Int) (cs : List Int),
      st._ligatures[i]? = some l → l.in_ = x :: c :: cs → cs.length = n →
      ∃ st2, reduce_steps true fake i n st = some st2 ∧
        LigKeeps (st._ligatures ++ st._fake_ligatures) (st2._ligatures ++ st2._fake_ligatures) ∧
        LigChain (st2._ligatures ++ st2._fake_ligatures) x (c :: cs) l.out ∧
        st2._ligatures.length = st._ligatures.length ∧
        (∀ k, k ≠ i → st2._ligatures[k]? = st._ligatures[k]?) ∧
        (∃ l2, st2._ligatures[i]? = some l2 ∧ 1 ≤ l2.in_.length) := by
  intro n
  induction n with
  | zero =>
    intro st l x c cs hl hin hcs
    have hnil : cs = [] := List.length_eq_zero.mp hcs
    subst hnil
    refine ⟨st, rfl, LigKeeps.refl_keeps _, ?_, rfl, fun _ _ => rfl, l, hl, by rw [hin]; simp⟩
    exact ⟨l, List.mem_append_left _ (List.getElem?_mem hl), rfl, Or.inl hin⟩
  | succ n ih =>
    intro st l x c cs hl hin hcs
    cases cs with
    | nil => simp at hcs
    | cons c2 cs =>
      obtain ⟨f1, ⟨new, f2⟩, f3⟩ := find_skippable_twoligature_spec x c fake st
      have hilt : i < st._ligatures.length := (List.getElem?_eq_some.mp hl).1
      -- the state after one iteration
      have hkeep1 : LigKeeps (st._ligatures ++ st._fake_ligatures)
          (((find_skippable_twoligature x c true fake st).2._ligatures.set i
              { l with in_ := (find_skippable_twoligature x c true fake st).1 :: c2 :: cs }) ++
            (find_skippable_twoligature x c true fake st).2._fake_ligatures) := by
        apply LigKeeps.of_two
        intro l0 hl0 hlen
        rcases List.mem_append.mp hl0 with h | h
        · apply List.mem_append_left
          rw [f1]
          refine mem_set_of_ne h hl ?_
          rintro rfl
          rw [hin] at hlen
          simp at hlen
        · apply List.mem_append_right
          rw [f2]
          exact List.mem_append_left _ h
      have hstep1 : LigStep
          (((find_skippable_twoligature x c true fake st).2._ligatures.set i
              { l with in_ := (find_skippable_twoligature x c true fake st).1 :: c2 :: cs }) ++
            (find_skippable_twoligature x c true fake st).2._fake_ligatures) x c
          (find_skippable_twoligature x c true fake st).1 := by
        obtain ⟨l0, hl0, ho, hi⟩ := f3
        refine ⟨l0, ?_, ho, hi⟩
        rcases List.mem_append.mp hl0 with h | h
        · apply List.mem_append_left
          rw [f1] at h ⊢
          refine mem_set_of_ne h hl ?_
          rintro rfl
          rw [hin] at hi
          rcases hi with hi | hi <;> simp at hi
        · exact List.mem_append_right _ h
      obtain ⟨st2, e1, e2, e3, e4, e5, e6⟩ := ih
        { (find_skippable_twoligature x c true fake st).2 with
          _ligatures := (find_skippable_twoligature x c true fake st).2._ligatures.set i
            { l with in_ := (find_skippable_twoligature x c true fake st).1 :: c2 :: cs } }
        { l with in_ := (find_skippable_twoligature x c true fake st).1 :: c2 :: cs }
        (find_skippable_twoligature x c true fake st).1 c2 cs
        (by
          simp only
          rw [List.getElem?_set_self (by rw [f1]; exact hilt)])
        rfl (by simpa using hcs)
      refine ⟨st2, ?_, hkeep1.trans_keeps e2, ⟨_, e2 _ _ _ hstep1, e3⟩, ?_, ?_, e6⟩
      · rw [reduce_steps, hl]
        simp only
        rw [hin]
        exact e1
      · rw [e4]
        simp [f1]
      · intro k hk
        rw [e5 k hk]
        simp only
        rw [List.getElem?_set_ne (fun h => hk h.symm), f1]

theorem reduce_ligature_spec (fake : Int) (i : Nat) (st : GsubEncoding) (l : Ligature)
    (hl : st._ligatures[i]? = some l) :
    ∃ st2, reduce_ligature true fake i st = some st2 ∧
      LigKeeps (st._ligatures ++ st._fake_ligatures) (st2._ligatures ++ st2._fake_ligatures) ∧
      st2._ligatures.length = st._ligatures.length ∧
      (∀ k, k ≠ i → st2._ligatures[k]? = st._ligatures[k]?) ∧
      (∃ l2, st2._ligatures[i]? = some l2 ∧ (1 ≤ l.in_.length → 1 ≤ l2.in_.length)) ∧
      (∀ c1 c2 rest, l.in_ = c1 :: c2 :: rest →
        LigChain (st2._ligatures ++ st2._fake_ligatures) c1 (c2 :: rest) l.out) := by
  unfold reduce_ligature
  rw [hl]
  simp only
  have hzero : l.in_.length - 2 = 0 → ∃ st2, reduce_steps true fake i (l.in_.length - 2) st
        = some st2 ∧
      LigKeeps (st._ligatures ++ st._fake_ligatures) (st2._ligatures ++ st2._fake_ligatures) ∧
      st2._ligatures.length = st._ligatures.length ∧
      (∀ k, k ≠ i → st2._ligatures[k]? = st._ligatures[k]?) ∧
      (∃ l2, st2._ligatures[i]? = some l2 ∧ (1 ≤ l.in_.length → 1 ≤ l2.in_.length)) := by
    intro h0
    rw [h0]
    exact ⟨st, rfl, LigKeeps.refl_keeps _, rfl, fun _ _ => rfl, l, hl, fun h => h⟩
  cases hin : l.in_ with
  | nil =>
    obtain ⟨st2, a1, a2, a3, a4, a5⟩ := hzero (by rw [hin]; rfl)
    rw [hin] at a1 a5
    exact ⟨st2, a1, a2, a3, a4, a5, fun _ _ _ h => by simp at h⟩
  | cons x t =>
    cases t with
    | nil =>
      obtain ⟨st2, a1, a2, a3, a4, a5⟩ := hzero (by rw [hin]; rfl)
      rw [hin] at a1 a5
      exact ⟨st2, a1, a2, a3, a4, a5, fun _ _ _ h => by simp at h⟩
    | cons c cs =>
      obtain ⟨st2, e1, e2, e3, e4, e5, l2, e6, e7⟩ :=
        reduce_steps_spec fake i cs.length st l x c cs hl hin rfl
      refine ⟨st2, by simpa using e1, e2, e4, e5, ⟨l2, e6, fun _ => e7⟩, ?_⟩
      intro c1 c2 rest h
      simp only [List.cons.injEq] at h
      obtain ⟨rfl, rfl, rfl⟩ := h
      exact e3

/-- The second pass of `simplify_ligatures` with synthesis allowed: it
completes, keeps every two-input step, and for every entry it visits that has
at least two inputs leaves a chain of steps from the first input through the
others to the entry's output. -/
theorem reduce_all_spec (fake : Int) :
    ∀ (n i : Nat) (st : GsubEncoding), i + n = st._ligatures.length →
      (∀ l ∈ st._ligatures, 1 ≤ l.in_.length) →
      ∃ st2, reduce_all true fake n i st = some st2 ∧
        LigKeeps (st._ligatures ++ st._fake_ligatures) (st2._ligatures ++ st2._fake_ligatures) ∧
        st2._ligatures.length = st._ligatures.length ∧
        (∀ l ∈ st2._ligatures, 1 ≤ l.in_.length) ∧
        (∀ k l, i ≤ k → st._ligatures[k]? = some l → ∀ c1 c2 rest, l.in_ = c1 :: c2 :: rest →
          LigChain (st2._ligatures ++ st2._fake_ligatures) c1 (c2 :: rest) l.out) := by
  intro n
  induction n with
  | zero =>
    intro i st hlen hne
    refine ⟨st, rfl, LigKeeps.refl_keeps _, rfl, hne, ?_⟩
    intro k l hk hl
    have := (List.getElem?_eq_some.mp hl).1
    omega
  | succ n ih =>
    intro i st hlen hne
    obtain ⟨li, hli⟩ : ∃ li, st._ligatures[i]? = some li :=
      ⟨st._ligatures[i], List.getElem?_eq_getElem (by omega)⟩
    obtain ⟨st1, e1, e2, e3, e4, ⟨l2, e5, e6⟩, e7⟩ := reduce_ligature_spec fake i st li hli
    have hne1 : ∀ l ∈ st1._ligatures, 1 ≤ l.in_.length := by
      intro l hl
      obtain ⟨k, hk⟩ := List.mem_iff_getElem?.mp hl
      by_cases hki : k = i
      · subst hki
        rw [e5] at hk
        obtain rfl := Option.some.inj hk
        exact e6 (hne li (List.getElem?_mem hli))
      · rw [e4 k hki] at hk
        exact hne l (List.getElem?_mem hk)
    obtain ⟨st2, f1, f2, f3, f4, f5⟩ := ih (i + 1) st1 (by omega) hne1
    refine ⟨st2, by simp only [reduce_all, e1, f1], e2.trans_keeps f2, by rw [f3, e3], f4, ?_⟩
    intro k l hk hl c1 c2 rest hin
    by_cases hki : k = i
    · subst hki
      rw [hli] at hl
      obtain rfl := Option.some.inj hl
      exact LigChain.mono f2 _ _ _ (e7 c1 c2 rest hin)
    · exact f5 k l (by omega) (by rw [e4 k hki]; exact hl) c1 c2 rest hin

theorem forall₂_mem_left {α β : Type} {R : α → β → Prop} {ls : List α} {ls2 : List β}
    (h : List.Forall₂ R ls ls2) : ∀ l ∈ ls, ∃ l2 ∈ ls2, R l l2 := by
  induction h with
  | nil => intro l hl; simp at hl
  | cons hab _ ih =>
    intro l hl
    rcases List.mem_cons.mp hl with rfl | hl
    · exact ⟨_, List.mem_cons_self _ _, hab⟩
    · obtain ⟨l2, h1, h2⟩ := ih l hl
      exact ⟨l2, List.mem_cons_of_mem _ h1, h2⟩

theorem forall₂_mem_right {α β : Type} {R : α → β → Prop} {ls : List α} {ls2 : List β}
    (h : List.Forall₂ R ls ls2) : ∀ l2 ∈ ls2, ∃ l ∈ ls, R l l2 := by
  induction h with
  | nil => intro l hl; simp at hl
  | cons hab _ ih =>
    intro l hl
    rcases List.mem_cons.mp hl with rfl | hl
    · exact ⟨_, List.mem_cons_self _ _, hab⟩
    · obtain ⟨l2, h1, h2⟩ := ih l hl
      exact ⟨l2, List.mem_cons_of_mem _ h1, h2⟩

theorem forall₂_getElem? {α β : Type} {R : α → β → Prop} {ls : List α} {ls2 : List β}
    (h : List.Forall₂ R ls ls2) : ∀ (k : Nat) (l : α), ls[k]? = some l →
      ∃ l2, ls2[k]? = some l2 ∧ R l l2 := by
  induction h with
  | nil => intro k l hl; simp at hl
  | cons hab _ ih =>
    intro k l hl
    cases k with
    | zero =>
      simp only [List.getElem?_cons_zero, Option.some.injEq] at hl
      subst hl
      exact ⟨_, by simp, hab⟩
    | succ k =>
      simp only [List.getElem?_cons_succ] at hl
      obtain ⟨l2, h1, h2⟩ := ih k l hl
      exact ⟨l2, by simpa using h1, h2⟩

theorem forall₂_comp {α β γ : Type} {R : α → β → Prop} {S : β → γ → Prop} {T : α → γ → Prop}
    (hT : ∀ a b c, R a b → S b c → T a c) :
    ∀ {l1 : List α} {l2 : List β} {l3 : List γ},
      List.Forall₂ R l1 l2 → List.Forall₂ S l2 l3 → List.Forall₂ T l1 l3 := by
  intro l1 l2 l3 h1
  induction h1 generalizing l3 with
  | nil => intro h2; cases h2; exact List.Forall₂.nil
  | cons hab _ ih =>
    intro h2
    cases h2 with
    | cons hbc h2 => exact List.Forall₂.cons (hT _ _ _ hab hbc) (ih h2)

theorem Invalidated.refl_inval (l : Ligature) : Invalidated l l := ⟨rfl, Or.inl rfl⟩

theorem Invalidated.trans_inval {a b c : Ligature} (h1 : Invalidated a b) (h2 : Invalidated b c) :
    Invalidated a c := by
  obtain ⟨o1, i1⟩ := h1
  obtain ⟨o2, i2⟩ := h2
  refine ⟨by rw [o2, o1], ?_⟩
  rcases i1 with i1 | i1 <;> rcases i2 with i2 | i2
  · left; rw [i2, i1]
  · right; rw [i2, i1]
  · right; rw [i2, i1]
  · right; rw [i2, i1, List.set_set]

theorem Invalidated.length {a b : Ligature} (h : Invalidated a b) :
    b.in_.length = a.in_.length := by
  rcases h.2 with h | h <;> rw [h]
  simp

theorem Invalidated.set_first (l : Ligature) : Invalidated l { l with in_ := l.in_.set 0 (-1) } :=
  ⟨rfl, Or.inr rfl⟩

theorem forall₂_invalidated_refl : ∀ ls : List Ligature, List.Forall₂ Invalidated ls ls
  | [] => List.Forall₂.nil
  | l :: ls => List.Forall₂.cons (Invalidated.refl_inval l) (forall₂_invalidated_refl ls)

/-- Overwriting first inputs with `-1` keeps every two-input step. -/
theorem LigKeeps.of_invalidated {ls ls2 : List Ligature} (fakes : List Ligature)
    (h : List.Forall₂ Invalidated ls ls2) : LigKeeps (ls ++ fakes) (ls2 ++ fakes) := by
  rintro x c y ⟨l, hl, ho, hi⟩
  rcases List.mem_append.mp hl with hl | hl
  · obtain ⟨l2, hl2, ho2, hi2⟩ := forall₂_mem_left h l hl
    refine ⟨l2, List.mem_append_left _ hl2, by rw [ho2, ho], ?_⟩
    rcases hi with hi | hi <;> rcases hi2 with hi2 | hi2 <;> rw [hi2, hi] <;> simp
  · exact ⟨l, List.mem_append_right _ hl, ho, hi⟩

theorem nonempty_of_invalidated {ls ls2 : List Ligature} (h : List.Forall₂ Invalidated ls ls2)
    (hne : ∀ l ∈ ls, 1 ≤ l.in_.length) : ∀ l ∈ ls2, 1 ≤ l.in_.length := by
  intro l2 hl2
  obtain ⟨l, hl, hr⟩ := forall₂_mem_right h l2 hl2
  rw [hr.length]
  exact hne l hl

theorem vec_at_zero_of_nonempty (l : Ligature) (h : 1 ≤ l.in_.length) :
    ∃ a, vec_at l.in_ 0 = some a :=
  vec_at_eq_some_of_lt l.in_ 0 (le_refl _) (by omega)

theorem first_input_is_total (c : Int) : ∀ all : List Ligature,
    (∀ l ∈ all, 1 ≤ l.in_.length) → ∃ b, first_input_is c all = some b := by
  intro all
  induction all with
  | nil => intro _; exact ⟨false, rfl⟩
  | cons l ls ih =>
    intro hne
    obtain ⟨a, ha⟩ := vec_at_zero_of_nonempty l (hne l (List.mem_cons_self _ _))
    unfold first_input_is
    rw [ha]
    simp only
    split
    · exact ⟨true, rfl⟩
    · exact ih (fun l hl => hne l (List.mem_cons_of_mem _ hl))

theorem mark_skippable_spec (all : List Ligature) (hall : ∀ l ∈ all, 1 ≤ l.in_.length) :
    ∀ ls : List Ligature, ∃ ls2, mark_skippable all ls = some ls2 ∧
      List.Forall₂ (fun l l2 => l2.in_ = l.in_ ∧ l2.out = l.out) ls ls2 := by
  intro ls
  induction ls with
  | nil => exact ⟨[], rfl, List.Forall₂.nil⟩
  | cons l ls ih =>
    obtain ⟨b, hb⟩ := first_input_is_total l.out all hall
    obtain ⟨ls2, e1, e2⟩ := ih
    refine ⟨(if b = true then l else { l with skip := 0 }) :: ls2,
      by simp only [mark_skippable, hb, e1], List.Forall₂.cons ?_ e2⟩
    split <;> exact ⟨rfl, rfl⟩

theorem invalidate_if_redundant_spec (l ll : Ligature) :
    Invalidated ll (invalidate_if_redundant l ll) := by
  unfold invalidate_if_redundant
  split
  · exact Invalidated.set_first ll
  · exact Invalidated.refl_inval ll

theorem remove_redundant_spec : ∀ (n : Nat) (ls : List Ligature),
    (∀ l ∈ ls, 1 ≤ l.in_.length) → ls.length ≤ n →
      ∃ ls2, remove_redundant n ls = some ls2 ∧ List.Forall₂ Invalidated ls ls2 := by
  intro n
  induction n with
  | zero =>
    intro ls _ hlen
    have : ls = [] := List.length_eq_zero.mp (by omega)
    subst this
    exact ⟨[], rfl, List.Forall₂.nil⟩
  | succ n ih =>
    intro ls hne hlen
    cases ls with
    | nil => exact ⟨[], rfl, List.Forall₂.nil⟩
    | cons l ls =>
      obtain ⟨a, ha⟩ := vec_at_zero_of_nonempty l (hne l (List.mem_cons_self _ _))
      have htail : List.Forall₂ Invalidated ls
          (if a < 0 then ls else ls.map (invalidate_if_redundant l)) := by
        split
        · exact forall₂_invalidated_refl ls
        · rw [List.forall₂_map_right_iff]
          exact List.forall₂_same.mpr (fun ll _ => invalidate_if_redundant_spec l ll)
      have hne2 := nonempty_of_invalidated htail
        (fun l hl => hne l (List.mem_cons_of_mem _ hl))
      obtain ⟨ls2, e1, e2⟩ := ih _ hne2 (by
        rw [← List.Forall₂.length_eq htail]
        simp only [List.length_cons] at hlen
        omega)
      have hcomp : List.Forall₂ Invalidated ls ls2 :=
        @forall₂_comp Ligature Ligature Ligature Invalidated Invalidated Invalidated
          (fun _ _ _ h1 h2 => Invalidated.trans_inval h1 h2) _ _ _ htail e2
      refine ⟨l :: ls2, ?_, List.Forall₂.cons (Invalidated.refl_inval l) hcomp⟩
      rw [remove_redundant, ha]
      simp only
      rw [e1]

theorem remove_null_spec : ∀ ls : List Ligature, (∀ l ∈ ls, 1 ≤ l.in_.length) →
    ∃ ls2, remove_null ls = some ls2 ∧ List.Forall₂ Invalidated ls ls2 := by
  intro ls
  induction ls with
  | nil => intro _; exact ⟨[], rfl, List.Forall₂.nil⟩
  | cons l ls ih =>
    intro hne
    obtain ⟨a, ha⟩ := vec_at_zero_of_nonempty l (hne l (List.mem_cons_self _ _))
    obtain ⟨ls2, e1, e2⟩ := ih (fun l hl => hne l (List.mem_cons_of_mem _ hl))
    refine ⟨(if 0 ≤ a ∧ 0 ≤ l.context ∧ (l.in_.length : Int) = l.context + 1 ∧ a = l.out then
        { l with in_ := l.in_.set 0 (-1) } else l) :: ls2,
      by simp only [remove_null, ha, e1], List.Forall₂.cons ?_ e2⟩
    split
    · exact Invalidated.set_first l
    · exact Invalidated.refl_inval l

set_option maxRecDepth 100000 in
/-- C3, as stated, fails: `apply` turns two ligature rules with the same inputs
`f i` into two entries with inputs `[1, 2]` and outputs 5 and 6, and
`simplify_ligatures` overwrites the first input of the second with `-1`: no
entry with inputs `[1, 2]` and output 6 is left in either table. -/
theorem simplify_ligatures_chain_counterexample :
    state_two_fi._ligatures =
      [{ in_ := [1, 2], out := 5, skip := 1, context := 0 },
       { in_ := [1, 2], out := 6, skip := 1, context := 0 }] ∧
    (simplify_ligatures true 0xFFFF state_two_fi).map
        (fun st => (st._ligatures, st._fake_ligatures)) =
      some ([{ in_ := [1, 2], out := 5, skip := 0, context := 0 },
             { in_ := [-1, 2], out := 6, skip := 0, context := 0 }], []) := by
  decide

/-- C3 (amended). Ligature chain equivalence up to invalidation: for every
table whose entries have at least one input, `simplify_ligatures` with fake
ligatures allowed completes, and for every entry of the original table with
input codes `c1, c2, ..., cL` (`L >= 2`) and output `o` the final ligature table
together with the fake-ligature table holds a chain of `L - 1` two-input
entries `x1 = lig(c1, c2)`, `x2 = lig(x1, c3)`, ..., the last with output `o`,
where an entry of the chain may have had its first input overwritten with
`-1`. -/
theorem simplify_ligatures_chain (fake : Int) (st : GsubEncoding)
    (hne : ∀ l ∈ st._ligatures, 1 ≤ l.in_.length) :
    ∃ st2, simplify_ligatures true fake st = some st2 ∧
      ∀ l ∈ st._ligatures, ∀ c1 c2 rest, l.in_ = c1 :: c2 :: rest →
        LigChain (st2._ligatures ++ st2._fake_ligatures) c1 (c2 :: rest) l.out := by
  obtain ⟨ls1, a1, a2⟩ := mark_skippable_spec st._ligatures hne st._ligatures
  have hne1 : ∀ l ∈ ls1, 1 ≤ l.in_.length := by
    intro l2 hl2
    obtain ⟨l, hl, hr⟩ := forall₂_mem_right a2 l2 hl2
    rw [hr.1]
    exact hne l hl
  obtain ⟨st2, b1, _, _, b4, b5⟩ := reduce_all_spec fake ls1.length 0
    { st with _ligatures := ls1 } (by simp) hne1
  obtain ⟨ls3, c1, c2⟩ := remove_redundant_spec st2._ligatures.length st2._ligatures b4
    (le_refl _)
  obtain ⟨ls4, d1, d2⟩ := remove_null_spec ls3 (nonempty_of_invalidated c2 b4)
  refine ⟨{ st2 with _ligatures := ls4 }, by simp only [simplify_ligatures, a1, b1, c1, d1], ?_⟩
  intro l hl x c rest hin
  obtain ⟨k, hk⟩ := List.mem_iff_getElem?.mp hl
  obtain ⟨l1, hk1, hin1, hout1⟩ := forall₂_getElem? a2 k l hk
  have hchain := b5 k l1 (Nat.zero_le _) hk1 x c rest (by rw [hin1, hin])
  rw [hout1] at hchain
  have hkeep : LigKeeps (st2._ligatures ++ st2._fake_ligatures) (ls4 ++ st2._fake_ligatures) :=
    (LigKeeps.of_invalidated st2._fake_ligatures c2).trans_keeps
      (LigKeeps.of_invalidated st2._fake_ligatures d2)
  exact LigChain.mono hkeep _ _ _ hchain

set_option maxRecDepth 100000 in
theorem simplify_ligatures_chain_witness :
    state_ffi._ligatures =
      [{ in_ := [1, 1, 2], out := 5, skip := 1, context := 0 },
       { in_ := [1, 2], out := 6, skip := 1, context := 0 }] ∧
    (simplify_ligatures true 0xFFFF state_ffi).map
        (fun st => (st._ligatures, st._fake_ligatures)) =
      some ([{ in_ := [7, 2], out := 5, skip := 0, context := 0 },
             { in_ := [1, 2], out := 6, skip := 0, context := 0 }],
            [{ in_ := [1, 1], out := 7, skip := 0, context := 0 }]) ∧
    ∃ st2, simplify_ligatures true 0xFFFF state_ffi = some st2 ∧
      ∀ l ∈ state_ffi._ligatures, ∀ c1 c2 rest, l.in_ = c1 :: c2 :: rest →
        LigChain (st2._ligatures ++ st2._fake_ligatures) c1 (c2 :: rest) l.out :=
  ⟨by decide, by decide, simplify_ligatures_chain 0xFFFF state_ffi (by decide)⟩

/-- The `CH_NO` branch of the single-substitution case, spelled out: when the
input glyph has a code inside the tracker that nobody has touched, the body
stores the output glyph in the slot, invalidates the reverse-map entry of the
input glyph, points that of the output glyph at the code and marks the code
`CH_ALL`. -/
theorem apply_single_unchanged (A B : Int) (p : SubstPass) (hwf : p.WF) (hB : 0 ≤ B)
    (he : 0 ≤ code_of p.st A) (hlt : code_of p.st A < p.changed.length)
    (hno : vec_at p.changed (code_of p.st A) = some CH_NO) :
    ∃ emap, apply_single A B p = some
        { p with
          st := { p.st with
            _encoding := p.st._encoding.set (code_of p.st A).toNat B,
            _emap := (if (emap.length : Int) ≤ B then resize emap (B + 1).toNat (-2)
              else emap).set B.toNat (code_of p.st A) },
          changed := p.changed.set (code_of p.st A).toNat CH_ALL } := by
  obtain ⟨s1, s2⟩ := encoding_sameTables A p.st
  have hA : 0 ≤ A := code_of_nonneg_glyph p.st A he
  have hltenc : code_of p.st A < p.st._encoding.length := by
    have := hwf.2.1
    omega
  unfold apply_single
  simp only [encoding_fst]
  rw [if_neg (by omega), hno]
  simp only [if_true]
  unfold assign_emap
  rw [if_neg (by omega)]
  simp only
  rw [if_neg (by omega)]
  simp only
  rw [vec_set_eq_some _ _ B he (by rw [s2]; exact hltenc)]
  simp only
  rw [vec_set_eq_some p.changed _ CH_ALL he hlt]
  simp only
  refine ⟨(if ((encoding A p.st).2._emap.length : Int) ≤ A then
      resize (encoding A p.st).2._emap (A + 1).toNat (-2)
    else (encoding A p.st).2._emap).set A.toNat (-2), ?_⟩
  have h3 := s1
  unfold SameTables at h3
  rw [s2]
  generalize (encoding A p.st).2 = q at h3
  have e1 := congrArg GsubEncoding._boundary_glyph h3
  have e2 := congrArg GsubEncoding._ligatures h3
  have e3 := congrArg GsubEncoding._fake_ligatures h3
  have e4 := congrArg GsubEncoding._kerns h3
  have e5 := congrArg GsubEncoding._vfpos h3
  simp only at e1 e2 e3 e4 e5
  rw [e1, e2, e3, e4, e5]

/-- C11. Unconditional single substitution: for a single or alternate rule
`A -> B` (`B` a glyph id) applied with `allow_single` set, in a pass state with
a well-formed tracker where `A` is encoded at a code `e` inside the tracker (a
code that existed at the start of the pass) whose entry is `CH_NO`: the rule
completes and is counted; afterwards slot `e` holds `B`, every other slot and
the table length are unchanged, the ligature table and the other tables are
unchanged, the reverse lookup of `B` yields `e`, and the tracker entry of `e` is
`CH_ALL` while every other tracker entry is unchanged. -/
theorem apply_single_unconditional (s : Substitution) (A B : Int) (p : SubstPass)
    (hs : s = .single A B ∨ s = .alternate A B) (hwf : p.WF) (hB : 0 ≤ B)
    (he : 0 ≤ code_of p.st A) (hlt : code_of p.st A < p.changed.length)
    (hno : vec_at p.changed (code_of p.st A) = some CH_NO) :
    ∃ p2, apply_substitution true s p = some p2 ∧
      vec_at p2.st._encoding (code_of p.st A) = some B ∧
      (∀ j, j ≠ code_of p.st A → vec_at p2.st._encoding j = vec_at p.st._encoding j) ∧
      p2.st._encoding.length = p.st._encoding.length ∧
      p2.st._ligatures = p.st._ligatures ∧
      p2.st._fake_ligatures = p.st._fake_ligatures ∧
      p2.st._kerns = p.st._kerns ∧ p2.st._vfpos = p.st._vfpos ∧
      code_of p2.st B = code_of p.st A ∧
      vec_at p2.changed (code_of p.st A) = some CH_ALL ∧
      (∀ j, j ≠ code_of p.st A → vec_at p2.changed j = vec_at p.changed j) ∧
      p2.changed_context = p.changed_context ∧
      p2.success = p.success + 1 := by
  obtain ⟨emap, hrun⟩ := apply_single_unchanged A B p hwf hB he hlt hno
  have hltenc : code_of p.st A < p.st._encoding.length := by
    have := hwf.2.1
    omega
  have hstep : apply_substitution true s p = (apply_single A B p).map
      (fun q => { q with success := q.success + 1 }) := by
    rcases hs with rfl | rfl <;> simp [apply_substitution]
  rw [hstep, hrun]
  refine ⟨_, rfl, ?_, ?_, ?_, rfl, rfl, rfl, rfl, ?_, ?_, ?_, rfl, rfl⟩
  · exact vec_at_set_eq _ _ _ he hltenc
  · intro j hj
    exact vec_at_set_ne _ _ j _ he (fun h => hj h.symm)
  · simp
  · rw [code_of_eq]
    simp only
    rw [emap_answer_store_eq emap B hB, if_pos (by omega)]
    rfl
  · exact vec_at_set_eq _ _ _ he hlt
  · intro j hj
    exact vec_at_set_ne _ _ j _ he (fun h => hj h.symm)

set_option maxRecDepth 100000 in
theorem apply_single_unconditional_witness :
    (vec_at state_A_f_i._encoding 0x41 = some 34 ∧ code_of state_A_f_i 34 = 0x41) ∧
    (apply [Substitution.single 34 35] true state_A_f_i).map
        (fun r => (r.1, vec_at r.2._encoding 0x41, code_of r.2 35, r.2._ligatures)) =
      some (1, some 35, 0x41, []) ∧
    ∃ p2, apply_substitution true (.single 34 35) (SubstPass.start state_A_f_i) = some p2 ∧
      vec_at p2.st._encoding (code_of (SubstPass.start state_A_f_i).st 34) = some 35 ∧
      (∀ j, j ≠ code_of (SubstPass.start state_A_f_i).st 34 →
        vec_at p2.st._encoding j = vec_at (SubstPass.start state_A_f_i).st._encoding j) ∧
      p2.st._encoding.length = (SubstPass.start state_A_f_i).st._encoding.length ∧
      p2.st._ligatures = (SubstPass.start state_A_f_i).st._ligatures ∧
      p2.st._fake_ligatures = (SubstPass.start state_A_f_i).st._fake_ligatures ∧
      p2.st._kerns = (SubstPass.start state_A_f_i).st._kerns ∧
      p2.st._vfpos = (SubstPass.start state_A_f_i).st._vfpos ∧
      code_of p2.st 35 = code_of (SubstPass.start state_A_f_i).st 34 ∧
      vec_at p2.changed (code_of (SubstPass.start state_A_f_i).st 34) = some CH_ALL ∧
      (∀ j, j ≠ code_of (SubstPass.start state_A_f_i).st 34 →
        vec_at p2.changed j = vec_at (SubstPass.start state_A_f_i).changed j) ∧
      p2.changed_context = (SubstPass.start state_A_f_i).changed_context ∧
      p2.success = (SubstPass.start state_A_f_i).success + 1 :=
  ⟨by decide, by decide,
    apply_single_unconditional (.single 34 35) 34 35 (SubstPass.start state_A_f_i)
      (Or.inl rfl) (SubstPass.start_wf_subst state_A_f_i) (by decide) (by decide) (by decide)
      (by decide)⟩

/-- One rule of a substitution pass raises `success` by one exactly when the
rule is counted. -/
theorem apply_substitution_count (allow_single : Bool) (s : Substitution) (p : SubstPass)
    (hwf : p.WF) (hs : s.out_nonneg) :
    ∃ p2, apply_substitution allow_single s p = some p2 ∧ p2.WF ∧
      p2.success = p.success + (if s.counted allow_single = true then 1 else 0) := by
  have lift : ∀ r : Option SubstPass,
      (∃ q, r = some q ∧ q.WF ∧ PassStep p q ∧ q.success = p.success) →
      ∃ p2, r.map (fun q => { q with success := q.success + 1 }) = some p2 ∧ p2.WF ∧
        p2.success = p.success + 1 := by
    rintro r ⟨q, rfl, h1, _, h3⟩
    exact ⟨_, rfl, h1, by simp only [h3]⟩
  cases s with
  | single i o =>
    unfold apply_substitution
    cases allow_single with
    | true => exact lift _ (apply_single_spec i o p hwf hs)
    | false => exact ⟨p, rfl, hwf, by simp [Substitution.counted, Substitution.is_single_or_alternate]⟩
  | alternate i o =>
    unfold apply_substitution
    cases allow_single with
    | true => exact lift _ (apply_single_spec i o p hwf hs)
    | false => exact ⟨p, rfl, hwf, by simp [Substitution.counted, Substitution.is_single_or_alternate]⟩
  | ligature ins o =>
    obtain ⟨q, h1, h2, h3, h4, _⟩ := apply_ligature_spec ins o p hwf hs
    have := lift _ ⟨q, h1, h2, h3, h4⟩
    simpa [Substitution.counted, Substitution.is_single_or_alternate, Substitution.is_known,
      apply_substitution] using this
  | single_rcontext i r o =>
    have := lift _ (apply_context_spec i r o true p hwf hs)
    simpa [Substitution.counted, Substitution.is_single_or_alternate, Substitution.is_known,
      apply_substitution] using this
  | single_lcontext l i o =>
    have := lift _ (apply_context_spec l i o false p hwf hs)
    simpa [Substitution.counted, Substitution.is_single_or_alternate, Substitution.is_known,
      apply_substitution] using this
  | other => exact ⟨p, rfl, hwf, by simp [Substitution.counted, Substitution.is_known]⟩

theorem apply_loop_count (allow_single : Bool) :
    ∀ (sv : List Substitution) (p : SubstPass), p.WF → (∀ s ∈ sv, s.out_nonneg) →
      ∃ p2, apply_loop allow_single sv p = some p2 ∧ p2.WF ∧
        p2.success = p.success + ((sv.filter (Substitution.counted allow_single)).length : Int) := by
  intro sv
  induction sv with
  | nil => intro p hwf _; exact ⟨p, rfl, hwf, by simp⟩
  | cons s sv ih =>
    intro p hwf hsv
    obtain ⟨p1, e1, e2, e3⟩ := apply_substitution_count allow_single s p hwf
      (hsv s (List.mem_cons_self _ _))
    obtain ⟨p2, f1, f2, f3⟩ := ih p1 e2 (fun t ht => hsv t (List.mem_cons_of_mem _ ht))
    refine ⟨p2, by simp only [apply_loop, e1, f1], f2, ?_⟩
    rw [f3, e3, List.filter_cons]
    split
    · simp only [List.length_cons]; push_cast; omega
    · omega

set_option maxRecDepth 100000 in
/-- C12, as stated, fails: with `allow_single` off, `apply` passes over a single
substitution without counting it, and returns 0 for a list of one rule. -/
theorem apply_count_counterexample :
    [Substitution.single 34 35].length = 1 ∧
    (apply [Substitution.single 34 35] false state_A_f_i).map (fun r => r.1) = some 0 := by
  decide

/-- C12 (amended). The count returned by `apply`, for every state and every
list of rules of the five kinds whose output glyphs are glyph ids: the call
completes; with `allow_single` set it returns the length of the list, the
inapplicable rules included; with `allow_single` off it returns the number of
rules that are neither single nor alternate. -/
theorem apply_returns_count (sv : List Substitution) (st : GsubEncoding)
    (hout : ∀ s ∈ sv, s.out_nonneg) (hkind : ∀ s ∈ sv, s.is_known = true) :
    (∃ st2, apply sv true st = some ((sv.length : Int), st2)) ∧
    (∃ st2, apply sv false st =
      some (((sv.filter (fun s => !s.is_single_or_alternate)).length : Int), st2)) := by
  constructor
  · obtain ⟨p2, h1, _, h3⟩ := apply_loop_count true sv _ (SubstPass.start_wf_subst st) hout
    refine ⟨p2.st, ?_⟩
    have hall : sv.filter (Substitution.counted true) = sv :=
      List.filter_eq_self.mpr (fun s hs => by simp [Substitution.counted, hkind s hs])
    rw [hall] at h3
    simp only [apply, h1, Option.map_some']
    rw [h3]
    simp [SubstPass.start]
  · obtain ⟨p2, h1, _, h3⟩ := apply_loop_count false sv _ (SubstPass.start_wf_subst st) hout
    refine ⟨p2.st, ?_⟩
    have hall : sv.filter (Substitution.counted false) =
        sv.filter (fun s => !s.is_single_or_alternate) :=
      List.filter_congr (fun s hs => by simp [Substitution.counted, hkind s hs])
    rw [hall] at h3
    simp only [apply, h1, Option.map_some']
    rw [h3]
    simp [SubstPass.start]

set_option maxRecDepth 100000 in
theorem apply_returns_count_witness :
    (apply [Substitution.single 34 35, Substitution.ligature [71, 74] 110,
        Substitution.single 999 35] true state_A_f_i).map (fun r => r.1) = some 3 ∧
    (apply [Substitution.single 34 35, Substitution.ligature [71, 74] 110,
        Substitution.single 999 35] false state_A_f_i).map (fun r => r.1) = some 1 ∧
    ((∃ st2, apply [Substitution.single 34 35, Substitution.ligature [71, 74] 110,
        Substitution.single 999 35] true state_A_f_i =
        some ((([Substitution.single 34 35, Substitution.ligature [71, 74] 110,
          Substitution.single 999 35] : List Substitution).length : Int), st2)) ∧
     (∃ st2, apply [Substitution.single 34 35, Substitution.ligature [71, 74] 110,
        Substitution.single 999 35] false state_A_f_i =
        some (((([Substitution.single 34 35, Substitution.ligature [71, 74] 110,
          Substitution.single 999 35] : List Substitution).filter
            (fun s => !s.is_single_or_alternate)).length : Int), st2))) :=
  ⟨by decide, by decide,
    apply_returns_count [Substitution.single 34 35, Substitution.ligature [71, 74] 110,
      Substitution.single 999 35] state_A_f_i (by decide) (by decide)⟩

theorem setting_vfpos_eq (code : Int) (st : GsubEncoding) :
    setting_vfpos code st._vfpos = vfpos_offsets st code := by
  unfold vfpos_offsets
  induction st._vfpos with
  | nil => rfl
  | cons p ps ih =>
    unfold setting_vfpos
    by_cases h : p.in_ = code
    · simp [h]
    · simp [h, ih]

/-- C13. `setting(code)`: the call completes; it returns false exactly when
`code` is outside `[0, table length)` or its slot holds no glyph (`<= 0`), and
then the list is empty; otherwise the list is `pre ++ [SHOW glyph] ++ post` with
only moves in `pre` and `post`, where, for the offsets `(pdx, pdy, adx)` of the
first `_vfpos` entry with `in = code` (zero when there is none), the `HMOVETO`
amounts of `pre` sum to `pdx`, those of the whole list to `adx`, the `VMOVETO`
amounts are `pdy` before and `-pdy` after the `SHOW`, summing to 0, and no move
has amount 0. -/
theorem setting_spec (st : GsubEncoding) (code : Int) :
    ∃ ok v, setting st code = some (ok, v) ∧
      (ok = false ↔ (code < 0 ∨ (st._encoding.length : Int) ≤ code ∨
        ∃ g, vec_at st._encoding code = some g ∧ g ≤ 0)) ∧
      (ok = false → v = []) ∧
      (ok = true → ∃ g pre post, vec_at st._encoding code = some g ∧ 0 < g ∧
        v = pre ++ [{ op := .SHOW, x := g }] ++ post ∧
        (∀ s ∈ pre ++ post, s.op = .HMOVETO ∨ s.op = .VMOVETO) ∧
        moved .HMOVETO pre = (vfpos_offsets st code).1 ∧
        moved .HMOVETO v = (vfpos_offsets st code).2.2 ∧
        moved .VMOVETO pre = (vfpos_offsets st code).2.1 ∧
        moved .VMOVETO post = -(vfpos_offsets st code).2.1 ∧
        moved .VMOVETO v = 0 ∧
        ∀ s ∈ pre ++ post, s.x ≠ 0) := by
  unfold setting
  rw [setting_vfpos_eq]
  by_cases hout : code < 0 ∨ (st._encoding.length : Int) ≤ code
  · rw [if_pos hout]
    refine ⟨false, [], rfl, ?_, fun _ => rfl, fun h => absurd h (by simp)⟩
    constructor
    · intro _
      rcases hout with h | h
      · exact Or.inl h
      · exact Or.inr (Or.inl h)
    · intro _; rfl
  · rw [if_neg hout]
    obtain ⟨g, hg⟩ := vec_at_eq_some_of_lt st._encoding code (by omega) (by omega)
    simp only [hg]
    by_cases hg0 : g ≤ 0
    · rw [if_pos hg0]
      refine ⟨false, [], rfl, ?_, fun _ => rfl, fun h => absurd h (by simp)⟩
      exact ⟨fun _ => Or.inr (Or.inr ⟨g, rfl, hg0⟩), fun _ => rfl⟩
    · rw [if_neg hg0]
      generalize vfpos_offsets st code = off
      obtain ⟨pdx, pdy, adx⟩ := off
      obtain ⟨d, rfl⟩ : ∃ d, adx = pdx + d := ⟨adx - pdx, by omega⟩
      simp only [add_sub_cancel_left]
      refine ⟨true, _, rfl, ?_, fun h => absurd h (by simp), fun _ => ?_⟩
      · constructor
        · intro h; exact absurd h (by simp)
        · rintro (h | h | ⟨g2, h1, h2⟩)
          · exact absurd (Or.inl h) hout
          · exact absurd (Or.inr h) hout
          · rw [Option.some.inj h1] at hg0
            exact absurd h2 hg0
      · refine ⟨g, (if pdx ≠ 0 then [{ op := .HMOVETO, x := pdx }] else []) ++
            (if pdy ≠ 0 then [{ op := .VMOVETO, x := pdy }] else []),
          (if pdy ≠ 0 then [{ op := .VMOVETO, x := -pdy }] else []) ++
            (if d ≠ 0 then [{ op := .HMOVETO, x := d }] else []),
          rfl, by omega, by simp, ?_, ?_, ?_, ?_, ?_, ?_, ?_⟩
        all_goals
          by_cases h1 : pdx = 0 <;> by_cases h2 : pdy = 0 <;> by_cases h3 : d = 0 <;>
            simp [moved, h1, h2, h3]

theorem setting_spec_witness :
    setting sample_state 3 = some (true,
      [{ op := .HMOVETO, x := 1 }, { op := .VMOVETO, x := 2 }, { op := .SHOW, x := 8 },
       { op := .VMOVETO, x := -2 }, { op := .HMOVETO, x := 2 }]) ∧
    setting sample_state 4 = some (false, []) ∧
    ∃ ok v, setting sample_state 3 = some (ok, v) ∧
      (ok = false ↔ ((3 : Int) < 0 ∨ (sample_state._encoding.length : Int) ≤ 3 ∨
        ∃ g, vec_at sample_state._encoding 3 = some g ∧ g ≤ 0)) ∧
      (ok = false → v = []) ∧
      (ok = true → ∃ g pre post, vec_at sample_state._encoding 3 = some g ∧ 0 < g ∧
        v = pre ++ [{ op := .SHOW, x := g }] ++ post ∧
        (∀ s ∈ pre ++ post, s.op = .HMOVETO ∨ s.op = .VMOVETO) ∧
        moved .HMOVETO pre = (vfpos_offsets sample_state 3).1 ∧
        moved .HMOVETO v = (vfpos_offsets sample_state 3).2.2 ∧
        moved .VMOVETO pre = (vfpos_offsets sample_state 3).2.1 ∧
        moved .VMOVETO post = -(vfpos_offsets sample_state 3).2.1 ∧
        moved .VMOVETO v = 0 ∧
        ∀ s ∈ pre ++ post, s.x ≠ 0) :=
  ⟨by decide, by decide, setting_spec sample_state 3⟩

theorem hard_scan_count (g : Int) : ∀ (xs : List Int) (i : Int),
    (hard_scan g xs i).2 = xs.count g := by
  intro xs
  induction xs with
  | nil => intro i; rfl
  | cons x xs ih =>
    intro i
    unfold hard_scan
    by_cases h : x = g
    · rw [if_pos h, h, List.count_cons_self, ih]
    · rw [if_neg h, List.count_cons_of_ne (fun e => h e.symm), ih]

theorem hard_scan_first (g : Int) : ∀ (xs : List Int) (i : Int),
    ((∀ k : Nat, xs[k]? ≠ some g) → (hard_scan g xs i).1 = -1) ∧
    (∀ k : Nat, xs[k]? = some g → (∀ j : Nat, j < k → xs[j]? ≠ some g) →
      (hard_scan g xs i).1 = i + (k : Int)) := by
  intro xs
  induction xs with
  | nil =>
    intro i
    exact ⟨fun _ => rfl, fun k hk => by simp at hk⟩
  | cons x xs ih =>
    intro i
    unfold hard_scan
    by_cases h : x = g
    · rw [if_pos h]
      constructor
      · intro hno
        exact absurd (by simp [h]) (hno 0)
      · intro k hk hmin
        cases k with
        | zero => simp
        | succ k => exact absurd (by simp [h]) (hmin 0 (Nat.succ_pos k))
    · rw [if_neg h]
      constructor
      · intro hno
        exact (ih (i + 1)).1 (fun k => by simpa using hno (k + 1))
      · intro k hk hmin
        cases k with
        | zero =>
          simp only [List.getElem?_cons_zero, Option.some.injEq] at hk
          exact absurd hk h
        | succ k =>
          rw [(ih (i + 1)).2 k (by simpa using hk)
            (fun j hj => by simpa using hmin (j + 1) (Nat.succ_lt_succ hj))]
          push_cast
          omega

/-- C14. Reverse lookup by scan: for a negative glyph `hard_encoding` returns
`-1` and leaves the state alone; for a glyph `g >= 0` it returns `-1` when no
slot holds `g` and otherwise the smallest code whose slot holds `g`; it changes
at most the reverse map; when `g` occurs in fewer than two slots the entry of
`g` in the reverse map becomes the answer, the answers of the map for all other
glyphs staying as they were; and when `g` occurs in two or more slots the state,
the reverse map included, is unchanged. -/
theorem hard_encoding_scan (g : Int) (st : GsubEncoding) :
    (g < 0 → hard_encoding g st = (-1, st)) ∧
    (0 ≤ g →
      (hard_encoding g st).2 = { st with _emap := (hard_encoding g st).2._emap } ∧
      ((∀ c, vec_at st._encoding c ≠ some g) → (hard_encoding g st).1 = -1) ∧
      (∀ c, vec_at st._encoding c = some g →
        (∀ c2, c2 < c → vec_at st._encoding c2 ≠ some g) → (hard_encoding g st).1 = c) ∧
      (st._encoding.count g < 2 →
        vec_at (hard_encoding g st).2._emap g = some (hard_encoding g st).1 ∧
        ∀ h, h ≠ g → emap_answer (hard_encoding g st).2._emap h = emap_answer st._emap h) ∧
      (2 ≤ st._encoding.count g → (hard_encoding g st).2 = st)) := by
  constructor
  · intro hg
    unfold hard_encoding
    rw [if_pos hg]
  · intro hg
    have hfst : (hard_encoding g st).1 = (hard_scan g st._encoding 0).1 := by
      rw [hard_encoding_fst, hard_val, if_neg (by omega)]
    have hcnt := hard_scan_count g st._encoding 0
    refine ⟨?_, ?_, ?_, ?_, ?_⟩
    · unfold hard_encoding
      rw [if_neg (by omega)]
      simp only
      split <;> rfl
    · intro hno
      rw [hfst]
      refine (hard_scan_first g st._encoding 0).1 (fun k hk => hno k ?_)
      simp only [vec_at, Int.toNat_ofNat]
      rw [if_pos (by omega)]
      exact hk
    · intro c hc hmin
      rw [hfst]
      obtain ⟨hc0, _⟩ := vec_at_bounds hc
      have hk : st._encoding[c.toNat]? = some g := by
        unfold vec_at at hc
        rw [if_pos hc0] at hc
        exact hc
      rw [(hard_scan_first g st._encoding 0).2 c.toNat hk (fun j hj hj2 => by
        refine hmin j (by omega) ?_
        simp only [vec_at, Int.toNat_ofNat]
        rw [if_pos (by omega)]
        exact hj2)]
      omega
    · intro hlt
      have hemap : (hard_encoding g st).2._emap =
          (if (st._emap.length : Int) ≤ g then resize st._emap (g + 1).toNat (-2)
            else st._emap).set g.toNat (hard_encoding g st).1 := by
        rw [hfst]
        unfold hard_encoding
        rw [if_neg (by omega)]
        simp only
        rw [if_pos (by rw [hcnt]; exact hlt)]
      rw [hemap]
      refine ⟨vec_at_set_eq _ _ _ hg (length_grown _ _ hg), fun h hne => ?_⟩
      exact emap_answer_store_ne st._emap g hg _ h (fun e => hne e.symm)
    · intro hge
      unfold hard_encoding
      rw [if_neg (by omega)]
      simp only
      rw [if_neg (by rw [hcnt]; omega)]

theorem hard_encoding_scan_witness :
    hard_encoding 7 { sample_state with _encoding := [5, 7, 7, 8], _emap := [0] } =
      (1, { sample_state with _encoding := [5, 7, 7, 8], _emap := [0] }) ∧
    hard_encoding 8 { sample_state with _encoding := [5, 7, 7, 8], _emap := [0] } =
      (3, { sample_state with _encoding := [5, 7, 7, 8],
                              _emap := [0, -2, -2, -2, -2, -2, -2, -2, 3] }) ∧
    hard_encoding 2 { sample_state with _encoding := [5, 7, 7, 8], _emap := [0] } =
      (-1, { sample_state with _encoding := [5, 7, 7, 8], _emap := [0, -2, -1] }) ∧
    ((7 : Int) < 0 → hard_encoding 7 sample_state = (-1, sample_state)) ∧
    ((0 : Int) ≤ 7 →
      (hard_encoding 7 sample_state).2 =
        { sample_state with _emap := (hard_encoding 7 sample_state).2._emap } ∧
      ((∀ c, vec_at sample_state._encoding c ≠ some 7) → (hard_encoding 7 sample_state).1 = -1) ∧
      (∀ c, vec_at sample_state._encoding c = some 7 →
        (∀ c2, c2 < c → vec_at sample_state._encoding c2 ≠ some 7) →
          (hard_encoding 7 sample_state).1 = c) ∧
      (sample_state._encoding.count 7 < 2 →
        vec_at (hard_encoding 7 sample_state).2._emap 7 = some (hard_encoding 7 sample_state).1 ∧
        ∀ h, h ≠ 7 → emap_answer (hard_encoding 7 sample_state).2._emap h =
          emap_answer sample_state._emap h) ∧
      (2 ≤ sample_state._encoding.count 7 → (hard_encoding 7 sample_state).2 = sample_state)) :=
  ⟨by decide, by decide, by decide, hard_encoding_scan 7 sample_state⟩

/-- C15 at the failing input: with two empty slots below `size = 2` and two
overflow glyphs, `shrink_encoding` places `a` at code 1 and drops `b` (its
references become `-1` and it is named in the warning), although slot 0 of the
final table is empty. -/
theorem shrink_encoding_drops_with_free_slot :
    shrink_encoding 2 ref_c_at_0 sample_names state_two_free =
      some ({ state_two_free with
                _encoding := [0, 1],
                _ligatures := [{ in_ := [1, -1], out := -1, skip := 1, context := 0 }] },
            some ["b"]) := by
  decide

theorem vec_at_set_of_ne_zero {enc : List Int} {e i : Int} {v : Int} (he : 0 ≤ e)
    (hlt : e < enc.length) (hv : v ≠ 0) (h : vec_at (enc.set e.toNat v) i = some 0) :
    i ≠ e ∧ vec_at enc i = some 0 := by
  have hne : i ≠ e := by
    rintro rfl
    rw [vec_at_set_eq enc i v he hlt] at h
    exact hv (Option.some.inj h)
  rw [vec_at_set_ne enc e i v he (fun e2 => hne e2.symm)] at h
  exact ⟨hne, h⟩

/-- The first placement loop keeps the books: from slots that are all unplaced
it places only at codes below `size` that were empty, no two at the same code. -/
theorem prefer_old_slots_placed (dvipsenc : DvipsEncoding) (glyph_names : List String)
    (size : Nat) (href : ∀ nm ∈ glyph_names, dvipsenc.encoding_of nm < size) :
    ∀ (slots slots1 : List Slot) (enc enc1 : List Int),
      prefer_old_slots dvipsenc glyph_names slots enc = some (slots1, enc1) →
      (∀ s ∈ slots, s.value ≠ 0 ∧ s.new_position = -1) →
      Placed size enc enc1 slots1 := by
  intro slots
  induction slots with
  | nil =>
    intro slots1 enc enc1 hrun _
    simp only [prefer_old_slots, Option.some.injEq, Prod.mk.injEq] at hrun
    obtain ⟨rfl, rfl⟩ := hrun
    exact ⟨fun s hs => by simp at hs, fun s hs => by simp at hs,
      fun k j s t hk => by simp at hk, fun i h => h⟩
  | cons s ss ih =>
    intro slots1 enc enc1 hrun hall
    have hs := hall s (List.mem_cons_self _ _)
    have hss : ∀ t ∈ ss, t.value ≠ 0 ∧ t.new_position = -1 :=
      fun t ht => hall t (List.mem_cons_of_mem _ ht)
    obtain ⟨g, hg, hcase⟩ := prefer_old_slots_cons dvipsenc glyph_names s ss slots1 enc enc1 hrun
    rcases hcase with ⟨⟨hg1, he0, hfree, helt, ss2, hrun2, rfl⟩⟩ | ⟨_, ss2, hrun2, rfl⟩
    · obtain ⟨p1, p2, p3, p4⟩ := ih ss2 _ enc1 hrun2 hss
      obtain ⟨_, _, k3⟩ := prefer_old_slots_keep dvipsenc glyph_names ss ss2 _ enc1 hrun2
      have hesize : dvipsenc.encoding_of g < size := by
        refine href g ?_
        unfold vec_at at hg
        split at hg
        · exact List.getElem?_mem hg
        · exact absurd hg (by simp)
      have hhead : vec_at enc1 (dvipsenc.encoding_of g) = some s.value :=
        k3 _ _ (vec_at_set_eq enc _ _ he0 helt) hs.1
      have htail : ∀ t ∈ ss2, 0 ≤ t.new_position → t.new_position ≠ dvipsenc.encoding_of g ∧
          vec_at enc t.new_position = some 0 := fun t ht h0 =>
        vec_at_set_of_ne_zero he0 helt hs.1 (p2 t ht h0).2.1
      refine ⟨?_, ?_, ?_, ?_⟩
      · intro t ht
        rcases List.mem_cons.mp ht with rfl | ht
        · exact ⟨hs.1, by simp only; omega⟩
        · exact p1 t ht
      · intro t ht h0
        rcases List.mem_cons.mp ht with rfl | ht
        · exact ⟨hesize, hfree, hhead⟩
        · exact ⟨(p2 t ht h0).1, (htail t ht h0).2, (p2 t ht h0).2.2⟩
      · intro k j a b hk hj hkj h0
        cases k with
        | zero =>
          cases j with
          | zero => exact absurd rfl hkj
          | succ j =>
            simp only [List.getElem?_cons_zero, Option.some.injEq] at hk
            simp only [List.getElem?_cons_succ] at hj
            subst hk
            intro heq
            simp only at heq h0
            exact (htail b (List.getElem?_mem hj) (by rw [← heq]; exact h0)).1 heq.symm
        | succ k =>
          simp only [List.getElem?_cons_succ] at hk
          cases j with
          | zero =>
            simp only [List.getElem?_cons_zero, Option.some.injEq] at hj
            subst hj
            exact (htail a (List.getElem?_mem hk) h0).1
          | succ j =>
            simp only [List.getElem?_cons_succ] at hj
            exact p3 k j a b hk hj (fun e => hkj (by rw [e])) h0
      · intro i hi
        exact (vec_at_set_of_ne_zero he0 helt hs.1 (p4 i hi)).2
    · obtain ⟨p1, p2, p3, p4⟩ := ih ss2 enc enc1 hrun2 hss
      refine ⟨?_, ?_, ?_, p4⟩
      · intro t ht
        rcases List.mem_cons.mp ht with rfl | ht
        · exact ⟨hs.1, by rw [hs.2]⟩
        · exact p1 t ht
      · intro t ht h0
        rcases List.mem_cons.mp ht with rfl | ht
        · rw [hs.2] at h0
          exact absurd h0 (by decide)
        · exact p2 t ht h0
      · intro k j a b hk hj hkj h0
        cases k with
        | zero =>
          simp only [List.getElem?_cons_zero, Option.some.injEq] at hk
          subst hk
          rw [hs.2] at h0
          exact absurd h0 (by decide)
        | succ k =>
          simp only [List.getElem?_cons_succ] at hk
          cases j with
          | zero =>
            simp only [List.getElem?_cons_zero, Option.some.injEq] at hj
            subst hj
            rw [hs.2]
            omega
          | succ j =>
            simp only [List.getElem?_cons_succ] at hj
            exact p3 k j a b hk hj (fun e => hkj (by rw [e])) h0

/-- One placement of the second loop keeps the books. -/
theorem Placed.place {size : Nat} {enc0 enc : List Int} {slots : List Slot}
    (hp : Placed size enc0 enc slots) (slotnum e : Nat) (s : Slot)
    (hget : slots[slotnum]? = some s) (he : e < size)
    (hfree : vec_at enc e = some 0) :
    Placed size enc0 (enc.set (e : Int).toNat s.value)
      (slots.set slotnum { s with new_position := e }) := by
  obtain ⟨p1, p2, p3, p4⟩ := hp
  have hv : s.value ≠ 0 := (p1 s (List.getElem?_mem hget)).1
  have he0 : (0 : Int) ≤ e := by omega
  have helt : (e : Int) < enc.length := (vec_at_bounds hfree).2
  have hk1 : slotnum < slots.length := (List.getElem?_eq_some.mp hget).1
  have hold : ∀ t ∈ slots, 0 ≤ t.new_position → t.new_position ≠ e := by
    intro t ht h0 heq
    have := (p2 t ht h0).2.2
    rw [heq, hfree] at this
    exact (p1 t ht).1 (Option.some.inj this).symm
  have hmem : ∀ t ∈ slots.set slotnum { s with new_position := e },
      t = { s with new_position := e } ∨ t ∈ slots := by
    intro t ht
    rcases List.mem_or_eq_of_mem_set ht with h | h
    · exact Or.inr h
    · exact Or.inl h
  refine ⟨?_, ?_, ?_, ?_⟩
  · intro t ht
    rcases hmem t ht with rfl | ht
    · exact ⟨hv, by simp only; omega⟩
    · exact p1 t ht
  · intro t ht h0
    rcases hmem t ht with rfl | ht
    · exact ⟨by simp only; omega, p4 _ hfree, vec_at_set_eq enc _ _ he0 helt⟩
    · refine ⟨(p2 t ht h0).1, (p2 t ht h0).2.1, ?_⟩
      rw [vec_at_set_ne enc _ _ _ he0 (fun h => hold t ht h0 h.symm)]
      exact (p2 t ht h0).2.2
  · intro k j a b hk hj hkj h0
    by_cases hks : k = slotnum
    · subst hks
      rw [List.getElem?_set_self hk1] at hk
      rw [List.getElem?_set_ne hkj] at hj
      obtain rfl := Option.some.inj hk
      intro heq
      simp only at heq h0
      exact hold b (List.getElem?_mem hj) (by rw [← heq]; exact h0) heq.symm
    · rw [List.getElem?_set_ne (fun h => hks h.symm)] at hk
      by_cases hjs : j = slotnum
      · subst hjs
        rw [List.getElem?_set_self hk1] at hj
        obtain rfl := Option.some.inj hj
        exact hold a (List.getElem?_mem hk) h0
      · rw [List.getElem?_set_ne (fun h => hjs h.symm)] at hj
        exact p3 k j a b hk hj hkj h0
  · intro i hi
    exact p4 i (vec_at_set_of_ne_zero he0 helt hv hi).2

/-- The second placement loop keeps the books. -/
theorem place_loop_placed (dvipsenc : DvipsEncoding) (size : Nat) (enc0 : List Int) :
    ∀ (fuel slotnum e : Nat) (avoid : Bool) (slots : List Slot) (enc : List Int)
      (n : Nat) (slots2 : List Slot) (enc2 : List Int),
      place_loop dvipsenc size fuel slotnum e avoid slots enc = some (n, slots2, enc2) →
      Placed size enc0 enc slots → Placed size enc0 enc2 slots2 := by
  intro fuel
  induction fuel with
  | zero => intro _ _ _ _ _ _ _ _ h; simp [place_loop] at h
  | succ fuel ih =>
    intro slotnum e avoid slots enc n slots2 enc2 hrun hp
    unfold place_loop at hrun
    by_cases hc : slotnum < slots.length ∧ e < size
    · rw [if_pos hc] at hrun
      obtain ⟨hc1, hc2⟩ := hc
      have hget : slots[slotnum]? = some slots[slotnum] := List.getElem?_eq_getElem hc1
      rw [hget] at hrun
      simp only at hrun
      by_cases hnp : 0 ≤ slots[slotnum].new_position
      · rw [if_pos hnp] at hrun
        exact ih _ _ _ _ _ _ _ _ hrun hp
      · rw [if_neg hnp] at hrun
        split at hrun
        · exact absurd hrun (by simp)
        · rename_i x hx
          by_cases hfree : x = 0 ∧ (avoid = false ∨ dvipsenc.encoded e = false)
          · rw [if_pos hfree] at hrun
            split at hrun
            · exact absurd hrun (by simp)
            · rename_i enc3 hset
              have henc3 : enc3 = enc.set (e : Int).toNat slots[slotnum].value := by
                unfold vec_set at hset
                split at hset
                · exact (Option.some.inj hset).symm
                · exact absurd hset (by simp)
              subst henc3
              exact ih _ _ _ _ _ _ _ _ hrun
                (hp.place slotnum e _ hget hc2 (by rw [hx, hfree.1]))
          · rw [if_neg hfree] at hrun
            by_cases hflip : size ≤ e + 1 ∧ avoid = true
            · rw [if_pos hflip] at hrun
              exact ih _ _ _ _ _ _ _ _ hrun hp
            · rw [if_neg hflip] at hrun
              exact ih _ _ _ _ _ _ _ _ hrun hp
    · rw [if_neg hc] at hrun
      simp only [Option.some.injEq, Prod.mk.injEq] at hrun
      obtain ⟨_, rfl, rfl⟩ := hrun
      exact hp

theorem assign_loop_lookup (f : Int → Int) :
    ∀ (n : Nat) (i : Int) (r r2 : List Int), assign_loop f n i r = some r2 →
      (∀ c, i ≤ c → c < i + n → vec_at r2 (c + 1) = some (f c)) ∧
      (∀ c, c < i ∨ i + n ≤ c → vec_at r2 (c + 1) = vec_at r (c + 1)) := by
  intro n
  induction n with
  | zero =>
    intro i r r2 h
    simp only [assign_loop, Option.some.injEq] at h
    subst h
    exact ⟨fun c h1 h2 => by omega, fun _ _ => rfl⟩
  | succ n ih =>
    intro i r r2 h
    unfold assign_loop at h
    split at h
    · exact absurd h (by simp)
    · rename_i r3 hset
      unfold vec_set at hset
      split at hset
      · rename_i hb
        obtain rfl := Option.some.inj hset
        obtain ⟨a1, a2⟩ := ih (i + 1) _ r2 h
        constructor
        · intro c h1 h2
          by_cases hc : c = i
          · subst hc
            rw [a2 c (Or.inl (by omega))]
            exact vec_at_set_eq r _ _ hb.1 (by omega)
          · exact a1 c (by omega) (by push_cast at h2; omega)
        · intro c hc
          rw [a2 c (by push_cast at hc; omega)]
          exact vec_at_set_ne r _ _ _ hb.1 (by push_cast at hc; omega)
      · exact absurd hset (by simp)

theorem relabel_id (ls : List Ligature) (ks : List Kern) (ps : List Vfpos) :
    ls.map (Ligature.relabel (fun c => c)) = ls ∧ ks.map (Kern.relabel (fun c => c)) = ks ∧
      ps.map (Vfpos.relabel (fun c => c)) = ps := by
  refine ⟨?_, ?_, ?_⟩
  · conv_rhs => rw [← List.map_id ls]
    exact List.map_congr_left (fun l _ => by simp [Ligature.relabel])
  · conv_rhs => rw [← List.map_id ks]
    exact List.map_congr_left (fun l _ => by simp [Kern.relabel])
  · conv_rhs => rw [← List.map_id ps]
    exact List.map_congr_left (fun l _ => by simp [Vfpos.relabel])

/-- What a completed `shrink_encoding` on an oversized table has done, for
every rearranging `sort` and a reference encoding that assigns only codes below
`size`: the final slots and the table `enc2` before truncation keep the books of
`Placed`, `enc2` keeps every non-empty slot of the old table, the final state is
the old one with the table `enc2` truncated and every code sent through the
reassignment map `r`, which fixes the codes from `-1` to `size - 1` and sends
the code of an overflow glyph to the new position of its slot. -/
theorem shrink_encoding_with_map (sort : List Slot → List Slot)
    (hperm : ∀ l, (sort l).Perm l) (size : Nat) (dvipsenc : DvipsEncoding)
    (glyph_names : List String) (st st2 : GsubEncoding) (w : Option (List String))
    (href : ∀ nm ∈ glyph_names, dvipsenc.encoding_of nm < size)
    (hrun : shrink_encoding_with sort size dvipsenc glyph_names st = some (st2, w))
    (hgt : ¬ st._encoding.length ≤ size) :
    ∃ slots2 enc2 r, Placed size st._encoding enc2 slots2 ∧
      (∀ (i x : Int), vec_at st._encoding i = some x → x ≠ 0 → vec_at enc2 i = some x) ∧
      st2 = { st with
        _encoding := resize enc2 size 0,
        _ligatures := st._ligatures.map (Ligature.relabel (code_map r)),
        _fake_ligatures := st._fake_ligatures.map (Ligature.relabel (code_map r)),
        _kerns := st._kerns.map (Kern.relabel (code_map r)),
        _vfpos := st._vfpos.map (Vfpos.relabel (code_map r)),
        _emap := [] } ∧
      (∀ c : Int, -1 ≤ c → c < size → code_map r c = c) ∧
      (∀ c G : Int, (size : Int) ≤ c → vec_at st._encoding c = some G → G ≠ 0 →
        ∃ (k : Nat) (s : Slot), slots2[k]? = some s ∧ s.position = c ∧ s.value = G ∧
          code_map r c = s.new_position) := by
  obtain ⟨slots1, enc1, n, slots2, enc2, r1, r, st3, h1, h2, hr1, hr, h3, rfl, _⟩ :=
    shrink_encoding_with_stages sort size dvipsenc glyph_names st st2 w hrun hgt
  have hcol : ∀ s ∈ sort (collect_slots (st._encoding.drop size) size),
      s.value ≠ 0 ∧ s.new_position = -1 ∧ (size : Int) ≤ s.position := by
    intro s hs
    have := collect_slots_spec _ _ s ((hperm _).subset hs)
    exact ⟨this.2.2.2.1, this.2.2.1, this.1⟩
  have hnd0 : ((sort (collect_slots (st._encoding.drop size) size)).map Slot.position).Nodup := by
    have hpw := collect_slots_positions (st._encoding.drop size) size
    exact (((hperm _).map Slot.position).nodup_iff).mpr (hpw.imp (fun hab => ne_of_lt hab))
  have hpl1 := prefer_old_slots_placed dvipsenc glyph_names size href _ slots1 _ enc1 h1
    (fun s hs => ⟨(hcol s hs).1, (hcol s hs).2.1⟩)
  have hpl2 := place_loop_placed dvipsenc size st._encoding _ _ _ _ _ _ _ _ _ h2 hpl1
  obtain ⟨k1, k2, k3⟩ := prefer_old_slots_keep dvipsenc glyph_names _ slots1 _ enc1 h1
  obtain ⟨b1, b2, b3, _⟩ := place_loop_keep dvipsenc size _ _ _ _ _ _ _ _ _ h2
  have hpos2 : slots2.map Slot.position =
      (sort (collect_slots (st._encoding.drop size) size)).map Slot.position := by rw [b1, k1]
  have hval2 : slots2.map Slot.value =
      (sort (collect_slots (st._encoding.drop size) size)).map Slot.value := by rw [b2, k2]
  have hnd2 : (slots2.map Slot.position).Nodup := by rw [hpos2]; exact hnd0
  have hge2 : ∀ t ∈ slots2, (size : Int) ≤ t.position := by
    intro t ht
    have hm : t.position ∈ slots2.map Slot.position := List.mem_map_of_mem _ ht
    rw [hpos2] at hm
    obtain ⟨u, hu, hue⟩ := List.mem_map.mp hm
    rw [← hue]
    exact (hcol u hu).2.2
  obtain ⟨l1, l2⟩ := assign_loop_lookup (fun i => i) (size + 1) (-1) _ r1 hr1
  have hst3 := reassign_codes_relabel r _ st3 h3
  refine ⟨slots2, enc2, r, hpl2, fun i x hi hx => b3 i x (k3 i x hi hx) hx, ?_, ?_, ?_⟩
  · rw [hst3]
  · intro c hc1 hc2
    apply code_map_of_vec_at
    rw [assign_slots_other c slots2 r1 r hr (fun t ht heq => by
      have := hge2 t ht
      omega)]
    exact l1 c hc1 (by push_cast; omega)
  · intro c G hc hG hG0
    have hc0 : 0 ≤ c := by omega
    have hmem0 : ({ position := c, new_position := -1, value := G } : Slot) ∈
        collect_slots (st._encoding.drop size) size := by
      have hk : (st._encoding.drop size)[(c - size).toNat]? = some G := by
        rw [List.getElem?_drop]
        have e : size + (c - (size : Int)).toNat = c.toNat := by omega
        rw [e]
        unfold vec_at at hG
        rw [if_pos hc0] at hG
        exact hG
      have hm := collect_slots_mem (st._encoding.drop size) size (c - size).toNat G hk hG0
      have e : (size : Int) + ((c - (size : Int)).toNat : Int) = c := by omega
      rw [e] at hm
      exact hm
    obtain ⟨k, hk⟩ := List.getElem?_of_mem ((hperm _).mem_iff.mpr hmem0)
    have hp : (slots2.map Slot.position)[k]? = some c := by
      rw [hpos2, List.getElem?_map, hk]
      rfl
    have hv : (slots2.map Slot.value)[k]? = some G := by
      rw [hval2, List.getElem?_map, hk]
      rfl
    rw [List.getElem?_map] at hp hv
    cases hs : slots2[k]? with
    | none => rw [hs] at hp; exact absurd hp (by simp)
    | some s =>
      rw [hs] at hp hv
      simp only [Option.map_some', Option.some.injEq] at hp hv
      refine ⟨k, s, hs, hp, hv, ?_⟩
      apply code_map_of_vec_at
      rw [← hp]
      exact assign_slots_lookup slots2 r1 r hr hnd2 s (List.getElem?_mem hs)
/-- C16. `shrink_encoding` rewrites references consistently, for every outcome
of the sort, when the reference encoding assigns only codes below `size` and
every referenced code lies in `[-1, table length)`: the call completes whenever
the glyph-name table has an entry for every overflow glyph, and after a
completed call the ligature, fake-ligature, kern and vfpos tables are the old
ones with every code sent through one map `f` such that `f (-1) = -1`; for a
code `c` whose slot held a glyph `G != 0`, `f c` is `-1` or a code whose slot in
the new table holds `G`; a non-empty slot below `size` keeps its glyph and
`f` fixes its code; two different overflow glyph slots are not sent to the same
code; and an overflow glyph is only placed in a slot that was empty. -/
theorem shrink_encoding_rewrites_references (sort : List Slot → List Slot)
    (hperm : ∀ l, (sort l).Perm l) (size : Nat) (dvipsenc : DvipsEncoding)
    (glyph_names : List String) (st : GsubEncoding)
    (h : ∀ c ∈ referenced_codes st, -1 ≤ c ∧ c < st._encoding.length)
    (href : ∀ nm ∈ glyph_names, dvipsenc.encoding_of nm < size) :
    ((∀ (i g : Int), (size : Int) ≤ i → vec_at st._encoding i = some g → g ≠ 0 →
        0 ≤ g ∧ g < glyph_names.length) →
      ∃ st2 w, shrink_encoding_with sort size dvipsenc glyph_names st = some (st2, w)) ∧
    ∀ st2 w, shrink_encoding_with sort size dvipsenc glyph_names st = some (st2, w) →
      ∃ f : Int → Int, f (-1) = -1 ∧
        st2._ligatures = st._ligatures.map (Ligature.relabel f) ∧
        st2._fake_ligatures = st._fake_ligatures.map (Ligature.relabel f) ∧
        st2._kerns = st._kerns.map (Kern.relabel f) ∧
        st2._vfpos = st._vfpos.map (Vfpos.relabel f) ∧
        (∀ c G : Int, vec_at st._encoding c = some G → G ≠ 0 →
          f c = -1 ∨ vec_at st2._encoding (f c) = some G) ∧
        (∀ c G : Int, c < size → vec_at st._encoding c = some G → G ≠ 0 →
          f c = c ∧ vec_at st2._encoding c = some G) ∧
        (∀ c d G H : Int, (size : Int) ≤ c → (size : Int) ≤ d → c ≠ d →
          vec_at st._encoding c = some G → G ≠ 0 → vec_at st._encoding d = some H → H ≠ 0 →
          0 ≤ f c → f c ≠ f d) ∧
        (∀ c G : Int, (size : Int) ≤ c → vec_at st._encoding c = some G → G ≠ 0 → 0 ≤ f c →
          vec_at st._encoding (f c) = some 0) := by
  constructor
  · intro hnames
    obtain ⟨st2, w, hrun, _⟩ :=
      shrink_encoding_with_spec sort hperm size dvipsenc glyph_names st h hnames href
    exact ⟨st2, w, hrun⟩
  · intro st2 w hrun
    by_cases hgt : st._encoding.length ≤ size
    · unfold shrink_encoding_with at hrun
      rw [if_pos hgt] at hrun
      simp only [Option.some.injEq, Prod.mk.injEq] at hrun
      obtain ⟨rfl, _⟩ := hrun
      obtain ⟨i1, i2, i3⟩ := relabel_id st._ligatures st._kerns st._vfpos
      have hkeep : ∀ c G : Int, vec_at st._encoding c = some G →
          vec_at (resize st._encoding size 0) c = some G := by
        intro c G hc
        have hb := vec_at_bounds hc
        rcases vec_at_resize_lt st._encoding size 0 c (by omega) with hres | hres
        · rw [hres]; exact hc
        · rw [hres] at hc; exact absurd hc (by simp)
      refine ⟨fun c => c, rfl, i1.symm, (relabel_id st._fake_ligatures [] []).1.symm,
        i2.symm, i3.symm, ?_, ?_, ?_, ?_⟩
      · intro c G hc _
        exact Or.inr (hkeep c G hc)
      · intro c G _ hc _
        exact ⟨rfl, hkeep c G hc⟩
      · intro c d G H hc _ _ hG
        have := (vec_at_bounds hG).2
        omega
      · intro c G hc hG
        have := (vec_at_bounds hG).2
        omega
    · obtain ⟨slots2, enc2, r, hpl, hkeep, rfl, hfix, hslot⟩ :=
        shrink_encoding_with_map sort hperm size dvipsenc glyph_names st st2 w href hrun hgt
      obtain ⟨p1, p2, p3, _⟩ := hpl
      have hres : ∀ c G : Int, c < size → vec_at enc2 c = some G →
          vec_at (resize enc2 size 0) c = some G := by
        intro c G hc hG
        rcases vec_at_resize_lt enc2 size 0 c hc with hres | hres
        · rw [hres]; exact hG
        · rw [hres] at hG; exact absurd hG (by simp)
      refine ⟨code_map r, hfix (-1) (le_refl _) (by omega), rfl, rfl, rfl, rfl, ?_, ?_, ?_, ?_⟩
      · intro c G hG hG0
        have hc0 := (vec_at_bounds hG).1
        by_cases hc : c < size
        · right
          rw [hfix c (by omega) hc]
          exact hres c G hc (hkeep c G hG hG0)
        · obtain ⟨k, s, hs, _, hv, hf⟩ := hslot c G (by omega) hG hG0
          have hmem := List.getElem?_mem hs
          rw [hf]
          by_cases hnp : 0 ≤ s.new_position
          · right
            obtain ⟨q1, _, q3⟩ := p2 s hmem hnp
            rw [← hv]
            exact hres _ _ q1 q3
          · left
            have := (p1 s hmem).2
            omega
      · intro c G hc hG hG0
        have hc0 := (vec_at_bounds hG).1
        exact ⟨hfix c (by omega) hc, hres c G hc (hkeep c G hG hG0)⟩
      · intro c d G H hc hd hcd hG hG0 hH hH0 hf0
        obtain ⟨k, s, hs, hsp, _, hf⟩ := hslot c G hc hG hG0
        obtain ⟨j, t, ht, htp, _, hg⟩ := hslot d H hd hH hH0
        rw [hf, hg]
        rw [hf] at hf0
        refine p3 k j s t hs ht ?_ hf0
        rintro rfl
        rw [hs] at ht
        obtain rfl := Option.some.inj ht
        exact hcd (hsp.symm.trans htp)
      · intro c G hc hG hG0 hf0
        obtain ⟨k, s, hs, _, _, hf⟩ := hslot c G hc hG hG0
        rw [hf] at hf0 ⊢
        exact (p2 s (List.getElem?_mem hs) hf0).2.1

theorem shrink_encoding_rewrites_references_witness :
    (∀ c ∈ referenced_codes state_empty_a_b, -1 ≤ c ∧ c < state_empty_a_b._encoding.length) ∧
    (∀ nm ∈ sample_names, ref_b_at_0.encoding_of nm < ((1 : Nat) : Int)) ∧
    (shrink_encoding_with (fun l => l.insertionSort (fun a b => a.value ≤ b.value))
        1 ref_b_at_0 sample_names state_empty_a_b).map (fun r => (r.1._encoding, r.1._ligatures)) =
      some ([2], [{ in_ := [-1, 0], out := 0, skip := 1, context := 0 }]) ∧
    (((∀ (i g : Int), ((1 : Nat) : Int) ≤ i → vec_at state_empty_a_b._encoding i = some g → g ≠ 0 →
        0 ≤ g ∧ g < sample_names.length) →
      ∃ st2 w, shrink_encoding_with (fun l => l.insertionSort (fun a b => a.value ≤ b.value))
        1 ref_b_at_0 sample_names state_empty_a_b = some (st2, w)) ∧
    ∀ st2 w, shrink_encoding_with (fun l => l.insertionSort (fun a b => a.value ≤ b.value))
        1 ref_b_at_0 sample_names state_empty_a_b = some (st2, w) →
      ∃ f : Int → Int, f (-1) = -1 ∧
        st2._ligatures = state_empty_a_b._ligatures.map (Ligature.relabel f) ∧
        st2._fake_ligatures = state_empty_a_b._fake_ligatures.map (Ligature.relabel f) ∧
        st2._kerns = state_empty_a_b._kerns.map (Kern.relabel f) ∧
        st2._vfpos = state_empty_a_b._vfpos.map (Vfpos.relabel f) ∧
        (∀ c G : Int, vec_at state_empty_a_b._encoding c = some G → G ≠ 0 →
          f c = -1 ∨ vec_at st2._encoding (f c) = some G) ∧
        (∀ c G : Int, c < ((1 : Nat) : Int) → vec_at state_empty_a_b._encoding c = some G →
          G ≠ 0 →
          f c = c ∧ vec_at st2._encoding c = some G) ∧
        (∀ c d G H : Int, ((1 : Nat) : Int) ≤ c → ((1 : Nat) : Int) ≤ d → c ≠ d →
          vec_at state_empty_a_b._encoding c = some G → G ≠ 0 →
          vec_at state_empty_a_b._encoding d = some H → H ≠ 0 →
          0 ≤ f c → f c ≠ f d) ∧
        (∀ c G : Int, ((1 : Nat) : Int) ≤ c → vec_at state_empty_a_b._encoding c = some G →
          G ≠ 0 → 0 ≤ f c →
          vec_at state_empty_a_b._encoding (f c) = some 0)) :=
  ⟨by decide, by decide, by decide,
   shrink_encoding_rewrites_references _ (fun l => List.perm_insertionSort _ l) 1 ref_b_at_0
     sample_names state_empty_a_b (by decide) (by decide)⟩

theorem find_skippable_twoligature_ligatures (a b : Int) (add_fake : Bool) (fake : Int)
    (st : GsubEncoding) :
    (find_skippable_twoligature a b add_fake fake st).2._ligatures = st._ligatures := by
  unfold find_skippable_twoligature
  split
  · rfl
  · split <;> rfl

/-- The reduction loop for entry `i`, run as often as the entry has inputs
beyond two, completes and changes only that entry of the table, leaving it with
two inputs and the same output, `skip` and `context`. -/
theorem reduce_steps_shape (add_fake : Bool) (fake : Int) (i : Nat) :
    ∀ (n : Nat) (st : GsubEncoding) (l : Ligature),
      st._ligatures[i]? = some l → l.in_.length = n + 2 →
      ∃ st2 l2, reduce_steps add_fake fake i n st = some st2 ∧
        st2._ligatures = st._ligatures.set i l2 ∧
        l2.out = l.out ∧ l2.skip = l.skip ∧ l2.context = l.context ∧ l2.in_.length = 2 ∧
        (n = 0 → l2 = l) := by
  intro n
  induction n with
  | zero =>
    intro st l hl hlen
    exact ⟨st, l, rfl, (list_set_of_getElem? hl).symm, rfl, rfl, rfl, hlen, fun _ => rfl⟩
  | succ n ih =>
    intro st l hl hlen
    obtain ⟨a, b, rest, hin⟩ : ∃ a b rest, l.in_ = a :: b :: rest := by
      match hm : l.in_ with
      | [] => rw [hm] at hlen; simp at hlen
      | [_] => rw [hm] at hlen; simp at hlen
      | a :: b :: rest => exact ⟨a, b, rest, rfl⟩
    have hi : i < st._ligatures.length := (List.getElem?_eq_some.mp hl).1
    unfold reduce_steps
    rw [hl]
    simp only [hin]
    rw [find_skippable_twoligature_ligatures]
    obtain ⟨st2, l2, e1, e2, e3, e4, e5, e6, _⟩ := ih
      { (find_skippable_twoligature a b add_fake fake st).2 with
        _ligatures := st._ligatures.set i
          { l with in_ := (find_skippable_twoligature a b add_fake fake st).1 :: rest } }
      { l with in_ := (find_skippable_twoligature a b add_fake fake st).1 :: rest }
      (by simp only; rw [List.getElem?_set_self hi])
      (by
        rw [hin] at hlen
        simp only [List.length_cons] at hlen ⊢
        omega)
    refine ⟨st2, l2, e1, ?_, e3, e4, e5, e6, fun h => absurd h (by omega)⟩
    rw [e2]
    simp only [List.set_set]

theorem reduce_ligature_shape (add_fake : Bool) (fake : Int) (i : Nat) (st : GsubEncoding)
    (l : Ligature) (hl : st._ligatures[i]? = some l) :
    ∃ st2 l2, reduce_ligature add_fake fake i st = some st2 ∧
      st2._ligatures = st._ligatures.set i l2 ∧ Reduced l l2 := by
  unfold reduce_ligature
  rw [hl]
  simp only
  by_cases h2 : l.in_.length ≤ 2
  · have hn : l.in_.length - 2 = 0 := by omega
    rw [hn]
    exact ⟨st, l, rfl, (list_set_of_getElem? hl).symm, rfl, rfl, rfl, by omega, fun _ => rfl⟩
  · obtain ⟨st2, l2, e1, e2, e3, e4, e5, e6, _⟩ :=
      reduce_steps_shape add_fake fake i (l.in_.length - 2) st l hl (by omega)
    exact ⟨st2, l2, e1, e2, e3, e4, e5, by omega, fun h => absurd h h2⟩

/-- The second pass of `simplify_ligatures`, with or without synthesis: it
completes, keeps the length of the table, leaves the entries before `i` alone
and reduces the others. -/
theorem reduce_all_shape (add_fake : Bool) (fake : Int) :
    ∀ (n i : Nat) (st : GsubEncoding), i + n = st._ligatures.length →
      ∃ st2, reduce_all add_fake fake n i st = some st2 ∧
        st2._ligatures.length = st._ligatures.length ∧
        ∀ k l, st._ligatures[k]? = some l →
          ∃ l2, st2._ligatures[k]? = some l2 ∧ (k < i → l2 = l) ∧ (i ≤ k → Reduced l l2) := by
  intro n
  induction n with
  | zero =>
    intro i st hlen
    refine ⟨st, rfl, rfl, fun k l hk => ⟨l, hk, fun _ => rfl, fun hik => ?_⟩⟩
    have := (List.getElem?_eq_some.mp hk).1
    omega
  | succ n ih =>
    intro i st hlen
    have hi : i < st._ligatures.length := by omega
    obtain ⟨st1, l1, e1, e2, e3⟩ := reduce_ligature_shape add_fake fake i st
      st._ligatures[i] (List.getElem?_eq_getElem hi)
    obtain ⟨st2, f1, f2, f3⟩ := ih (i + 1) st1 (by rw [e2, List.length_set]; omega)
    refine ⟨st2, by simp only [reduce_all, e1, f1], by rw [f2, e2, List.length_set], ?_⟩
    intro k l hk
    by_cases hki : k = i
    · subst hki
      obtain ⟨l2, g1, g2, _⟩ := f3 k l1 (by rw [e2, List.getElem?_set_self hi])
      have hl : l = st._ligatures[k] := by
        rw [List.getElem?_eq_getElem hi] at hk
        exact (Option.some.inj hk).symm
      refine ⟨l2, g1, fun h => absurd h (by omega), fun _ => ?_⟩
      rw [g2 (by omega), hl]
      exact e3
    · obtain ⟨l2, g1, g2, g3⟩ := f3 k l
        (by rw [e2, List.getElem?_set_ne (fun h => hki h.symm)]; exact hk)
      exact ⟨l2, g1, fun h => g2 (by omega), fun h => g3 (by omega)⟩

theorem Overwritten.refl_over (l : Ligature) : Overwritten l l := Or.inl rfl

theorem Overwritten.trans_over {a b c : Ligature} (h1 : Overwritten a b) (h2 : Overwritten b c) :
    Overwritten a c := by
  rcases h1 with rfl | rfl
  · exact h2
  · rcases h2 with rfl | rfl
    · exact Or.inr rfl
    · right
      simp only [List.set_set]

theorem Overwritten.invalidated {l l2 : Ligature} (h : Overwritten l l2) : Invalidated l l2 := by
  rcases h with rfl | rfl
  · exact Invalidated.refl_inval _
  · exact Invalidated.set_first l

/-- An entry whose first input is not negative has not been overwritten. -/
theorem Overwritten.first_nonneg {l l2 : Ligature} (h : Overwritten l l2) {a : Int}
    (ha : vec_at l2.in_ 0 = some a) (h0 : 0 ≤ a) : l2 = l := by
  rcases h with rfl | rfl
  · rfl
  · exfalso
    cases hin : l.in_ with
    | nil => simp [hin, vec_at] at ha
    | cons x xs =>
      simp only [hin, List.set_cons_zero, vec_at] at ha
      simp at ha
      omega

theorem forall₂_overwritten_refl (ls : List Ligature) : List.Forall₂ Overwritten ls ls :=
  List.forall₂_same.mpr (fun l _ => Overwritten.refl_over l)

theorem forall₂_of_getElem? {α β : Type} {R : α → β → Prop} {ls : List α} {ls2 : List β}
    (hlen : ls2.length = ls.length)
    (h : ∀ (k : Nat) (l : α), ls[k]? = some l → ∃ l2, ls2[k]? = some l2 ∧ R l l2) :
    List.Forall₂ R ls ls2 := by
  refine List.forall₂_of_length_eq_of_get hlen.symm (fun i h1 h2 => ?_)
  obtain ⟨l2, e1, e2⟩ := h i _ (List.getElem?_eq_getElem h1)
  rw [List.getElem?_eq_getElem h2] at e1
  simp only [List.get_eq_getElem]
  rw [Option.some.inj e1]
  exact e2

theorem forall₂_pairwise {α : Type} {R P Q : α → α → Prop}
    (hPQ : ∀ a a2 b b2, R a a2 → R b b2 → P a b → Q a2 b2) :
    ∀ {ls ls2 : List α}, List.Forall₂ R ls ls2 → ls.Pairwise P → ls2.Pairwise Q := by
  intro ls ls2 h
  induction h with
  | nil => intro _; exact List.Pairwise.nil
  | cons hab htl ih =>
    intro hp
    rw [List.pairwise_cons] at hp ⊢
    refine ⟨fun b2 hb2 => ?_, ih hp.2⟩
    obtain ⟨b, hb, hbb⟩ := forall₂_mem_right htl b2 hb2
    exact hPQ _ _ _ _ hab hbb (hp.1 b hb)

/-- What the inner loop of the first pass finds. -/
theorem first_input_is_iff (c : Int) : ∀ (all : List Ligature) (b : Bool),
    first_input_is c all = some b → (b = true ↔ ∃ m ∈ all, vec_at m.in_ 0 = some c) := by
  intro all
  induction all with
  | nil =>
    intro b h
    simp only [first_input_is, Option.some.injEq] at h
    subst h
    simp
  | cons l ls ih =>
    intro b h
    unfold first_input_is at h
    split at h
    · exact absurd h (by simp)
    · rename_i a ha
      by_cases hac : a = c
      · rw [if_pos hac] at h
        obtain rfl := Option.some.inj h
        exact ⟨fun _ => ⟨l, List.mem_cons_self _ _, by rw [ha, hac]⟩, fun _ => rfl⟩
      · rw [if_neg hac] at h
        rw [ih b h]
        constructor
        · rintro ⟨m, hm, hmc⟩
          exact ⟨m, List.mem_cons_of_mem _ hm, hmc⟩
        · rintro ⟨m, hm, hmc⟩
          rcases List.mem_cons.mp hm with rfl | hm
          · rw [ha] at hmc
            exact absurd (Option.some.inj hmc) hac
          · exact ⟨m, hm, hmc⟩

/-- The first pass of `simplify_ligatures`: it completes when every entry has
an input, changes nothing but `skip`, keeps the `skip` of an entry whose output
is the first input of some entry of the table and sets the `skip` of every other
entry to 0. -/
theorem mark_skippable_detail (all : List Ligature) (hall : ∀ l ∈ all, 1 ≤ l.in_.length) :
    ∀ ls : List Ligature, ∃ ls2, mark_skippable all ls = some ls2 ∧
      List.Forall₂ (Marked all) ls ls2 := by
  intro ls
  induction ls with
  | nil => exact ⟨[], rfl, List.Forall₂.nil⟩
  | cons l ls ih =>
    obtain ⟨b, hb⟩ := first_input_is_total l.out all hall
    have hiff := first_input_is_iff l.out all b hb
    obtain ⟨ls2, e1, e2⟩ := ih
    refine ⟨(if b = true then l else { l with skip := 0 }) :: ls2,
      by simp only [mark_skippable, hb, e1], List.Forall₂.cons ?_ e2⟩
    by_cases hbt : b = true
    · rw [if_pos hbt]
      refine ⟨rfl, rfl, rfl, fun _ => rfl, fun hno => ?_⟩
      obtain ⟨m, hm, hmc⟩ := hiff.mp hbt
      exact absurd hmc (hno m hm)
    · rw [if_neg hbt]
      exact ⟨rfl, rfl, rfl, fun hex => absurd (hiff.mpr hex) hbt, fun _ => rfl⟩

theorem invalidate_if_redundant_two (l ll : Ligature) (h1 : l.in_.length = 2)
    (h2 : ll.in_.length = 2) :
    invalidate_if_redundant l ll =
      if ll.in_ = l.in_ then { ll with in_ := ll.in_.set 0 (-1) } else ll := by
  unfold invalidate_if_redundant
  have ht : ll.in_.take l.in_.length = ll.in_ := by
    rw [h1, ← h2]
    exact List.take_length _
  rw [ht]
  by_cases h : ll.in_ = l.in_
  · rw [if_pos h, if_pos ⟨by omega, h⟩]
  · rw [if_neg h, if_neg (fun hc => h hc.2)]

theorem invalidate_if_redundant_over (l ll : Ligature) :
    Overwritten ll (invalidate_if_redundant l ll) := by
  unfold invalidate_if_redundant
  split
  · exact Or.inr rfl
  · exact Or.inl rfl

theorem set_first_ne_pair (xs : List Int) (a b : Int) (h0 : 0 ≤ a) :
    xs.set 0 (-1) ≠ [a, b] := by
  cases xs with
  | nil => simp
  | cons x xs =>
    simp only [List.set_cons_zero, ne_eq, List.cons.injEq, not_and]
    intro h
    omega

/-- The third pass of `simplify_ligatures` on a table of two-input entries: it
completes and only overwrites first inputs; afterwards no entry with a
non-negative first input is followed by an entry with the same inputs, and no
entry that is left with a non-negative first input comes after an entry that had
the same inputs before the pass. -/
theorem remove_redundant_detail : ∀ (n : Nat) (ls : List Ligature),
    (∀ l ∈ ls, l.in_.length = 2) → ls.length ≤ n →
      ∃ ls2, remove_redundant n ls = some ls2 ∧ List.Forall₂ Overwritten ls ls2 ∧
        ls2.Pairwise (fun l1 l2 => ∀ a b, l1.in_ = [a, b] → 0 ≤ a → l2.in_ ≠ [a, b]) ∧
        ∀ (k : Nat) (l2 : Ligature) (a b : Int), ls2[k]? = some l2 → l2.in_ = [a, b] → 0 ≤ a →
          ∀ (i : Nat) (m : Ligature), i < k → ls[i]? = some m → m.in_ ≠ [a, b] := by
  intro n
  induction n with
  | zero =>
    intro ls _ hlen
    have : ls = [] := List.length_eq_zero.mp (by omega)
    subst this
    exact ⟨[], rfl, List.Forall₂.nil, List.Pairwise.nil, fun k l2 a b hk => by simp at hk⟩
  | succ n ih =>
    intro ls h2 hlen
    cases ls with
    | nil =>
      exact ⟨[], rfl, List.Forall₂.nil, List.Pairwise.nil, fun k l2 a b hk => by simp at hk⟩
    | cons l ls =>
      have hl2 := h2 l (List.mem_cons_self _ _)
      have hls2 : ∀ m ∈ ls, m.in_.length = 2 := fun m hm => h2 m (List.mem_cons_of_mem _ hm)
      obtain ⟨a, ha⟩ := vec_at_zero_of_nonempty l (by omega)
      obtain ⟨b, hab⟩ : ∃ b, l.in_ = [a, b] := by
        match hm : l.in_ with
        | [] => rw [hm] at hl2; simp at hl2
        | [_] => rw [hm] at hl2; simp at hl2
        | [x, y] =>
          rw [hm] at ha
          simp only [vec_at, le_refl, if_true, Int.toNat_zero, List.getElem?_cons_zero,
            Option.some.injEq] at ha
          exact ⟨y, by rw [ha]⟩
        | _ :: _ :: _ :: _ => rw [hm] at hl2; simp at hl2
      have htail : List.Forall₂ Overwritten ls
          (if a < 0 then ls else ls.map (invalidate_if_redundant l)) := by
        split
        · exact forall₂_overwritten_refl ls
        · rw [List.forall₂_map_right_iff]
          exact List.forall₂_same.mpr (fun ll _ => invalidate_if_redundant_over l ll)
      have hlen2 : ∀ m ∈ (if a < 0 then ls else ls.map (invalidate_if_redundant l)),
          m.in_.length = 2 := by
        intro m hm
        obtain ⟨m0, hm0, hov⟩ := forall₂_mem_right htail m hm
        rw [hov.invalidated.length]
        exact hls2 m0 hm0
      obtain ⟨ls2, e1, e2, e3, e4⟩ := ih _ hlen2 (by
        rw [← List.Forall₂.length_eq htail]
        simp only [List.length_cons] at hlen
        omega)
      have hcomp : List.Forall₂ Overwritten ls ls2 :=
        @forall₂_comp Ligature Ligature Ligature Overwritten Overwritten Overwritten
          (fun _ _ _ h1 h2 => Overwritten.trans_over h1 h2) _ _ _ htail e2
      -- no entry of the result has the inputs of a live head
      have hhead : 0 ≤ a → ∀ m2 ∈ ls2, m2.in_ ≠ [a, b] := by
        intro h0 m2 hm2
        obtain ⟨m1, hm1, hov⟩ := forall₂_mem_right e2 m2 hm2
        rw [if_neg (by omega)] at hm1
        obtain ⟨m0, hm0, rfl⟩ := List.mem_map.mp hm1
        have hm1ne : (invalidate_if_redundant l m0).in_ ≠ [a, b] := by
          rw [invalidate_if_redundant_two l m0 hl2 (hls2 m0 hm0)]
          split
          · exact set_first_ne_pair _ a b h0
          · rename_i hne
            rw [← hab]
            exact hne
        rcases hov with rfl | rfl
        · exact hm1ne
        · exact set_first_ne_pair _ a b h0
      refine ⟨l :: ls2, ?_, List.Forall₂.cons (Overwritten.refl_over l) hcomp, ?_, ?_⟩
      · rw [remove_redundant, ha]
        simp only
        rw [e1]
      · rw [List.pairwise_cons]
        refine ⟨fun m2 hm2 a2 b2 hin h0 => ?_, e3⟩
        rw [hab] at hin
        simp only [List.cons.injEq, and_true] at hin
        obtain ⟨rfl, rfl⟩ := hin
        exact hhead h0 m2 hm2
      · intro k l2 a2 b2 hk hin h0 i m hik hm
        cases k with
        | zero => omega
        | succ k =>
          simp only [List.getElem?_cons_succ] at hk
          cases i with
          | zero =>
            simp only [List.getElem?_cons_zero, Option.some.injEq] at hm
            subst hm
            intro heq
            rw [hab] at heq
            simp only [List.cons.injEq, and_true] at heq
            obtain ⟨rfl, rfl⟩ := heq
            exact hhead h0 l2 (List.getElem?_mem hk) hin
          | succ i =>
            simp only [List.getElem?_cons_succ] at hm
            intro heq
            by_cases hneg : a < 0
            · rw [if_pos hneg] at e4
              exact e4 k l2 a2 b2 hk hin h0 i m (by omega) hm heq
            · rw [if_neg hneg] at e4
              have hm1 : (ls.map (invalidate_if_redundant l))[i]? =
                  some (invalidate_if_redundant l m) := by
                rw [List.getElem?_map, hm]
                rfl
              have hne := e4 k l2 a2 b2 hk hin h0 i _ (by omega) hm1
              rw [invalidate_if_redundant_two l m hl2 (hls2 m (List.getElem?_mem hm))] at hne
              by_cases hsame : m.in_ = l.in_
              · rw [hab, heq] at hsame
                simp only [List.cons.injEq, and_true] at hsame
                obtain ⟨rfl, rfl⟩ := hsame
                exact hhead h0 l2 (List.getElem?_mem hk) hin
              · rw [if_neg hsame] at hne
                exact hne heq

/-- The fourth pass of `simplify_ligatures`: it completes when every entry has
an input and only overwrites first inputs; afterwards no entry with a
non-negative first input, a non-negative `context` and `context + 1` inputs has
its first input as output. -/
theorem remove_null_detail : ∀ ls : List Ligature, (∀ l ∈ ls, 1 ≤ l.in_.length) →
    ∃ ls2, remove_null ls = some ls2 ∧ List.Forall₂ Overwritten ls ls2 ∧
      ∀ l2 ∈ ls2, ∀ a, vec_at l2.in_ 0 = some a → 0 ≤ a → 0 ≤ l2.context →
        (l2.in_.length : Int) = l2.context + 1 → l2.out ≠ a := by
  intro ls
  induction ls with
  | nil => intro _; exact ⟨[], rfl, List.Forall₂.nil, fun l2 h => by simp at h⟩
  | cons l ls ih =>
    intro hne
    obtain ⟨a, ha⟩ := vec_at_zero_of_nonempty l (hne l (List.mem_cons_self _ _))
    obtain ⟨ls2, e1, e2, e3⟩ := ih (fun l hl => hne l (List.mem_cons_of_mem _ hl))
    refine ⟨(if 0 ≤ a ∧ 0 ≤ l.context ∧ (l.in_.length : Int) = l.context + 1 ∧ a = l.out then
        { l with in_ := l.in_.set 0 (-1) } else l) :: ls2,
      by simp only [remove_null, ha, e1], List.Forall₂.cons ?_ e2, ?_⟩
    · split
      · exact Or.inr rfl
      · exact Or.inl rfl
    · intro l2 hl2 a2 ha2 h0 hc hlen
      rcases List.mem_cons.mp hl2 with rfl | hl2
      · by_cases hcond : 0 ≤ a ∧ 0 ≤ l.context ∧ (l.in_.length : Int) = l.context + 1 ∧ a = l.out
        · rw [if_pos hcond] at ha2
          exfalso
          cases hin : l.in_ with
          | nil => simp [hin, vec_at] at ha2
          | cons x xs =>
            simp only [hin, List.set_cons_zero, vec_at] at ha2
            simp at ha2
            omega
        · rw [if_neg hcond] at ha2 hc hlen ⊢
          rw [ha] at ha2
          obtain rfl := Option.some.inj ha2
          intro heq
          exact hcond ⟨h0, hc, hlen, heq.symm⟩
      · exact e3 l2 hl2 a2 ha2 h0 hc hlen

/-- The third pass of `simplify_ligatures` completes when every entry has an
input, and only overwrites first inputs. -/
theorem remove_redundant_over : ∀ (n : Nat) (ls : List Ligature),
    (∀ l ∈ ls, 1 ≤ l.in_.length) → ls.length ≤ n →
      ∃ ls2, remove_redundant n ls = some ls2 ∧ List.Forall₂ Overwritten ls ls2 := by
  intro n
  induction n with
  | zero =>
    intro ls _ hlen
    have : ls = [] := List.length_eq_zero.mp (by omega)
    subst this
    exact ⟨[], rfl, List.Forall₂.nil⟩
  | succ n ih =>
    intro ls hne hlen
    cases ls with
    | nil => exact ⟨[], rfl, List.Forall₂.nil⟩
    | cons l ls =>
      obtain ⟨a, ha⟩ := vec_at_zero_of_nonempty l (hne l (List.mem_cons_self _ _))
      have htail : List.Forall₂ Overwritten ls
          (if a < 0 then ls else ls.map (invalidate_if_redundant l)) := by
        split
        · exact forall₂_overwritten_refl ls
        · rw [List.forall₂_map_right_iff]
          exact List.forall₂_same.mpr (fun ll _ => invalidate_if_redundant_over l ll)
      have hne2 : ∀ m ∈ (if a < 0 then ls else ls.map (invalidate_if_redundant l)),
          1 ≤ m.in_.length := by
        intro m hm
        obtain ⟨m0, hm0, hov⟩ := forall₂_mem_right htail m hm
        rw [hov.invalidated.length]
        exact hne m0 (List.mem_cons_of_mem _ hm0)
      obtain ⟨ls2, e1, e2⟩ := ih _ hne2 (by
        rw [← List.Forall₂.length_eq htail]
        simp only [List.length_cons] at hlen
        omega)
      have hcomp : List.Forall₂ Overwritten ls ls2 :=
        @forall₂_comp Ligature Ligature Ligature Overwritten Overwritten Overwritten
          (fun _ _ _ h1 h2 => Overwritten.trans_over h1 h2) _ _ _ htail e2
      refine ⟨l :: ls2, ?_, List.Forall₂.cons (Overwritten.refl_over l) hcomp⟩
      rw [remove_redundant, ha]
      simp only
      rw [e1]

/-- The four passes of `simplify_ligatures`, with or without synthesis, on a
table whose entries all have an input: each pass completes, and the tables
between the passes are related entry by entry. -/
theorem simplify_ligatures_stages (add_fake : Bool) (fake : Int) (st : GsubEncoding)
    (hne : ∀ l ∈ st._ligatures, 1 ≤ l.in_.length) :
    ∃ (ls1 : List Ligature) (st2 : GsubEncoding) (ls3 ls4 : List Ligature),
      List.Forall₂ (Marked st._ligatures) st._ligatures ls1 ∧
      List.Forall₂ Reduced ls1 st2._ligatures ∧
      List.Forall₂ Overwritten st2._ligatures ls3 ∧
      List.Forall₂ Overwritten ls3 ls4 ∧
      reduced_ligatures add_fake fake st = some st2._ligatures ∧
      remove_redundant st2._ligatures.length st2._ligatures = some ls3 ∧
      remove_null ls3 = some ls4 ∧
      simplify_ligatures add_fake fake st = some { st2 with _ligatures := ls4 } ∧
      ∀ l ∈ ls4, ∀ a, vec_at l.in_ 0 = some a → 0 ≤ a → 0 ≤ l.context →
        (l.in_.length : Int) = l.context + 1 → l.out ≠ a := by
  obtain ⟨ls1, m1, m2⟩ := mark_skippable_detail st._ligatures hne st._ligatures
  obtain ⟨st2, r1, r2, r3⟩ := reduce_all_shape add_fake fake ls1.length 0
    { st with _ligatures := ls1 } (by simp)
  have hred : List.Forall₂ Reduced ls1 st2._ligatures :=
    forall₂_of_getElem? r2 (fun k l hk => by
      obtain ⟨l2, g1, _, g3⟩ := r3 k l hk
      exact ⟨l2, g1, g3 (Nat.zero_le k)⟩)
  have hne1 : ∀ l ∈ ls1, 1 ≤ l.in_.length := by
    intro l hl
    obtain ⟨l0, hl0, hm⟩ := forall₂_mem_right m2 l hl
    rw [hm.1]
    exact hne l0 hl0
  have hne2 : ∀ l ∈ st2._ligatures, 1 ≤ l.in_.length := by
    intro l hl
    obtain ⟨l0, hl0, hm⟩ := forall₂_mem_right hred l hl
    have := hne1 l0 hl0
    rw [hm.2.2.2.1]
    omega
  obtain ⟨ls3, d1, d2⟩ := remove_redundant_over st2._ligatures.length st2._ligatures hne2
    (le_refl _)
  have hne3 : ∀ l ∈ ls3, 1 ≤ l.in_.length := by
    intro l hl
    obtain ⟨l0, hl0, hov⟩ := forall₂_mem_right d2 l hl
    rw [hov.invalidated.length]
    exact hne2 l0 hl0
  obtain ⟨ls4, n1, n2, n3⟩ := remove_null_detail ls3 hne3
  refine ⟨ls1, st2, ls3, ls4, m2, hred, d2, n2, ?_, d1, n1, ?_, n3⟩
  · simp only [reduced_ligatures, m1, r1, Option.map_some']
  · simp only [simplify_ligatures, m1, r1, d1, n1]

/-- An entry keeps its output, `skip` and `context` when its first input is
overwritten. -/
theorem Overwritten.fields {l l2 : Ligature} (h : Overwritten l l2) :
    l2.out = l.out ∧ l2.skip = l.skip ∧ l2.context = l.context ∧
      l2.in_.length = l.in_.length := by
  rcases h with rfl | rfl
  · exact ⟨rfl, rfl, rfl, rfl⟩
  · exact ⟨rfl, rfl, rfl, by simp⟩

set_option maxRecDepth 100000 in
/-- C17, as stated, fails: of the two ligatures `1 2 -> 3` and `3 4 -> 5`, both
with `skip = 1` after `apply`, the first has an output that is the first input
of the second and leaves `simplify_ligatures` with `skip = 1`, not 0; the
second, whose output starts no ligature, does not keep its `skip` but gets 0. -/
theorem simplify_ligatures_skip_counterexample :
    state_chained._ligatures =
      [{ in_ := [1, 2], out := 3, skip := 1, context := 0 },
       { in_ := [3, 4], out := 5, skip := 1, context := 0 }] ∧
    (simplify_ligatures true 0xFFFF state_chained).map (fun st => st._ligatures) =
      some [{ in_ := [1, 2], out := 3, skip := 1, context := 0 },
            { in_ := [3, 4], out := 5, skip := 0, context := 0 }] := by
  decide

/-- C17 (amended). Skip marking, the other way round: for every table whose
entries all have an input, `simplify_ligatures` (with or without synthesis)
completes and keeps the number of entries and every output; an entry whose
output code is the first input of some ligature of the table at the call keeps
its previous `skip`, and every other entry ends with `skip = 0`. -/
theorem simplify_ligatures_skip (add_fake : Bool) (fake : Int) (st : GsubEncoding)
    (hne : ∀ l ∈ st._ligatures, 1 ≤ l.in_.length) :
    ∃ st2, simplify_ligatures add_fake fake st = some st2 ∧
      st2._ligatures.length = st._ligatures.length ∧
      ∀ (k : Nat) (l : Ligature), st._ligatures[k]? = some l →
        ∃ l2, st2._ligatures[k]? = some l2 ∧ l2.out = l.out ∧
          ((∃ m ∈ st._ligatures, vec_at m.in_ 0 = some l.out) → l2.skip = l.skip) ∧
          ((∀ m ∈ st._ligatures, vec_at m.in_ 0 ≠ some l.out) → l2.skip = 0) := by
  obtain ⟨ls1, st2, ls3, ls4, h1, h2, h3, h4, _, _, _, hrun, _⟩ :=
    simplify_ligatures_stages add_fake fake st hne
  refine ⟨_, hrun, ?_, ?_⟩
  · show ls4.length = st._ligatures.length
    rw [← h4.length_eq, ← h3.length_eq, ← h2.length_eq, ← h1.length_eq]
  · intro k l hk
    obtain ⟨l1, k1, m1⟩ := forall₂_getElem? h1 k l hk
    obtain ⟨l2, k2, m2⟩ := forall₂_getElem? h2 k l1 k1
    obtain ⟨l3, k3, m3⟩ := forall₂_getElem? h3 k l2 k2
    obtain ⟨l4, k4, m4⟩ := forall₂_getElem? h4 k l3 k3
    obtain ⟨a1, a2, _, _⟩ := m3.fields
    obtain ⟨b1, b2, _, _⟩ := m4.fields
    refine ⟨l4, k4, ?_, ?_, ?_⟩
    · rw [b1, a1, m2.1, m1.2.1]
    · intro hex
      rw [b2, a2, m2.2.1, m1.2.2.2.1 hex]
    · intro hno
      rw [b2, a2, m2.2.1, m1.2.2.2.2 hno]

set_option maxRecDepth 100000 in
theorem simplify_ligatures_skip_witness :
    (∀ l ∈ state_chained._ligatures, 1 ≤ l.in_.length) ∧
    ∃ st2, simplify_ligatures false 0xFFFF state_chained = some st2 ∧
      st2._ligatures.length = state_chained._ligatures.length ∧
      ∀ (k : Nat) (l : Ligature), state_chained._ligatures[k]? = some l →
        ∃ l2, st2._ligatures[k]? = some l2 ∧ l2.out = l.out ∧
          ((∃ m ∈ state_chained._ligatures, vec_at m.in_ 0 = some l.out) → l2.skip = l.skip) ∧
          ((∀ m ∈ state_chained._ligatures, vec_at m.in_ 0 ≠ some l.out) → l2.skip = 0) :=
  ⟨by decide, simplify_ligatures_skip false 0xFFFF state_chained (by decide)⟩

set_option maxRecDepth 100000 in
/-- C18 at the failing input: without synthesis, the entry `1 2 3 -> 8` becomes
the stub `[-1, 3] -> 8`; the first reduction step of `5 6 3 7 -> 9` finds no
two-input ligature for `(5, 6)` and stores `-1`, but its second step, looking
for the pair `(-1, 3)`, takes the stub for a two-input ligature and stores its
output 8: the entry ends as `[8, 7] -> 9`, and `twoligatures(8)` returns it. -/
theorem simplify_ligatures_stub_matched :
    (simplify_ligatures false 0xFFFF state_long_ligs).map
        (fun st => (st._ligatures, twoligatures st 8)) =
      some ([{ in_ := [-1, 3], out := 8, skip := 0, context := 0 },
             { in_ := [8, 7], out := 9, skip := 0, context := 0 }],
            [(7, 9, 0)]) := by
  decide

/-- Every entry is left with exactly two inputs by the reduction when it had
at least two. -/
theorem reduced_two {ls ls1 ls2 : List Ligature} (all : List Ligature)
    (h2 : ∀ l ∈ ls, 2 ≤ l.in_.length) (hm : List.Forall₂ (Marked all) ls ls1)
    (hr : List.Forall₂ Reduced ls1 ls2) : ∀ l ∈ ls2, l.in_.length = 2 := by
  intro l hl
  obtain ⟨l1, hl1, r⟩ := forall₂_mem_right hr l hl
  obtain ⟨l0, hl0, m⟩ := forall₂_mem_right hm l1 hl1
  have := h2 l0 hl0
  rw [r.2.2.2.1, m.1]
  omega

theorem vec_at_zero_pair (a b : Int) : vec_at [a, b] 0 = some a := rfl

/-- C19. Redundancy removal, earliest match wins: for every table in which each
entry has at least two inputs, `simplify_ligatures` (with or without synthesis)
completes; its final table is the table `red` left by the reduction pass,
whose entries all have two inputs, with some first inputs overwritten by `-1`;
no entry of the final table with a non-negative first input is followed by an
entry with the same input pair; an entry that is left with a non-negative first
input is the earliest entry of `red` with its input pair; and for a code
`c >= 0`, `twoligatures(c)` lists no second code twice. -/
theorem simplify_ligatures_earliest (add_fake : Bool) (fake : Int) (st : GsubEncoding)
    (h2 : ∀ l ∈ st._ligatures, 2 ≤ l.in_.length) :
    ∃ st2 red, simplify_ligatures add_fake fake st = some st2 ∧
      reduced_ligatures add_fake fake st = some red ∧
      List.Forall₂ Overwritten red st2._ligatures ∧
      (∀ l ∈ red, l.in_.length = 2) ∧
      st2._ligatures.Pairwise
        (fun l1 l2 => ∀ a b, l1.in_ = [a, b] → 0 ≤ a → l2.in_ ≠ [a, b]) ∧
      (∀ (k : Nat) (l : Ligature) (a b : Int), st2._ligatures[k]? = some l → l.in_ = [a, b] →
        0 ≤ a → red[k]? = some l ∧
          ∀ (i : Nat) (m : Ligature), i < k → red[i]? = some m → m.in_ ≠ [a, b]) ∧
      (∀ c : Int, 0 ≤ c → ((twoligatures st2 c).map (fun t => t.1)).Nodup) := by
  obtain ⟨ls1, st2, ls3, ls4, s1, s2, s3, s4, hred, hrr, _, hrun, _⟩ :=
    simplify_ligatures_stages add_fake fake st (fun l hl => by have := h2 l hl; omega)
  have htwo := reduced_two st._ligatures h2 s1 s2
  obtain ⟨ls3b, d1, _, d3, d4⟩ :=
    remove_redundant_detail st2._ligatures.length st2._ligatures htwo (le_refl _)
  rw [hrr] at d1
  obtain rfl := Option.some.inj d1
  have hpw : ls4.Pairwise (fun l1 l2 => ∀ a b, l1.in_ = [a, b] → 0 ≤ a → l2.in_ ≠ [a, b]) := by
    refine forall₂_pairwise ?_ s4 d3
    intro x x2 y y2 hx hy hD a b hin h0
    have hx2 : x2 = x := hx.first_nonneg (by rw [hin]; exact vec_at_zero_pair a b) h0
    subst hx2
    rcases hy with rfl | rfl
    · exact hD a b hin h0
    · exact set_first_ne_pair _ a b h0
  refine ⟨_, st2._ligatures, hrun, hred, ?_, htwo, hpw, ?_, ?_⟩
  · exact @forall₂_comp Ligature Ligature Ligature Overwritten Overwritten Overwritten
      (fun _ _ _ h1 h2 => Overwritten.trans_over h1 h2) _ _ _ s3 s4
  · intro k l a b hk hin h0
    simp only at hk
    have hfirst : vec_at l.in_ 0 = some a := by rw [hin]; exact vec_at_zero_pair a b
    obtain ⟨l3, k3, o3⟩ := forall₂_getElem? (List.Forall₂.flip s4) k l hk
    have e3 : l = l3 := @Overwritten.first_nonneg l3 l o3 a hfirst h0
    subst e3
    obtain ⟨l2, k2, o2⟩ := forall₂_getElem? (List.Forall₂.flip s3) k l k3
    have e2 : l = l2 := @Overwritten.first_nonneg l2 l o2 a hfirst h0
    subst e2
    exact ⟨k2, d4 k l a b k3 hin h0⟩
  · intro c hc
    have hp : (twoligatures { st2 with _ligatures := ls4 } c).Pairwise
        (fun t t2 => t.1 ≠ t2.1) := by
      unfold twoligatures
      refine List.Pairwise.filterMap _ ?_ hpw
      intro l l2 hD t ht t2 ht2
      simp only [Option.mem_def] at ht ht2
      have key : ∀ (m : Ligature) (u : Int × Int × Int),
          (match m.in_ with
            | [a, b] => if a = c ∧ 0 ≤ b ∧ 0 ≤ m.out then some (b, m.out, m.context) else none
            | _ => none) = some u → m.in_ = [c, u.1] := by
        intro m u hu
        split at hu
        · rename_i a b hab
          split at hu
          · rename_i hcond
            obtain rfl := Option.some.inj hu
            rw [hab, hcond.1]
          · exact absurd hu (by simp)
        · exact absurd hu (by simp)
      intro heq
      have h1 := key l t ht
      have h2 := key l2 t2 ht2
      rw [← heq] at h2
      exact hD c t.1 h1 hc h2
    exact List.Pairwise.map _ (fun _ _ h => h) hp

set_option maxRecDepth 100000 in
theorem simplify_ligatures_earliest_witness :
    (∀ l ∈ state_three_fi._ligatures, 2 ≤ l.in_.length) ∧
    (simplify_ligatures true 0xFFFF state_three_fi).map
        (fun st => (st._ligatures, twoligatures st 1)) =
      some ([{ in_ := [1, 2], out := 3, skip := 0, context := 0 },
             { in_ := [-1, 2], out := 4, skip := 0, context := 0 },
             { in_ := [-1, 2], out := 0, skip := 0, context := 0 }],
            [(2, 3, 0)]) ∧
    ∃ st2 red, simplify_ligatures true 0xFFFF state_three_fi = some st2 ∧
      reduced_ligatures true 0xFFFF state_three_fi = some red ∧
      List.Forall₂ Overwritten red st2._ligatures ∧
      (∀ l ∈ red, l.in_.length = 2) ∧
      st2._ligatures.Pairwise
        (fun l1 l2 => ∀ a b, l1.in_ = [a, b] → 0 ≤ a → l2.in_ ≠ [a, b]) ∧
      (∀ (k : Nat) (l : Ligature) (a b : Int), st2._ligatures[k]? = some l → l.in_ = [a, b] →
        0 ≤ a → red[k]? = some l ∧
          ∀ (i : Nat) (m : Ligature), i < k → red[i]? = some m → m.in_ ≠ [a, b]) ∧
      (∀ c : Int, 0 ≤ c → ((twoligatures st2 c).map (fun t => t.1)).Nodup) :=
  ⟨by decide, by decide, simplify_ligatures_earliest true 0xFFFF state_three_fi (by decide)⟩
set_option maxRecDepth 100000 in
/-- C20, as stated, fails: for the left-context rule "`i` after `f` becomes
`i`", `apply` appends the entry `[1, 2] -> 2` with `context = -1`, whose output
is the input it rewrites, and `simplify_ligatures` leaves it with its first
input 1. -/
theorem simplify_ligatures_null_counterexample :
    state_left_null._ligatures = [{ in_ := [1, 2], out := 2, skip := 1, context := -1 }] ∧
    (simplify_ligatures true 0xFFFF state_left_null).map (fun st => st._ligatures) =
      some [{ in_ := [1, 2], out := 2, skip := 0, context := -1 }] := by
  decide

/-- C20 (amended). Null-ligature removal: for every table whose entries all
have an input, `simplify_ligatures` (with or without synthesis) completes, and
afterwards no entry with a non-negative first input, a non-negative `context`
and exactly `context + 1` inputs has its first input as output; in particular
no right-context entry (`context = +1`) with two inputs and a non-negative
first input has `out = in[0]`. -/
theorem simplify_ligatures_no_null (add_fake : Bool) (fake : Int) (st : GsubEncoding)
    (hne : ∀ l ∈ st._ligatures, 1 ≤ l.in_.length) :
    ∃ st2, simplify_ligatures add_fake fake st = some st2 ∧
      (∀ l ∈ st2._ligatures, ∀ a, vec_at l.in_ 0 = some a → 0 ≤ a → 0 ≤ l.context →
        (l.in_.length : Int) = l.context + 1 → l.out ≠ a) ∧
      (∀ l ∈ st2._ligatures, ∀ a b, l.in_ = [a, b] → 0 ≤ a → l.context = 1 → l.out ≠ a) := by
  obtain ⟨ls1, st2, ls3, ls4, _, _, _, _, _, _, _, hrun, hnull⟩ :=
    simplify_ligatures_stages add_fake fake st hne
  refine ⟨_, hrun, hnull, ?_⟩
  intro l hl a b hin h0 hctx
  refine hnull l hl a (by rw [hin]; exact vec_at_zero_pair a b) h0 (by omega) ?_
  rw [hin, hctx]
  rfl

set_option maxRecDepth 100000 in
theorem simplify_ligatures_no_null_witness :
    (∀ l ∈ state_right_null._ligatures, 1 ≤ l.in_.length) ∧
    state_right_null._ligatures =
      [{ in_ := [1, 2], out := 1, skip := 1, context := 1 },
       { in_ := [1, 2], out := 5, skip := 1, context := 0 }] ∧
    (simplify_ligatures true 0xFFFF state_right_null).map (fun st => st._ligatures) =
      some [{ in_ := [-1, 2], out := 1, skip := 1, context := 1 },
            { in_ := [-1, 2], out := 5, skip := 0, context := 0 }] ∧
    ∃ st2, simplify_ligatures true 0xFFFF state_right_null = some st2 ∧
      (∀ l ∈ st2._ligatures, ∀ a, vec_at l.in_ 0 = some a → 0 ≤ a → 0 ≤ l.context →
        (l.in_.length : Int) = l.context + 1 → l.out ≠ a) ∧
      (∀ l ∈ st2._ligatures, ∀ a b, l.in_ = [a, b] → 0 ≤ a → l.context = 1 → l.out ≠ a) :=
  ⟨by decide, by decide, by decide,
    simplify_ligatures_no_null true 0xFFFF state_right_null (by decide)⟩

/-- The loop of the `CH_SOME` branch over the codes `j, ..., j + n - 1`: it
completes, leaves everything but the ligature table alone and appends exactly
the right-context entries `[e, k] -> out` for the codes `k` of that range whose
slot holds a glyph, whose bit is not set and which are not `out` itself. -/
theorem add_remaining_contexts_mem (e out : Int) (bits : List Bool) :
    ∀ (n : Nat) (j : Int) (st : GsubEncoding), 0 ≤ j → j + n ≤ st._encoding.length →
      ∃ new, add_remaining_contexts e out (some bits) n j st =
          some { st with _ligatures := st._ligatures ++ new } ∧
        ∀ l, l ∈ new ↔ ∃ (k g : Int), j ≤ k ∧ k < j + n ∧ vec_at st._encoding k = some g ∧
          0 < g ∧ bit_test bits k = false ∧ out ≠ k ∧
          l = { in_ := [e, k], out := out, skip := 1, context := 1 } := by
  intro n
  induction n with
  | zero =>
    intro j st _ _
    refine ⟨[], by simp [add_remaining_contexts], fun l => ?_⟩
    constructor
    · intro h; simp at h
    · rintro ⟨k, g, h1, h2, _⟩
      simp at h2
      omega
  | succ n ih =>
    intro j st hj hlen
    obtain ⟨g, hg⟩ := vec_at_eq_some_of_lt st._encoding j hj (by push_cast at hlen; omega)
    have hstep : ∃ new1, add_remaining_context e out (some bits) j g st =
        some { st with _ligatures := st._ligatures ++ new1 } ∧
        ∀ l, l ∈ new1 ↔ (0 < g ∧ bit_test bits j = false ∧ out ≠ j ∧
          l = { in_ := [e, j], out := out, skip := 1, context := 1 }) := by
      unfold add_remaining_context
      by_cases hpos : 0 < g
      · rw [if_pos hpos]
        simp only
        by_cases hb : bit_test bits j = false
        · rw [if_pos hb]
          unfold add_single_context_substitution
          by_cases ho : out ≠ j
          · simp only [if_true]
            rw [if_pos ho]
            exact ⟨[{ in_ := [e, j], out := out, skip := 1, context := 1 }], rfl,
              fun l => by simp [hpos, hb, ho]⟩
          · simp only [if_true]
            rw [if_neg ho]
            exact ⟨[], by simp, fun l => by simp [ho]⟩
        · rw [if_neg hb]
          exact ⟨[], by simp, fun l => by simp [hb]⟩
      · rw [if_neg hpos]
        exact ⟨[], by simp, fun l => by simp [hpos]⟩
    obtain ⟨new1, h1, m1⟩ := hstep
    obtain ⟨new, e1, m2⟩ := ih (j + 1) { st with _ligatures := st._ligatures ++ new1 }
      (by omega) (by push_cast at hlen ⊢; omega)
    refine ⟨new1 ++ new, ?_, fun l => ?_⟩
    · rw [add_remaining_contexts, hg]
      simp only
      rw [h1]
      simp only
      rw [e1]
      simp
    · rw [List.mem_append, m1, m2]
      constructor
      · rintro (⟨a1, a2, a3, a4⟩ | ⟨k, g2, b1, b2, b3, b4⟩)
        · exact ⟨j, g, le_refl _, by push_cast; omega, hg, a1, a2, a3, a4⟩
        · exact ⟨k, g2, by omega, by push_cast; omega, b3, b4⟩
      · rintro ⟨k, g2, b1, b2, b3, b4, b5, b6, b7⟩
        by_cases hk : k = j
        · subst hk
          rw [hg] at b3
          obtain rfl := Option.some.inj b3
          exact Or.inl ⟨b4, b5, b6, b7⟩
        · exact Or.inr ⟨k, g2, by omega, by push_cast at b2; omega, b3, b4, b5, b6, b7⟩

set_option maxRecDepth 100000 in
/-- C21, as stated, fails: after the right-context rule "`f` before `i`" has put
code 1 in state `CH_SOME` with only code 2 recorded, the single rule `f -> l`
appends the right-context entry `[1, 1] -> 3` but none for `j = 3`, a code that
existed at the start, holds the glyph `l` and is not recorded: `3` is the code
of the output glyph, and `add_single_context_substitution` appends nothing when
the output equals the right code. -/
theorem apply_single_after_context_counterexample :
    (apply [Substitution.single_rcontext 71 74 99] true state_f_i_l).map
        (fun r => r.2._ligatures) =
      some [{ in_ := [1, 2], out := 5, skip := 1, context := 1 }] ∧
    vec_at pass_after_context.changed 1 = some CH_SOME ∧
    vec_at pass_after_context.changed_context 1 =
      some (some [false, false, true, false, false]) ∧
    vec_at pass_after_context.st._encoding 3 = some 75 ∧
    vec_at state_context_then_single._encoding 3 = some 75 ∧
    code_of state_context_then_single 75 = 3 ∧
    state_context_then_single._ligatures =
      [{ in_ := [1, 2], out := 5, skip := 1, context := 1 },
       { in_ := [1, 1], out := 3, skip := 1, context := 1 }] := by
  decide

/-- C21 (amended). A single or alternate rule `A -> B` (`B` a glyph id) applied
with `allow_single` set, in a pass state with a well-formed tracker where `A` is
encoded at a code `e` inside the tracker whose entry is `CH_SOME`: the rule
completes and is counted; with `out` the code of `B` (its existing code, else a
newly appended slot holding `B`) and `v` the bit-set of `e`, the ligature table
grows by exactly the right-context entries `in = [e, j]`, `out`, `skip = 1`,
`context = +1` for the codes `j` inside the tracker whose slot holds a glyph
(`> 0`), whose bit in `v` is not set and which differ from `out`; slot `e` is
not rewritten; the tracker entry of `e` becomes `CH_ALL` and no other tracker
entry or bit-set changes. -/
theorem apply_single_after_context (s : Substitution) (A B : Int) (p : SubstPass)
    (hs : s = .single A B ∨ s = .alternate A B) (hwf : p.WF) (hB : 0 ≤ B)
    (he : 0 ≤ code_of p.st A) (hlt : code_of p.st A < p.changed.length)
    (hsome : vec_at p.changed (code_of p.st A) = some CH_SOME) :
    ∃ p2 v new, apply_substitution true s p = some p2 ∧
      vec_at p.changed_context (code_of p.st A) = some (some v) ∧
      p2.st._ligatures = p.st._ligatures ++ new ∧
      (∀ l, l ∈ new ↔ ∃ (j g : Int), 0 ≤ j ∧ j < p.changed.length ∧
        vec_at p.st._encoding j = some g ∧ 0 < g ∧ bit_test v j = false ∧
        j ≠ (if 0 ≤ code_of p.st B then code_of p.st B else p.st._encoding.length) ∧
        l = { in_ := [code_of p.st A, j],
              out := if 0 ≤ code_of p.st B then code_of p.st B else p.st._encoding.length,
              skip := 1, context := 1 }) ∧
      p2.st._encoding = (if 0 ≤ code_of p.st B then p.st._encoding else p.st._encoding ++ [B]) ∧
      vec_at p2.st._encoding (code_of p.st A) = vec_at p.st._encoding (code_of p.st A) ∧
      vec_at p2.changed (code_of p.st A) = some CH_ALL ∧
      (∀ j, j ≠ code_of p.st A → vec_at p2.changed j = vec_at p.changed j) ∧
      p2.changed_context = p.changed_context ∧
      p2.success = p.success + 1 := by
  have E := encoding_ext A p.st
  have henc : (encoding A p.st).2._encoding = p.st._encoding := E.encoding_eq
  have hcode : code_of (encoding A p.st).2 B = code_of p.st B := E.code_of B
  obtain ⟨w1, w2, w3⟩ := hwf
  obtain ⟨v, hv⟩ := w3 _ hsome
  obtain ⟨out, st2, f1, f2, f3⟩ := force_encoding_spec B (encoding A p.st).2 hB
  rw [hcode, henc] at f3
  have hout : out = (if 0 ≤ code_of p.st B then code_of p.st B else p.st._encoding.length) ∧
      st2._encoding = (if 0 ≤ code_of p.st B then p.st._encoding else p.st._encoding ++ [B]) := by
    rcases f3 with ⟨a1, a2, a3⟩ | ⟨a1, a2, a3⟩
    · rw [if_pos a1, if_pos a1]; exact ⟨a2, a3⟩
    · rw [if_neg (by omega), if_neg (by omega)]; exact ⟨a2, a3⟩
  have hlen2 : p.st._encoding.length ≤ st2._encoding.length := by
    rw [hout.2]
    split
    · exact le_refl _
    · simp
  have hlow : ∀ k : Int, k < p.st._encoding.length → vec_at st2._encoding k =
      vec_at p.st._encoding k := by
    intro k hk
    rw [hout.2]
    split
    · rfl
    · by_cases hk0 : 0 ≤ k
      · obtain ⟨x, hx⟩ := vec_at_eq_some_of_lt p.st._encoding k hk0 hk
        rw [hx]
        exact vec_at_append_of_some _ hx
      · simp [vec_at, hk0]
  obtain ⟨new, g1, g2⟩ := add_remaining_contexts_mem (code_of p.st A) out v p.changed.length 0 st2
    (le_refl _) (by omega)
  have hlig2 : st2._ligatures = p.st._ligatures := (E.sameTables.trans_tables f2).ligatures
  have hstep : apply_substitution true s p = (apply_single A B p).map
      (fun q => { q with success := q.success + 1 }) := by
    rcases hs with rfl | rfl <;> simp [apply_substitution]
  have hrun : apply_single A B p = some { p with
      st := { st2 with _ligatures := st2._ligatures ++ new },
      changed := p.changed.set (code_of p.st A).toNat CH_ALL } := by
    unfold apply_single
    simp only [encoding_fst]
    rw [if_neg (by omega), hsome]
    simp only
    rw [if_neg (fun h => CH_distinct.1 h.symm)]
    simp only [if_true]
    rw [f1]
    simp only
    rw [hv]
    simp only
    rw [g1]
    simp only
    rw [vec_set_eq_some p.changed _ CH_ALL he hlt]
  rw [hstep, hrun]
  refine ⟨_, v, new, rfl, hv, by simp only [hlig2], ?_, hout.2, ?_, ?_, ?_, rfl, rfl⟩
  · intro l
    rw [g2, ← hout.1]
    constructor
    · rintro ⟨k, g, b1, b2, b3, b4, b5, b6, b7⟩
      refine ⟨k, g, b1, by omega, ?_, b4, b5, fun h => b6 h.symm, b7⟩
      rw [← hlow k (by omega)]
      exact b3
    · rintro ⟨k, g, b1, b2, b3, b4, b5, b6, b7⟩
      refine ⟨k, g, b1, by omega, ?_, b4, b5, fun h => b6 h.symm, b7⟩
      rw [hlow k (by omega)]
      exact b3
  · exact hlow _ (by omega)
  · exact vec_at_set_eq _ _ _ he hlt
  · intro j hj
    exact vec_at_set_ne _ _ j _ he (fun h => hj h.symm)

theorem pass_after_context_wf : pass_after_context.WF := by
  obtain ⟨p2, h1, h2, _⟩ := apply_loop_spec true [.single_rcontext 71 74 99] _
    (SubstPass.start_wf_subst state_f_i_l) (by decide)
  have h : pass_after_context = p2 := by
    unfold pass_after_context
    rw [h1]
    rfl
  rw [h]
  exact h2

set_option maxRecDepth 100000 in
theorem apply_single_after_context_witness :
    (code_of pass_after_context.st 71 = 1 ∧
      vec_at pass_after_context.changed 1 = some CH_SOME ∧
      vec_at pass_after_context.changed_context 1 =
        some (some [false, false, true, false, false])) ∧
    (apply_substitution true (.single 71 85) pass_after_context).map
        (fun q => (q.st._ligatures, q.st._encoding, q.changed)) =
      some ([{ in_ := [1, 2], out := 5, skip := 1, context := 1 },
             { in_ := [1, 1], out := 6, skip := 1, context := 1 },
             { in_ := [1, 3], out := 6, skip := 1, context := 1 }],
            [0, 71, 74, 75, 0, 99, 85], [0, 2, 0, 0, 0]) ∧
    (∃ p2 v new, apply_substitution true (.single 71 75) pass_after_context = some p2 ∧
      vec_at pass_after_context.changed_context (code_of pass_after_context.st 71) = some (some v) ∧
      p2.st._ligatures = pass_after_context.st._ligatures ++ new ∧
      (∀ l, l ∈ new ↔ ∃ (j g : Int), 0 ≤ j ∧ j < pass_after_context.changed.length ∧
        vec_at pass_after_context.st._encoding j = some g ∧ 0 < g ∧ bit_test v j = false ∧
        j ≠ (if 0 ≤ code_of pass_after_context.st 75 then code_of pass_after_context.st 75 else pass_after_context.st._encoding.length) ∧
        l = { in_ := [code_of pass_after_context.st 71, j],
              out := if 0 ≤ code_of pass_after_context.st 75 then code_of pass_after_context.st 75 else pass_after_context.st._encoding.length,
              skip := 1, context := 1 }) ∧
      p2.st._encoding = (if 0 ≤ code_of pass_after_context.st 75 then pass_after_context.st._encoding else pass_after_context.st._encoding ++ [75]) ∧
      vec_at p2.st._encoding (code_of pass_after_context.st 71) = vec_at pass_after_context.st._encoding (code_of pass_after_context.st 71) ∧
      vec_at p2.changed (code_of pass_after_context.st 71) = some CH_ALL ∧
      (∀ j, j ≠ code_of pass_after_context.st 71 → vec_at p2.changed j = vec_at pass_after_context.changed j) ∧
      p2.changed_context = pass_after_context.changed_context ∧
      p2.success = pass_after_context.success + 1) :=
  ⟨by decide, by decide,
    apply_single_after_context (.single 71 75) 71 75 pass_after_context (Or.inl rfl)
      pass_after_context_wf (by decide) (by decide) (by decide) (by decide)⟩

theorem apply_single_tracker (i o : Int) (p q : SubstPass) (h : apply_single i o p = some q) :
    TrackerStep p q := by
  unfold apply_single at h
  simp only at h
  split at h
  · obtain rfl := Option.some.inj h
    exact Or.inl ⟨rfl, rfl⟩
  · split at h
    · exact absurd h (by simp)
    · split at h
      · split at h
        · exact absurd h (by simp)
        · split at h
          · exact absurd h (by simp)
          · split at h
            · exact absurd h (by simp)
            · split at h
              · exact absurd h (by simp)
              · rename_i changed2 hset
                obtain rfl := Option.some.inj h
                unfold vec_set at hset
                split at hset
                · rename_i hb
                  exact Or.inr (Or.inl ⟨_, hb.1, (Option.some.inj hset).symm, rfl⟩)
                · exact absurd hset (by simp)
      · split at h
        · split at h
          · exact absurd h (by simp)
          · split at h
            · exact absurd h (by simp)
            · split at h
              · exact absurd h (by simp)
              · split at h
                · exact absurd h (by simp)
                · rename_i changed2 hset
                  obtain rfl := Option.some.inj h
                  unfold vec_set at hset
                  split at hset
                  · rename_i hb
                    exact Or.inr (Or.inl ⟨_, hb.1, (Option.some.inj hset).symm, rfl⟩)
                  · exact absurd hset (by simp)
        · obtain rfl := Option.some.inj h
          exact Or.inl ⟨rfl, rfl⟩

theorem apply_ligature_tracker (ins : List Int) (o : Int) (p q : SubstPass)
    (h : apply_ligature ins o p = some q) : TrackerStep p q := by
  unfold apply_ligature at h
  split at h
  · exact absurd h (by simp)
  · obtain rfl := Option.some.inj h
    exact Or.inl ⟨rfl, rfl⟩
  · split at h
    · exact absurd h (by simp)
    · obtain rfl := Option.some.inj h
      exact Or.inl ⟨rfl, rfl⟩

theorem assign_changed_context_tracker (changed : List Int)
    (changed_context : List (Option (List Bool))) (e1 e2 : Int) (changed2 : List Int)
    (context2 : List (Option (List Bool)))
    (h : assign_changed_context changed changed_context e1 e2 = some (changed2, context2)) :
    (changed2 = changed ∧ context2 = changed_context) ∨
    (∃ v0 : Option (List Bool), 0 ≤ e1 ∧ 0 ≤ e2 ∧
      e1 < changed_context.length ∧ e2 < changed_context.length ∧
      vec_at changed_context e1 = some v0 ∧
      (∃ c, vec_at changed e1 = some c ∧ c ≠ CH_ALL) ∧
      changed2 = changed.set e1.toNat CH_SOME ∧
      context2 = changed_context.set e1.toNat
        (some (bit_set (v0.getD (bitvec_new changed_context.length)) e2))) := by
  unfold assign_changed_context at h
  simp only at h
  split at h
  · rename_i hb
    split at h
    · exact absurd h (by simp)
    · rename_i v0 hv0
      split at h
      · exact absurd h (by simp)
      · rename_i c hc
        split at h
        · exact absurd h (by simp)
        · rename_i hne
          simp only [Option.some.injEq, Prod.mk.injEq] at h
          exact Or.inr ⟨v0, hb.1, hb.2.1, hb.2.2.1, hb.2.2.2, hv0, ⟨c, hc, hne⟩,
            h.1.symm, h.2.symm⟩
  · simp only [Option.some.injEq, Prod.mk.injEq] at h
    exact Or.inl ⟨h.1.symm, h.2.symm⟩

theorem apply_context_tracker (g1 g2 o : Int) (is_right : Bool) (p q : SubstPass)
    (h : apply_context g1 g2 o is_right p = some q) : TrackerStep p q := by
  unfold apply_context at h
  simp only at h
  split at h
  · split at h
    · exact absurd h (by simp)
    · obtain rfl := Option.some.inj h
      exact Or.inl ⟨rfl, rfl⟩
    · split at h
      · exact absurd h (by simp)
      · split at h
        · exact absurd h (by simp)
        · rename_i changed2 context2 hassign
          obtain rfl := Option.some.inj h
          rcases assign_changed_context_tracker _ _ _ _ _ _ hassign with ⟨a1, a2⟩ | ⟨v0, a⟩
          · exact Or.inl ⟨a1, a2⟩
          · exact Or.inr (Or.inr ⟨_, _, v0, a⟩)
  · obtain rfl := Option.some.inj h
    exact Or.inl ⟨rfl, rfl⟩

theorem TrackerStep.of_success {p q : SubstPass} (h : TrackerStep p q) (n : Int) :
    TrackerStep p { q with success := n } := h

/-- One rule of a substitution pass changes the tracker by one step. -/
theorem apply_substitution_tracker (allow_single : Bool) (s : Substitution) (p p2 : SubstPass)
    (h : apply_substitution allow_single s p = some p2) : TrackerStep p p2 := by
  have lift : ∀ r : Option SubstPass, (∀ q, r = some q → TrackerStep p q) →
      r.map (fun q => { q with success := q.success + 1 }) = some p2 → TrackerStep p p2 := by
    intro r hr hmap
    cases r with
    | none => exact absurd hmap (by simp)
    | some q =>
      simp only [Option.map_some', Option.some.injEq] at hmap
      subst hmap
      exact (hr q rfl).of_success _
  cases s with
  | single i o =>
    unfold apply_substitution at h
    cases allow_single with
    | true => exact lift _ (fun q hq => apply_single_tracker i o p q hq) h
    | false =>
      obtain rfl := Option.some.inj h
      exact Or.inl ⟨rfl, rfl⟩
  | alternate i o =>
    unfold apply_substitution at h
    cases allow_single with
    | true => exact lift _ (fun q hq => apply_single_tracker i o p q hq) h
    | false =>
      obtain rfl := Option.some.inj h
      exact Or.inl ⟨rfl, rfl⟩
  | ligature ins o => exact lift _ (fun q hq => apply_ligature_tracker ins o p q hq) h
  | single_rcontext i r o =>
    exact lift _ (fun q hq => apply_context_tracker i r o true p q hq) h
  | single_lcontext l i o =>
    exact lift _ (fun q hq => apply_context_tracker l i o false p q hq) h
  | other =>
    obtain rfl := Option.some.inj h
    exact Or.inl ⟨rfl, rfl⟩

theorem length_bit_set (v : List Bool) (e : Int) : (bit_set v e).length = v.length := by
  simp [bit_set]

theorem vec_at_mem {α : Type} {v : List α} {i : Int} {x : α} (h : vec_at v i = some x) :
    x ∈ v := by
  unfold vec_at at h
  split at h
  · exact List.getElem?_mem h
  · exact absurd h (by simp)

theorem TrackerStep.sized {p p2 : SubstPass} (h : TrackerStep p p2) (hs : p.Sized) :
    p2.Sized := by
  obtain ⟨s1, s2⟩ := hs
  rcases h with ⟨a1, a2⟩ | ⟨e, _, a1, a2⟩ | ⟨e1, e2, v0, _, _, _, _, hv0, _, a1, a2⟩
  · exact ⟨by rw [a1]; exact s1, by rw [a2]; exact s2⟩
  · refine ⟨?_, by rw [a2]; exact s2⟩
    intro c hc
    rw [a1] at hc
    rcases List.mem_or_eq_of_mem_set hc with h | h
    · exact s1 c h
    · exact Or.inr (Or.inr h)
  · refine ⟨?_, ?_⟩
    · intro c hc
      rw [a1] at hc
      rcases List.mem_or_eq_of_mem_set hc with h | h
      · exact s1 c h
      · exact Or.inr (Or.inl h)
    · intro v hv
      rw [a2] at hv ⊢
      rw [List.length_set]
      rcases List.mem_or_eq_of_mem_set hv with h | h
      · exact s2 v h
      · obtain rfl := Option.some.inj h
        rw [length_bit_set]
        cases v0 with
        | none => simp [bitvec_new]
        | some w =>
          simp only [Option.getD_some]
          refine s2 w ?_
          exact vec_at_mem hv0

theorem CH_order : CH_NO ≤ CH_SOME ∧ CH_SOME ≤ CH_ALL ∧ CH_NO ≤ CH_ALL := by decide

theorem TrackerStep.mono_step {p p2 : SubstPass} (h : TrackerStep p p2) (hs : p.Sized) :
    TrackerMono p p2 := by
  obtain ⟨s1, _⟩ := hs
  have hle_all : ∀ c, c ∈ p.changed → c ≤ CH_ALL := by
    intro c hc
    rcases s1 c hc with rfl | rfl | rfl
    · exact CH_order.2.2
    · exact CH_order.2.1
    · exact le_refl _
  rcases h with ⟨a1, _⟩ | ⟨e, he, a1, _⟩ | ⟨e1, e2, v0, he1, _, _, _, _, ⟨c, hc, hne⟩, a1, _⟩
  · refine ⟨by rw [a1], fun e c1 c2 h1 h2 => ?_⟩
    rw [a1, h1] at h2
    rw [Option.some.inj h2]
  · refine ⟨by rw [a1, List.length_set], fun j c1 c2 h1 h2 => ?_⟩
    rw [a1] at h2
    by_cases hj : j = e
    · subst hj
      rw [vec_at_set_eq p.changed j CH_ALL he (vec_at_bounds h1).2] at h2
      rw [← Option.some.inj h2]
      exact hle_all c1 (vec_at_mem h1)
    · rw [vec_at_set_ne p.changed e j CH_ALL he (fun h => hj h.symm), h1] at h2
      rw [Option.some.inj h2]
  · refine ⟨by rw [a1, List.length_set], fun j c1 c2 h1 h2 => ?_⟩
    rw [a1] at h2
    by_cases hj : j = e1
    · subst hj
      rw [vec_at_set_eq p.changed j CH_SOME he1 (vec_at_bounds h1).2] at h2
      rw [← Option.some.inj h2]
      rw [hc] at h1
      obtain rfl := Option.some.inj h1
      rcases s1 c (vec_at_mem hc) with rfl | rfl | rfl
      · exact CH_order.1
      · exact le_refl _
      · exact absurd rfl hne
    · rw [vec_at_set_ne p.changed e1 j CH_SOME he1 (fun h => hj h.symm), h1] at h2
      rw [Option.some.inj h2]

theorem TrackerMono.refl_mono (p : SubstPass) : TrackerMono p p :=
  ⟨rfl, fun _ c1 c2 h1 h2 => by rw [h1] at h2; rw [Option.some.inj h2]⟩

theorem TrackerMono.trans_mono {p p2 p3 : SubstPass} (h1 : TrackerMono p p2)
    (h2 : TrackerMono p2 p3) : TrackerMono p p3 := by
  refine ⟨by rw [h2.1, h1.1], fun e c1 c3 a1 a3 => ?_⟩
  obtain ⟨b0, b1⟩ := vec_at_bounds a1
  obtain ⟨c2, a2⟩ := vec_at_eq_some_of_lt p2.changed e b0 (by rw [h1.1]; exact b1)
  exact le_trans (h1.2 e c1 c2 a1 a2) (h2.2 e c2 c3 a2 a3)

/-- Over any run of rules of a pass the tracker stays sized and never
decreases. -/
theorem apply_loop_tracker (allow_single : Bool) :
    ∀ (sv : List Substitution) (p p2 : SubstPass), apply_loop allow_single sv p = some p2 →
      p.Sized → p2.Sized ∧ TrackerMono p p2 := by
  intro sv
  induction sv with
  | nil =>
    intro p p2 h hs
    obtain rfl := Option.some.inj h
    exact ⟨hs, TrackerMono.refl_mono p⟩
  | cons s sv ih =>
    intro p p2 h hs
    unfold apply_loop at h
    split at h
    · exact absurd h (by simp)
    · rename_i p1 h1
      have hstep := apply_substitution_tracker allow_single s p p1 h1
      obtain ⟨i1, i2⟩ := ih p1 p2 h (hstep.sized hs)
      exact ⟨i1, (hstep.mono_step hs).trans_mono i2⟩

theorem SubstPass.start_sized (st : GsubEncoding) : (SubstPass.start st).Sized := by
  refine ⟨fun c hc => ?_, fun v hv => ?_⟩
  · exact Or.inl (List.eq_of_mem_replicate hc)
  · exact absurd (List.eq_of_mem_replicate hv) (Option.some_ne_none v)

/-- C25. Tracker safety in `apply` for substitutions, for every state and every
rule list whose output glyphs are glyph ids, split at any point into the rules
applied so far (`sv1`) and the later rules (`sv2`): the pass completes, so
neither the assertion `changed[e1] != CH_ALL` of `assign_changed_context` fails
nor is a null bit-set dereferenced (both are aborted runs of the model); no
tracker entry decreases from the state after `sv1` to the state after `sv2`
(`CH_NO < CH_SOME < CH_ALL`); the tracker and the vector of bit-sets keep the
length of the table at the start of the pass; every entry is one of the three
states; an entry is `CH_SOME` only if its bit-set has been allocated; every
allocated bit-set has one bit per tracker entry; and a further rule changes the
tracker by one `TrackerStep`, whose bit index is inside the tracker. -/
theorem apply_tracker_safe (allow_single : Bool) (sv1 sv2 : List Substitution)
    (st : GsubEncoding) (hsv : ∀ s ∈ sv1 ++ sv2, s.out_nonneg) :
    ∃ p1 p2, apply_loop allow_single sv1 (SubstPass.start st) = some p1 ∧
      apply_loop allow_single sv2 p1 = some p2 ∧
      apply (sv1 ++ sv2) allow_single st = some (p2.success, p2.st) ∧
      (∀ e c1 c2, vec_at p1.changed e = some c1 → vec_at p2.changed e = some c2 → c1 ≤ c2) ∧
      (p2.changed.length = st._encoding.length ∧
        p2.changed_context.length = st._encoding.length) ∧
      (∀ c ∈ p2.changed, c = CH_NO ∨ c = CH_SOME ∨ c = CH_ALL) ∧
      (∀ e, vec_at p2.changed e = some CH_SOME →
        ∃ v, vec_at p2.changed_context e = some (some v)) ∧
      (∀ v, some v ∈ p2.changed_context → v.length = p2.changed.length) ∧
      (∀ s : Substitution, s.out_nonneg →
        ∃ p3, apply_substitution allow_single s p2 = some p3 ∧ TrackerStep p2 p3) := by
  obtain ⟨p1, e1, w1, _⟩ := apply_loop_spec allow_single sv1 _ (SubstPass.start_wf_subst st)
    (fun s hs => hsv s (List.mem_append_left _ hs))
  obtain ⟨p2, e2, w2, _⟩ := apply_loop_spec allow_single sv2 p1 w1
    (fun s hs => hsv s (List.mem_append_right _ hs))
  obtain ⟨z1, m1⟩ := apply_loop_tracker allow_single sv1 _ p1 e1 (SubstPass.start_sized st)
  obtain ⟨z2, m2⟩ := apply_loop_tracker allow_single sv2 p1 p2 e2 z1
  have hlen : p2.changed.length = st._encoding.length := by
    rw [m2.1, m1.1]
    simp [SubstPass.start]
  refine ⟨p1, p2, e1, e2, ?_, m2.2, ⟨hlen, by rw [← w2.1]; exact hlen⟩, z2.1, w2.2.2, ?_, ?_⟩
  · unfold apply
    rw [apply_loop_append, e1]
    show (apply_loop allow_single sv2 p1).map _ = _
    rw [e2]
    rfl
  · intro v hv
    rw [z2.2 v hv, w2.1]
  · intro s hs
    obtain ⟨p3, f1, _⟩ := apply_substitution_spec allow_single s p2 w2 hs
    exact ⟨p3, f1, apply_substitution_tracker allow_single s p2 p3 f1⟩

set_option maxRecDepth 100000 in
theorem apply_tracker_safe_witness :
    (∀ s ∈ [Substitution.single_rcontext 71 74 99] ++ [Substitution.single 71 75],
      s.out_nonneg) ∧
    (apply_loop true [Substitution.single_rcontext 71 74 99]
        (SubstPass.start state_f_i_l)).map (fun p => p.changed) = some [0, 1, 0, 0, 0] ∧
    (apply_loop true ([Substitution.single_rcontext 71 74 99] ++ [Substitution.single 71 75])
        (SubstPass.start state_f_i_l)).map (fun p => p.changed) = some [0, 2, 0, 0, 0] ∧
    ∃ p1 p2, apply_loop true [Substitution.single_rcontext 71 74 99]
        (SubstPass.start state_f_i_l) = some p1 ∧
      apply_loop true [Substitution.single 71 75] p1 = some p2 ∧
      apply ([Substitution.single_rcontext 71 74 99] ++ [Substitution.single 71 75]) true
        state_f_i_l = some (p2.success, p2.st) ∧
      (∀ e c1 c2, vec_at p1.changed e = some c1 → vec_at p2.changed e = some c2 → c1 ≤ c2) ∧
      (p2.changed.length = state_f_i_l._encoding.length ∧
        p2.changed_context.length = state_f_i_l._encoding.length) ∧
      (∀ c ∈ p2.changed, c = CH_NO ∨ c = CH_SOME ∨ c = CH_ALL) ∧
      (∀ e, vec_at p2.changed e = some CH_SOME →
        ∃ v, vec_at p2.changed_context e = some (some v)) ∧
      (∀ v, some v ∈ p2.changed_context → v.length = p2.changed.length) ∧
      (∀ s : Substitution, s.out_nonneg →
        ∃ p3, apply_substitution true s p2 = some p3 ∧ TrackerStep p2 p3) :=
  ⟨by decide, by decide, by decide,
    apply_tracker_safe true [Substitution.single_rcontext 71 74 99]
      [Substitution.single 71 75] state_f_i_l (by decide)⟩

/-- A context rule whose pair of codes is inside the tracker and not yet
recorded, spelled out: the body force-encodes the output glyph, appends the
context entry unless the output code is the context code, marks the first code
of the pair `CH_SOME` and sets the bit of the second code in the bit-set of the
first. -/
theorem apply_context_unrecorded (g1 g2 o : Int) (is_right : Bool) (p : SubstPass)
    (hwf : p.WF) (ho : 0 ≤ o)
    (h1 : 0 ≤ code_of p.st g1 ∧ code_of p.st g1 < p.changed.length)
    (h2 : 0 ≤ code_of p.st g2 ∧ code_of p.st g2 < p.changed.length)
    (hnot : in_changed_context p.changed p.changed_context (code_of p.st g1)
      (code_of p.st g2) = some false) :
    ∃ st3 v0, vec_at p.changed_context (code_of p.st g1) = some v0 ∧
      SameTables p.st st3 ∧
      st3._encoding = (if 0 ≤ code_of p.st o then p.st._encoding else p.st._encoding ++ [o]) ∧
      apply_context g1 g2 o is_right p = some { p with
        st := add_single_context_substitution (code_of p.st g1) (code_of p.st g2)
          (if 0 ≤ code_of p.st o then code_of p.st o else p.st._encoding.length) is_right st3,
        changed := p.changed.set (code_of p.st g1).toNat CH_SOME,
        changed_context := p.changed_context.set (code_of p.st g1).toNat
          (some (bit_set (v0.getD (bitvec_new p.changed_context.length))
            (code_of p.st g2))) } := by
  have E1 := encoding_ext g1 p.st
  have E2 := encoding_ext g2 (encoding g1 p.st).2
  have E := E1.trans_emap E2
  have henc : (encoding g2 (encoding g1 p.st).2).2._encoding = p.st._encoding := E.encoding_eq
  have hc2 : (encoding g2 (encoding g1 p.st).2).1 = code_of p.st g2 := by
    rw [encoding_fst]
    exact E1.code_of g2
  have hco : code_of (encoding g2 (encoding g1 p.st).2).2 o = code_of p.st o := E.code_of o
  obtain ⟨w1, w2, w3⟩ := hwf
  obtain ⟨b, hb, hb2⟩ := in_changed_context_spec p ⟨w1, w2, w3⟩ _ _ h1 h2
  rw [hnot] at hb
  obtain rfl := Option.some.inj hb
  obtain ⟨c, hc, hcall⟩ := hb2 rfl
  obtain ⟨out, st3, f1, f2, f3⟩ := force_encoding_spec o (encoding g2 (encoding g1 p.st).2).2 ho
  rw [hco, henc] at f3
  have hout : out = (if 0 ≤ code_of p.st o then code_of p.st o else p.st._encoding.length) ∧
      st3._encoding = (if 0 ≤ code_of p.st o then p.st._encoding else p.st._encoding ++ [o]) := by
    rcases f3 with ⟨a1, a2, a3⟩ | ⟨a1, a2, a3⟩
    · rw [if_pos a1, if_pos a1]; exact ⟨a2, a3⟩
    · rw [if_neg (by omega), if_neg (by omega)]; exact ⟨a2, a3⟩
  obtain ⟨v0, hv0⟩ := vec_at_eq_some_of_lt p.changed_context (code_of p.st g1) h1.1
    (by rw [← w1]; exact h1.2)
  refine ⟨st3, v0, hv0, E.sameTables.trans_tables f2, hout.2, ?_⟩
  unfold apply_context
  simp only [encoding_fst]
  rw [← encoding_fst g2 (encoding g1 p.st).2, hc2]
  rw [if_pos ⟨h1.1, h1.2, h2.1, h2.2⟩, hnot]
  simp only
  rw [f1]
  simp only
  have hassign : assign_changed_context p.changed p.changed_context (code_of p.st g1)
      (code_of p.st g2) =
      some (p.changed.set (code_of p.st g1).toNat CH_SOME,
        p.changed_context.set (code_of p.st g1).toNat
          (some (bit_set (v0.getD (bitvec_new p.changed_context.length))
            (code_of p.st g2)))) := by
    unfold assign_changed_context
    simp only
    rw [if_pos ⟨h1.1, h2.1, by rw [← w1]; exact h1.2, by rw [← w1]; exact h2.2⟩, hv0]
    simp only
    rw [hc]
    simp only
    rw [if_neg hcall]
  rw [hassign]
  simp only
  rw [hout.1]

set_option maxRecDepth 100000 in
/-- C22, as stated, fails for a left-context rule: "`i` after `f` becomes `l`"
has the trigger `i` at code 2 and the context `f` at code 1; the pair is
recorded in the tracker entry of code 1, the tracker entry of the trigger stays
`CH_NO`, and a later single rule `i -> 99` of the same pass rewrites slot 2. -/
theorem apply_context_trigger_counterexample :
    (apply_loop true [Substitution.single_lcontext 71 74 75]
        (SubstPass.start state_f_i_l)).map (fun p => (p.st._ligatures, p.changed)) =
      some ([{ in_ := [1, 2], out := 3, skip := 1, context := -1 }], [0, 1, 0, 0, 0]) ∧
    vec_at state_f_i_l._encoding 2 = some 74 ∧
    (apply [Substitution.single_lcontext 71 74 75, Substitution.single 74 99] true
        state_f_i_l).map (fun r => vec_at r.2._encoding 2) = some (some 99) := by
  decide

/-- C22 (amended). Contextual rules record the pair on its first code: for a
right-context rule (`is_right`, `g1` the trigger glyph and `g2` the context
glyph) or a left-context rule (`g1` the context glyph and `g2` the trigger
glyph) with output glyph id `o`, in a pass state with a well-formed, sized
tracker, where `g1` and `g2` are encoded at codes `e1` and `e2` inside the
tracker and the pair is not yet recorded: the rule completes; it appends the
context entry `in = [e1, e2]`, `out` the code of `o`, `context = +1` or `-1`,
unless `out` is the context code, in which case nothing is appended; the
tracker entry of `e1` becomes `CH_SOME` with the bit of `e2` set in its
bit-set, and no other tracker entry or bit-set changes; no existing slot
changes; and no later rules of the pass rewrite slot `e1`.  For a right-context
rule `e1` is the trigger; for a left-context rule it is the context code, and
the tracker entry of the trigger `e2` is left as it was. -/
theorem apply_context_records (allow_single is_right : Bool) (s : Substitution)
    (g1 g2 o : Int) (p : SubstPass)
    (hs : s = if is_right = true then .single_rcontext g1 g2 o else .single_lcontext g1 g2 o)
    (hwf : p.WF) (hsz : p.Sized) (ho : 0 ≤ o)
    (h1 : 0 ≤ code_of p.st g1 ∧ code_of p.st g1 < p.changed.length)
    (h2 : 0 ≤ code_of p.st g2 ∧ code_of p.st g2 < p.changed.length)
    (hnot : in_changed_context p.changed p.changed_context (code_of p.st g1)
      (code_of p.st g2) = some false) :
    ∃ p2 v, apply_substitution allow_single s p = some p2 ∧
      p2.st._ligatures = p.st._ligatures ++
        (if (if 0 ≤ code_of p.st o then code_of p.st o else (p.st._encoding.length : Int)) =
            (if is_right = true then code_of p.st g2 else code_of p.st g1) then []
         else [{ in_ := [code_of p.st g1, code_of p.st g2],
                 out := if 0 ≤ code_of p.st o then code_of p.st o else p.st._encoding.length,
                 skip := 1, context := if is_right = true then 1 else -1 }]) ∧
      vec_at p2.changed (code_of p.st g1) = some CH_SOME ∧
      vec_at p2.changed_context (code_of p.st g1) = some (some v) ∧
      bit_test v (code_of p.st g2) = true ∧
      (∀ j, j ≠ code_of p.st g1 → vec_at p2.changed j = vec_at p.changed j ∧
        vec_at p2.changed_context j = vec_at p.changed_context j) ∧
      (∀ j x, vec_at p.st._encoding j = some x → vec_at p2.st._encoding j = some x) ∧
      (∀ sv : List Substitution, (∀ t ∈ sv, t.out_nonneg) →
        ∃ p3, apply_loop allow_single sv p2 = some p3 ∧
          vec_at p3.st._encoding (code_of p.st g1) =
            vec_at p2.st._encoding (code_of p.st g1)) := by
  obtain ⟨st3, v0, hv0, hsame, henc3, hrun⟩ :=
    apply_context_unrecorded g1 g2 o is_right p hwf ho h1 h2 hnot
  have hstep : apply_substitution allow_single s p = (apply_context g1 g2 o is_right p).map
      (fun q => { q with success := q.success + 1 }) := by
    cases is_right <;> simp [hs, apply_substitution]
  have hsout : s.out_nonneg := by
    cases is_right <;> simp [hs, Substitution.out_nonneg, ho]
  obtain ⟨p2, hp2, wf2, _⟩ := apply_substitution_spec allow_single s p hwf hsout
  have hp2eq := hp2
  rw [hstep, hrun] at hp2eq
  simp only [Option.map_some', Option.some.injEq] at hp2eq
  obtain ⟨w1, w2, _⟩ := hwf
  have hlenv : (code_of p.st g2) <
      ((v0.getD (bitvec_new p.changed_context.length)).length : Int) := by
    have hn : (v0.getD (bitvec_new p.changed_context.length)).length =
        p.changed_context.length := by
      cases v0 with
      | none => simp [bitvec_new]
      | some w => exact hsz.2 w (vec_at_mem hv0)
    rw [hn, ← w1]
    exact h2.2
  have hkeep : ∀ j x, vec_at p.st._encoding j = some x → vec_at st3._encoding j = some x := by
    intro j x hx
    rw [henc3]
    split
    · exact hx
    · exact vec_at_append_of_some _ hx
  have hch1 : vec_at p2.changed (code_of p.st g1) = some CH_SOME := by
    rw [← hp2eq]
    exact vec_at_set_eq p.changed _ CH_SOME h1.1 h1.2
  refine ⟨p2, bit_set (v0.getD (bitvec_new p.changed_context.length)) (code_of p.st g2),
    hp2, ?_, hch1, ?_, ?_, ?_, ?_, ?_⟩
  · rw [← hp2eq]
    simp only
    generalize (if 0 ≤ code_of p.st o then code_of p.st o
      else (p.st._encoding.length : Int)) = out
    unfold add_single_context_substitution
    cases is_right with
    | true =>
      simp only [if_true]
      by_cases heq : out = code_of p.st g2
      · rw [if_neg (fun h => h heq), if_pos heq, hsame.ligatures]
        simp
      · rw [if_pos heq, if_neg heq, hsame.ligatures]
    | false =>
      simp only [Bool.false_eq_true, if_false]
      by_cases heq : out = code_of p.st g1
      · rw [if_neg (fun h => h heq), if_pos heq, hsame.ligatures]
        simp
      · rw [if_pos heq, if_neg heq, hsame.ligatures]
  · rw [← hp2eq]
    exact vec_at_set_eq p.changed_context _ _ h1.1 (by rw [← w1]; exact h1.2)
  · rw [bit_test_set _ _ _ h2.1 hlenv]
    simp
  · intro j hj
    rw [← hp2eq]
    exact ⟨vec_at_set_ne p.changed _ j _ h1.1 (fun h => hj h.symm),
      vec_at_set_ne p.changed_context _ j _ h1.1 (fun h => hj h.symm)⟩
  · intro j x hx
    rw [← hp2eq]
    simp only
    obtain ⟨new, hnew⟩ := add_single_context_substitution_spec (code_of p.st g1)
      (code_of p.st g2)
      (if 0 ≤ code_of p.st o then code_of p.st o else (p.st._encoding.length : Int))
      is_right st3
    rw [hnew]
    exact hkeep j x hx
  · intro sv hsv
    obtain ⟨p3, e3, _, step⟩ := apply_loop_spec allow_single sv p2 wf2 hsv
    refine ⟨p3, e3, ?_⟩
    obtain ⟨x, hx⟩ := vec_at_eq_some_of_lt p2.st._encoding (code_of p.st g1) h1.1 (by
      have := wf2.2.1
      have hl : p2.changed.length = p.changed.length := by
        rw [← hp2eq]
        simp
      omega)
    rcases step.2.2.2.2.2 _ x hx with h | ⟨h, _⟩
    · rw [h, hx]
    · rw [hch1] at h
      exact absurd (Option.some.inj h) (fun h2 => CH_distinct.1 h2.symm)

set_option maxRecDepth 100000 in
theorem apply_context_records_witness :
    (code_of state_f_i_l 71 = 1 ∧ code_of state_f_i_l 74 = 2 ∧
      in_changed_context (SubstPass.start state_f_i_l).changed
        (SubstPass.start state_f_i_l).changed_context 1 2 = some false) ∧
    (apply_loop true [Substitution.single_rcontext 71 74 99, Substitution.single 71 85]
        (SubstPass.start state_f_i_l)).map
        (fun q => (q.st._ligatures, vec_at q.st._encoding 1, q.changed)) =
      some ([{ in_ := [1, 2], out := 5, skip := 1, context := 1 },
             { in_ := [1, 1], out := 6, skip := 1, context := 1 },
             { in_ := [1, 3], out := 6, skip := 1, context := 1 }],
            some 71, [0, 2, 0, 0, 0]) ∧
    (∃ p2 v, apply_substitution true (.single_rcontext 71 74 99) start_f_i_l = some p2 ∧
      p2.st._ligatures = start_f_i_l.st._ligatures ++
        (if (if 0 ≤ code_of start_f_i_l.st 99 then code_of start_f_i_l.st 99
              else (start_f_i_l.st._encoding.length : Int)) =
            (if true = true then code_of start_f_i_l.st 74 else code_of start_f_i_l.st 71) then []
         else [{ in_ := [code_of start_f_i_l.st 71, code_of start_f_i_l.st 74],
                 out := if 0 ≤ code_of start_f_i_l.st 99 then code_of start_f_i_l.st 99
                   else start_f_i_l.st._encoding.length,
                 skip := 1, context := if true = true then 1 else -1 }]) ∧
      vec_at p2.changed (code_of start_f_i_l.st 71) = some CH_SOME ∧
      vec_at p2.changed_context (code_of start_f_i_l.st 71) = some (some v) ∧
      bit_test v (code_of start_f_i_l.st 74) = true ∧
      (∀ j, j ≠ code_of start_f_i_l.st 71 →
        vec_at p2.changed j = vec_at start_f_i_l.changed j ∧
        vec_at p2.changed_context j = vec_at start_f_i_l.changed_context j) ∧
      (∀ j x, vec_at start_f_i_l.st._encoding j = some x →
        vec_at p2.st._encoding j = some x) ∧
      (∀ sv : List Substitution, (∀ t ∈ sv, t.out_nonneg) →
        ∃ p3, apply_loop true sv p2 = some p3 ∧
          vec_at p3.st._encoding (code_of start_f_i_l.st 71) =
            vec_at p2.st._encoding (code_of start_f_i_l.st 71))) :=
  ⟨by decide, by decide,
    apply_context_records true true (.single_rcontext 71 74 99) 71 74 99
      start_f_i_l rfl (SubstPass.start_wf_subst state_f_i_l)
      (SubstPass.start_sized state_f_i_l) (by decide) (by decide) (by decide) (by decide)⟩

theorem FakesAdded.refl_fakes (fake : Int) (st : GsubEncoding) : FakesAdded fake st st :=
  ⟨[], by simp, by simp, fun k l h => by simp at h⟩

theorem FakesAdded.trans_fakes {fake : Int} {st st2 st3 : GsubEncoding}
    (h1 : FakesAdded fake st st2) (h2 : FakesAdded fake st2 st3) : FakesAdded fake st st3 := by
  obtain ⟨new1, a1, a2, a3⟩ := h1
  obtain ⟨new2, b1, b2, b3⟩ := h2
  refine ⟨new1 ++ new2, by rw [b1, a1, List.append_assoc], ?_, ?_⟩
  · rw [b2, a2, List.append_assoc, List.length_append, List.replicate_add]
  · intro k l hk
    by_cases hlt : k < new1.length
    · rw [List.getElem?_append_left hlt] at hk
      exact a3 k l hk
    · rw [List.getElem?_append_right (by omega)] at hk
      obtain ⟨c1, c2, c3, c4⟩ := b3 _ l hk
      refine ⟨c1, ?_, c3, c4⟩
      rw [c2, a2]
      simp only [List.length_append, List.length_replicate]
      push_cast
      omega

theorem find_skippable_twoligature_fakes (a b fake : Int) (st : GsubEncoding) :
    FakesAdded fake st (find_skippable_twoligature a b true fake st).2 := by
  unfold find_skippable_twoligature
  split
  · exact FakesAdded.refl_fakes fake st
  · simp only [if_true]
    refine ⟨[{ in_ := [a, b], out := ((st._encoding ++ [fake]).length : Int) - 1,
               skip := 0, context := 0 }], rfl, by simp, ?_⟩
    intro k l hk
    cases k with
    | zero =>
      simp only [List.getElem?_cons_zero, Option.some.injEq] at hk
      subst hk
      refine ⟨rfl, ?_, rfl, rfl⟩
      simp only [List.length_append, List.length_singleton]
      push_cast
      omega
    | succ k => simp at hk

theorem reduce_steps_fakes (fake : Int) (i : Nat) :
    ∀ (n : Nat) (st st2 : GsubEncoding), reduce_steps true fake i n st = some st2 →
      FakesAdded fake st st2 := by
  intro n
  induction n with
  | zero =>
    intro st st2 h
    obtain rfl := Option.some.inj h
    exact FakesAdded.refl_fakes fake st
  | succ n ih =>
    intro st st2 h
    unfold reduce_steps at h
    split at h
    · exact absurd h (by simp)
    · split at h
      · rename_i a b rest _
        have hstep := find_skippable_twoligature_fakes a b fake st
        have hnext := ih _ st2 h
        refine FakesAdded.trans_fakes ?_ hnext
        obtain ⟨new, c1, c2, c3⟩ := hstep
        exact ⟨new, c1, c2, c3⟩
      · exact absurd h (by simp)

theorem reduce_all_fakes (fake : Int) :
    ∀ (n i : Nat) (st st2 : GsubEncoding), reduce_all true fake n i st = some st2 →
      FakesAdded fake st st2 := by
  intro n
  induction n with
  | zero =>
    intro i st st2 h
    obtain rfl := Option.some.inj h
    exact FakesAdded.refl_fakes fake st
  | succ n ih =>
    intro i st st2 h
    unfold reduce_all at h
    split at h
    · exact absurd h (by simp)
    · rename_i st1 h1
      unfold reduce_ligature at h1
      split at h1
      · exact absurd h1 (by simp)
      · exact (reduce_steps_fakes fake i _ st st1 h1).trans_fakes (ih _ st1 st2 h)

theorem fakes_added_of_simplify (fake : Int) (st st2 : GsubEncoding)
    (h : simplify_ligatures true fake st = some st2) : FakesAdded fake st st2 := by
  unfold simplify_ligatures at h
  split at h
  · exact absurd h (by simp)
  · rename_i ls1 _
    split at h
    · exact absurd h (by simp)
    · rename_i st1 h1
      split at h
      · exact absurd h (by simp)
      · split at h
        · exact absurd h (by simp)
        · obtain rfl := Option.some.inj h
          obtain ⟨new, c1, c2, c3⟩ := reduce_all_fakes fake _ _ _ st1 h1
          exact ⟨new, c1, c2, c3⟩

set_option maxRecDepth 100000 in
/-- C23, as stated, fails: from the rules `f f i -> 112` and `f f l -> 113`,
whose entries `[1, 1, 2] -> 5` and `[1, 1, 3] -> 6` share their first two
inputs, `simplify_ligatures` with synthesis makes two fake ligatures with the
same input pair `[1, 1]` and the outputs 7 and 8, and reduces the entries to
`[7, 2] -> 5` and `[8, 3] -> 6`, with different first inputs. -/
theorem simplify_ligatures_fakes_counterexample :
    state_ffi_ffl._ligatures =
      [{ in_ := [1, 1, 2], out := 5, skip := 1, context := 0 },
       { in_ := [1, 1, 3], out := 6, skip := 1, context := 0 }] ∧
    (simplify_ligatures true 0xFFFF state_ffi_ffl).map
        (fun st => (st._ligatures, st._fake_ligatures)) =
      some ([{ in_ := [7, 2], out := 5, skip := 0, context := 0 },
             { in_ := [8, 3], out := 6, skip := 0, context := 0 }],
            [{ in_ := [1, 1], out := 7, skip := 0, context := 0 },
             { in_ := [1, 1], out := 8, skip := 0, context := 0 }]) := by
  decide

/-- C23 (amended). One placeholder per synthesized entry: for every table whose
entries all have an input, `simplify_ligatures` with synthesis completes; the
fake-ligature table afterwards is the old one followed by the synthesized
entries `new`, the table is the old one followed by one slot holding
`FAKE_LIGATURE` per synthesized entry, the `k`-th synthesized entry has two
inputs, `skip = 0`, `context = 0` and the `k`-th appended slot as output, and
so no two synthesized entries have the same output.  (Entries for the same
input pair are not shared: the lookup searches the ligature table only.) -/
theorem simplify_ligatures_fakes (fake : Int) (st : GsubEncoding)
    (hne : ∀ l ∈ st._ligatures, 1 ≤ l.in_.length) :
    ∃ st2 new, simplify_ligatures true fake st = some st2 ∧
      st2._fake_ligatures = st._fake_ligatures ++ new ∧
      st2._encoding = st._encoding ++ List.replicate new.length fake ∧
      (∀ (k : Nat) (l : Ligature), new[k]? = some l →
        l.in_.length = 2 ∧ l.out = (st._encoding.length : Int) + k ∧ l.skip = 0 ∧
          l.context = 0) ∧
      (∀ (j k : Nat) (l1 l2 : Ligature), new[j]? = some l1 → new[k]? = some l2 → j ≠ k →
        l1.out ≠ l2.out) := by
  obtain ⟨_, st2, _, ls4, _, _, _, _, _, _, _, hrun, _⟩ :=
    simplify_ligatures_stages true fake st hne
  obtain ⟨new, c1, c2, c3⟩ := fakes_added_of_simplify fake st _ hrun
  refine ⟨_, new, hrun, c1, c2, c3, ?_⟩
  intro j k l1 l2 h1 h2 hjk
  rw [(c3 j l1 h1).2.1, (c3 k l2 h2).2.1]
  omega

set_option maxRecDepth 100000 in
theorem simplify_ligatures_fakes_witness :
    (∀ l ∈ state_ffi_ffl._ligatures, 1 ≤ l.in_.length) ∧
    (simplify_ligatures true 0xFFFF state_ffi_ffl).map
        (fun st => (st._fake_ligatures, st._encoding)) =
      some ([{ in_ := [1, 1], out := 7, skip := 0, context := 0 },
             { in_ := [1, 1], out := 8, skip := 0, context := 0 }],
            [0, 71, 74, 75, 0, 112, 113, 0xFFFF, 0xFFFF]) ∧
    ∃ st2 new, simplify_ligatures true 0xFFFF state_ffi_ffl = some st2 ∧
      st2._fake_ligatures = state_ffi_ffl._fake_ligatures ++ new ∧
      st2._encoding = state_ffi_ffl._encoding ++ List.replicate new.length 0xFFFF ∧
      (∀ (k : Nat) (l : Ligature), new[k]? = some l →
        l.in_.length = 2 ∧ l.out = (state_ffi_ffl._encoding.length : Int) + k ∧ l.skip = 0 ∧
          l.context = 0) ∧
      (∀ (j k : Nat) (l1 l2 : Ligature), new[j]? = some l1 → new[k]? = some l2 → j ≠ k →
        l1.out ≠ l2.out) :=
  ⟨by decide, by decide, simplify_ligatures_fakes 0xFFFF state_ffi_ffl (by decide)⟩

set_option maxRecDepth 100000 in
/-- C24 at the failing input: in `state_A_f_i` every memoized entry of the
reverse map points at a slot holding its glyph, and glyph `A` (id 34) is
memoized at code 0x41.  `encode(0x41, 35)` stores glyph 35 in slot 0x41 and
memoizes it there, keeps the table length and every other slot, but leaves the
entry of glyph 34 at 0x41: the reverse lookup of glyph 34 still yields 0x41,
whose slot now holds glyph 35. -/
theorem encode_leaves_stale_entry :
    (∀ h ∈ List.range state_A_f_i._emap.length, ∀ c, emap_answer state_A_f_i._emap h = some c →
      0 ≤ c → vec_at state_A_f_i._encoding c = some (h : Int)) ∧
    vec_at state_A_f_i._encoding 0x41 = some 34 ∧
    emap_answer state_A_f_i._emap 34 = some 0x41 ∧
    (encode 0x41 35 state_A_f_i).map
        (fun st => (vec_at st._encoding 0x41, emap_answer st._emap 35, st._encoding.length,
          emap_answer st._emap 34, code_of st 34)) =
      some (some 35, some 0x41, 256, some 0x41, 0x41) := by
  refine ⟨?_, by decide, by decide, by decide⟩
  intro h hh c hc h0
  have hdec : (List.range state_A_f_i._emap.length).all (fun h =>
      match emap_answer state_A_f_i._emap h with
      | some c => decide (c < 0) || decide (vec_at state_A_f_i._encoding c = some (h : Int))
      | none => true) = true := by
    decide
  have h1 := List.all_eq_true.mp hdec h hh
  rw [hc] at h1
  simp only [Bool.or_eq_true, decide_eq_true_eq] at h1
  rcases h1 with h1 | h1
  · omega
  · exact h1

end Otftotfm
